import Mathlib

/-!
# ZERO (EPEC solver core): numeric primitives, MP_Param, the convex-hull builder, the game

A shallow embedding of

* `src/src/support/utils.cpp`   (`Utils::resizePatch`, `Utils::vecToNum`, `Utils::numToVec`,
  `Utils::containsConstraint`, `Utils::containsRow`),
* `src/src/paramopt/mp_param.cpp` (`Game::MP_Param::addDummy`, `size`, `dataCheck`),
* `src/src/mathopt/mathopt.cpp`  (`MathOpt::convexHull`, `MathOpt::compConvSize`),
* `src/include/support/codes.h`  (`ZEROErrorCode`, `ZEROStatus`, `ZEROAlgorithmData`),
* `src/src/games/epec.cpp`       (`Game::EPEC::finalize`, `computeLeaderLocations`,
  `addDummyLead`, `computeNashEq`),
* `src/src/games/algorithms/EPEC/epec_outerapproximation.cpp`
  (`OuterApproximation::isFeasible`, `addValueCut`, `separationOracle`, `hybridBranching`,
  `getFirstBranchLocation`, the loop of `solve`, `OuterTree::Node`, `OuterTree::singleBranch`,
  `OuterTree::denyBranchingLocation`, `OuterTree::addVertex`).

Conventions of the embedding.

* An Armadillo matrix (`arma::sp_mat` or `arma::mat`) is a record of its two dimensions and of
  its entries; a vector (`arma::vec`) a record of its length and entries.  Scalars are the
  elements of an arbitrary (ordered) field `α`; at `α := ℚ` every definition evaluates.
* Where the code decides a comparison on a computed double (`std::abs(a - b) > tol`,
  `payoff - val > tol`, `cutV - val < -tol`), the double operation is a parameter of the model
  (`DoubleOps`): the theorems hold for every rounding, and the examples are evaluated on small
  integers and halves, where the operations do not round.  Where a double is only stored or
  returned (the rows of a cut, a time budget), the value is the exact one.
* Armadillo's bounds and size checks raise; so does `ZEROException`.  Fallible code returns
  `Except Exn _`.
* Calls into the solver and into classes whose code is not at hand (`respondSol`,
  `extractSols`, `makeObjectivePlayer`, `outerApproximate`, `LCPasMIP`) are inputs of the
  models: their results, or what they raise.  In the model of a caller (`isFeasible`, the
  loop of `solve`) the outcomes of the callees that are modelled on their own are inputs too.
* C++ unsigned arithmetic is done on `Nat`, with an explicit `% 2 ^ w` or wrap-around where a
  value can leave its type (`vecToNum`, `n_rows - 1`, the casts of `position`).  Sizes and
  dimensions themselves are taken below `2 ^ 32`, so that counting them does not wrap.
-/

namespace ZERO

/-! ## Error codes and status (`src/include/support/codes.h`) -/

/-- The values of `enum class ZEROStatus`. -/
inductive ZEROStatus where
  | NashEqNotFound
  | NashEqFound
  | Solved
  | NotSolved
  | TimeLimit
  | Numerical
  | Uninitialized
  deriving DecidableEq, Repr

/-- The error codes of `enum class ZEROErrorCode`. -/
inductive ZEROErrorCode where
  | MemoryError
  | InvalidQuery
  | InvalidData
  | SolverError
  | OutOfRange
  | Numeric
  | IOError
  | Assertion
  | Unknown
  deriving DecidableEq, Repr

/-- What a call can raise: a `ZEROException` with its code, the exception Armadillo raises
when a bounds check or a size check fails (`submat`, `subvec`, `cols`, `join_rows`), the
`std::out_of_range` of `std::vector::at`, a `GRBException` of the solver, or a thrown string
(`throw std::string`, `throw const char *`). -/
inductive Exn where
  | zero (code : ZEROErrorCode)
  | arma
  | outOfRange
  | grb
  | str
  deriving DecidableEq, Repr

/-! ## The encoding codec (`Utils::vecToNum`, `Utils::numToVec`) -/

namespace Utils

/-- One pass of the `while (!binary.empty())` loop of `vecToNum` on the entry `x = binary.back()`;
the state is `(number, posn)`.  `bit` is `(x + 1) / 2` in C++ `int` arithmetic (truncating
division); `bit * posn` is computed in `unsigned int` (32 bits), `number` is an
`unsigned long` (64 bits). -/
def vecToNumStep (st : Nat × Nat) (x : Int) : Nat × Nat :=
  let bit : Int := Int.tdiv (x + 1) 2
  let prod : Nat := (Int.toNat (bit % (2 ^ 32 : Int)) * st.2) % 2 ^ 32
  ((st.1 + prod) % 2 ^ 64, (st.2 * 2) % 2 ^ 32)

/-- Model of `Utils::vecToNum`: the loop consumes `binary` from its back, starting from
`number = 0`, `posn = 1`. -/
def vecToNum (binary : List Int) : Nat :=
  (binary.reverse.foldl vecToNumStep (0, 1)).1

/-- The `for (vv = 0; vv < nCompl; vv++)` loop of `numToVec`: pushes `number % 2` and halves
`number`, `nCompl` times (`vv` is an `unsigned int`: `nCompl` is taken below `2 ^ 32`). -/
def numToVecLoop : Nat → Nat → List Int → List Int
  | 0, _, binary => binary
  | k + 1, number, binary => numToVecLoop k (number / 2) (binary ++ [((number % 2 : Nat) : Int)])

/-- Model of `Utils::numToVec`: the loop, then `for_each` mapping `0` to `-1` and the rest to
`1`, then `std::reverse`. -/
def numToVec (number nCompl : Nat) : List Int :=
  ((numToVecLoop nCompl number []).map (fun vv => if vv = 0 then (-1 : Int) else 1)).reverse

/-- Auxiliary to the proofs: value of a list of `±1` entries read least significant bit first. -/
def lsbVal : List Int → Nat
  | [] => 0
  | x :: xs => (if x = 1 then 1 else 0) + 2 * lsbVal xs

end Utils

/-! ## Armadillo matrices and vectors -/

/-- An Armadillo matrix (`arma::sp_mat` or `arma::mat`): its dimensions and its entries.  Only
the entries `val i j` with `i < n_rows` and `j < n_cols` belong to the matrix. -/
structure Mat (α : Type) where
  n_rows : Nat
  n_cols : Nat
  val : Nat → Nat → α

/-- An Armadillo column vector (`arma::vec`): its length (`n_rows`, also `size()`) and its
entries. -/
structure Vec (α : Type) where
  n_rows : Nat
  val : Nat → α

/-- Subtraction `a - b` of two `uword`s (64-bit unsigned): it wraps around when `a < b`. -/
def usub (a b : Nat) : Nat := if b ≤ a then a - b else a + 2 ^ 64 - b

/-- Conversion of a C++ `int` (32 bits) to `uword`: a negative value wraps around. -/
def toUword (z : Int) : Nat := if 0 ≤ z then Int.toNat z else Int.toNat (z + 2 ^ 64)

/-- Conversion of a C++ `int` to `unsigned int` (`static_cast<unsigned int>`): a negative value
wraps around. -/
def toUInt (z : Int) : Nat := if 0 ≤ z then Int.toNat z else Int.toNat (z + 2 ^ 32)

namespace Mat

variable {α : Type}

/-- The matrix `arma::zeros(nR, nC)`; also what `M.zeros(nR, nC)` leaves in `M`. -/
def zeros [Zero α] (nR nC : Nat) : Mat α := ⟨nR, nC, fun _ _ => 0⟩

/-- The view `M.submat(r0, c0, r1, c1)` read as a matrix: rows `r0..r1` and columns `c0..c1`,
both ends included.  Armadillo raises when the indices are out of bounds or out of order. -/
def submat (M : Mat α) (r0 c0 r1 c1 : Nat) : Except Exn (Mat α) :=
  if r0 > r1 ∨ c0 > c1 ∨ r1 ≥ M.n_rows ∨ c1 ≥ M.n_cols then .error Exn.arma
  else .ok ⟨r1 - r0 + 1, c1 - c0 + 1, fun i j => M.val (r0 + i) (c0 + j)⟩

/-- The assignment `M.submat(r0, c0, r1, c1) = X`.  Armadillo raises when the indices are out
of bounds or out of order, or when `X` has not the size of the view. -/
def assignSubmat (M : Mat α) (r0 c0 r1 c1 : Nat) (X : Mat α) : Except Exn (Mat α) :=
  if r0 > r1 ∨ c0 > c1 ∨ r1 ≥ M.n_rows ∨ c1 ≥ M.n_cols then .error Exn.arma
  else if X.n_rows ≠ r1 - r0 + 1 ∨ X.n_cols ≠ c1 - c0 + 1 then .error Exn.arma
  else .ok ⟨M.n_rows, M.n_cols, fun i j =>
    if r0 ≤ i ∧ i ≤ r1 ∧ c0 ≤ j ∧ j ≤ c1 then X.val (i - r0) (j - c0) else M.val i j⟩

/-- The view `M.cols(c0, c1)` read as a matrix: columns `c0..c1`, both ends included. -/
def cols (M : Mat α) (c0 c1 : Nat) : Except Exn (Mat α) :=
  if c0 > c1 ∨ c1 ≥ M.n_cols then .error Exn.arma
  else .ok ⟨M.n_rows, c1 - c0 + 1, fun i j => M.val i (c0 + j)⟩

/-- The matrix `arma::join_rows(X, Y)`: `Y` to the right of `X`.  Armadillo raises when the row
counts differ, unless one of the two matrices is empty (`0 x 0`). -/
def join_rows (X Y : Mat α) : Except Exn (Mat α) :=
  if X.n_rows ≠ Y.n_rows ∧ (X.n_rows > 0 ∨ X.n_cols > 0) ∧ (Y.n_rows > 0 ∨ Y.n_cols > 0) then
    .error Exn.arma
  else .ok ⟨max X.n_rows Y.n_rows, X.n_cols + Y.n_cols, fun i j =>
    if j < X.n_cols then X.val i j else Y.val i (j - X.n_cols)⟩

/-- The matrix `arma::join_cols(X, Y)`: `Y` below `X`.  Armadillo raises when the column counts
differ, unless one of the two matrices is empty. -/
def join_cols (X Y : Mat α) : Except Exn (Mat α) :=
  if X.n_cols ≠ Y.n_cols ∧ (X.n_rows > 0 ∨ X.n_cols > 0) ∧ (Y.n_rows > 0 ∨ Y.n_cols > 0) then
    .error Exn.arma
  else .ok ⟨X.n_rows + Y.n_rows, max X.n_cols Y.n_cols, fun i j =>
    if i < X.n_rows then X.val i j else Y.val (i - X.n_rows) j⟩

/-- The element assignment `M.at(r, c) = v` (no bounds check in Armadillo; every use below is
within bounds). -/
def set (M : Mat α) (r c : Nat) (v : α) : Mat α :=
  ⟨M.n_rows, M.n_cols, fun i j => if i = r ∧ j = c then v else M.val i j⟩

/-- What the iterator `M.begin() .. M.end()` of an `arma::sp_mat` visits: the nonzero entries
as `(row, column, value)`, column by column. -/
def nonzeros [Zero α] [DecidableEq α] (M : Mat α) : List (Nat × Nat × α) :=
  (List.range M.n_cols).flatMap fun c =>
    ((List.range M.n_rows).filter fun r => M.val r c ≠ 0).map fun r => (r, c, M.val r c)

/-- The batch constructor `arma::sp_mat(locations, values, nR, nC)` (with its defaults
`sort_locations = true`, `check_for_zeros = true`): zero values are dropped; Armadillo raises
when a location is out of bounds or when two locations are identical. -/
def ofTriplets [Zero α] [DecidableEq α] (ts : List (Nat × Nat × α)) (nR nC : Nat) :
    Except Exn (Mat α) :=
  let nz := ts.filter fun t => t.2.2 ≠ 0
  if nz.any (fun t => decide (t.1 ≥ nR ∨ t.2.1 ≥ nC)) then .error Exn.arma
  else if ¬ (nz.map fun t => (t.1, t.2.1)).Nodup then .error Exn.arma
  else .ok ⟨nR, nC, fun i j =>
    match nz.find? (fun t => decide (t.1 = i ∧ t.2.1 = j)) with
    | some t => t.2.2
    | none => 0⟩

/-- The row vector `r` (an `arma::vec` of coefficients) as a `1 x n` matrix. -/
def ofRow (r : Vec α) : Mat α := ⟨1, r.n_rows, fun _ j => r.val j⟩

/-- The test `M.is_symmetric()`: square and equal to its transpose. -/
def is_symmetric [DecidableEq α] (M : Mat α) : Bool :=
  decide (M.n_rows = M.n_cols) &&
    (List.range M.n_rows).all fun i => (List.range M.n_cols).all fun j =>
      decide (M.val i j = M.val j i)

end Mat

namespace Vec

variable {α : Type}

/-- The vector `arma::zeros(n)`; also what `v.zeros(n)` leaves in `v`. -/
def zeros [Zero α] (n : Nat) : Vec α := ⟨n, fun _ => 0⟩

/-- The view `v.subvec(r0, r1)` read as a vector: entries `r0..r1`, both ends included. -/
def subvec (v : Vec α) (r0 r1 : Nat) : Except Exn (Vec α) :=
  if r0 > r1 ∨ r1 ≥ v.n_rows then .error Exn.arma
  else .ok ⟨r1 - r0 + 1, fun i => v.val (r0 + i)⟩

/-- The assignment `v.subvec(r0, r1) = x`. -/
def assignSubvec (v : Vec α) (r0 r1 : Nat) (x : Vec α) : Except Exn (Vec α) :=
  if r0 > r1 ∨ r1 ≥ v.n_rows then .error Exn.arma
  else if x.n_rows ≠ r1 - r0 + 1 then .error Exn.arma
  else .ok ⟨v.n_rows, fun i => if r0 ≤ i ∧ i ≤ r1 then x.val (i - r0) else v.val i⟩

/-- The element assignment `v.at(r) = x`. -/
def set (v : Vec α) (r : Nat) (x : α) : Vec α :=
  ⟨v.n_rows, fun i => if i = r then x else v.val i⟩

end Vec

/-- The operations on doubles whose rounding decides a comparison of the code: `sub a b` is
the double `a - b` (the difference rounded to a double), `dot a b` the double that Armadillo
computes for the product `a.t() * b` of two vectors of the same length.  The models take them
as a parameter, and the theorems hold for every choice of them.  The doubles are taken finite
(no NaN); `std::abs`, the unary minus and the comparison of two doubles are exact. -/
structure DoubleOps (α : Type) where
  sub : α → α → α
  dot : Vec α → Vec α → α

/-- The operations without rounding: what the double operations give on operands whose
difference and products are doubles again, such as the small integers and halves of the
examples. -/
def DoubleOps.unrounded {α : Type} [Ring α] : DoubleOps α :=
  ⟨fun a b => a - b, fun a b => ∑ i ∈ Finset.range a.n_rows, a.val i * b.val i⟩

namespace Utils

variable {α : Type}

/-- Model of `Utils::resizePatch(const arma::sp_mat &, nR, nC)`. -/
def resizePatch [Zero α] (mat : Mat α) (nR nC : Nat) : Except Exn (Mat α) :=
  let mMat : Mat α := Mat.zeros nR nC
  if nR ≥ mat.n_rows ∧ nC ≥ mat.n_cols then
    if mat.n_rows ≥ 1 ∧ mat.n_cols ≥ 1 then
      mMat.assignSubmat 0 0 (usub mat.n_rows 1) (usub mat.n_cols 1) mat
    else .ok mMat
  else
    if nR ≤ mat.n_rows ∧ nC ≤ mat.n_cols then
      mat.submat 0 0 nR nC
    else .error (Exn.zero ZEROErrorCode.OutOfRange)

/-- Model of `Utils::resizePatch(const arma::mat &, nR, nC)`, the dense overload: the same
body as the sparse one. -/
def resizePatchMat [Zero α] (mat : Mat α) (nR nC : Nat) : Except Exn (Mat α) :=
  let mMat : Mat α := Mat.zeros nR nC
  if nR ≥ mat.n_rows ∧ nC ≥ mat.n_cols then
    if mat.n_rows ≥ 1 ∧ mat.n_cols ≥ 1 then
      mMat.assignSubmat 0 0 (usub mat.n_rows 1) (usub mat.n_cols 1) mat
    else .ok mMat
  else
    if nR ≤ mat.n_rows ∧ nC ≤ mat.n_cols then
      mat.submat 0 0 nR nC
    else .error (Exn.zero ZEROErrorCode.OutOfRange)

/-- Model of `Utils::resizePatch(const arma::vec &, nR)`. -/
def resizePatchVec [Zero α] (mat : Vec α) (nR : Nat) : Except Exn (Vec α) :=
  let mMat : Vec α := Vec.zeros nR
  if nR > mat.n_rows then
    mMat.assignSubvec 0 (usub mat.n_rows 1) mat
  else
    mat.subvec 0 nR

/-- The inner `for j` loop of `containsRow` and `containsConstraint` on row `i`: `res` stays
true unless some `j` has `std::abs(row.at(j) - A.at(i, j)) > tol`, the difference being the one
of doubles. -/
def rowMatches [LinearOrderedField α] (ops : DoubleOps α) (A : Mat α) (row : Vec α) (tol : α)
    (i : Nat) : Bool :=
  (List.range A.n_cols).all fun j => !decide (|ops.sub (row.val j) (A.val i j)| > tol)

/-- Model of `Utils::containsConstraint(A, b, lhs, rhs, tol)` with `lhs` an `arma::vec`. -/
def containsConstraint [LinearOrderedField α] (ops : DoubleOps α) (A : Mat α) (b lhs : Vec α)
    (rhs tol : α) : Bool :=
  if lhs.n_rows ≠ A.n_cols then false
  else (List.range A.n_rows).any fun i =>
    rowMatches ops A lhs tol i && decide (|ops.sub (b.val i) rhs| < tol)

/-- Model of `Utils::containsElement`. -/
def containsElement [LinearOrderedField α] (ops : DoubleOps α) (b : Vec α) (element tol : α) :
    Bool :=
  (List.range b.n_rows).any fun i => decide (|ops.sub (b.val i) element| < tol)

/-- Model of `Utils::containsRow`. -/
def containsRow [LinearOrderedField α] (ops : DoubleOps α) (A : Mat α) (row : Vec α) (tol : α) :
    Bool :=
  if row.n_rows ≠ A.n_cols then false
  else (List.range A.n_rows).any fun i => rowMatches ops A row tol i

end Utils

/-! ## The parameterized program (`Game::MP_Param`) -/

namespace Game

variable {α : Type}

/-- The data of `Game::MP_Param`: the objective `1/2 y'Qy + (Cx + c)'y`, the constraints
`Ax + By ≤ b`, and the three size fields. -/
structure MP_Param (α : Type) where
  Q : Mat α
  C : Mat α
  A : Mat α
  B : Mat α
  c : Vec α
  b : Vec α
  Nx : Nat
  Ny : Nat
  Ncons : Nat

namespace MP_Param

/-- The `if (vars) { ... }` block of `addDummy`, after `Nx` and `Ny` have been increased. -/
def addDummyVars [Zero α] (m : MP_Param α) (vars : Nat) : Except Exn (MP_Param α) :=
  if vars ≠ 0 then do
    let Q ← Utils.resizePatch m.Q m.Ny m.Ny
    let B ← Utils.resizePatch m.B m.Ncons m.Ny
    let c ← Utils.resizePatchVec m.c m.Ny
    pure { m with Q := Q, B := B, c := c }
  else pure m

/-- The `case -1:` block of `addDummy`: first `A`, then `C`. -/
def addDummyAppend [Zero α] (m : MP_Param α) (pars vars : Nat) : Except Exn (MP_Param α) :=
  (if pars ≠ 0 then Utils.resizePatch m.A m.Ncons m.Nx else .ok m.A) >>= fun A =>
  (if vars ≠ 0 ∨ pars ≠ 0 then Utils.resizePatch m.C m.Ny m.Nx else .ok m.C) >>= fun C =>
  .ok { m with A := A, C := C }

/-- The `case 0:` block of `addDummy`: first `A`, then `C`. -/
def addDummyPrepend [Zero α] (m : MP_Param α) (pars vars : Nat) : Except Exn (MP_Param α) :=
  (if pars ≠ 0 then Mat.join_rows (Mat.zeros m.Ncons pars) m.A else .ok m.A) >>= fun A =>
  (if vars ≠ 0 ∨ pars ≠ 0 then
      Utils.resizePatch m.C m.Ny m.C.n_cols >>= fun C1 =>
        Mat.join_rows (Mat.zeros m.Ny pars) C1
    else .ok m.C) >>= fun C =>
  .ok { m with A := A, C := C }

/-- The insertion of `pars` zero columns before column `position` that the `default:` block of
`addDummy` does on `A` (with `nR = Ncons`) and on the resized `C` (with `nR = Ny`). -/
def insertCols [Zero α] (M : Mat α) (nR pars : Nat) (position : Int) : Except Exn (Mat α) := do
  let left ← M.cols 0 (toUword (position - 1))
  let M_temp ← Mat.join_rows left (Mat.zeros nR pars)
  if toUInt position < M.n_cols then do
    let right ← M.cols (toUword position) (usub M.n_cols 1)
    Mat.join_rows M_temp right
  else pure M_temp

/-- The `default:` block of `addDummy`: first `A`, then `C`. -/
def addDummyInsert [Zero α] (m : MP_Param α) (pars vars : Nat) (position : Int) :
    Except Exn (MP_Param α) :=
  (if pars ≠ 0 then insertCols m.A m.Ncons pars position else .ok m.A) >>= fun A =>
  (if vars ≠ 0 ∨ pars ≠ 0 then
      Utils.resizePatch m.C m.Ny m.C.n_cols >>= fun C1 => insertCols C1 m.Ny pars position
    else .ok m.C) >>= fun C =>
  .ok { m with A := A, C := C }

/-- Model of `Game::MP_Param::addDummy(pars, vars, position)`: `Nx` and `Ny` are increased,
then the block `if (vars)`, then the `switch (position)`. -/
def addDummy [Zero α] (m : MP_Param α) (pars vars : Nat) (position : Int) :
    Except Exn (MP_Param α) :=
  addDummyVars { m with Nx := m.Nx + pars, Ny := m.Ny + vars } vars >>= fun m2 =>
    if position = -1 then addDummyAppend m2 pars vars
    else if position = 0 then addDummyPrepend m2 pars vars
    else addDummyInsert m2 pars vars position

/-- Model of `Game::MP_Param::size()`: recomputes `Ny`, `Nx` and `Ncons` from the data. -/
def size (m : MP_Param α) : MP_Param α :=
  { m with
    Ny := if m.Q.n_rows < 1 then m.c.n_rows else m.Q.n_rows
    Nx := m.C.n_cols
    Ncons := m.b.n_rows }

/-- Model of `Game::MP_Param::dataCheck(forceSymmetry)`. -/
def dataCheck [DecidableEq α] (m : MP_Param α) (forceSymmetry : Bool) : Bool :=
  if forceSymmetry && !m.Q.is_symmetric then false
  else if m.Q.n_cols > 0 ∧ m.Q.n_cols ≠ m.Ny then false
  else if m.A.n_cols > 0 ∧ m.A.n_cols ≠ m.Nx then false
  else if m.B.n_cols ≠ m.Ny then false
  else if m.C.n_rows ≠ m.Ny then false
  else if m.c.n_rows ≠ m.Ny then false
  else if m.A.n_rows > 0 ∧ m.A.n_rows ≠ m.Ncons then false
  else if m.B.n_rows ≠ m.Ncons then false
  else true

end MP_Param

end Game

/-! ## The convex-hull builder (`MathOpt::convexHull`, `MathOpt::compConvSize`) -/

namespace MathOpt

variable {α : Type}

/-- The main `for i` loop of `compConvSize`, from polyhedron `i` on, as the list of
`(row, column, value)` it writes into `locations` and `val`; `rowCount` and `colCount` are the
loop's counters.  `bi->at(i)` raises `std::out_of_range` when `bi` is shorter than `Ai`. -/
def compConvSizeLoop [Zero α] [DecidableEq α] [Neg α] (nC nPoly : Nat) (Acom : Mat α)
    (bcom : Vec α) : List (Mat α) → List (Vec α) → Nat → Nat → Nat →
    Except Exn (List (Nat × Nat × α))
  | [], _, _, _, _ => .ok []
  | _ :: _, [], _, _, _ => .error Exn.outOfRange
  | A :: As, b :: bs, i, rowCount, colCount => do
    let first := A.nonzeros.map fun t => (rowCount + t.1, colCount + t.2.1, t.2.2)
    let firstRhs := (List.range b.n_rows).map fun j =>
      (rowCount + j, nC + nC * nPoly + i, - b.val j)
    let rowCount1 := rowCount + A.n_rows
    let common := Acom.nonzeros.map fun t => (rowCount1 + t.1, colCount + t.2.1, t.2.2)
    let commonRhs := (List.range bcom.n_rows).map fun j =>
      (rowCount1 + j, nC + nC * nPoly + i, - bcom.val j)
    let rest ← compConvSizeLoop nC nPoly Acom bcom As bs (i + 1) (rowCount1 + Acom.n_rows)
      (colCount + nC)
    pure (first ++ firstRhs ++ common ++ commonRhs ++ rest)

/-- Model of `MathOpt::compConvSize`: the value it leaves in its output parameter `A`.
`Ai->front()` is the first polyhedron (the caller has checked that there is one). -/
def compConvSize [Zero α] [DecidableEq α] [Neg α] (nFinCons nFinVar : Nat)
    (Ai : List (Mat α)) (bi : List (Vec α)) (Acom : Mat α) (bcom : Vec α) :
    Except Exn (Mat α) := do
  let nPoly := Ai.length
  let nC := (Ai.headD (Mat.zeros 0 0)).n_cols
  let ts ← compConvSizeLoop nC nPoly Acom bcom Ai bi 0 0 nC
  Mat.ofTriplets ts nFinCons nFinVar

/-- The checking loop of `convexHull` from polyhedron `i` on: raises when a polyhedron has not
`nC` columns or not as many rows as its right-hand side, and returns `nFinCons` otherwise. -/
def convexHullCount (nC : Nat) : List (Mat α) → List (Vec α) → Nat → Except Exn Nat
  | [], _, nFinCons => .ok nFinCons
  | _ :: _, [], _ => .error Exn.outOfRange
  | A :: As, b :: bs, nFinCons =>
    if A.n_cols ≠ nC then .error (Exn.zero ZEROErrorCode.Assertion)
    else if A.n_rows ≠ b.n_rows then .error (Exn.zero ZEROErrorCode.Assertion)
    else convexHullCount nC As bs (nFinCons + A.n_rows)

/-- The inner `for j` loop of the "slow loop" of `convexHull` for polyhedron `i`. -/
def fillSecond [One α] [Neg α] (nC FirstCons i : Nat) (A : Mat α) : Mat α :=
  (List.range nC).foldl (fun A j =>
    (A.set (FirstCons + 2 * j) (nC + (i * nC) + j) 1).set
      (FirstCons + 2 * j + 1) (nC + (i * nC) + j) (-1)) A

/-- The "slow loop" of `convexHull` over the polyhedra: second and third constraints. -/
def fillPoly [One α] [Neg α] (nC nPoly FirstCons : Nat) (A : Mat α) : Mat α :=
  (List.range nPoly).foldl (fun A i =>
    let A1 := fillSecond nC FirstCons i A
    (A1.set (FirstCons + nC * 2) (nC + nPoly * nC + i) 1).set
      (FirstCons + nC * 2 + 1) (nC + nPoly * nC + i) (-1)) A

/-- The loop "Second Constraint RHS" of `convexHull`: the coefficients of the original `y`. -/
def fillOrig [One α] [Neg α] (nC FirstCons : Nat) (A : Mat α) : Mat α :=
  (List.range nC).foldl (fun A j =>
    (A.set (FirstCons + 2 * j) j (-1)).set (FirstCons + 2 * j + 1) j 1) A

/-- Model of `MathOpt::convexHull(Ai, bi, A, b, Acom, bcom)`: the return value and the values
left in the output parameters `A` and `b`. -/
def convexHull [Zero α] [One α] [Neg α] [DecidableEq α] (Ai : List (Mat α))
    (bi : List (Vec α)) (Acom : Mat α) (bcom : Vec α) : Except Exn (Nat × Mat α × Vec α) := do
  let nPoly := Ai.length
  if nPoly = 0 then throw (Exn.zero ZEROErrorCode.Assertion)
  let nC := (Ai.headD (Mat.zeros 0 0)).n_cols
  let nComm := Acom.n_rows
  if nComm > 0 ∧ Acom.n_cols ≠ nC then throw (Exn.zero ZEROErrorCode.Assertion)
  if nComm > 0 ∧ nComm ≠ bcom.n_rows then throw (Exn.zero ZEROErrorCode.Assertion)
  if nPoly ≠ bi.length then throw (Exn.zero ZEROErrorCode.Assertion)
  let nFinCons0 ← convexHullCount nC Ai bi 0
  let FirstCons := nFinCons0 + nPoly * nComm
  let nFinCons := FirstCons + nC * 2 + 2
  let nFinVar := nPoly * nC + nPoly + nC
  let A0 ← compConvSize nFinCons nFinVar Ai bi Acom bcom
  let A1 := fillPoly nC nPoly FirstCons A0
  let A2 := fillOrig nC FirstCons A1
  let b0 : Vec α := Vec.zeros nFinCons
  let b1 := (b0.set (FirstCons + nC * 2) 1).set (FirstCons + nC * 2 + 1) (-1)
  pure (nPoly, A2, b1)

end MathOpt

/-! ## Auxiliary definitions for the statements on `convexHull` -/

namespace MathOpt

variable {α : Type}

/-- First row of the block of polyhedron `i` in the output of `convexHull`: the polyhedra
before it take `m_t + mc` rows each (`m_t` rows of `A_t`, then `mc` common rows). -/
def rowStart (Ai : List (Mat α)) (mc i : Nat) : Nat :=
  ((Ai.take i).map fun A => A.n_rows + mc).sum

/-- The coefficients of row `row` of `A`, with the columns in the order
`(y, y_1..y_k, δ_1..δ_k)`: the coefficient of `y_j` (column `j`) is `cy j`, that of `(y_i)_j`
(column `n + i * n + j`) is `cyi i j`, that of `δ_i` (column `n + k * n + i`) is `cd i`. -/
def RowCoeffs (n k : Nat) (A : Mat α) (row : Nat) (cy : Nat → α) (cyi : Nat → Nat → α)
    (cd : Nat → α) : Prop :=
  (∀ j < n, A.val row j = cy j) ∧
  (∀ i < k, ∀ j < n, A.val row (n + i * n + j) = cyi i j) ∧
  (∀ i < k, A.val row (n + k * n + i) = cd i)

/-- Row `row` of the system `A z ≤ b`, with `z = (y, y_1..y_k, δ_1..δ_k)`, reads
`Σ_j cy j * y_j + Σ_i Σ_j cyi i j * (y_i)_j + Σ_i cd i * δ_i ≤ rhs`. -/
def RowIs (n k : Nat) (A : Mat α) (b : Vec α) (row : Nat) (cy : Nat → α)
    (cyi : Nat → Nat → α) (cd : Nat → α) (rhs : α) : Prop :=
  RowCoeffs n k A row cy cyi cd ∧ b.val row = rhs

/-- The input of `convexHull` is well formed: there is at least one polyhedron, as many
right-hand sides as polyhedra, every `A_i` has `n` columns and as many rows as `b_i` has
entries, and the common constraints `Acom`, `bcom` have `mc` rows and (when `mc > 0`) `n`
columns. -/
def ValidInput (n mc : Nat) (Ai : List (Mat α)) (bi : List (Vec α)) (Acom : Mat α)
    (bcom : Vec α) : Prop :=
  Ai ≠ [] ∧ List.Forall₂ (fun A b => A.n_cols = n ∧ A.n_rows = b.n_rows) Ai bi ∧
  Acom.n_rows = mc ∧ bcom.n_rows = mc ∧ (0 < mc → Acom.n_cols = n)

/-- The triplets that one pass of the loop of `compConvSize` writes for a matrix `A` and a
right-hand side `b`: the nonzeros of `A` shifted to row `R` and column `C`, then `-b` in
column `d`. -/
def blockTriplets [Zero α] [DecidableEq α] [Neg α] (A : Mat α) (b : Vec α) (R C d : Nat) :
    List (Nat × Nat × α) :=
  (A.nonzeros.map fun t => (R + t.1, C + t.2.1, t.2.2)) ++
    (List.range b.n_rows).map fun j => (R + j, d, - b.val j)

/-- A sequence of element assignments `A.at(r, c) = v`, in order. -/
def applyWrites (ws : List (Nat × Nat × α)) (A : Mat α) : Mat α :=
  ws.foldl (fun A w => A.set w.1 w.2.1 w.2.2) A

/-- The assignments of the inner loop of the "slow loop" for polyhedron `i`. -/
def secondWrites [One α] [Neg α] (nC FirstCons i : Nat) : List (Nat × Nat × α) :=
  (List.range nC).flatMap fun j =>
    [(FirstCons + 2 * j, nC + (i * nC) + j, 1), (FirstCons + 2 * j + 1, nC + (i * nC) + j, -1)]

/-- The assignments of the "slow loop". -/
def polyWrites [One α] [Neg α] (nC nPoly FirstCons : Nat) : List (Nat × Nat × α) :=
  (List.range nPoly).flatMap fun i =>
    secondWrites nC FirstCons i ++
      [(FirstCons + nC * 2, nC + nPoly * nC + i, 1),
       (FirstCons + nC * 2 + 1, nC + nPoly * nC + i, -1)]

/-- The assignments of the loop on the coefficients of the original `y`. -/
def origWrites [One α] [Neg α] (nC FirstCons : Nat) : List (Nat × Nat × α) :=
  (List.range nC).flatMap fun j =>
    [(FirstCons + 2 * j, j, -1), (FirstCons + 2 * j + 1, j, 1)]

end MathOpt

/-! ## Auxiliary definitions for the statements on feasible points and convex hulls -/

namespace MathOpt

variable {α : Type}

/-- Row `r` of the product `A z`. -/
def rowDot [Semiring α] (A : Mat α) (r : Nat) (z : Nat → α) : α :=
  ∑ c ∈ Finset.range A.n_cols, A.val r c * z c

/-- The point `p` of `ℝⁿ` lies in the polyhedron `{y ≥ 0 : A y ≤ b, Acom y ≤ bcom}`. -/
def InPoly [LinearOrderedField α] (n : Nat) (A : Mat α) (b : Vec α) (Acom : Mat α)
    (bcom : Vec α) (p : Nat → α) : Prop :=
  (∀ j < n, 0 ≤ p j) ∧
  (∀ r < A.n_rows, ∑ j ∈ Finset.range n, A.val r j * p j ≤ b.val r) ∧
  (∀ r < Acom.n_rows, ∑ j ∈ Finset.range n, Acom.val r j * p j ≤ bcom.val r)

/-- The point `y` of `ℝⁿ` is a convex combination of points of the polyhedra
`P_i = {y ≥ 0 : A_i y ≤ b_i, Acom y ≤ bcom}`: there are finitely many weights `μ_t ≥ 0` of
sum `1` and points `q_t`, each point of nonzero weight in some `P_i`, with
`y = Σ_t μ_t q_t`. -/
def InConvUnion [LinearOrderedField α] (n : Nat) (Ai : List (Mat α)) (bi : List (Vec α))
    (Acom : Mat α) (bcom : Vec α) (y : Nat → α) : Prop :=
  ∃ (N : Nat) (μ : Nat → α) (q : Nat → Nat → α),
    (∀ t < N, 0 ≤ μ t) ∧ ∑ t ∈ Finset.range N, μ t = 1 ∧
    (∀ t < N, μ t ≠ 0 → ∃ (i : Nat) (A_i : Mat α) (b_i : Vec α),
      Ai[i]? = some A_i ∧ bi[i]? = some b_i ∧
      InPoly n A_i b_i Acom bcom (q t)) ∧
    ∀ j < n, y j = ∑ t ∈ Finset.range N, μ t * q t j

end MathOpt

/-! ## Example inputs -/

namespace MathOpt

/-- Two polyhedra of `ℝ²`: `P_1 = {y ≥ 0 : y_1 ≤ 0, y_2 ≤ 0}` (the origin) and
`P_2 = {y ≥ 0 : y_2 ≤ 1, -y_2 ≤ -1}` (the half-line `y_2 = 1`): left-hand sides. -/
def exampleAi : List (Mat ℚ) :=
  [⟨2, 2, fun i j => if i = j then 1 else 0⟩,
   ⟨2, 2, fun i j => if j = 1 then (if i = 0 then 1 else -1) else 0⟩]

/-- Right-hand sides of the two polyhedra of `exampleAi`. -/
def examplebi : List (Vec ℚ) :=
  [⟨2, fun _ => 0⟩, ⟨2, fun i => if i = 0 then 1 else -1⟩]

/-- The vector `(y, y_1, y_2, δ_1, δ_2) = ((1,0), (0,0), (1,0), 1, 0)`. -/
def exampleZ : Nat → ℚ :=
  fun c => if c = 0 then 1 else if c = 4 then 1 else if c = 6 then 1 else 0

/-- The vector `(y, λ_1 p_1, .., λ_k p_k, λ_1, .., λ_k)` over the columns
`(y, y_1..y_k, δ_1..δ_k)`. -/
def liftPoint {α : Type} [Mul α] (n k : Nat) (y lam : Nat → α) (p : Nat → Nat → α) :
    Nat → α :=
  fun c =>
    if c < n then y c
    else if c < n + k * n then lam ((c - n) / n) * p ((c - n) / n) ((c - n) % n)
    else lam (c - (n + k * n))

end MathOpt

/-! ## Auxiliary definitions for the statements on `MP_Param` -/

namespace Game

namespace MP_Param

variable {α : Type}

/-- The objective `1/2 y'Qy + (Cx + c)'y` of the program at parameters `x` and variables
`y`, the sums running over the dimensions of the stored matrices. -/
def objective [Field α] (m : MP_Param α) (x y : Nat → α) : α :=
  1 / 2 * (∑ i ∈ Finset.range m.Q.n_rows, ∑ j ∈ Finset.range m.Q.n_cols,
      y i * m.Q.val i j * y j)
    + ∑ i ∈ Finset.range m.C.n_rows,
      (∑ j ∈ Finset.range m.C.n_cols, m.C.val i j * x j + m.c.val i) * y i

/-- Row `r` of the left-hand side `Ax + By` of the constraints. -/
def constraintLhs [Semiring α] (m : MP_Param α) (x y : Nat → α) (r : Nat) : α :=
  ∑ j ∈ Finset.range m.A.n_cols, m.A.val r j * x j
    + ∑ j ∈ Finset.range m.B.n_cols, m.B.val r j * y j

/-- The vector `x` with `p` zeros inserted before index `k`. -/
def insertZeros [Zero α] (x : Nat → α) (k p : Nat) : Nat → α :=
  fun j => if j < k then x j else if j < k + p then 0 else x (j - p)

/-- Index before which `addDummy` inserts the new parameters: `nx` for `position = -1`,
`position` otherwise. -/
def insertIndex (nx : Nat) (position : Int) : Nat :=
  if position = -1 then nx else Int.toNat position

/-- The program is dimensionally consistent with sizes `(ny, nx, ncons)`: `Q` is `ny x ny`,
`C` is `ny x nx`, `A` is `ncons x nx`, `B` is `ncons x ny`, `c` has `ny` entries and `b` has
`ncons`; the size fields hold `ny`, `nx` and `ncons`. -/
def Consistent (m : MP_Param α) (ny nx ncons : Nat) : Prop :=
  m.Ny = ny ∧ m.Nx = nx ∧ m.Ncons = ncons ∧
  m.Q.n_rows = ny ∧ m.Q.n_cols = ny ∧ m.C.n_rows = ny ∧ m.C.n_cols = nx ∧
  m.A.n_rows = ncons ∧ m.A.n_cols = nx ∧ m.B.n_rows = ncons ∧ m.B.n_cols = ny ∧
  m.c.n_rows = ny ∧ m.b.n_rows = ncons

/-- A consistent program without variables: `ny = 0`, `nx = 1`, one constraint `x ≤ 1`. -/
def exampleNoVars : MP_Param ℚ :=
  { Q := ⟨0, 0, fun _ _ => 0⟩, C := ⟨0, 1, fun _ _ => 0⟩, A := ⟨1, 1, fun _ _ => 1⟩,
    B := ⟨1, 0, fun _ _ => 0⟩, c := ⟨0, fun _ => 0⟩, b := ⟨1, fun _ => 1⟩,
    Nx := 1, Ny := 0, Ncons := 1 }

/-- A program that passes `dataCheck` with an empty `A`: `ny = 1`, `nx = 2`, `ncons = 1`,
`Q = [1]`, `C = [1 1]`, `B = [1]`, `c = [0]`, `b = [1]`, and `A` of size `0 x 0`. -/
def exampleEmptyA : MP_Param ℚ :=
  { Q := ⟨1, 1, fun _ _ => 1⟩, C := ⟨1, 2, fun _ _ => 1⟩, A := ⟨0, 0, fun _ _ => 0⟩,
    B := ⟨1, 1, fun _ _ => 1⟩, c := ⟨1, fun _ => 0⟩, b := ⟨1, fun _ => 1⟩,
    Nx := 2, Ny := 1, Ncons := 1 }

/-- A consistent program with `ny = 1`, `nx = 2`, `ncons = 1`. -/
def exampleSmall : MP_Param ℚ :=
  { Q := ⟨1, 1, fun _ _ => 2⟩, C := ⟨1, 2, fun _ j => (j : ℚ) + 1⟩,
    A := ⟨1, 2, fun _ j => (j : ℚ) + 3⟩, B := ⟨1, 1, fun _ _ => 5⟩, c := ⟨1, fun _ => 7⟩,
    b := ⟨1, fun _ => 9⟩, Nx := 2, Ny := 1, Ncons := 1 }

/-- The matrix `M'` has `nR` rows and `nx + p` columns and is `M` with `p` zero columns
inserted before column `k` and zero rows appended below the rows of `M`. -/
def IsInserted [Zero α] (M M' : Mat α) (nR nx p k : Nat) : Prop :=
  M'.n_rows = nR ∧ M'.n_cols = nx + p ∧
  ∀ i j, i < nR → j < nx + p →
    M'.val i j = if i < M.n_rows then
      (if j < k then M.val i j else if j < k + p then 0 else M.val i (j - p)) else 0

end MP_Param

end Game

namespace Utils

/-- The `2 x 2` matrix with rows `(1, 2)` and `(3, 4)`. -/
def exampleSquare : Mat ℚ := ⟨2, 2, fun i j => 2 * i + j + 1⟩

/-- The vector `(1, 2)`. -/
def exampleVec : Vec ℚ := ⟨2, fun i => i + 1⟩

end Utils

namespace Game

namespace MP_Param

/-- The invariants of section 3 of the specification, in its words: `Q` is `Ny x Ny`, `C` has
`Ny` rows, `B` has `Ny` columns, `A` has `Nx` columns, `A` and `B` both have `Ncons` rows with
`Ncons = b.size`, and `c` has `Ny` entries. -/
def SpecInvariants {α : Type} (m : MP_Param α) : Prop :=
  m.Q.n_rows = m.Ny ∧ m.Q.n_cols = m.Ny ∧ m.C.n_rows = m.Ny ∧ m.B.n_cols = m.Ny ∧
  m.A.n_cols = m.Nx ∧ m.A.n_rows = m.Ncons ∧ m.B.n_rows = m.Ncons ∧ m.Ncons = m.b.n_rows ∧
  m.c.n_rows = m.Ny

/-- A linear program stored without `Q`: `Q` of size `0 x 0`, `C = [1]`, `A = [1]`, `B = [1]`,
`c = [1]`, `b = [1]`. -/
def exampleNoQ : MP_Param ℚ :=
  { Q := ⟨0, 0, fun _ _ => 0⟩, C := ⟨1, 1, fun _ _ => 1⟩, A := ⟨1, 1, fun _ _ => 1⟩,
    B := ⟨1, 1, fun _ _ => 1⟩, c := ⟨1, fun _ => 1⟩, b := ⟨1, fun _ => 1⟩,
    Nx := 0, Ny := 0, Ncons := 0 }

end MP_Param

end Game

/-! ## The default configuration (`ZEROAlgorithmData`, `src/include/support/codes.h`) -/

/-- The fields of `class ZEROAlgorithmData` with their default initialisers.  A `double` is
given by the rational value of its literal (the stored number is the nearest representable
one). -/
structure ZEROAlgorithmData where
  DeviationTolerance : ℚ := 51e-4
  IndicatorConstraints : Bool := true
  TimeLimit : ℚ := -1
  Threads : Int := 0
  PureNashEquilibrium : Bool := false
  RandomSeed : Nat := 42

namespace MathOpt

/-- Model of `MathOpt::convexHull` with its output parameters: from the values `A`, `b` that
the output arguments hold at the call, the outcome of the call (its return value, or what it
raises) and the values that `A` and `b` hold afterwards.  The checks come first; then
`A.zeros(nFinCons, nFinVar)` and `b.zeros(nFinCons)`, then `compConvSize` and the loops. -/
def convexHullOut {α : Type} [Zero α] [One α] [Neg α] [DecidableEq α] (Ai : List (Mat α))
    (bi : List (Vec α)) (A : Mat α) (b : Vec α) (Acom : Mat α) (bcom : Vec α) :
    Except Exn Nat × Mat α × Vec α :=
  let nPoly := Ai.length
  if nPoly = 0 then (.error (Exn.zero ZEROErrorCode.Assertion), A, b)
  else
    let nC := (Ai.headD (Mat.zeros 0 0)).n_cols
    let nComm := Acom.n_rows
    if nComm > 0 ∧ Acom.n_cols ≠ nC then (.error (Exn.zero ZEROErrorCode.Assertion), A, b)
    else if nComm > 0 ∧ nComm ≠ bcom.n_rows then
      (.error (Exn.zero ZEROErrorCode.Assertion), A, b)
    else if nPoly ≠ bi.length then (.error (Exn.zero ZEROErrorCode.Assertion), A, b)
    else
      match convexHullCount nC Ai bi 0 with
      | .error e => (.error e, A, b)
      | .ok nFinCons0 =>
        let FirstCons := nFinCons0 + nPoly * nComm
        let nFinCons := FirstCons + nC * 2 + 2
        let nFinVar := nPoly * nC + nPoly + nC
        match compConvSize nFinCons nFinVar Ai bi Acom bcom with
        | .error e => (.error e, Mat.zeros nFinCons nFinVar, Vec.zeros nFinCons)
        | .ok A0 =>
          let A1 := fillPoly nC nPoly FirstCons A0
          let A2 := fillOrig nC FirstCons A1
          let b0 : Vec α := Vec.zeros nFinCons
          let b1 := (b0.set (FirstCons + nC * 2) 1).set (FirstCons + nC * 2 + 1) (-1)
          (.ok nPoly, A2, b1)

end MathOpt

/-! ## The branching tree (`Algorithms::EPEC::OuterTree`) -/

namespace Algorithms

namespace EPEC

namespace OuterTree

/-- A node of the tree (`OuterTree::Node`).  The class is declared in a header that is not
part of the sources at hand; the fields are the ones the constructors assign.  `Parent`, a
pointer to the parent node, is kept as the parent's `Id`. -/
structure Node where
  IdComps : List Nat
  Encoding : List Bool
  AllowedBranchings : List Bool
  Id : Nat
  Parent : Option Nat

/-- The assignment `v.at(i) = x` on a `std::vector<bool>`: `at` raises `std::out_of_range`
when `i` is not below the size. -/
def atSet (v : List Bool) (i : Nat) (x : Bool) : Except Exn (List Bool) :=
  if i < v.length then .ok (v.set i x) else .error Exn.outOfRange

namespace Node

/-- The constructor `Node(unsigned int encSize)` of the root node. -/
def root (encSize : Nat) : Node :=
  { IdComps := [], Encoding := List.replicate encSize false, Id := 0,
    AllowedBranchings := List.replicate encSize true, Parent := none }

/-- The constructor `Node(Node &parent, unsigned int idComp, unsigned long int id)`. -/
def child (parent : Node) (idComp : Nat) (id : Nat) : Except Exn Node :=
  atSet parent.Encoding idComp true >>= fun enc =>
  atSet parent.AllowedBranchings idComp false >>= fun alw =>
  .ok { IdComps := [idComp], Encoding := enc, AllowedBranchings := alw, Id := id,
        Parent := some parent.Id }

/-- The loop `for (auto &idComp : idsComp)` of the constructor
`Node(Node &parent, std::vector<int> idsComp, unsigned long int id)`, on the node under
construction. -/
def childrenLoop : List Int → Node → Except Exn Node
  | [], n => .ok n
  | idComp :: rest, n =>
    if idComp < 0 then .error (Exn.zero ZEROErrorCode.Assertion)
    else
      atSet n.Encoding (Int.toNat idComp) true >>= fun enc =>
      atSet n.AllowedBranchings (Int.toNat idComp) false >>= fun alw =>
      childrenLoop rest
        { n with
          Encoding := enc
          AllowedBranchings := alw
          IdComps := n.IdComps ++ [Int.toNat idComp] }

/-- The constructor `Node(Node &parent, std::vector<int> idsComp, unsigned long int id)`. -/
def children (parent : Node) (idsComp : List Int) (id : Nat) : Except Exn Node :=
  childrenLoop idsComp ⟨[], parent.Encoding, parent.AllowedBranchings, 0, none⟩ >>= fun n =>
  .ok { n with Id := id, Parent := some parent.Id }

end Node

end OuterTree

/-- The state of an `OuterTree` that branching uses: the size of the encodings, the nodes
created by branching and the counter of node identifiers. -/
structure OuterTree where
  EncodingSize : Nat
  Nodes : List OuterTree.Node
  NodeCounter : Nat

namespace OuterTree

/-- Modelled from the spec: `nextIdentifier()`, defined in the header that is not part of the
sources at hand; "node identifiers are dense unsigned integers assigned in creation order":
the call returns the counter and increases it by one. -/
def nextIdentifier (T : OuterTree) : Nat × OuterTree :=
  (T.NodeCounter, { T with NodeCounter := T.NodeCounter + 1 })

/-- Model of `OuterTree::denyBranchingLocation(node, location)`: the value of `node` after the
call. -/
def denyBranchingLocation (T : OuterTree) (node : Node) (location : Nat) : Except Exn Node :=
  if location ≥ T.EncodingSize then .error (Exn.zero ZEROErrorCode.OutOfRange)
  else
    atSet node.AllowedBranchings location false >>= fun alw =>
    .ok { node with AllowedBranchings := alw }

/-- Model of `OuterTree::singleBranch(idComp, t)`: the tree after the call, and the returned
vector or what is raised. -/
def singleBranch (T : OuterTree) (idComp : Nat) (t : Node) :
    OuterTree × Except Exn (List Int) :=
  if idComp ≥ T.EncodingSize then (T, .error (Exn.zero ZEROErrorCode.OutOfRange))
  else
    match t.Encoding[idComp]? with
    | none => (T, .error Exn.outOfRange)
    | some true => (T, .ok [-1])
    | some false =>
      match Node.child t idComp T.nextIdentifier.1 with
      | .error e => (T.nextIdentifier.2, .error e)
      | .ok child =>
        ({ T.nextIdentifier.2 with Nodes := T.nextIdentifier.2.Nodes ++ [child] },
          .ok [(T.nextIdentifier.2.NodeCounter : Int) - 1])

/-- The nodes obtainable in a tree of encoding size `encSize`: the root `Node(encSize)`, and
what the two child constructors, `denyBranchingLocation` and `singleBranch` make from an
obtainable node. -/
inductive Obtainable (encSize : Nat) : Node → Prop
  | root : Obtainable encSize (Node.root encSize)
  | child (p n : Node) (idComp id : Nat) :
      Obtainable encSize p → Node.child p idComp id = .ok n → Obtainable encSize n
  | children (p n : Node) (idsComp : List Int) (id : Nat) :
      Obtainable encSize p → Node.children p idsComp id = .ok n → Obtainable encSize n
  | deny (T : OuterTree) (n n' : Node) (location : Nat) :
      Obtainable encSize n → T.EncodingSize = encSize →
      denyBranchingLocation T n location = .ok n' → Obtainable encSize n'
  | branch (T : OuterTree) (t n : Node) (idComp : Nat) :
      Obtainable encSize t → T.EncodingSize = encSize →
      (singleBranch T idComp t).1.Nodes = T.Nodes ++ [n] → Obtainable encSize n

/-- The invariant of a node: both bit vectors have length `encSize`, and every bit that is
true in `Encoding` is false in `AllowedBranchings`. -/
def NodeInv (encSize : Nat) (n : Node) : Prop :=
  n.Encoding.length = encSize ∧ n.AllowedBranchings.length = encSize ∧
  ∀ i : Nat, n.Encoding[i]? = some true → n.AllowedBranchings[i]? = some false

end OuterTree

end EPEC

end Algorithms

/-! ## The master LCP solve (`Game::EPEC::computeNashEq`) -/

namespace Game

namespace EPEC

/-- Gurobi's status code `GRB_TIME_LIMIT`. -/
def GRB_TIME_LIMIT : Int := 9

/-- The outcomes of the solver operations that one call of `computeNashEq` performs, each an
operation that may raise: building the master LCP, the parameter settings, `optimize`, the
queries of the run time, of the solution count and of the status, the extraction of the
solution (`extractSols`, first call, and the call for solution number `k` when checking), and
`Algorithm->isSolved()` after the extraction of solution `k`. -/
structure MasterLCP where
  makeTheLCP : Except Exn Unit
  setTimeLimit : Except Exn Unit
  boundPrimals : Except Exn Unit
  makeThePureLCP : Except Exn Unit
  setOutputFlag : Except Exn Unit
  setSolutionLimit : Except Exn Unit
  optimize : Except Exn Unit
  runtime : Except Exn ℚ
  extractSols : Except Exn Bool
  solCount : Except Exn Int
  setSolutionNumber : Nat → Except Exn Unit
  extractSolsAt : Nat → Except Exn Bool
  isSolved : Nat → Except Exn Bool
  saveSolutions : Except Exn Unit
  status : Except Exn Int

/-- The fields of the `EPEC` object that `computeNashEq` writes.  `Stats.Status` has the type
`Game::EPECsolveStatus`, declared in a header that is not part of the sources at hand; its
values used here are those of `ZEROStatus`. -/
structure SolveState where
  NashEquilibrium : Bool
  Status : ZEROStatus
  WallClockTime : ℚ

/-- The part of `computeNashEq` before the `try` block: `NashEquilibrium = false`, the master
LCP is made and configured, `optimize()` runs and the run time is added to
`Stats.WallClockTime`.  `boundPrimals` and `polyLcp` are the flags
`Stats.AlgorithmParam.BoundPrimals` and `Stats.AlgorithmParam.PolyLcp`. -/
def computeNashEqSolve (o : MasterLCP) (boundPrimals polyLcp pureNE : Bool)
    (localTimeLimit : ℚ) (check : Bool) (s : SolveState) : Except Exn SolveState :=
  o.makeTheLCP >>= fun _ =>
  (if localTimeLimit > 0 then o.setTimeLimit else .ok ()) >>= fun _ =>
  (if boundPrimals then o.boundPrimals else .ok ()) >>= fun _ =>
  (if pureNE && polyLcp then o.makeThePureLCP else .ok ()) >>= fun _ =>
  o.setOutputFlag >>= fun _ =>
  (if check then o.setSolutionLimit else .ok ()) >>= fun _ =>
  o.optimize >>= fun _ =>
  o.runtime >>= fun t =>
  .ok { s with NashEquilibrium := false, WallClockTime := s.WallClockTime + t }

/-- The loop `for (int k = 0, stop = 0; k < scount && stop == 0; ++k)` of `computeNashEq`, with
`n` passes left from solution number `k` on; the result is the value left in
`NashEquilibrium`. -/
def computeNashEqCheck (o : MasterLCP) : Nat → Nat → Bool → Except Exn Bool
  | 0, _, ne => .ok ne
  | n + 1, k, _ =>
    o.setSolutionNumber k >>= fun _ =>
    o.extractSolsAt k >>= fun ne =>
    o.isSolved k >>= fun solved =>
    if solved then .ok ne else computeNashEqCheck o n (k + 1) ne

/-- The part of `computeNashEq` from the `try` block on: the extraction of the solution, where
a `GRBException` is caught and logged, then the update of the state. -/
def computeNashEqExtract (o : MasterLCP) (check : Bool) (s : SolveState) :
    Except Exn (Bool × SolveState) :=
  (match o.extractSols with
    | .ok ne => .ok { s with NashEquilibrium := ne }
    | .error Exn.grb => .ok s
    | .error e => .error e) >>= fun s1 =>
  if s1.NashEquilibrium then
    if check then
      o.solCount >>= fun scount =>
      computeNashEqCheck o (Int.toNat scount) 0 s1.NashEquilibrium >>= fun ne =>
      .ok (ne, { s1 with NashEquilibrium := ne })
    else
      o.saveSolutions >>= fun _ =>
      .ok (true, { s1 with NashEquilibrium := true })
  else
    o.status >>= fun status =>
    if status = GRB_TIME_LIMIT then
      .ok (s1.NashEquilibrium, { s1 with Status := ZEROStatus.TimeLimit })
    else
      .ok (s1.NashEquilibrium, { s1 with Status := ZEROStatus.NashEqNotFound })

/-- Model of `Game::EPEC::computeNashEq(pureNE, localTimeLimit, check)`: the return value and
the state after the call, or what is raised. -/
def computeNashEq (o : MasterLCP) (boundPrimals polyLcp pureNE : Bool) (localTimeLimit : ℚ)
    (check : Bool) (s : SolveState) : Except Exn (Bool × SolveState) :=
  computeNashEqSolve o boundPrimals polyLcp pureNE localTimeLimit check s >>= fun s1 =>
  computeNashEqExtract o check s1

/-- A run of the solver in which every operation returns, except the extraction of the
solution, which raises a `GRBException`; the status query returns `st`. -/
def exampleRun (st : Except Exn Int) : MasterLCP :=
  { makeTheLCP := .ok (), setTimeLimit := .ok (), boundPrimals := .ok (),
    makeThePureLCP := .ok (), setOutputFlag := .ok (), setSolutionLimit := .ok (),
    optimize := .ok (), runtime := .ok 1, extractSols := .error Exn.grb, solCount := .ok 0,
    setSolutionNumber := fun _ => .ok (), extractSolsAt := fun _ => .ok false,
    isSolved := fun _ => .ok false, saveSolutions := .ok (), status := st }

end EPEC

end Game

/-! ## Finalization of the game (`Game::EPEC::finalize`) -/

namespace Game

/-- The objective data `struct QP_Objective` (`src/include/games/games.h`). -/
structure QP_Objective (α : Type) where
  Q : Mat α
  C : Mat α
  c : Vec α

/-- The fields of `Game::EPEC` that `finalize` reads and writes.  The class is declared in a
header that is not part of the sources at hand: `numLeaders` is what `getNumLeaders()` returns,
`LocEnds` holds the values that the pointers of `LocEnds` point to, and each lower level is an
`MP_Param`.  The vectors of null pointers that `finalize` allocates (`PlayersQP`, `PlayersLCP`,
`LeaderObjectiveConvexHull`) are left out. -/
structure EPEC (α : Type) where
  numLeaders : Nat
  numMCVariables : Nat
  LocEnds : List Nat
  PlayersLowerLevels : List (MP_Param α)
  NumPlayers : Nat
  NumVariables : Nat
  LeaderLocations : List Nat
  ConvexHullVariables : List Nat
  FeasiblePolyhedra : List Nat
  LeaderObjective : List (Option (QP_Objective α))
  SizesWithoutHull : List Nat
  Finalized : Bool

namespace EPEC

variable {α : Type}

/-- The loop `for (i = 1; i < NumPlayers; i++)` of `computeLeaderLocations`, with `n` passes
left from index `i` on: `LeaderLocations.at(i) = LeaderLocations.at(i - 1) + *LocEnds.at(i - 1)`. -/
def leaderLocationsLoop (LocEnds : List Nat) : Nat → Nat → List Nat → Except Exn (List Nat)
  | 0, _, locs => .ok locs
  | n + 1, i, locs =>
    match locs[i - 1]?, LocEnds[i - 1]? with
    | some a, some l =>
      if i < locs.length then leaderLocationsLoop LocEnds n (i + 1) (locs.set i (a + l))
      else .error Exn.outOfRange
    | _, _ => .error Exn.outOfRange

/-- Model of `Game::EPEC::computeLeaderLocations(addSpaceForMC)`.  `back()` on an empty vector
is undefined in C++; the model raises there. -/
def computeLeaderLocations (e : EPEC α) (addSpaceForMC : Nat) : Except Exn (EPEC α) :=
  if e.NumPlayers = 0 then .error Exn.outOfRange
  else
    leaderLocationsLoop e.LocEnds (e.NumPlayers - 1) 1 (List.replicate e.NumPlayers 0)
      >>= fun locs =>
    match locs.getLast?, e.LocEnds.getLast? with
    | some a, some l =>
      .ok { e with LeaderLocations := locs, NumVariables := a + l + addSpaceForMC }
    | _, _ => .error Exn.outOfRange

/-- Model of `Game::EPEC::addDummyLead(i)`.  The call `addDummy(nEPECvars - nThisCountryvars)`
leaves the two other arguments of `MP_Param::addDummy` to the defaults of its declaration, in a
header that is not part of the sources at hand; they are taken to be `vars = 0` (only
parameters are added) and `position = -1` (the value that the comment of `addDummy` gives "for
adding at the end"). -/
def addDummyLead [Zero α] (e : EPEC α) (i : Nat) : Except Exn (EPEC α) :=
  match e.LocEnds[i]? with
  | none => .error Exn.outOfRange
  | some nThisCountryvars =>
    if e.NumVariables < nThisCountryvars then .error Exn.str
    else
      match e.PlayersLowerLevels[i]? with
      | none => .error Exn.outOfRange
      | some m =>
        m.addDummy (e.NumVariables - nThisCountryvars) 0 (-1) >>= fun m' =>
        .ok { e with PlayersLowerLevels := e.PlayersLowerLevels.set i m' }

/-- The loop `for (i = 0; i < NumPlayers; i++)` of `finalize`, with `n` passes left from
player `i` on.  `makeObjectivePlayer`, a pure virtual function of the class, is a parameter:
the objective it builds for player `i` in the current state, or what it raises. -/
def finalizeLoop [Zero α] (makeObjectivePlayer : EPEC α → Nat → Except Exn (QP_Objective α)) :
    Nat → Nat → EPEC α → Except Exn (EPEC α)
  | 0, _, e => .ok e
  | n + 1, i, e =>
    addDummyLead e i >>= fun e1 =>
    (if i < e1.LeaderObjective.length then .ok () else .error Exn.outOfRange) >>= fun _ =>
    makeObjectivePlayer e1 i >>= fun obj =>
    match e1.LocEnds[i]? with
    | none => .error Exn.outOfRange
    | some l =>
      if i < e1.SizesWithoutHull.length then
        finalizeLoop makeObjectivePlayer n (i + 1)
          { e1 with
            LeaderObjective := e1.LeaderObjective.set i (some obj)
            SizesWithoutHull := e1.SizesWithoutHull.set i l }
      else .error Exn.outOfRange

/-- Model of `Game::EPEC::finalize()`.  When `Finalized` is already set the code prints a
warning and goes on; `preFinalize` and `postFinalize` are the empty functions of the class;
every exception caught in the body is thrown again. -/
def finalize [Zero α] (makeObjectivePlayer : EPEC α → Nat → Except Exn (QP_Objective α))
    (e : EPEC α) : Except Exn (EPEC α) :=
  computeLeaderLocations
    { e with
      NumPlayers := e.numLeaders
      ConvexHullVariables := List.replicate e.numLeaders 0
      FeasiblePolyhedra := List.replicate e.numLeaders 0 }
    e.numMCVariables >>= fun e1 =>
  finalizeLoop makeObjectivePlayer e1.NumPlayers 0
    { e1 with
      LeaderObjective := List.replicate e1.NumPlayers none
      SizesWithoutHull := List.replicate e1.NumPlayers 0 } >>= fun e2 =>
  .ok { e2 with Finalized := true }

/-- The game is well formed: there are `N ≥ 1` leaders, `N` entries in `LocEnds` and `N` lower
levels, every lower level is dimensionally consistent, and `makeObjectivePlayer` returns for
every player. -/
def WellFormed (makeObjectivePlayer : EPEC α → Nat → Except Exn (QP_Objective α))
    (e : EPEC α) (N : Nat) : Prop :=
  1 ≤ N ∧ e.numLeaders = N ∧ e.LocEnds.length = N ∧ e.PlayersLowerLevels.length = N ∧
  (∀ m ∈ e.PlayersLowerLevels, ∃ ny nx ncons : Nat, m.Consistent ny nx ncons) ∧
  ∀ (e' : EPEC α) (i : Nat), i < N → ∃ obj, makeObjectivePlayer e' i = .ok obj

/-- A game of two leaders with one variable each and no market-clearing variable; each lower
level is a consistent program with one variable, no parameter and one constraint. -/
def exampleGame : EPEC ℚ :=
  { numLeaders := 2, numMCVariables := 0, LocEnds := [1, 1],
    PlayersLowerLevels :=
      [⟨⟨1, 1, fun _ _ => 1⟩, ⟨1, 0, fun _ _ => 0⟩, ⟨1, 0, fun _ _ => 0⟩, ⟨1, 1, fun _ _ => 1⟩,
          ⟨1, fun _ => 0⟩, ⟨1, fun _ => 1⟩, 0, 1, 1⟩,
        ⟨⟨1, 1, fun _ _ => 1⟩, ⟨1, 0, fun _ _ => 0⟩, ⟨1, 0, fun _ _ => 0⟩, ⟨1, 1, fun _ _ => 1⟩,
          ⟨1, fun _ => 0⟩, ⟨1, fun _ => 1⟩, 0, 1, 1⟩],
    NumPlayers := 0, NumVariables := 0, LeaderLocations := [], ConvexHullVariables := [],
    FeasiblePolyhedra := [], LeaderObjective := [], SizesWithoutHull := [],
    Finalized := false }

/-- The objective that the example takes for every player: all data empty. -/
def exampleObjective (_ : EPEC ℚ) (_ : Nat) : Except Exn (QP_Objective ℚ) :=
  .ok ⟨Mat.zeros 0 0, Mat.zeros 0 0, Vec.zeros 0⟩

end EPEC

end Game

/-! ## Value cuts (`Algorithms::EPEC::OuterApproximation::addValueCut`) -/

namespace Mat

/-- The product `M * x` of a matrix and a vector.  Armadillo raises when `x` has not as many
entries as `M` has columns. -/
def mulVec {α : Type} [Semiring α] (M : Mat α) (x : Vec α) : Except Exn (Vec α) :=
  if M.n_cols ≠ x.n_rows then .error Exn.arma
  else .ok ⟨M.n_rows, fun i => ∑ j ∈ Finset.range M.n_cols, M.val i j * x.val j⟩

/-- The matrix `-M`. -/
def neg {α : Type} [Neg α] (M : Mat α) : Mat α := ⟨M.n_rows, M.n_cols, fun i j => - M.val i j⟩

end Mat

namespace Vec

/-- The sum `u + v` of two vectors.  Armadillo raises when the lengths differ. -/
def add {α : Type} [Add α] (u v : Vec α) : Except Exn (Vec α) :=
  if u.n_rows ≠ v.n_rows then .error Exn.arma
  else .ok ⟨u.n_rows, fun i => u.val i + v.val i⟩

/-- The vector `arma::join_cols(u, v)`: `v` below `u`. -/
def join_cols {α : Type} (u v : Vec α) : Vec α :=
  ⟨u.n_rows + v.n_rows, fun i => if i < u.n_rows then u.val i else v.val (i - u.n_rows)⟩

end Vec

namespace Algorithms

namespace EPEC

namespace OuterApproximation

/-- The cut pool `(Acut, bcut)` of a player's `PolyLCP`: the cuts `Acut y ≤ bcut`. -/
structure CutPool (α : Type) where
  Acut : Mat α
  bcut : Vec α

/-- Modelled from the spec: `PolyLCP::containsCut(lhs, rhs, tol)`, whose class is not part of
the sources at hand; "cut-pool management with tolerance-based deduplication", the test being
`Utils::containsConstraint(Acut, bcut, lhs, rhs, tol)`. -/
def containsCut {α : Type} [LinearOrderedField α] (ops : DoubleOps α) (pool : CutPool α)
    (lhs : Vec α) (rhs tol : α) : Bool :=
  Utils.containsConstraint ops pool.Acut pool.bcut lhs rhs tol

/-- Modelled from the spec: `PolyLCP::addCustomCuts(L, r)`, whose class is not part of the
sources at hand: the rows of `L` are appended to `Acut` and the entries of `r` to `bcut`. -/
def addCustomCuts {α : Type} (pool : CutPool α) (L : Mat α) (r : Vec α) :
    Except Exn (CutPool α) :=
  Mat.join_cols pool.Acut L >>= fun A => .ok ⟨A, Vec.join_cols pool.bcut r⟩

/-- Model of `OuterApproximation::addValueCut(player, RHS, xMinusI)`: the cut pool of the
player after the call.  `obj` is the player's leader objective `LeaderObjective.at(player)`,
`numCols` is `PolyLCP.at(player)->getNumCols()`, `tol` is `this->Tolerance`. -/
def addValueCut {α : Type} [LinearOrderedField α] (ops : DoubleOps α)
    (obj : Game.QP_Objective α) (numCols : Nat) (tol : α) (pool : CutPool α) (RHS : α)
    (xMinusI : Vec α) : Except Exn (CutPool α) :=
  obj.C.mulVec xMinusI >>= fun Cx =>
  obj.c.add Cx >>= fun LHS =>
  Utils.resizePatch (Mat.ofRow LHS) 1 numCols >>= fun cutLHS =>
  if !containsCut ops pool LHS (-RHS) tol then
    addCustomCuts pool cutLHS.neg ⟨1, fun _ => -RHS⟩
  else .ok pool

/-- The vector `c + C * xMinusI` that `addValueCut` computes, when the sizes match. -/
def valueCutLhs {α : Type} [Semiring α] (obj : Game.QP_Objective α) (xMinusI : Vec α) : Vec α :=
  ⟨obj.c.n_rows, fun i =>
    obj.c.val i + ∑ j ∈ Finset.range obj.C.n_cols, obj.C.val i j * xMinusI.val j⟩

/-- The leader objective with `C = [0]` and `c = (1)`. -/
def exampleLeaderObjective : Game.QP_Objective ℚ :=
  ⟨Mat.zeros 0 0, ⟨1, 1, fun _ _ => 0⟩, ⟨1, fun _ => 1⟩⟩

end OuterApproximation

end EPEC

end Algorithms

/-! ## Branching candidates (`OuterApproximation::hybridBranching`,
`OuterApproximation::getFirstBranchLocation`) -/

namespace Algorithms

namespace EPEC

namespace OuterApproximation

/-- What `hybridBranching(player, node)` reads besides the node: the flag
`EPECObject->NashEquilibrium`, the length of the player's part `x` of `SolutionX`, the length
of `LeaderObjective.at(player)->c`, and the answers of the solves.  `feasOuterApp enc` is
`PolyLCP.at(player)->getFeasOuterApp()` after `outerApproximate(enc, true)`; `violation i` is
`none` when the status of the feasibility problem `getFeasQP(player, x)` built in the pass
of bit `i` is not `GRB_INFEASIBLE`, and the optimal value of its `feasRelax` otherwise. -/
structure HybridInput where
  NashEquilibrium : Bool
  xSize : Nat
  cRows : Nat
  feasOuterApp : List Bool → Bool
  violation : Nat → Option ℚ

/-- The loop `for (j = 0; j < currentEncoding.size(); j++) denyBranchingLocation(*node, j)`,
over the list of the values of `j`. -/
def denyAll (T : OuterTree) (node : OuterTree.Node) : List Nat → Except Exn OuterTree.Node
  | [] => .ok node
  | j :: js => OuterTree.denyBranchingLocation T node j >>= fun n => denyAll T n js

/-- The node `node` with every branching location denied. -/
def deniedNode (node : OuterTree.Node) : OuterTree.Node :=
  { node with AllowedBranchings := List.replicate node.AllowedBranchings.length false }

/-- Every allowed bit of the node gives an infeasible relaxation. -/
def AllInfeasible (inp : HybridInput) (node : OuterTree.Node) : Prop :=
  ∀ i : Nat, node.AllowedBranchings[i]? = some true →
    inp.feasOuterApp (node.Encoding.set i true) = false

/-- The tree of encoding size `2` that holds its root only. -/
def exampleTree2 : OuterTree := ⟨2, [OuterTree.Node.root 2], 1⟩

end OuterApproximation

end EPEC

end Algorithms
namespace Vec

/-- The element access `v(i)`: Armadillo raises when `i` is not below the length. -/
def elem {α : Type} (v : Vec α) (i : Nat) : Except Exn α :=
  if i < v.n_rows then .ok (v.val i) else .error Exn.arma

end Vec

namespace Algorithms

namespace EPEC

namespace OuterTree

/-- The read `v.at(i)` on a `std::vector<bool>`: `at` raises `std::out_of_range` when `i` is
not below the size. -/
def atGet (v : List Bool) (i : Nat) : Except Exn Bool :=
  match v[i]? with
  | some b => .ok b
  | none => .error Exn.outOfRange

/-- Modelled from the spec: `Node::getCumulativeBranches()`, defined in the header that is not
part of the sources at hand; "counters `CumulativeBranches = popcount(Encoding)`". -/
def Node.getCumulativeBranches (n : Node) : Nat := n.Encoding.count true

end OuterTree

namespace OuterApproximation

/-- What `getFirstBranchLocation(player, node)` reads besides the node: `getNumRows()`,
`getLStart()` and `getNumberLeader()` of the player's `PolyLCP`, and the answer of the solve:
`sols` is `none` when `extractSols` on the model `LCPasMIP(true)` returns false, and
the extracted `(z, x)` otherwise. -/
structure FirstBranchInput where
  numRows : Nat
  LStart : Nat
  NumberLeader : Nat
  sols : Option (Vec ℚ × Vec ℚ)

/-- The locals `maxvalx`, `maxvalz`, `maxposx`, `maxposz` of `getFirstBranchLocation`. -/
structure BranchScan where
  maxvalx : ℚ
  maxvalz : ℚ
  maxposx : Nat
  maxposz : Nat

/-- The local `varPos` of the loop of `getFirstBranchLocation` (an `unsigned int`: the sum
wraps modulo `2^32`). -/
def varPos (inp : FirstBranchInput) (i : Nat) : Nat :=
  if i ≥ inp.LStart then (i + inp.NumberLeader) % 2 ^ 32 else i

/-- The second `if` of the loop body of `getFirstBranchLocation`, on `z(i)`.  The right
operand of `&&` is evaluated only when the left one is true. -/
def scanZ (z : Vec ℚ) (alw : List Bool) (s : BranchScan) (i : Nat) : Except Exn BranchScan :=
  z.elem i >>= fun zv =>
  (if zv > s.maxvalz then OuterTree.atGet alw i else .ok false) >>= fun cz =>
  .ok (if cz then ⟨s.maxvalx, zv, s.maxposx, i⟩ else s)

/-- The loop body of `getFirstBranchLocation` for the index `i`. -/
def scanStep (inp : FirstBranchInput) (z x : Vec ℚ) (alw : List Bool) (s : BranchScan)
    (i : Nat) : Except Exn BranchScan :=
  x.elem (varPos inp i) >>= fun xv =>
  (if xv > s.maxvalx then OuterTree.atGet alw i else .ok false) >>= fun cx =>
  scanZ z alw (if cx then ⟨xv, s.maxvalz, i, s.maxposz⟩ else s) i

/-- The loop `for (i = 0; i < nR; i++)` of `getFirstBranchLocation`, over the list of the
values of `i` still to run. -/
def scanLoop (inp : FirstBranchInput) (z x : Vec ℚ) (alw : List Bool) (s : BranchScan) :
    List Nat → Except Exn BranchScan
  | [] => .ok s
  | i :: is => scanStep inp z x alw s i >>= fun s1 => scanLoop inp z x alw s1 is

/-- Model of `OuterApproximation::getFirstBranchLocation(player, node)`: the node after the
call and the returned value, or what is raised.  `T` is `Trees.at(player)`.  The result of
`solEncode` is not used by the function. -/
def getFirstBranchLocation (inp : FirstBranchInput) (T : OuterTree) (node : OuterTree.Node) :
    Except Exn (OuterTree.Node × Int) :=
  if node.getCumulativeBranches = T.EncodingSize then .ok (node, -1)
  else
    match inp.sols with
    | some (z, x) =>
      scanLoop inp z x node.AllowedBranchings ⟨-1, -1, 0, 0⟩ (List.range inp.numRows)
        >>= fun s =>
      .ok (node, if s.maxvalz > s.maxvalx then (s.maxposz : Int) else (s.maxposx : Int))
    | none => denyAll T node (List.range node.Encoding.length) >>= fun n => .ok (n, -1)

/-- The value `max(x(varPos_i), z_i)` of the bit `i`, with `varPos_i = i + NumberLeader` if
`i ≥ LStart` and `i` otherwise. -/
def bitScore (inp : FirstBranchInput) (z x : Vec ℚ) (i : Nat) : ℚ :=
  max (x.val (if i ≥ inp.LStart then i + inp.NumberLeader else i)) (z.val i)

/-- An input of `getFirstBranchLocation` with two rows, `LStart = 1`, one leader variable,
`z = (1/2, 0)` and `x = (0, 7, 2)`, so that `x(varPos_0) = 0` and `x(varPos_1) = 2`. -/
def exampleFirstBranch : FirstBranchInput :=
  ⟨2, 1, 1, some (⟨2, fun i => if i = 0 then 1 / 2 else 0⟩,
    ⟨3, fun i => if i = 0 then 0 else if i = 1 then 7 else 2⟩)⟩

end OuterApproximation

end EPEC

end Algorithms

namespace Algorithms

namespace EPEC

namespace OuterApproximation

/-- What the scan of `getFirstBranchLocation` keeps for one of its two maxima: the maximum
`mv` bounds the values of the allowed bits already seen, and either it still has its initial
value `-1` or it is the value of the allowed bit `mp`. -/
def ScanInv (val : Nat → ℚ) (alw : List Bool) (seen : List Nat) (mv : ℚ) (mp : Nat) : Prop :=
  (∀ j ∈ seen, alw[j]? = some true → val j ≤ mv) ∧
  (mv = -1 ∨ (alw[mp]? = some true ∧ val mp = mv))

end OuterApproximation

end EPEC

end Algorithms
/-! ## The main loop (`Algorithms::EPEC::OuterApproximation::solve`) -/

namespace Algorithms

namespace EPEC

namespace OuterApproximation

/-- Subtraction `a - b` of two `unsigned int`s (32 bits): it wraps around when `a < b`. -/
def usub32 (a b : Nat) : Nat := if b ≤ a then a - b else a + 2 ^ 32 - b

/-- What one pass of the loop `while (!solved)` of `solve` reads.  `EncodingSize j` is
`Trees.at(j)->getEncodingSize()` and `CumulativeBranches j` is
`Incumbent.at(j)->getCumulativeBranches()` at the start of the pass (`unsigned int`s).  The
calls the pass makes are inputs: `firstBranch j` and `hybrid j` are the outcomes of
`getFirstBranchLocation(j, Incumbent.at(j))` and `hybridBranching(j, Incumbent.at(j))` in the
first loop over the players, `firstBranchAgain j` the outcome of `getFirstBranchLocation` in
the loop that follows when no player has a candidate; `approximate locs branch` is the loop of
`singleBranch` and `outerApproximate` over the players, followed by `printCurrentApprox` and
`makePlayersQPs`; `timeRemaining` is `TimeLimit - timeElapsed` when the budget is computed and
`timeRemainingAfter` when the pass ends; `computeNashEq l` is the value of
`EPECObject->NashEquilibrium` after the call of `computeNashEq` with the local time limit `l`
(`none` when the call passes no local time limit); `isFeasible` is the returned value and the
flag `addedCuts` of `isFeasible(addedCuts)`.  The doubles are taken as rationals. -/
structure IterationInput where
  NumPlayers : Nat
  EncodingSize : Nat → Nat
  CumulativeBranches : Nat → Nat
  firstBranch : Nat → Except Exn Int
  hybrid : Nat → Except Exn Int
  firstBranchAgain : Nat → Except Exn Int
  approximate : List Int → Bool → Except Exn Unit
  TimeLimit : ℚ
  timeRemaining : ℚ
  computeNashEq : Option ℚ → Except Exn Bool
  isFeasible : Except Exn (Bool × Bool)
  timeRemainingAfter : ℚ

/-- The entry `branchingCandidatesNumber.at(j)`: the `unsigned int` difference
`getEncodingSize() - getCumulativeBranches()`.  It is stored in an `int` and added back to an
`unsigned int`, which changes nothing modulo `2^32`. -/
def branchingCandidatesNumber (inp : IterationInput) (j : Nat) : Nat :=
  usub32 (inp.EncodingSize j) (inp.CumulativeBranches j)

/-- The value of `cumulativeBranchingCandidates` (an `unsigned int`) after the loop
`for (j = 0; j < NumPlayers; ++j) cumulativeBranchingCandidates += ...`. -/
def cumulativeBranchingCandidates (inp : IterationInput) : Nat :=
  (List.range inp.NumPlayers).foldl
    (fun c j => (c + branchingCandidatesNumber inp j) % 2 ^ 32) 0

/-- The loop `for (j = 0; j < NumPlayers && !infeasibilityDetection; ++j)` of the branching
phase, over the list of the players still to visit: the vector `branchingLocations` and the
flag `infeasibilityDetection` after the loop.  `numIterations` is `Stats.NumIterations`. -/
def branchingLoop (inp : IterationInput) (numIterations : Nat) (locs : List Int) :
    List Nat → Except Exn (List Int × Bool)
  | [] => .ok (locs, false)
  | j :: js =>
    if branchingCandidatesNumber inp j ≠ 0 then
      if numIterations = 1 then
        inp.firstBranch j >>= fun l =>
        if l < 0 then .ok (locs.set j l, true)
        else branchingLoop inp numIterations (locs.set j l) js
      else
        inp.hybrid j >>= fun l =>
        if l = -2 then .ok (locs.set j l, true)
        else branchingLoop inp numIterations (locs.set j l) js
    else branchingLoop inp numIterations locs js

/-- The loop `for (j = 0; j < NumPlayers; ++j) branchingLocations.at(j) =
getFirstBranchLocation(j, Incumbent.at(j))`, over the list of the players still to visit. -/
def firstBranchLoop (inp : IterationInput) (locs : List Int) : List Nat → Except Exn (List Int)
  | [] => .ok locs
  | j :: js => inp.firstBranchAgain j >>= fun l => firstBranchLoop inp (locs.set j l) js

/-- The value `*std::max_element(v.begin(), v.end())`.  On an empty vector the dereference is
undefined; `solve` does not reach it then, since `cumulativeBranchingCandidates` is `0` when
there is no player. -/
def maxElement (v : List Int) : Int := v.foldl max (v.headD 0)

/-- The branching phase `if (branch) { ... }` of one pass of `solve`: the status with which
the loop is left (`break`), or the vector `branchingLocations` with which the pass goes on. -/
def branchingPhase (inp : IterationInput) (numIterations : Nat) (branch : Bool) :
    Except Exn (ZEROStatus ⊕ List Int) :=
  if branch then
    branchingLoop inp numIterations (List.replicate inp.NumPlayers (-1))
      (List.range inp.NumPlayers) >>= fun r =>
    if r.2 then .ok (.inl ZEROStatus.NashEqNotFound)
    else if cumulativeBranchingCandidates inp = 0 then .ok (.inl ZEROStatus.NashEqNotFound)
    else if maxElement r.1 < 0 then
      firstBranchLoop inp r.1 (List.range inp.NumPlayers) >>= fun locs =>
      if maxElement locs < 0 then .ok (.inl ZEROStatus.NashEqNotFound)
      else .ok (.inr locs)
    else .ok (.inr r.1)
  else .ok (.inr (List.replicate inp.NumPlayers (-1)))

/-- The local `timeForNextIteration` of `solve`, for the value `c` of
`cumulativeBranchingCandidates` and the remaining time `t`. -/
def timeForNextIteration (c : Nat) (t : ℚ) : ℚ :=
  if usub32 c 1 > 0 then (t * (2 / 10)) / (usub32 c 1 : ℚ) else t * (98 / 100)

/-- How the first part of a pass of `solve` ends: the loop is left with a status, or
`computeNashEq` is called with the given local time limit (`none` when the call passes
none). -/
inductive IterationOutcome where
  | stopped (status : ZEROStatus)
  | computeNashEq (localTimeLimit : Option ℚ)

/-- The first part of one pass of the loop of `solve`, up to the call of `computeNashEq`. -/
def iterationStart (inp : IterationInput) (numIterations : Nat) (branch : Bool) :
    Except Exn IterationOutcome :=
  branchingPhase inp numIterations branch >>= fun r =>
  match r with
  | .inl st => .ok (.stopped st)
  | .inr locs =>
    inp.approximate locs branch >>= fun _ =>
    if inp.TimeLimit > 0 then
      .ok (.computeNashEq
        (some (timeForNextIteration (cumulativeBranchingCandidates inp) inp.timeRemaining)))
    else .ok (.computeNashEq none)

/-- The part of one pass of `solve` between the call of `computeNashEq` and the check of the
time: `nashEquilibrium` is `EPECObject->NashEquilibrium`; the result is the status with which
`solve` returns, or the value of `branch` for the next pass. -/
def feasibilityPhase (inp : IterationInput) (nashEquilibrium : Bool) :
    Except Exn (ZEROStatus ⊕ Bool) :=
  if nashEquilibrium then
    inp.isFeasible >>= fun r =>
    if r.1 then .ok (.inl ZEROStatus.NashEqFound)
    else if r.2 then .ok (.inr false)
    else .ok (.inr true)
  else .ok (.inr true)

/-- The second part of one pass of the loop of `solve`, from the call of `computeNashEq` with
the local time limit `l`: the status with which `solve` returns, or the value of `branch` for
the next pass. -/
def iterationEnd (inp : IterationInput) (l : Option ℚ) : Except Exn (ZEROStatus ⊕ Bool) :=
  inp.computeNashEq l >>= fun nashEquilibrium =>
  feasibilityPhase inp nashEquilibrium >>= fun r =>
  match r with
  | .inl st => .ok (.inl st)
  | .inr branch =>
    if inp.TimeLimit > 0 then
      if inp.timeRemainingAfter ≤ 0 then .ok (.inl ZEROStatus.TimeLimit)
      else .ok (.inr branch)
    else .ok (.inr branch)

/-- The loop `while (!solved)` of `solve`, for at most `fuel` passes: `inputs k` is what the
pass number `k` reads, `numIterations` is `Stats.NumIterations` before the pass, `trace` the
local time limits of the calls of `computeNashEq` made so far.  The result is the final
`Stats.Status` (`none` when the loop has not ended after `fuel` passes) and the trace. -/
def solveLoop (inputs : Nat → IterationInput) :
    Nat → Nat → Bool → List (Option ℚ) → Except Exn (Option ZEROStatus × List (Option ℚ))
  | 0, _, _, trace => .ok (none, trace)
  | fuel + 1, numIterations, branch, trace =>
    iterationStart (inputs (numIterations + 1)) (numIterations + 1) branch >>= fun r =>
    match r with
    | .stopped st => .ok (some st, trace)
    | .computeNashEq l =>
      iterationEnd (inputs (numIterations + 1)) l >>= fun e =>
      match e with
      | .inl st => .ok (some st, trace ++ [l])
      | .inr branch1 => solveLoop inputs fuel (numIterations + 1) branch1 (trace ++ [l])

/-- Model of the loop of `OuterApproximation::solve`, for at most `fuel` passes: it starts
with `Stats.NumIterations = 0` and `branch = true`. -/
def solve (inputs : Nat → IterationInput) (fuel : Nat) :
    Except Exn (Option ZEROStatus × List (Option ℚ)) :=
  solveLoop inputs fuel 0 true []

/-- A pass with one player whose tree has encoding size `1`: `c` is the incumbent's number
of branches, every branching call answers bit `0`, no call raises, the time limit is `tl` with
`10` seconds remaining, `computeNashEq` finds an equilibrium, and `isFeasible` answers
false after adding cuts. -/
def examplePass (c : Nat) (tl : ℚ) : IterationInput :=
  { NumPlayers := 1, EncodingSize := fun _ => 1, CumulativeBranches := fun _ => c,
    firstBranch := fun _ => .ok 0, hybrid := fun _ => .ok 0, firstBranchAgain := fun _ => .ok 0,
    approximate := fun _ _ => .ok (), TimeLimit := tl, timeRemaining := 10,
    computeNashEq := fun _ => .ok true, isFeasible := .ok (false, true),
    timeRemainingAfter := 10 }

/-- A run of two passes with one player and encoding size `1`: in the first pass the incumbent
is the root, in the second pass it is the child made by branching on bit `0`. -/
def exampleInputs (tl : ℚ) : Nat → IterationInput :=
  fun k => if k = 1 then examplePass 0 tl else examplePass 1 tl

end OuterApproximation

end EPEC

end Algorithms
/-! ## The separation oracle (`Algorithms::EPEC::OuterApproximation::separationOracle`) -/

namespace Algorithms

namespace EPEC

namespace OuterApproximation

/-- Gurobi's status code `GRB_OPTIMAL`. -/
def GRB_OPTIMAL : Int := 2

/-- Gurobi's status code `GRB_UNBOUNDED`. -/
def GRB_UNBOUNDED : Int := 5

/-- What `separationOracle` reads and writes for its player: the cut pool of the player's
`PolyLCP`, the matrices `V` and `R` of the player's tree, the flags `Feasible` and `Pure` of
the tree (set by `setFeasible()` and `setPure()`), and the reference argument `addedCuts`. -/
structure SeparationState where
  pool : CutPool ℚ
  V : Mat ℚ
  R : Mat ℚ
  Feasible : Bool
  Pure : Bool
  addedCuts : Bool

/-- The data of a call of `separationOracle` that no pass changes: `getNumCols()` of the
player's `PolyLCP`, `this->Tolerance`, the tolerance `poolTol` that `containsCut(lhs, rhs)`
takes by default, and the point `xOfI`. -/
structure SeparationData where
  numCols : Nat
  Tolerance : ℚ
  poolTol : ℚ
  xOfI : Vec ℚ

/-- The answers of the solver in one pass of the loop `for (k = 0; k < budget; ++k)`:
`status` and `solCount` of the membership LP `convexModel`; `inHull`, the outcome of the test
`convexModel.getObjective().getValue() == 0 && sol.max() == 0`; `pureSupport`, the outcome of
the test `support.max() == 1`; `y z i`, the value of the variable `y_i` in the solution number
`z`; and, for the leader model built for the solution number `z`, its status
`leaderStatus z`, its optimal value `cutV z` and the value `vertex z i` of its variable
`x_i`. -/
structure SeparationAnswers where
  status : Int
  solCount : Int
  inHull : Bool
  pureSupport : Bool
  y : Nat → Nat → ℚ
  leaderStatus : Nat → Int
  cutV : Nat → ℚ
  vertex : Nat → Nat → ℚ

/-- Model of `OuterTree::addVertex(vertex)` and of `OuterTree::addRay(ray)`, which have the
same body: the matrix `V` (or `R`) after the call. -/
def addVertex (V : Mat ℚ) (vertex : Vec ℚ) : Except Exn (Mat ℚ) :=
  if vertex.n_rows ≠ V.n_cols ∧ V.n_rows > 0 then .error (Exn.zero ZEROErrorCode.OutOfRange)
  else Mat.join_cols V (Mat.ofRow vertex)

/-- The entry `(a.t() * b).at(0)`, a double.  Armadillo raises when the lengths differ. -/
def dot (ops : DoubleOps ℚ) (a b : Vec ℚ) : Except Exn ℚ :=
  if a.n_rows ≠ b.n_rows then .error Exn.arma else .ok (ops.dot a b)

/-- The vector `V.row(0).t()`.  Armadillo raises when `V` has no row. -/
def row0 (V : Mat ℚ) : Except Exn (Vec ℚ) :=
  if V.n_rows = 0 then .error Exn.arma else .ok ⟨V.n_cols, fun j => V.val 0 j⟩

/-- How one pass of the loop of `separationOracle` ends: the function returns `value`, or the
loop goes on to the next pass. -/
inductive PassOutcome where
  | ret (value : Bool) (s : SeparationState)
  | next (s : SeparationState)

/-- The body of the loop `for (z = 0; z < SolCount; ++z)` of `separationOracle` for the
solution number `z`.  Every path through the body leaves the loop, by `return`, by `break` or
by `throw`. -/
def separationBody (ops : DoubleOps ℚ) (d : SeparationData) (a : SeparationAnswers)
    (s : SeparationState) (z : Nat) : Except Exn PassOutcome :=
  if a.leaderStatus z = GRB_OPTIMAL then
    dot ops ⟨d.xOfI.n_rows, a.y z⟩ d.xOfI >>= fun val =>
    row0 s.V >>= fun v0 =>
    dot ops ⟨d.xOfI.n_rows, a.y z⟩ v0 >>= fun _ =>
    if ops.sub (a.cutV z) val < - d.Tolerance then
      Utils.resizePatch (Mat.ofRow ⟨d.xOfI.n_rows, a.y z⟩) 1 d.numCols >>= fun cutL =>
      Utils.resizePatchVec ⟨d.xOfI.n_rows, a.y z⟩ d.numCols >>= fun lhs =>
      if containsCut ops s.pool lhs (a.cutV z) d.poolTol then .ok (.next s)
      else
        addCustomCuts s.pool cutL ⟨1, fun _ => a.cutV z⟩ >>= fun pool1 =>
        .ok (.ret false { s with pool := pool1, addedCuts := true })
    else
      if Utils.containsRow ops s.V ⟨s.V.n_cols, a.vertex z⟩ d.Tolerance then .ok (.next s)
      else
        addVertex s.V ⟨s.V.n_cols, a.vertex z⟩ >>= fun V1 => .ok (.next { s with V := V1 })
  else if a.leaderStatus z = GRB_UNBOUNDED then
    if !Utils.containsRow ops s.R ⟨d.xOfI.n_rows, a.y z⟩ d.Tolerance then
      addVertex s.R ⟨d.xOfI.n_rows, a.y z⟩ >>= fun R1 => .ok (.next { s with R := R1 })
    else .ok (.next s)
  else .error (Exn.zero ZEROErrorCode.Assertion)

/-- One pass of the loop `for (k = 0; k < budget; ++k)` of `separationOracle`.  Since every
path through the body of the loop over `z` leaves that loop, the body runs for `z = 0`
only, when `SolCount` is positive. -/
def separationPass (ops : DoubleOps ℚ) (d : SeparationData) (a : SeparationAnswers)
    (s : SeparationState) : Except Exn PassOutcome :=
  if a.status = GRB_OPTIMAL ∧ a.solCount = 1 ∧ a.inHull = true then
    .ok (.ret true { s with Feasible := true, Pure := a.pureSupport || s.Pure })
  else if a.status = GRB_OPTIMAL then
    if 0 < a.solCount then separationBody ops d a s 0 else .ok (.next s)
  else .error (Exn.zero ZEROErrorCode.Assertion)

/-- The loop `for (k = 0; k < budget; ++k)` of `separationOracle`, over the list of the
values of `k` still to run; `answers k` are the answers of the solver in the pass `k`.  The
result is the returned value, `none` when the loop ends without `return`, and the state. -/
def separationLoop (ops : DoubleOps ℚ) (d : SeparationData)
    (answers : Nat → SeparationAnswers) (s : SeparationState) :
    List Nat → Except Exn (Option Bool × SeparationState)
  | [] => .ok (none, s)
  | k :: ks =>
    separationPass ops d (answers k) s >>= fun o =>
    match o with
    | .ret b s1 => .ok (some b, s1)
    | .next s1 => separationLoop ops d answers s1 ks

/-- Model of `OuterApproximation::separationOracle(xOfI, x, player, budget, addedCuts)`: the
returned value and the state after the call, or what is raised. -/
def separationOracle (ops : DoubleOps ℚ) (d : SeparationData) (budget : Int)
    (answers : Nat → SeparationAnswers) (s : SeparationState) :
    Except Exn (Bool × SeparationState) :=
  separationLoop ops d answers s (List.range budget.toNat) >>= fun r =>
  .ok (r.1.getD false, r.2)

/-- The pool `pool` with the cut `y ξ ≤ v` appended, the row `y` padded with zeros to
`numCols` columns. -/
def poolWithCut (pool : CutPool ℚ) (numCols : Nat) (y : Vec ℚ) (v : ℚ) : CutPool ℚ :=
  ⟨⟨pool.Acut.n_rows + 1, numCols, fun i j =>
      if i < pool.Acut.n_rows then pool.Acut.val i j
      else if i = pool.Acut.n_rows ∧ j < y.n_rows then y.val j else 0⟩,
    Vec.join_cols pool.bcut ⟨1, fun _ => v⟩⟩

/-- The vector `y` padded with zeros to `numCols` entries. -/
def padded (y : Vec ℚ) (numCols : Nat) : Vec ℚ :=
  ⟨numCols, fun j => if j < y.n_rows then y.val j else 0⟩

/-- A call of `separationOracle` for a player with one variable in a `PolyLCP` of two
columns: the point is `xOfI = (1)` and the tolerances are `1/2`. -/
def exampleSeparation : SeparationData := ⟨2, 1 / 2, 1 / 2, ⟨1, fun _ => 1⟩⟩

/-- Answers of the solver: the membership LP is optimal with one solution, the point is not
in the hull, the direction is `y = (1)`, the leader model is optimal with value `0` at the
vertex `(0)`. -/
def exampleAnswers : SeparationAnswers :=
  ⟨2, 1, false, false, fun _ _ => 1, fun _ => 2, fun _ => 0, fun _ _ => 0⟩

/-- A state of the oracle with the known vertex `(0)`, no ray, and the cut pool `pool`. -/
def exampleState (pool : CutPool ℚ) : SeparationState :=
  ⟨pool, ⟨1, 1, fun _ _ => 0⟩, Mat.zeros 0 0, false, false, false⟩

/-- The cut pool that holds the cut `(1, 0) ξ ≤ 0` only. -/
def examplePool : CutPool ℚ :=
  ⟨⟨1, 2, fun _ j => if j = 0 then 1 else 0⟩, ⟨1, fun _ => 0⟩⟩

end OuterApproximation

end EPEC

end Algorithms
/-! ## The feasibility pass (`Algorithms::EPEC::OuterApproximation::isFeasible`) -/

namespace Algorithms

namespace EPEC

namespace OuterApproximation

/-- What one pass of the loop of `isFeasible` reads for a player: the payoff
`currentPayoffs.at(i)`, and the outcomes of the calls the pass can make for the player, each
of which may raise.  `respondSol` is the value `val` that `respondSol` returns, or what it
raises; `addValueCut` is the outcome
of `getXMinusI` followed by `addValueCut(i, val, xMinusI)`; `vertex` the outcome of `getXofI`,
of the extraction `bestResponse.subvec(0, xOfI.size() - 1)` and of the test
`Utils::containsRow(V, vertex, Tolerance)` (whether the best response is already a row of the
tree's `V`); `addVertex` the outcome of `addVertex(vertex)`; `coincide` the outcome of the
test `Utils::isZero(xOfI - bestResponse.subvec(0, xOfI.size() - 1), Tolerance)`, on the same
view as the one that `vertex` has extracted; `oracle` the outcome of `separationOracle`: the
returned value, and whether the call has set `addedCuts` (which it never clears). -/
structure PlayerData (α : Type) where
  payoff : α
  respondSol : Except Exn α
  addValueCut : Except Exn Unit
  vertex : Except Exn Bool
  addVertex : Except Exn Unit
  coincide : Bool
  oracle : Except Exn (Bool × Bool)

/-- The calls that `isFeasible` makes on the trees and the cut pools, player by player: an
event is recorded when the call is made. -/
inductive Event where
  | resetFeasibility (i : Nat)
  | respondSol (i : Nat)
  | addValueCut (i : Nat)
  | addVertex (i : Nat)
  | separationOracle (i : Nat)
  | setFeasible (i : Nat)
  | setPure (i : Nat)
  deriving DecidableEq, Repr

/-- The player that an event of the feasibility pass concerns. -/
def Event.player : Event → Nat
  | .resetFeasibility i => i
  | .respondSol i => i
  | .addValueCut i => i
  | .addVertex i => i
  | .separationOracle i => i
  | .setFeasible i => i
  | .setPure i => i

/-- How the body of the loop of `isFeasible` ends for one player: an exception is raised, the
function returns false with `addedCuts = false` (unbounded best response), or the loop goes
on to the next player with the given values of `result` and `addedCuts`. -/
inductive StepOutcome where
  | raise (e : Exn)
  | stop
  | next (result addedCuts : Bool)

/-- The end of the body of the loop of `isFeasible`, from the test `Utils::isZero` on: `evs`
are the events of the player recorded so far. -/
def strategyCheck {α : Type} (p : PlayerData α) (i : Nat) (result addedCuts : Bool)
    (evs : List Event) : List Event × StepOutcome :=
  if p.coincide then (evs ++ [Event.setFeasible i, Event.setPure i], .next result addedCuts)
  else
    match p.oracle with
    | .error e => (evs ++ [Event.separationOracle i], .raise e)
    | .ok r =>
      (evs ++ [Event.separationOracle i],
        .next (if r.1 then result else false) (addedCuts || r.2))

/-- The branch of the body of the loop of `isFeasible` in which the payoff coincides with the
value of the best response, within the tolerance. -/
def vertexBranch {α : Type} (p : PlayerData α) (i : Nat) (result addedCuts : Bool) :
    List Event × StepOutcome :=
  match p.vertex with
  | .error e => ([], .raise e)
  | .ok true => strategyCheck p i result addedCuts []
  | .ok false =>
    match p.addVertex with
    | .error e => ([Event.addVertex i], .raise e)
    | .ok _ => strategyCheck p i result addedCuts [Event.addVertex i]

/-- The body of the loop of `isFeasible` for the player `i`, once `respondSol` has returned
`val`.  `inf` stands for `GRB_INFINITY`; the difference `currentPayoffs.at(i) - val` is the one
of doubles. -/
def valueStep {α : Type} [LinearOrderedField α] (ops : DoubleOps α) (tol inf : α)
    (p : PlayerData α) (val : α) (i : Nat) (result addedCuts : Bool) :
    List Event × StepOutcome :=
  if val = inf then ([Event.resetFeasibility i, Event.respondSol i], .stop)
  else if |ops.sub p.payoff val| > tol then
    if ops.sub p.payoff val > tol then
      ([Event.resetFeasibility i, Event.respondSol i], .raise (Exn.zero ZEROErrorCode.Numeric))
    else
      match p.addValueCut with
      | .error e =>
        ([Event.resetFeasibility i, Event.respondSol i, Event.addValueCut i], .raise e)
      | .ok _ =>
        ([Event.resetFeasibility i, Event.respondSol i, Event.addValueCut i],
          .next false addedCuts)
  else
    ([Event.resetFeasibility i, Event.respondSol i] ++ (vertexBranch p i result addedCuts).1,
      (vertexBranch p i result addedCuts).2)

/-- The body of the loop `for (i = 0; i < NumPlayers; ++i)` of `isFeasible` for the player
`i`: the events it records and how it ends. -/
def playerStep {α : Type} [LinearOrderedField α] (ops : DoubleOps α) (tol inf : α)
    (p : PlayerData α) (i : Nat) (result addedCuts : Bool) : List Event × StepOutcome :=
  match p.respondSol with
  | .error e => ([Event.resetFeasibility i, Event.respondSol i], .raise e)
  | .ok val => valueStep ops tol inf p val i result addedCuts

/-- The loop `for (i = 0; i < NumPlayers; ++i)` of `isFeasible` from player `i` on; the state
is `result`, `addedCuts` and the events so far.  The result is the events recorded, and the
returned value with the value left in `addedCuts`, or what is raised. -/
def isFeasibleLoop {α : Type} [LinearOrderedField α] (ops : DoubleOps α) (tol inf : α) :
    List (PlayerData α) → Nat → Bool → Bool → List Event →
    List Event × Except Exn (Bool × Bool)
  | [], _, result, addedCuts, tr => (tr, .ok (result, addedCuts))
  | p :: ps, i, result, addedCuts, tr =>
    match (playerStep ops tol inf p i result addedCuts).2 with
    | .raise e => (tr ++ (playerStep ops tol inf p i result addedCuts).1, .error e)
    | .stop => (tr ++ (playerStep ops tol inf p i result addedCuts).1, .ok (false, false))
    | .next r a =>
      isFeasibleLoop ops tol inf ps (i + 1) r a
        (tr ++ (playerStep ops tol inf p i result addedCuts).1)

/-- Model of `OuterApproximation::isFeasible(addedCuts)`: the events recorded, and the return
value with the value left in `addedCuts`, or what is raised.  `nashEquilibrium` is
`EPECObject->NashEquilibrium`, `objectiveValues` the outcome of the call of
`computeQPObjectiveValues` that fills `currentPayoffs` (it returns, or it raises), `players`
the data of the `NumPlayers` players. -/
def isFeasible {α : Type} [LinearOrderedField α] (ops : DoubleOps α) (nashEquilibrium : Bool)
    (objectiveValues : Except Exn Unit) (tol inf : α) (players : List (PlayerData α))
    (addedCuts : Bool) : List Event × Except Exn (Bool × Bool) :=
  if !nashEquilibrium then ([], .ok (false, addedCuts))
  else
    match objectiveValues with
    | .error e => ([], .error e)
    | .ok _ => isFeasibleLoop ops tol inf players 0 true addedCuts []

/-- In the branch where the payoffs coincide, the calls made for the player all return. -/
def VertexPasses {α : Type} (p : PlayerData α) : Prop :=
  (p.vertex = .ok true ∨ (p.vertex = .ok false ∧ p.addVertex = .ok ())) ∧
  (p.coincide = true ∨ ∃ r, p.oracle = .ok r)

/-- In the branch where the payoffs coincide, a call made for the player raises `e`. -/
def VertexRaises {α : Type} (p : PlayerData α) (e : Exn) : Prop :=
  p.vertex = .error e ∨ (p.vertex = .ok false ∧ p.addVertex = .error e) ∨
  ((p.vertex = .ok true ∨ (p.vertex = .ok false ∧ p.addVertex = .ok ())) ∧
    p.coincide = false ∧ p.oracle = .error e)

/-- Once `respondSol` has returned `v`, the inspection of the player completes: `v` is
finite, and either the player gets a value cut and `addValueCut` returns, or the payoffs
coincide and the calls made for the player return. -/
def PassesWith {α : Type} [LinearOrderedField α] (ops : DoubleOps α) (tol inf : α)
    (p : PlayerData α) (v : α) : Prop :=
  v ≠ inf ∧
  ((|ops.sub p.payoff v| > tol ∧ ¬ ops.sub p.payoff v > tol ∧ p.addValueCut = .ok ()) ∨
    (¬ |ops.sub p.payoff v| > tol ∧ VertexPasses p))

/-- Once `respondSol` has returned `v`, the inspection of the player raises `e`: `v` is
finite, and either the double difference `payoff - v` exceeds the tolerance and `e` is the
`Numeric` fault that `isFeasible` throws, or `e` is raised by a call made for the player. -/
def RaisesWith {α : Type} [LinearOrderedField α] (ops : DoubleOps α) (tol inf : α)
    (p : PlayerData α) (v : α) (e : Exn) : Prop :=
  v ≠ inf ∧
  ((ops.sub p.payoff v > tol ∧ e = Exn.zero ZEROErrorCode.Numeric) ∨
    (|ops.sub p.payoff v| > tol ∧ ¬ ops.sub p.payoff v > tol ∧ p.addValueCut = .error e) ∨
    (¬ |ops.sub p.payoff v| > tol ∧ VertexRaises p e))

/-- The inspection of the player completes, so that the pass goes on to the next player:
`respondSol` returns a finite value and nothing is raised afterwards. -/
def Passes {α : Type} [LinearOrderedField α] (ops : DoubleOps α) (tol inf : α)
    (p : PlayerData α) : Prop :=
  ∃ v, p.respondSol = .ok v ∧ PassesWith ops tol inf p v

/-- The inspection of the player raises `e`: `respondSol` raises it, or it is raised once
`respondSol` has returned. -/
def Raises {α : Type} [LinearOrderedField α] (ops : DoubleOps α) (tol inf : α)
    (p : PlayerData α) (e : Exn) : Prop :=
  p.respondSol = .error e ∨ ∃ v, p.respondSol = .ok v ∧ RaisesWith ops tol inf p v e

/-- The pass reaches the `m`-th of `players`: there is one, and the inspection of every player
before it has completed. -/
def Reached {α : Type} [LinearOrderedField α] (ops : DoubleOps α) (tol inf : α)
    (players : List (PlayerData α)) (m : Nat) : Prop :=
  m < players.length ∧
  ∀ (k : Nat) (q : PlayerData α), k < m → players[k]? = some q → Passes ops tol inf q

/-- The player is found infeasible: `respondSol` returns a finite value, and the player gets a
value cut (and `addValueCut` returns), or the separation oracle is called for it and answers
negatively. -/
def FoundInfeasible {α : Type} [LinearOrderedField α] (ops : DoubleOps α) (tol inf : α)
    (p : PlayerData α) : Prop :=
  ∃ v, p.respondSol = .ok v ∧ v ≠ inf ∧
  ((|ops.sub p.payoff v| > tol ∧ ¬ ops.sub p.payoff v > tol ∧ p.addValueCut = .ok ()) ∨
    (¬ |ops.sub p.payoff v| > tol ∧
      (p.vertex = .ok true ∨ (p.vertex = .ok false ∧ p.addVertex = .ok ())) ∧
      p.coincide = false ∧ ∃ c, p.oracle = .ok (false, c)))

/-- A player with payoff `a` and best-response value `b` whose calls all return: the best
response is not a known vertex, coincides with the strategy or not (`co`), and the oracle
answers `true` without cuts. -/
def examplePlayer (a b : ℚ) (co : Bool) : PlayerData ℚ :=
  ⟨a, .ok b, .ok (), .ok false, .ok (), co, .ok (true, false)⟩

end OuterApproximation

end EPEC

end Algorithms
/-! # Theorems -/

/-! ## Theorems: the encoding codec -/

namespace Utils

theorem lsbVal_lt (l : List Int) : lsbVal l < 2 ^ l.length := by
  induction l with
  | nil => simp [lsbVal]
  | cons x xs ih =>
    simp only [lsbVal, List.length_cons, pow_succ]
    split <;> omega

theorem vecToNumStep_pm (num posn : Nat) (x : Int) (hx : x = -1 ∨ x = 1) (hp : posn < 2 ^ 32) :
    vecToNumStep (num, posn) x
      = ((num + (if x = 1 then 1 else 0) * posn) % 2 ^ 64, (posn * 2) % 2 ^ 32) := by
  rcases hx with rfl | rfl
  · simp [vecToNumStep]
  · simp [vecToNumStep]; omega

theorem foldl_vecToNumStep (l : List Int) : ∀ (t num : Nat),
    (∀ x ∈ l, x = -1 ∨ x = 1) → t + l.length ≤ 32 → num + 2 ^ t * lsbVal l < 2 ^ 64 →
    (l.foldl vecToNumStep (num, 2 ^ t % 2 ^ 32)).1 = num + 2 ^ t * lsbVal l := by
  induction l with
  | nil => intro t num _ _ _; simp [lsbVal]
  | cons x xs ih =>
    intro t num hpm hlen hlt
    have hx := hpm x (List.mem_cons_self _ _)
    simp only [List.length_cons] at hlen
    have ht : t < 32 := by omega
    have h2t : 2 ^ t < 2 ^ 32 := Nat.pow_lt_pow_right (by norm_num) ht
    simp only [lsbVal] at hlt
    have e1 : 2 ^ t * ((if x = 1 then 1 else 0) + 2 * lsbVal xs)
        = (if x = 1 then 1 else 0) * 2 ^ t + 2 ^ (t + 1) * lsbVal xs := by
      rw [pow_succ]; ring
    rw [e1] at hlt
    have hsmall : num + (if x = 1 then 1 else 0) * 2 ^ t < 2 ^ 64 := by omega
    rw [List.foldl_cons, Nat.mod_eq_of_lt h2t, vecToNumStep_pm num (2 ^ t) x hx h2t,
      Nat.mod_eq_of_lt hsmall, ← pow_succ]
    rw [ih (t + 1) _ (fun y hy => hpm y (List.mem_cons_of_mem _ hy)) (by omega) (by omega)]
    simp only [lsbVal]
    rw [e1]; ring

theorem vecToNum_eq_lsbVal (v : List Int) (hpm : ∀ x ∈ v, x = -1 ∨ x = 1)
    (hlen : v.length ≤ 32) : vecToNum v = lsbVal v.reverse := by
  have h := foldl_vecToNumStep v.reverse 0 0 (by simpa using hpm) (by simpa using hlen)
    (by
      have := lsbVal_lt v.reverse
      have h2 : 2 ^ v.reverse.length ≤ 2 ^ 32 :=
        Nat.pow_le_pow_right (by norm_num) (by simpa using hlen)
      have h3 : (2:Nat) ^ 32 < 2 ^ 64 := by norm_num
      simp only [pow_zero, one_mul, zero_add]
      omega)
  simpa [vecToNum] using h

theorem numToVecLoop_lsbVal (l : List Int) : ∀ acc : List Int,
    numToVecLoop l.length (lsbVal l) acc
      = acc ++ l.map (fun x => if x = 1 then (1 : Int) else 0) := by
  induction l with
  | nil => intro acc; simp [numToVecLoop]
  | cons x xs ih =>
    intro acc
    have h1 : lsbVal (x :: xs) / 2 = lsbVal xs := by
      simp only [lsbVal]; split <;> omega
    have h2 : ((lsbVal (x :: xs) % 2 : Nat) : Int) = if x = 1 then (1 : Int) else 0 := by
      simp only [lsbVal]; split <;> simp
    simp only [List.length_cons, numToVecLoop, h1, h2, ih]
    simp

theorem numToVecLoop_range (k : Nat) : ∀ (n : Nat) (acc : List Int),
    numToVecLoop k n acc
      = acc ++ (List.range k).map (fun i => ((n / 2 ^ i % 2 : Nat) : Int)) := by
  induction k with
  | zero => intro n acc; simp [numToVecLoop]
  | succ k ih =>
    intro n acc
    simp only [numToVecLoop, ih, List.range_succ_eq_map, List.map_cons, List.map_map,
      List.append_assoc, List.singleton_append, pow_zero, Nat.div_one]
    congr 2
    apply List.map_congr_left
    intro i _
    simp [Function.comp, pow_succ, Nat.div_div_eq_div_mul, Nat.mul_comm]

theorem lsbVal_reverse_sum (v : List Int) (hpm : ∀ x ∈ v, x = -1 ∨ x = 1) :
    lsbVal v.reverse = ∑ i ∈ Finset.range v.length,
      Int.toNat (Int.tdiv (v.getD i 0 + 1) 2) * 2 ^ (v.length - 1 - i) := by
  induction v using List.reverseRecOn with
  | nil => simp [lsbVal]
  | append_singleton w x ih =>
    have ihw := ih (fun y hy => hpm y (by simp [hy]))
    have hx : x = -1 ∨ x = 1 := hpm x (by simp)
    have hbit : (if x = 1 then 1 else 0) = Int.toNat (Int.tdiv (x + 1) 2) := by
      rcases hx with rfl | rfl <;> simp
    rw [List.reverse_append, List.reverse_singleton, List.singleton_append, lsbVal, ihw,
      List.length_append, List.length_singleton, Finset.sum_range_succ, Finset.mul_sum]
    have hlast : (w ++ [x]).getD w.length 0 = x := by simp [List.getD_eq_getElem?_getD]
    rw [hlast, hbit]
    have hsum : ∀ i ∈ Finset.range w.length,
        2 * (Int.toNat (Int.tdiv (w.getD i 0 + 1) 2) * 2 ^ (w.length - 1 - i))
          = Int.toNat (Int.tdiv ((w ++ [x]).getD i 0 + 1) 2) * 2 ^ (w.length + 1 - 1 - i) := by
      intro i hi
      have hi' : i < w.length := Finset.mem_range.mp hi
      have hget : (w ++ [x]).getD i 0 = w.getD i 0 := by
        simp [List.getD_eq_getElem?_getD, List.getElem?_append_left hi']
      have hpow : w.length + 1 - 1 - i = (w.length - 1 - i) + 1 := by omega
      rw [hget, hpow, pow_succ]; ring
    rw [Finset.sum_congr rfl hsum]
    simp
    ring

theorem numToVec_getD (number K i : Nat) (hi : i < K) :
    (numToVec number K).getD i 0 = if number / 2 ^ (K - 1 - i) % 2 = 0 then -1 else 1 := by
  have hlen : ((List.range K).map (fun i => ((number / 2 ^ i % 2 : Nat) : Int))).length = K := by
    simp
  rw [numToVec, numToVecLoop_range, List.nil_append, List.map_map, List.getD_eq_getElem?_getD,
    List.getElem?_reverse (by simpa using hi)]
  simp only [List.length_map, List.length_range, List.getElem?_map]
  rw [List.getElem?_range (by omega)]
  simp only [Option.map_some', Function.comp, Option.getD_some]
  have h2 : number / 2 ^ (K - 1 - i) % 2 = 0 ∨ number / 2 ^ (K - 1 - i) % 2 = 1 := by omega
  rcases h2 with h | h <;> simp [h]

end Utils

/-- C6 (as stated, refuted): a length-33 vector over `{-1, +1}` that the round trip does not
give back, since the 32-bit place value of `vecToNum` has wrapped to `0` when its first entry
is read. -/
theorem C6_roundTrip_fails_at_33 :
    (∀ x ∈ (1 :: List.replicate 32 (-1) : List Int), x = -1 ∨ x = 1) ∧
    (1 :: List.replicate 32 (-1) : List Int).length = 33 ∧
    Utils.vecToNum (1 :: List.replicate 32 (-1)) = 0 ∧
    Utils.numToVec (Utils.vecToNum (1 :: List.replicate 32 (-1))) 33
      ≠ 1 :: List.replicate 32 (-1) := by
  refine ⟨?_, by decide, by decide, by decide⟩
  intro x hx
  simp only [List.mem_cons, List.mem_replicate] at hx
  rcases hx with rfl | ⟨_, rfl⟩ <;> simp

/-- C6 (amended): encoding round trip.  For every vector `v` over `{-1, +1}` of length
`K ≤ 32`, `numToVec (vecToNum v) K = v`. -/
theorem C6_roundTrip (v : List Int) (hpm : ∀ x ∈ v, x = -1 ∨ x = 1) (hlen : v.length ≤ 32) :
    Utils.numToVec (Utils.vecToNum v) v.length = v := by
  rw [Utils.vecToNum_eq_lsbVal v hpm hlen, Utils.numToVec]
  have h := Utils.numToVecLoop_lsbVal v.reverse []
  rw [List.length_reverse] at h
  rw [h, List.nil_append, List.map_map, ← List.map_reverse, List.reverse_reverse]
  conv_rhs => rw [← List.map_id v]
  apply List.map_congr_left
  intro x hx
  rcases hpm x hx with rfl | rfl <;> simp

/-- The round trip of C6 at `v = [1, -1, 1, 1]`. -/
theorem C6_roundTrip_witness :
    (∀ x ∈ ([1, -1, 1, 1] : List Int), x = -1 ∨ x = 1) ∧ ([1, -1, 1, 1] : List Int).length ≤ 32 ∧
    Utils.numToVec (Utils.vecToNum [1, -1, 1, 1]) ([1, -1, 1, 1] : List Int).length
      = [1, -1, 1, 1] :=
  ⟨by decide, by decide, C6_roundTrip [1, -1, 1, 1] (by decide) (by decide)⟩

/-- C7: value of the codec.  For a vector `enc` over `{-1, +1}` of length `K ≤ 32`,
`vecToNum enc` is the sum over `i < K` of `((enc[i] + 1) / 2) * 2 ^ (K - 1 - i)`: entry `i` is
the bit of weight `2 ^ (K - 1 - i)`, so `enc[0]` is the most significant one.  `numToVec`
emits its entries in the same order: entry `i` of `numToVec number K` is `-1` when the bit of
weight `2 ^ (K - 1 - i)` of `number` is `0`, and `+1` otherwise. -/
theorem C7_vecToNum_value (enc : List Int) (hpm : ∀ x ∈ enc, x = -1 ∨ x = 1)
    (hlen : enc.length ≤ 32) :
    Utils.vecToNum enc = ∑ i ∈ Finset.range enc.length,
        Int.toNat (Int.tdiv (enc.getD i 0 + 1) 2) * 2 ^ (enc.length - 1 - i) ∧
    ∀ number i : Nat, i < enc.length →
      (Utils.numToVec number enc.length).getD i 0
        = if number / 2 ^ (enc.length - 1 - i) % 2 = 0 then -1 else 1 :=
  ⟨by rw [Utils.vecToNum_eq_lsbVal enc hpm hlen, Utils.lsbVal_reverse_sum enc hpm],
   fun number i hi => Utils.numToVec_getD number enc.length i hi⟩

/-- The value of the codec of C7 at `enc = [1, -1, -1]`. -/
theorem C7_vecToNum_value_witness :
    Utils.vecToNum [1, -1, -1] = ∑ i ∈ Finset.range 3,
        Int.toNat (Int.tdiv (([1, -1, -1] : List Int).getD i 0 + 1) 2) * 2 ^ (3 - 1 - i) ∧
    ∀ number i : Nat, i < 3 →
      (Utils.numToVec number 3).getD i 0 = if number / 2 ^ (3 - 1 - i) % 2 = 0 then -1 else 1 :=
  C7_vecToNum_value [1, -1, -1] (by decide) (by decide)

/-! ## Theorems: containment tests and `resizePatch` -/

namespace Utils

variable {α : Type}

theorem rowMatches_iff [LinearOrderedField α] (ops : DoubleOps α) (A : Mat α) (row : Vec α)
    (tol : α) (i : Nat) :
    rowMatches ops A row tol i = true ↔
      ∀ j < A.n_cols, |ops.sub (row.val j) (A.val i j)| ≤ tol := by
  simp only [rowMatches, List.all_eq_true, List.mem_range, Bool.not_eq_true',
    decide_eq_false_iff_not, not_lt, gt_iff_lt]

theorem containsRow_iff [LinearOrderedField α] (ops : DoubleOps α) (A : Mat α) (row : Vec α)
    (tol : α) (hl : row.n_rows = A.n_cols) :
    containsRow ops A row tol = true ↔
      ∃ i, i < A.n_rows ∧ ∀ j < A.n_cols, |ops.sub (row.val j) (A.val i j)| ≤ tol := by
  simp only [containsRow, hl, ne_eq, not_true_eq_false, if_false, List.any_eq_true,
    List.mem_range, rowMatches_iff]

theorem containsRow_true_cols [LinearOrderedField α] (ops : DoubleOps α) (A : Mat α)
    (row : Vec α) (tol : α) (h : containsRow ops A row tol = true) : row.n_rows = A.n_cols := by
  by_contra hne
  simp [containsRow, hne] at h

end Utils

/-- C8 (as stated, refuted): with `A = [0]`, `b = [1]`, `lhs = [0]`, `rhs = 0` and `tol = 1`
(values on which the double differences are exact) row `0` satisfies
`|A(0,0) - lhs(0)| ≤ tol` and `|b(0) - rhs| ≤ tol`, and `containsConstraint` returns false:
the source compares the right-hand side with `std::abs(b.at(i) - rhs) < tol`. -/
theorem C8_containsConstraint_boundary :
    (0 : ℚ) ≤ 1 ∧
    (⟨1, fun _ => 1⟩ : Vec ℚ).n_rows = (⟨1, 1, fun _ _ => 0⟩ : Mat ℚ).n_rows ∧
    (⟨1, fun _ => 0⟩ : Vec ℚ).n_rows = (⟨1, 1, fun _ _ => 0⟩ : Mat ℚ).n_cols ∧
    Utils.containsConstraint DoubleOps.unrounded (⟨1, 1, fun _ _ => 0⟩ : Mat ℚ)
      ⟨1, fun _ => 1⟩ ⟨1, fun _ => 0⟩ 0 1 = false ∧
    ∃ i, i < (⟨1, 1, fun _ _ => 0⟩ : Mat ℚ).n_rows ∧
      (∀ j < (⟨1, 1, fun _ _ => 0⟩ : Mat ℚ).n_cols,
        |(⟨1, 1, fun _ _ => 0⟩ : Mat ℚ).val i j - (⟨1, fun _ => 0⟩ : Vec ℚ).val j| ≤ 1) ∧
      |(⟨1, fun _ => 1⟩ : Vec ℚ).val i - 0| ≤ 1 := by
  refine ⟨by norm_num, rfl, rfl, ?_, 0, by norm_num, ?_, by norm_num⟩
  · simp [Utils.containsConstraint, Utils.rowMatches, DoubleOps.unrounded]
  · intro j _; norm_num

/-- C8 (amended): constraint containment, on the differences the code computes.  For every
double subtraction `sub`, matrix `A`, vectors `b` and `lhs` with `lhs` of `A.n_cols` entries,
scalar `rhs` and tolerance `tol`, `containsConstraint` returns true if and only if some row
`i` has `|sub(lhs(j), A(i,j))| ≤ tol` for every column `j` and `|sub(b(i), rhs)| < tol`
(strictly), where `sub(x, y)` is the double `x - y`. -/
theorem C8_containsConstraint {α : Type} [LinearOrderedField α] (ops : DoubleOps α) (A : Mat α)
    (b lhs : Vec α) (rhs tol : α) (hl : lhs.n_rows = A.n_cols) :
    Utils.containsConstraint ops A b lhs rhs tol = true ↔
      ∃ i, i < A.n_rows ∧ (∀ j < A.n_cols, |ops.sub (lhs.val j) (A.val i j)| ≤ tol) ∧
        |ops.sub (b.val i) rhs| < tol := by
  simp only [Utils.containsConstraint, hl, ne_eq, not_true_eq_false, if_false, List.any_eq_true,
    List.mem_range, Bool.and_eq_true, Utils.rowMatches_iff, decide_eq_true_eq]

/-- The characterisation of C8 at a `2 x 2` matrix of small integers, with `tol = 1/2` and the
subtraction that does not round. -/
theorem C8_containsConstraint_witness :
    (⟨2, fun j => (j : ℚ)⟩ : Vec ℚ).n_rows = (⟨2, 2, fun i j => (i : ℚ) + j⟩ : Mat ℚ).n_cols ∧
    (Utils.containsConstraint DoubleOps.unrounded (⟨2, 2, fun i j => (i : ℚ) + j⟩ : Mat ℚ)
        ⟨2, fun _ => 3⟩ ⟨2, fun j => (j : ℚ)⟩ 3 (1 / 2) = true ↔
      ∃ i, i < (⟨2, 2, fun i j => (i : ℚ) + j⟩ : Mat ℚ).n_rows ∧
        (∀ j < (⟨2, 2, fun i j => (i : ℚ) + j⟩ : Mat ℚ).n_cols,
          |(⟨2, fun j => (j : ℚ)⟩ : Vec ℚ).val j
            - (⟨2, 2, fun i j => (i : ℚ) + j⟩ : Mat ℚ).val i j| ≤ 1 / 2) ∧
        |(⟨2, fun _ => 3⟩ : Vec ℚ).val i - 3| < 1 / 2) :=
  ⟨rfl, C8_containsConstraint DoubleOps.unrounded _ _ _ _ _ rfl⟩

/-- C9: containment monotonicity.  If `containsRow A r tol` is true then, for every row `r'`
with `A.n_cols` entries, `A` with `r'` appended as a new last row is a matrix `A'` on which
`containsRow A' r tol` is true; this for every double subtraction. -/
theorem C9_containsRow_mono {α : Type} [LinearOrderedField α] (ops : DoubleOps α) (A : Mat α)
    (r r' : Vec α) (tol : α) (hr' : r'.n_rows = A.n_cols)
    (h : Utils.containsRow ops A r tol = true) :
    ∃ A', Mat.join_cols A (Mat.ofRow r') = .ok A' ∧ A'.n_rows = A.n_rows + 1 ∧
      A'.n_cols = A.n_cols ∧ (∀ i < A.n_rows, ∀ j, A'.val i j = A.val i j) ∧
      (∀ j, A'.val A.n_rows j = r'.val j) ∧ Utils.containsRow ops A' r tol = true := by
  have hcols := Utils.containsRow_true_cols ops A r tol h
  rw [Utils.containsRow_iff ops A r tol hcols] at h
  obtain ⟨i, hi, hrow⟩ := h
  refine ⟨⟨A.n_rows + 1, max A.n_cols r'.n_rows, fun i j =>
    if i < A.n_rows then A.val i j else r'.val j⟩, ?_, rfl, by simp [hr'], ?_, ?_, ?_⟩
  · simp [Mat.join_cols, Mat.ofRow, hr']
  · intro i hi j; simp [hi]
  · intro j; simp
  · rw [Utils.containsRow_iff ops _ r tol (by simp [hr', hcols])]
    refine ⟨i, by simp; omega, ?_⟩
    intro j hj
    simp only [hi, if_true]
    exact hrow j (by simpa [hr'] using hj)

/-- The monotonicity of C9 at `A = [0 1]`, `r = (0, 1)`, `r' = (7, 7)`, `tol = 0`, with the
subtraction that does not round. -/
theorem C9_containsRow_mono_witness :
    ∃ A', Mat.join_cols (⟨1, 2, fun _ j => (j : ℚ)⟩ : Mat ℚ) (Mat.ofRow ⟨2, fun _ => 7⟩)
        = .ok A' ∧ A'.n_rows = 1 + 1 ∧
      A'.n_cols = 2 ∧ (∀ i < 1, ∀ j, A'.val i j = (j : ℚ)) ∧
      (∀ j, A'.val 1 j = 7) ∧
      Utils.containsRow DoubleOps.unrounded A' ⟨2, fun j => (j : ℚ)⟩ 0 = true :=
  C9_containsRow_mono DoubleOps.unrounded (⟨1, 2, fun _ j => (j : ℚ)⟩ : Mat ℚ)
    ⟨2, fun j => (j : ℚ)⟩ ⟨2, fun _ => 7⟩ 0 rfl
    (by simp [Utils.containsRow, Utils.rowMatches, DoubleOps.unrounded])

namespace Utils

variable {α : Type}

theorem usub_one (n : Nat) (h : 1 ≤ n) : usub n 1 = n - 1 := by
  simp [usub, h]

theorem resizePatch_grow [Zero α] (M : Mat α) (nR nC : Nat) (hR : M.n_rows ≤ nR)
    (hC : M.n_cols ≤ nC) :
    ∃ M', resizePatch M nR nC = .ok M' ∧ M'.n_rows = nR ∧ M'.n_cols = nC ∧
      ∀ i j, M'.val i j = if i < M.n_rows ∧ j < M.n_cols then M.val i j else 0 := by
  unfold resizePatch
  simp only [ge_iff_le, hR, hC, and_self, if_true]
  by_cases h1 : 1 ≤ M.n_rows ∧ 1 ≤ M.n_cols
  · obtain ⟨hr1, hc1⟩ := h1
    simp only [hr1, hc1, and_self, if_true, usub_one, Mat.assignSubmat, Mat.zeros]
    have hcond : ¬ (0 > M.n_rows - 1 ∨ 0 > M.n_cols - 1 ∨ M.n_rows - 1 ≥ nR ∨ M.n_cols - 1 ≥ nC) := by
      omega
    have hsize : ¬ (M.n_rows ≠ M.n_rows - 1 - 0 + 1 ∨ M.n_cols ≠ M.n_cols - 1 - 0 + 1) := by
      omega
    rw [if_neg hcond, if_neg hsize]
    refine ⟨_, rfl, rfl, rfl, ?_⟩
    intro i j
    simp only [Nat.zero_le, true_and, Nat.sub_zero]
    by_cases hij : i < M.n_rows ∧ j < M.n_cols
    · have : i ≤ M.n_rows - 1 ∧ j ≤ M.n_cols - 1 := by omega
      simp [hij, this]
    · have : ¬ (i ≤ M.n_rows - 1 ∧ j ≤ M.n_cols - 1) := by omega
      simp [hij, this]
  · rw [if_neg h1]
    refine ⟨_, rfl, rfl, rfl, ?_⟩
    intro i j
    have : ¬ (i < M.n_rows ∧ j < M.n_cols) := by omega
    simp [this, Mat.zeros]

theorem resizePatchMat_eq [Zero α] (M : Mat α) (nR nC : Nat) :
    resizePatchMat M nR nC = resizePatch M nR nC := rfl

end Utils

/-- C10: resize-with-zero, growing.  For every `r x c` matrix `M` and every `nR ≥ r`,
`nC ≥ c`, both overloads of `resizePatch` return an `nR x nC` matrix whose entry `(i, j)` is
`M(i, j)` for `i < r` and `j < c` and `0` everywhere else (also when `r = 0` or `c = 0`). -/
theorem C10_resizePatch_grow {α : Type} [Zero α] (M : Mat α) (nR nC : Nat)
    (hR : M.n_rows ≤ nR) (hC : M.n_cols ≤ nC) :
    (∃ M', Utils.resizePatch M nR nC = .ok M' ∧ M'.n_rows = nR ∧ M'.n_cols = nC ∧
      ∀ i j, M'.val i j = if i < M.n_rows ∧ j < M.n_cols then M.val i j else 0) ∧
    (∃ M', Utils.resizePatchMat M nR nC = .ok M' ∧ M'.n_rows = nR ∧ M'.n_cols = nC ∧
      ∀ i j, M'.val i j = if i < M.n_rows ∧ j < M.n_cols then M.val i j else 0) :=
  ⟨Utils.resizePatch_grow M nR nC hR hC,
    by rw [Utils.resizePatchMat_eq]; exact Utils.resizePatch_grow M nR nC hR hC⟩

/-- The growth of C10 at a matrix with `2` rows and no column, resized to `3 x 2`. -/
theorem C10_resizePatch_grow_witness :
    (∃ M', Utils.resizePatch (⟨2, 0, fun _ _ => (5 : ℚ)⟩ : Mat ℚ) 3 2 = .ok M' ∧
      M'.n_rows = 3 ∧ M'.n_cols = 2 ∧
      ∀ i j, M'.val i j = if i < 2 ∧ j < 0 then (5 : ℚ) else 0) ∧
    (∃ M', Utils.resizePatchMat (⟨2, 0, fun _ _ => (5 : ℚ)⟩ : Mat ℚ) 3 2 = .ok M' ∧
      M'.n_rows = 3 ∧ M'.n_cols = 2 ∧
      ∀ i j, M'.val i j = if i < 2 ∧ j < 0 then (5 : ℚ) else 0) :=
  C10_resizePatch_grow (⟨2, 0, fun _ _ => (5 : ℚ)⟩ : Mat ℚ) 3 2 (by decide) (by decide)

/-! ## Theorems: the convex-hull builder -/

namespace Mat

variable {α : Type}

theorem ofTriplets_ok [Zero α] [DecidableEq α] (ts : List (Nat × Nat × α)) (nR nC : Nat)
    (hb : ∀ t ∈ ts, t.1 < nR ∧ t.2.1 < nC)
    (hnd : (ts.map fun t => (t.1, t.2.1)).Nodup) :
    ∃ M, ofTriplets ts nR nC = .ok M ∧ M.n_rows = nR ∧ M.n_cols = nC ∧
      ∀ r c v, (∀ t ∈ ts, t.1 = r → t.2.1 = c → t.2.2 = v) →
        ((∃ t ∈ ts, t.1 = r ∧ t.2.1 = c) ∨ v = 0) → M.val r c = v := by
  unfold ofTriplets
  have h1 : ((ts.filter fun t => t.2.2 ≠ 0).any
      (fun t => decide (t.1 ≥ nR ∨ t.2.1 ≥ nC))) = false := by
    rw [List.any_eq_false]
    intro t ht
    have := hb t (List.mem_of_mem_filter ht)
    simp only [ge_iff_le, decide_eq_true_eq]
    omega
  have h2 : ((ts.filter fun t => t.2.2 ≠ 0).map fun t => (t.1, t.2.1)).Nodup :=
    List.Nodup.sublist (List.Sublist.map _ (List.filter_sublist _)) hnd
  simp only [h1, Bool.false_eq_true, if_false, h2, not_true_eq_false]
  refine ⟨_, rfl, rfl, rfl, ?_⟩
  intro r c v hall hex
  simp only
  cases hf : (ts.filter fun t => t.2.2 ≠ 0).find? (fun t => decide (t.1 = r ∧ t.2.1 = c)) with
  | some t =>
    have hp := List.find?_some hf
    have hm := List.mem_of_find?_eq_some hf
    simp only [decide_eq_true_eq] at hp
    exact hall t (List.mem_of_mem_filter hm) hp.1 hp.2
  | none =>
    rcases hex with ⟨t, ht, htr, htc⟩ | hv
    · by_contra hne
      have hv : t.2.2 = v := hall t ht htr htc
      rw [List.find?_eq_none] at hf
      have : t ∈ ts.filter fun t => t.2.2 ≠ 0 := by
        rw [List.mem_filter]
        refine ⟨ht, ?_⟩
        simp only [ne_eq, decide_not, Bool.not_eq_true', decide_eq_false_iff_not]
        intro h0; exact hne (by rw [← hv, h0])
      have := hf t this
      simp [htr, htc] at this
    · exact hv.symm

end Mat

namespace Mat

variable {α : Type}

theorem mem_nonzeros [Zero α] [DecidableEq α] (M : Mat α) (t : Nat × Nat × α) :
    t ∈ M.nonzeros ↔
      t.1 < M.n_rows ∧ t.2.1 < M.n_cols ∧ M.val t.1 t.2.1 ≠ 0 ∧ t.2.2 = M.val t.1 t.2.1 := by
  obtain ⟨r, c, v⟩ := t
  simp only [nonzeros, List.mem_flatMap, List.mem_range, List.mem_map, List.mem_filter,
    decide_eq_true_eq, Prod.mk.injEq]
  constructor
  · rintro ⟨c', hc', r', ⟨hr', hne⟩, rfl, rfl, rfl⟩
    exact ⟨hr', hc', hne, rfl⟩
  · rintro ⟨hr, hc, hne, hv⟩
    exact ⟨c, hc, r, ⟨hr, hne⟩, rfl, rfl, hv.symm⟩

theorem nodup_nonzeros [Zero α] [DecidableEq α] (M : Mat α) : M.nonzeros.Nodup := by
  unfold nonzeros
  rw [List.nodup_flatMap]
  constructor
  · intro c _
    apply List.Nodup.map_on
    · intro x _ y _ h
      simp only [Prod.mk.injEq] at h
      exact h.1
    · exact (List.nodup_range _).filter _
  · apply List.Nodup.pairwise_of_forall_ne (List.nodup_range _)
    intro a _ b _ hab
    simp only [Function.onFun]
    rw [List.disjoint_left]
    intro t hta htb
    simp only [List.mem_map, List.mem_filter] at hta htb
    obtain ⟨_, _, rfl⟩ := hta
    obtain ⟨_, _, h⟩ := htb
    simp only [Prod.mk.injEq] at h
    exact hab h.2.1.symm

theorem nodup_nonzeros_shift [Zero α] [DecidableEq α] (M : Mat α) (R C : Nat) :
    ((M.nonzeros.map fun t => (R + t.1, C + t.2.1, t.2.2)).map
      fun t => (t.1, t.2.1)).Nodup := by
  rw [List.map_map]
  apply List.Nodup.map_on _ (nodup_nonzeros M)
  intro x hx y hy h
  simp only [Function.comp, Prod.mk.injEq] at h
  rw [mem_nonzeros] at hx hy
  obtain ⟨x1, x2, x3⟩ := x
  obtain ⟨y1, y2, y3⟩ := y
  simp only at hx hy h
  have h1 : x1 = y1 := by omega
  have h2 : x2 = y2 := by omega
  subst h1 h2
  rw [hx.2.2.2, hy.2.2.2]

end Mat

namespace MathOpt

variable {α : Type}

theorem rowStart_zero (Ai : List (Mat α)) (mc : Nat) : rowStart Ai mc 0 = 0 := by
  simp [rowStart]

theorem rowStart_cons_succ (A : Mat α) (As : List (Mat α)) (mc i : Nat) :
    rowStart (A :: As) mc (i + 1) = A.n_rows + mc + rowStart As mc i := by
  simp [rowStart]

theorem rowStart_length (Ai : List (Mat α)) (mc : Nat) :
    rowStart Ai mc Ai.length = (Ai.map fun A => A.n_rows).sum + Ai.length * mc := by
  induction Ai with
  | nil => simp [rowStart]
  | cons A As ih =>
    rw [List.length_cons, rowStart_cons_succ, ih]
    simp only [List.map_cons, List.sum_cons, Nat.succ_mul]
    omega

theorem rowStart_le_length (Ai : List (Mat α)) (mc i : Nat) (A : Mat α)
    (h : Ai[i]? = some A) : rowStart Ai mc i + A.n_rows + mc ≤ rowStart Ai mc Ai.length := by
  induction Ai generalizing i with
  | nil => simp at h
  | cons B Bs ih =>
    cases i with
    | zero =>
      simp only [List.getElem?_cons_zero, Option.some.injEq] at h
      subst h
      rw [List.length_cons, rowStart_cons_succ, rowStart_zero]
      omega
    | succ i =>
      simp only [List.getElem?_cons_succ] at h
      have := ih i h
      rw [List.length_cons, rowStart_cons_succ, rowStart_cons_succ]
      omega

theorem convexHullCount_ok (n : Nat) (Ai : List (Mat α)) (bi : List (Vec α))
    (h : List.Forall₂ (fun A b => A.n_cols = n ∧ A.n_rows = b.n_rows) Ai bi) (acc : Nat) :
    convexHullCount n Ai bi acc = .ok (acc + (Ai.map fun A => A.n_rows).sum) := by
  induction h generalizing acc with
  | nil => simp [convexHullCount]
  | cons hab _ ih =>
    simp only [convexHullCount, hab.1, hab.2, ne_eq, not_true_eq_false, if_false, ih,
      List.map_cons, List.sum_cons]
    congr 1
    omega

theorem mem_blockTriplets [Zero α] [DecidableEq α] [Neg α] (A : Mat α) (b : Vec α)
    (R C d : Nat) (t : Nat × Nat × α) :
    t ∈ blockTriplets A b R C d ↔
      (∃ r c, r < A.n_rows ∧ c < A.n_cols ∧ A.val r c ≠ 0 ∧ t = (R + r, C + c, A.val r c)) ∨
      (∃ r, r < b.n_rows ∧ t = (R + r, d, - b.val r)) := by
  simp only [blockTriplets, List.mem_append, List.mem_map, Mat.mem_nonzeros, List.mem_range]
  constructor
  · rintro (⟨⟨r, c, v⟩, ⟨hr, hc, hne, hv⟩, rfl⟩ | ⟨r, hr, rfl⟩)
    · simp only at hr hc hne hv
      subst hv
      exact Or.inl ⟨r, c, hr, hc, hne, rfl⟩
    · exact Or.inr ⟨r, hr, rfl⟩
  · rintro (⟨r, c, hr, hc, hne, rfl⟩ | ⟨r, hr, rfl⟩)
    · exact Or.inl ⟨(r, c, A.val r c), ⟨hr, hc, hne, rfl⟩, rfl⟩
    · exact Or.inr ⟨r, hr, rfl⟩

theorem nodup_blockTriplets [Zero α] [DecidableEq α] [Neg α] (A : Mat α) (b : Vec α)
    (R C d : Nat) (hd : C + A.n_cols ≤ d) :
    ((blockTriplets A b R C d).map fun t => (t.1, t.2.1)).Nodup := by
  unfold blockTriplets
  rw [List.map_append, List.nodup_append]
  refine ⟨Mat.nodup_nonzeros_shift A R C, ?_, ?_⟩
  · rw [List.map_map]
    apply List.Nodup.map_on _ (List.nodup_range _)
    intro x _ y _ h
    simp only [Function.comp, Prod.mk.injEq] at h
    omega
  · rw [List.disjoint_left]
    intro p hp1 hp2
    simp only [List.map_map, List.mem_map, Function.comp, Mat.mem_nonzeros, List.mem_range]
      at hp1 hp2
    obtain ⟨t, ⟨_, hc, _, _⟩, rfl⟩ := hp1
    obtain ⟨j, _, h⟩ := hp2
    simp only [Prod.mk.injEq] at h
    omega

theorem compConvSizeLoop_cons [Zero α] [DecidableEq α] [Neg α] (n k : Nat) (Acom : Mat α)
    (bcom : Vec α) (A : Mat α) (As : List (Mat α)) (b : Vec α) (bs : List (Vec α))
    (i0 R0 C0 : Nat) (ts' : List (Nat × Nat × α))
    (h : compConvSizeLoop n k Acom bcom As bs (i0 + 1) (R0 + A.n_rows + Acom.n_rows) (C0 + n)
      = .ok ts') :
    compConvSizeLoop n k Acom bcom (A :: As) (b :: bs) i0 R0 C0
      = .ok (blockTriplets A b R0 C0 (n + n * k + i0) ++
          (blockTriplets Acom bcom (R0 + A.n_rows) C0 (n + n * k + i0) ++ ts')) := by
  simp only [compConvSizeLoop, h, blockTriplets, List.append_assoc]
  rfl

/-- What the loop of `compConvSize` writes, for well-formed input: the triplets stay within
the rows of the remaining polyhedra, no location is written twice, and the triplets in the
rows of polyhedron `i` are the entries of `A_i`, `-b_i`, `Acom` and `-bcom`. -/
theorem compConvSizeLoop_spec [Zero α] [DecidableEq α] [Neg α] (n k mc : Nat) (Acom : Mat α)
    (bcom : Vec α) (hAr : Acom.n_rows = mc) (hbr : bcom.n_rows = mc)
    (hAc : 0 < mc → Acom.n_cols = n) (As : List (Mat α)) (bs : List (Vec α))
    (hF : List.Forall₂ (fun A b => A.n_cols = n ∧ A.n_rows = b.n_rows) As bs) :
    ∀ (i0 R0 C0 : Nat), C0 + As.length * n ≤ n + n * k →
    ∃ ts, compConvSizeLoop n k Acom bcom As bs i0 R0 C0 = .ok ts ∧
      (∀ t ∈ ts, R0 ≤ t.1 ∧ t.1 < R0 + rowStart As mc As.length ∧
        t.2.1 < n + n * k + i0 + As.length) ∧
      (ts.map fun t => (t.1, t.2.1)).Nodup ∧
      (∀ i A b, As[i]? = some A → bs[i]? = some b →
        (∀ r < A.n_rows,
          (∀ t ∈ ts, t.1 = R0 + rowStart As mc i + r →
            (∃ c < n, t.2.1 = C0 + i * n + c ∧ t.2.2 = A.val r c) ∨
            (t.2.1 = n + n * k + (i0 + i) ∧ t.2.2 = - b.val r)) ∧
          (∀ c < n, A.val r c ≠ 0 →
            (R0 + rowStart As mc i + r, C0 + i * n + c, A.val r c) ∈ ts) ∧
          (R0 + rowStart As mc i + r, n + n * k + (i0 + i), - b.val r) ∈ ts) ∧
        (∀ r < mc,
          (∀ t ∈ ts, t.1 = R0 + rowStart As mc i + A.n_rows + r →
            (∃ c < n, t.2.1 = C0 + i * n + c ∧ t.2.2 = Acom.val r c) ∨
            (t.2.1 = n + n * k + (i0 + i) ∧ t.2.2 = - bcom.val r)) ∧
          (∀ c < n, Acom.val r c ≠ 0 →
            (R0 + rowStart As mc i + A.n_rows + r, C0 + i * n + c, Acom.val r c) ∈ ts) ∧
          (R0 + rowStart As mc i + A.n_rows + r, n + n * k + (i0 + i), - bcom.val r) ∈ ts)) := by
  induction hF with
  | nil =>
    intro i0 R0 C0 _
    refine ⟨[], by simp [compConvSizeLoop], by simp, by simp, ?_⟩
    intro i A b hA; simp at hA
  | @cons A b As bs hab hF ih =>
    intro i0 R0 C0 hC
    obtain ⟨hAn, hAb⟩ := hab
    have hlen : (A :: As).length * n = As.length * n + n := by
      rw [List.length_cons, Nat.succ_mul]
    rw [hlen] at hC
    obtain ⟨ts', hts', hS1, hS2, hS3⟩ := ih (i0 + 1) (R0 + A.n_rows + Acom.n_rows) (C0 + n)
      (by omega)
    refine ⟨_, compConvSizeLoop_cons n k Acom bcom A As b bs i0 R0 C0 ts' hts', ?_, ?_, ?_⟩
    · -- bounds
      intro t ht
      rw [List.length_cons, rowStart_cons_succ]
      simp only [List.mem_append, mem_blockTriplets] at ht
      rcases ht with (⟨r, c, hr, hc, _, rfl⟩ | ⟨r, hr, rfl⟩) |
        (⟨r, c, hr, hc, _, rfl⟩ | ⟨r, hr, rfl⟩) | ht
      · simp only; omega
      · simp only; omega
      · have : Acom.n_cols = n := hAc (by omega)
        simp only; omega
      · simp only; omega
      · have := hS1 t ht
        omega
    · -- no location twice
      rw [List.map_append, List.map_append, List.nodup_append, List.nodup_append]
      refine ⟨nodup_blockTriplets A b R0 C0 _ (by omega), ⟨?_, hS2, ?_⟩, ?_⟩
      · by_cases hmc : 0 < mc
        · exact nodup_blockTriplets Acom bcom _ C0 _ (by have := hAc hmc; omega)
        · have h0 : Acom.n_rows = 0 := by omega
          have h1 : bcom.n_rows = 0 := by omega
          have h2 : Acom.nonzeros = [] := by
            rw [List.eq_nil_iff_forall_not_mem]
            intro t ht
            rw [Mat.mem_nonzeros] at ht
            omega
          simp [blockTriplets, h2, h1]
      · rw [List.disjoint_left]
        intro p hp1 hp2
        rw [List.mem_map] at hp1 hp2
        obtain ⟨t', ht', rfl⟩ := hp2
        obtain ⟨t, ht, h⟩ := hp1
        rw [mem_blockTriplets] at ht
        have hb := (hS1 t' ht').1
        simp only [Prod.mk.injEq] at h
        rcases ht with ⟨r, c, hr, _, _, rfl⟩ | ⟨r, hr, rfl⟩ <;> simp only at h <;> omega
      · rw [List.disjoint_left]
        intro p hp1 hp2
        rw [List.mem_map] at hp1
        rw [← List.map_append, List.mem_map] at hp2
        obtain ⟨t, ht, rfl⟩ := hp1
        obtain ⟨t', ht', h⟩ := hp2
        rw [mem_blockTriplets] at ht
        rw [List.mem_append, mem_blockTriplets] at ht'
        simp only [Prod.mk.injEq] at h
        have hrow : t.1 < R0 + A.n_rows := by
          rcases ht with ⟨r, c, hr, _, _, rfl⟩ | ⟨r, hr, rfl⟩ <;> simp only <;> omega
        have hrow' : R0 + A.n_rows ≤ t'.1 := by
          rcases ht' with (⟨r, c, hr, _, _, rfl⟩ | ⟨r, hr, rfl⟩) | ht'
          · simp only; omega
          · simp only; omega
          · have := (hS1 t' ht').1; omega
        omega
    · -- the triplets of polyhedron `i`
      intro i Ai bi' hAi hbi
      cases i with
      | zero =>
        simp only [List.getElem?_cons_zero, Option.some.injEq] at hAi hbi
        subst hAi hbi
        simp only [rowStart_zero, Nat.add_zero, Nat.zero_mul]
        refine ⟨fun r hr => ⟨?_, ?_, ?_⟩, fun r hr => ⟨?_, ?_, ?_⟩⟩
        · intro t ht hrow
          simp only [List.mem_append, mem_blockTriplets] at ht
          rcases ht with (⟨r', c, hr', hc, _, rfl⟩ | ⟨r', hr', rfl⟩) |
            (⟨r', c, hr', hc, _, rfl⟩ | ⟨r', hr', rfl⟩) | ht
          · simp only at hrow
            have : r' = r := by omega
            subst this
            exact Or.inl ⟨c, by omega, rfl, rfl⟩
          · simp only at hrow
            have : r' = r := by omega
            subst this
            exact Or.inr ⟨rfl, rfl⟩
          · simp only at hrow; omega
          · simp only at hrow; omega
          · have := (hS1 t ht).1; omega
        · intro c hc hne
          simp only [List.mem_append, mem_blockTriplets]
          exact Or.inl (Or.inl ⟨r, c, hr, by omega, hne, rfl⟩)
        · simp only [List.mem_append, mem_blockTriplets]
          exact Or.inl (Or.inr ⟨r, by omega, rfl⟩)
        · intro t ht hrow
          simp only [List.mem_append, mem_blockTriplets] at ht
          rcases ht with (⟨r', c, hr', hc, _, rfl⟩ | ⟨r', hr', rfl⟩) |
            (⟨r', c, hr', hc, _, rfl⟩ | ⟨r', hr', rfl⟩) | ht
          · simp only at hrow; omega
          · simp only at hrow; omega
          · simp only at hrow
            have : r' = r := by omega
            subst this
            have : Acom.n_cols = n := hAc (by omega)
            exact Or.inl ⟨c, by omega, rfl, rfl⟩
          · simp only at hrow
            have : r' = r := by omega
            subst this
            exact Or.inr ⟨rfl, rfl⟩
          · have := (hS1 t ht).1; omega
        · intro c hc hne
          have : Acom.n_cols = n := hAc (by omega)
          simp only [List.mem_append, mem_blockTriplets]
          exact Or.inr (Or.inl (Or.inl ⟨r, c, by omega, by omega, hne, rfl⟩))
        · simp only [List.mem_append, mem_blockTriplets]
          exact Or.inr (Or.inl (Or.inr ⟨r, by omega, rfl⟩))
      | succ i =>
        simp only [List.getElem?_cons_succ] at hAi hbi
        obtain ⟨h1, h2⟩ := hS3 i Ai bi' hAi hbi
        have hrs : rowStart (A :: As) mc (i + 1) = A.n_rows + mc + rowStart As mc i :=
          rowStart_cons_succ A As mc i
        have hcol : C0 + (i + 1) * n = C0 + n + i * n := by rw [Nat.succ_mul]; omega
        have hd : i0 + (i + 1) = i0 + 1 + i := by omega
        have hR : ∀ x, R0 + (A.n_rows + mc + rowStart As mc i) + x
            = R0 + A.n_rows + Acom.n_rows + rowStart As mc i + x := by
          intro x; omega
        rw [hrs, hd]
        simp only [hcol, hR]
        have key : ∀ (t : Nat × Nat × α) (x : Nat),
            t ∈ blockTriplets A b R0 C0 (n + n * k + i0) ++
              (blockTriplets Acom bcom (R0 + A.n_rows) C0 (n + n * k + i0) ++ ts') →
            t.1 = R0 + A.n_rows + Acom.n_rows + rowStart As mc i + x → t ∈ ts' := by
          intro t x ht hrow
          simp only [List.mem_append, mem_blockTriplets] at ht
          rcases ht with (⟨r', c, hr', hc, _, rfl⟩ | ⟨r', hr', rfl⟩) |
            (⟨r', c, hr', hc, _, rfl⟩ | ⟨r', hr', rfl⟩) | ht
          · simp only at hrow; omega
          · simp only at hrow; omega
          · simp only at hrow; omega
          · simp only at hrow; omega
          · exact ht
        refine ⟨fun r hr => ⟨?_, ?_, ?_⟩, fun r hr => ⟨?_, ?_, ?_⟩⟩
        · intro t ht hrow
          exact (h1 r hr).1 t (key t r ht hrow) hrow
        · intro c hc hne
          exact List.mem_append_right _ (List.mem_append_right _ ((h1 r hr).2.1 c hc hne))
        · exact List.mem_append_right _ (List.mem_append_right _ (h1 r hr).2.2)
        · intro t ht hrow
          have hrow' : t.1 = R0 + A.n_rows + Acom.n_rows + rowStart As mc i + (Ai.n_rows + r) := by
            omega
          have := (h2 r hr).1 t (key t _ ht hrow') (by omega)
          exact this
        · intro c hc hne
          have := (h2 r hr).2.1 c hc hne
          exact List.mem_append_right _ (List.mem_append_right _ this)
        · exact List.mem_append_right _ (List.mem_append_right _ (h2 r hr).2.2)

theorem applyWrites_dims (ws : List (Nat × Nat × α)) (A : Mat α) :
    (applyWrites ws A).n_rows = A.n_rows ∧ (applyWrites ws A).n_cols = A.n_cols := by
  induction ws generalizing A with
  | nil => exact ⟨rfl, rfl⟩
  | cons w ws ih =>
    have := ih (A.set w.1 w.2.1 w.2.2)
    simpa [applyWrites, Mat.set] using this

theorem applyWrites_append (ws ws' : List (Nat × Nat × α)) (A : Mat α) :
    applyWrites (ws ++ ws') A = applyWrites ws' (applyWrites ws A) := by
  simp [applyWrites, List.foldl_append]

/-- Value of an entry after a sequence of assignments: when every assignment to `(r, c)`
writes `v`, and either there is one or the entry was `v` before, the entry is `v`. -/
theorem applyWrites_val (ws : List (Nat × Nat × α)) (A : Mat α) (r c : Nat) (v : α)
    (hall : ∀ w ∈ ws, w.1 = r → w.2.1 = c → w.2.2 = v)
    (hex : (∃ w ∈ ws, w.1 = r ∧ w.2.1 = c) ∨ A.val r c = v) :
    (applyWrites ws A).val r c = v := by
  induction ws generalizing A with
  | nil =>
    rcases hex with ⟨w, hw, _⟩ | h
    · simp at hw
    · exact h
  | cons w ws ih =>
    have hstep : applyWrites (w :: ws) A = applyWrites ws (A.set w.1 w.2.1 w.2.2) := rfl
    rw [hstep]
    apply ih
    · intro w' hw'; exact hall w' (List.mem_cons_of_mem _ hw')
    · by_cases hw : w.1 = r ∧ w.2.1 = c
      · right
        have := hall w (List.mem_cons_self _ _) hw.1 hw.2
        simp [Mat.set, hw.1, hw.2, this]
      · rcases hex with ⟨w', hw', h1, h2⟩ | h
        · rcases List.mem_cons.mp hw' with rfl | hmem
          · exact absurd ⟨h1, h2⟩ hw
          · exact Or.inl ⟨w', hmem, h1, h2⟩
        · right
          have hne : ¬ (r = w.1 ∧ c = w.2.1) := fun h' => hw ⟨h'.1.symm, h'.2.symm⟩
          simp [Mat.set, hne, h]

theorem foldl_flatMap_eq {β γ δ : Type} (l : List β) (f : β → List γ) (g : δ → γ → δ)
    (a : δ) : (l.flatMap f).foldl g a = l.foldl (fun a x => (f x).foldl g a) a := by
  induction l generalizing a with
  | nil => rfl
  | cons x xs ih => simp [List.flatMap_cons, List.foldl_append, ih]

theorem fillSecond_eq [One α] [Neg α] (n F i : Nat) (A : Mat α) :
    fillSecond n F i A = applyWrites (secondWrites n F i) A := by
  simp only [fillSecond, applyWrites, secondWrites, foldl_flatMap_eq, List.foldl_cons,
    List.foldl_nil]

theorem fillPoly_eq [One α] [Neg α] (n k F : Nat) (A : Mat α) :
    fillPoly n k F A = applyWrites (polyWrites n k F) A := by
  simp only [fillPoly, applyWrites, polyWrites, foldl_flatMap_eq, List.foldl_append,
    List.foldl_cons, List.foldl_nil, fillSecond_eq]

theorem fillOrig_eq [One α] [Neg α] (n F : Nat) (A : Mat α) :
    fillOrig n F A = applyWrites (origWrites n F) A := by
  simp only [fillOrig, applyWrites, origWrites, foldl_flatMap_eq, List.foldl_cons,
    List.foldl_nil]

theorem mem_fillWrites [One α] [Neg α] (n k F : Nat) (w : Nat × Nat × α) :
    w ∈ polyWrites n k F ++ origWrites n F ↔
      (∃ i, i < k ∧ ((∃ j, j < n ∧ (w = (F + 2 * j, n + i * n + j, 1) ∨
          w = (F + 2 * j + 1, n + i * n + j, -1))) ∨
        w = (F + n * 2, n + k * n + i, 1) ∨ w = (F + n * 2 + 1, n + k * n + i, -1))) ∨
      (∃ j, j < n ∧ (w = (F + 2 * j, j, -1) ∨ w = (F + 2 * j + 1, j, 1))) := by
  simp only [polyWrites, origWrites, secondWrites, List.mem_append, List.mem_flatMap,
    List.mem_range, List.mem_cons, List.mem_singleton, List.not_mem_nil, or_false]

theorem mul_tri (n i i' : Nat) : i = i' ∨ i * n + n ≤ i' * n ∨ i' * n + n ≤ i * n := by
  rcases Nat.lt_trichotomy i i' with h | h | h
  · right; left
    have := Nat.mul_le_mul_right n (Nat.succ_le_of_lt h)
    rw [Nat.succ_mul] at this; exact this
  · left; exact h
  · right; right
    have := Nat.mul_le_mul_right n (Nat.succ_le_of_lt h)
    rw [Nat.succ_mul] at this; exact this

theorem mul_lt_k (n i k : Nat) (h : i < k) : i * n + n ≤ k * n := by
  have := Nat.mul_le_mul_right n (Nat.succ_le_of_lt h)
  rw [Nat.succ_mul] at this; exact this

/-- A row of the batch-built matrix from the triplets written in it. -/
theorem blockRow_of_triplets [Zero α] (n k i row : Nat) (hi : i < k) (M : Mat α)
    (ts : List (Nat × Nat × α)) (coef : Nat → α) (d : α)
    (hval : ∀ r c v, (∀ t ∈ ts, t.1 = r → t.2.1 = c → t.2.2 = v) →
        ((∃ t ∈ ts, t.1 = r ∧ t.2.1 = c) ∨ v = 0) → M.val r c = v)
    (h1 : ∀ t ∈ ts, t.1 = row →
        (∃ c < n, t.2.1 = n + i * n + c ∧ t.2.2 = coef c) ∨
        (t.2.1 = n + n * k + (0 + i) ∧ t.2.2 = d))
    (h2 : ∀ c < n, coef c ≠ 0 → (row, n + i * n + c, coef c) ∈ ts)
    (h3 : (row, n + n * k + (0 + i), d) ∈ ts) :
    RowCoeffs n k M row (fun _ => 0) (fun i' j => if i' = i then coef j else 0)
      (fun i' => if i' = i then d else 0) := by
  have hik := mul_lt_k n i k hi
  have hnk : n * k = k * n := Nat.mul_comm n k
  refine ⟨?_, ?_, ?_⟩
  · intro j hj
    apply hval _ _ _ _ (Or.inr rfl)
    intro t ht hr hc
    rcases h1 t ht hr with ⟨c, _, hc', _⟩ | ⟨hc', _⟩ <;> omega
  · intro i' hi' j hj
    have hi'k := mul_lt_k n i' k hi'
    apply hval
    · intro t ht hr hc
      rcases h1 t ht hr with ⟨c, hcn, hc', hv⟩ | ⟨hc', _⟩
      · rcases mul_tri n i i' with h | h | h
        · subst h
          have : c = j := by omega
          subst this
          simp [hv]
        · omega
        · omega
      · omega
    · by_cases h : i' = i
      · subst h
        by_cases h0 : coef j = 0
        · right; simp [h0]
        · left
          exact ⟨_, h2 j hj h0, rfl, rfl⟩
      · right; simp [h]
  · intro i' hi'
    apply hval
    · intro t ht hr hc
      rcases h1 t ht hr with ⟨c, hcn, hc', hv⟩ | ⟨hc', hv⟩
      · omega
      · have : i' = i := by omega
        simp [this, hv]
    · by_cases h : i' = i
      · subst h
        left
        exact ⟨_, h3, rfl, by simp only; omega⟩
      · right; simp [h]

theorem getElem?_lt_length {β : Type} {l : List β} {i : Nat} {x : β} (h : l[i]? = some x) :
    i < l.length := by
  by_contra hn
  rw [List.getElem?_eq_none (by omega)] at h
  cases h

/-- The matrix that `compConvSize` builds, for well-formed input. -/
theorem compConvSize_spec [Zero α] [DecidableEq α] [Neg α] (n mc : Nat) (Ai : List (Mat α))
    (bi : List (Vec α)) (Acom : Mat α) (bcom : Vec α) (hV : ValidInput n mc Ai bi Acom bcom)
    (nR : Nat) (hR : rowStart Ai mc Ai.length ≤ nR) :
    ∃ A0, compConvSize nR (Ai.length * n + Ai.length + n) Ai bi Acom bcom = .ok A0 ∧
      A0.n_rows = nR ∧ A0.n_cols = Ai.length * n + Ai.length + n ∧
      (∀ r c, rowStart Ai mc Ai.length ≤ r → A0.val r c = 0) ∧
      (∀ i A b, Ai[i]? = some A → bi[i]? = some b →
        (∀ r < A.n_rows, RowCoeffs n Ai.length A0 (rowStart Ai mc i + r) (fun _ => 0)
          (fun i' j => if i' = i then A.val r j else 0)
          (fun i' => if i' = i then - b.val r else 0)) ∧
        (∀ r < mc, RowCoeffs n Ai.length A0 (rowStart Ai mc i + A.n_rows + r) (fun _ => 0)
          (fun i' j => if i' = i then Acom.val r j else 0)
          (fun i' => if i' = i then - bcom.val r else 0))) := by
  obtain ⟨hne, hF, hAr, hbr, hAc⟩ := hV
  have hhead : (Ai.headD (Mat.zeros 0 0)).n_cols = n := by
    cases hF with
    | nil => exact absurd rfl hne
    | cons hab _ => exact hab.1
  obtain ⟨ts, hts, hS1, hS2, hS3⟩ := compConvSizeLoop_spec n Ai.length mc Acom bcom hAr hbr hAc
    Ai bi hF 0 0 n (by rw [Nat.mul_comm])
  have hnk : n * Ai.length = Ai.length * n := Nat.mul_comm _ _
  obtain ⟨A0, hA0, hr0, hc0, hval⟩ := Mat.ofTriplets_ok ts nR (Ai.length * n + Ai.length + n)
    (by intro t ht; have := hS1 t ht; omega) hS2
  refine ⟨A0, ?_, hr0, hc0, ?_, ?_⟩
  · simp only [compConvSize, hhead, hts]
    exact hA0
  · intro r c hr
    apply hval _ _ _ _ (Or.inr rfl)
    intro t ht h1 _
    have := hS1 t ht
    omega
  · intro i A b hA hb
    have hi : i < Ai.length := getElem?_lt_length hA
    obtain ⟨h1, h2⟩ := hS3 i A b hA hb
    constructor
    · intro r hr
      obtain ⟨ha, hb', hc⟩ := h1 r hr
      simp only [Nat.zero_add] at ha hb' hc
      exact blockRow_of_triplets n Ai.length i _ hi A0 ts (A.val r) (- b.val r) hval
        (by simpa using ha) hb' (by simpa using hc)
    · intro r hr
      obtain ⟨ha, hb', hc⟩ := h2 r hr
      simp only [Nat.zero_add] at ha hb' hc
      exact blockRow_of_triplets n Ai.length i _ hi A0 ts (Acom.val r) (- bcom.val r) hval
        (by simpa using ha) hb' (by simpa using hc)

/-- The rows below `F` are not touched by the two filling loops. -/
theorem fill_rows_lt [One α] [Neg α] (n k F : Nat) (A0 : Mat α) (r c : Nat) (hr : r < F) :
    (applyWrites (polyWrites n k F ++ origWrites n F) A0).val r c = A0.val r c := by
  apply applyWrites_val _ _ _ _ _ _ (Or.inr rfl)
  intro w hw h1 _
  rw [mem_fillWrites] at hw
  rcases hw with ⟨i, hi, (⟨j', hj', (rfl | rfl)⟩ | rfl | rfl)⟩ | ⟨j', hj', (rfl | rfl)⟩ <;>
    simp only at h1 <;> omega

/-- Rows `F + 2 j` of the filled matrix: `-y_j + Σ_i (y_i)_j`. -/
theorem fill_second_even [Zero α] [One α] [Neg α] (n k F : Nat) (A0 : Mat α)
    (h0 : ∀ r c, F ≤ r → A0.val r c = 0) (j : Nat) (hj : j < n) :
    RowCoeffs n k (applyWrites (polyWrites n k F ++ origWrites n F) A0) (F + 2 * j)
      (fun j' => if j' = j then -1 else 0) (fun _ j' => if j' = j then 1 else 0)
      (fun _ => 0) := by
  refine ⟨?_, ?_, ?_⟩
  · intro j0 hj0
    by_cases hjj : j0 = j
    · subst hjj
      simp only [if_true]
      apply applyWrites_val
      · intro w hw h1 h2
        rw [mem_fillWrites] at hw
        rcases hw with ⟨i, hi, (⟨j', hj', (rfl | rfl)⟩ | rfl | rfl)⟩ |
          ⟨j', hj', (rfl | rfl)⟩ <;> simp only at h1 h2 ⊢ <;>
          first | rfl | (exfalso; omega)
      · left
        exact ⟨(F + 2 * j0, j0, -1), (mem_fillWrites n k F _).2 (Or.inr ⟨j0, hj0, Or.inl rfl⟩),
          rfl, rfl⟩
    · simp only [hjj, if_false]
      apply applyWrites_val _ _ _ _ _ _ (Or.inr (h0 _ _ (by omega)))
      intro w hw h1 h2
      rw [mem_fillWrites] at hw
      rcases hw with ⟨i, hi, (⟨j', hj', (rfl | rfl)⟩ | rfl | rfl)⟩ |
        ⟨j', hj', (rfl | rfl)⟩ <;> simp only at h1 h2 ⊢ <;> exfalso <;> omega
  · intro i0 hi0 j0 hj0
    have hk0 := mul_lt_k n i0 k hi0
    by_cases hjj : j0 = j
    · subst hjj
      simp only [if_true]
      apply applyWrites_val
      · intro w hw h1 h2
        rw [mem_fillWrites] at hw
        rcases hw with ⟨i, hi, (⟨j', hj', (rfl | rfl)⟩ | rfl | rfl)⟩ |
          ⟨j', hj', (rfl | rfl)⟩ <;> simp only at h1 h2 ⊢ <;>
          first | rfl | (exfalso; omega)
      · left
        exact ⟨(F + 2 * j0, n + i0 * n + j0, 1),
          (mem_fillWrites n k F _).2 (Or.inl ⟨i0, hi0, Or.inl ⟨j0, hj0, Or.inl rfl⟩⟩), rfl, rfl⟩
    · simp only [hjj, if_false]
      apply applyWrites_val _ _ _ _ _ _ (Or.inr (h0 _ _ (by omega)))
      intro w hw h1 h2
      rw [mem_fillWrites] at hw
      rcases hw with ⟨i, hi, (⟨j', hj', (rfl | rfl)⟩ | rfl | rfl)⟩ |
        ⟨j', hj', (rfl | rfl)⟩ <;> simp only at h1 h2 ⊢ <;> exfalso <;>
        first | omega | (rcases mul_tri n i i0 with rfl | h | h <;> omega)
  · intro i0 hi0
    apply applyWrites_val _ _ _ _ _ _ (Or.inr (h0 _ _ (by omega)))
    intro w hw h1 h2
    rw [mem_fillWrites] at hw
    rcases hw with ⟨i, hi, (⟨j', hj', (rfl | rfl)⟩ | rfl | rfl)⟩ |
      ⟨j', hj', (rfl | rfl)⟩ <;> simp only at h1 h2 ⊢ <;> exfalso <;>
      first | omega | (have hlt := mul_lt_k n i k hi; omega)

/-- Rows `F + 2 j + 1` of the filled matrix: `y_j - Σ_i (y_i)_j`. -/
theorem fill_second_odd [Zero α] [One α] [Neg α] (n k F : Nat) (A0 : Mat α)
    (h0 : ∀ r c, F ≤ r → A0.val r c = 0) (j : Nat) (hj : j < n) :
    RowCoeffs n k (applyWrites (polyWrites n k F ++ origWrites n F) A0) (F + 2 * j + 1)
      (fun j' => if j' = j then 1 else 0) (fun _ j' => if j' = j then -1 else 0)
      (fun _ => 0) := by
  refine ⟨?_, ?_, ?_⟩
  · intro j0 hj0
    by_cases hjj : j0 = j
    · subst hjj
      simp only [if_true]
      apply applyWrites_val
      · intro w hw h1 h2
        rw [mem_fillWrites] at hw
        rcases hw with ⟨i, hi, (⟨j', hj', (rfl | rfl)⟩ | rfl | rfl)⟩ |
          ⟨j', hj', (rfl | rfl)⟩ <;> simp only at h1 h2 ⊢ <;>
          first | rfl | (exfalso; omega)
      · left
        exact ⟨(F + 2 * j0 + 1, j0, 1),
          (mem_fillWrites n k F _).2 (Or.inr ⟨j0, hj0, Or.inr rfl⟩), rfl, rfl⟩
    · simp only [hjj, if_false]
      apply applyWrites_val _ _ _ _ _ _ (Or.inr (h0 _ _ (by omega)))
      intro w hw h1 h2
      rw [mem_fillWrites] at hw
      rcases hw with ⟨i, hi, (⟨j', hj', (rfl | rfl)⟩ | rfl | rfl)⟩ |
        ⟨j', hj', (rfl | rfl)⟩ <;> simp only at h1 h2 ⊢ <;> exfalso <;> omega
  · intro i0 hi0 j0 hj0
    have hk0 := mul_lt_k n i0 k hi0
    by_cases hjj : j0 = j
    · subst hjj
      simp only [if_true]
      apply applyWrites_val
      · intro w hw h1 h2
        rw [mem_fillWrites] at hw
        rcases hw with ⟨i, hi, (⟨j', hj', (rfl | rfl)⟩ | rfl | rfl)⟩ |
          ⟨j', hj', (rfl | rfl)⟩ <;> simp only at h1 h2 ⊢ <;>
          first | rfl | (exfalso; omega)
      · left
        exact ⟨(F + 2 * j0 + 1, n + i0 * n + j0, -1),
          (mem_fillWrites n k F _).2 (Or.inl ⟨i0, hi0, Or.inl ⟨j0, hj0, Or.inr rfl⟩⟩), rfl, rfl⟩
    · simp only [hjj, if_false]
      apply applyWrites_val _ _ _ _ _ _ (Or.inr (h0 _ _ (by omega)))
      intro w hw h1 h2
      rw [mem_fillWrites] at hw
      rcases hw with ⟨i, hi, (⟨j', hj', (rfl | rfl)⟩ | rfl | rfl)⟩ |
        ⟨j', hj', (rfl | rfl)⟩ <;> simp only at h1 h2 ⊢ <;> exfalso <;>
        first | omega | (rcases mul_tri n i i0 with rfl | h | h <;> omega)
  · intro i0 hi0
    apply applyWrites_val _ _ _ _ _ _ (Or.inr (h0 _ _ (by omega)))
    intro w hw h1 h2
    rw [mem_fillWrites] at hw
    rcases hw with ⟨i, hi, (⟨j', hj', (rfl | rfl)⟩ | rfl | rfl)⟩ |
      ⟨j', hj', (rfl | rfl)⟩ <;> simp only at h1 h2 ⊢ <;> exfalso <;>
      first | omega | (have hlt := mul_lt_k n i k hi; omega)

/-- Row `F + 2 n` of the filled matrix: `Σ_i δ_i`. -/
theorem fill_third_pos [Zero α] [One α] [Neg α] (n k F : Nat) (A0 : Mat α)
    (h0 : ∀ r c, F ≤ r → A0.val r c = 0) :
    RowCoeffs n k (applyWrites (polyWrites n k F ++ origWrites n F) A0) (F + n * 2)
      (fun _ => 0) (fun _ _ => 0) (fun _ => 1) := by
  refine ⟨?_, ?_, ?_⟩
  · intro j0 hj0
    apply applyWrites_val _ _ _ _ _ _ (Or.inr (h0 _ _ (by omega)))
    intro w hw h1 h2
    rw [mem_fillWrites] at hw
    rcases hw with ⟨i, hi, (⟨j', hj', (rfl | rfl)⟩ | rfl | rfl)⟩ |
      ⟨j', hj', (rfl | rfl)⟩ <;> simp only at h1 h2 ⊢ <;> exfalso <;> omega
  · intro i0 hi0 j0 hj0
    have hk0 := mul_lt_k n i0 k hi0
    apply applyWrites_val _ _ _ _ _ _ (Or.inr (h0 _ _ (by omega)))
    intro w hw h1 h2
    rw [mem_fillWrites] at hw
    rcases hw with ⟨i, hi, (⟨j', hj', (rfl | rfl)⟩ | rfl | rfl)⟩ |
      ⟨j', hj', (rfl | rfl)⟩ <;> simp only at h1 h2 ⊢ <;> exfalso <;> omega
  · intro i0 hi0
    apply applyWrites_val
    · intro w hw h1 h2
      rw [mem_fillWrites] at hw
      rcases hw with ⟨i, hi, (⟨j', hj', (rfl | rfl)⟩ | rfl | rfl)⟩ |
        ⟨j', hj', (rfl | rfl)⟩ <;> simp only at h1 h2 ⊢ <;>
        first | rfl | (exfalso; omega)
    · left
      exact ⟨(F + n * 2, n + k * n + i0, 1),
        (mem_fillWrites n k F _).2 (Or.inl ⟨i0, hi0, Or.inr (Or.inl rfl)⟩), rfl, rfl⟩

/-- Row `F + 2 n + 1` of the filled matrix: `-Σ_i δ_i`. -/
theorem fill_third_neg [Zero α] [One α] [Neg α] (n k F : Nat) (A0 : Mat α)
    (h0 : ∀ r c, F ≤ r → A0.val r c = 0) :
    RowCoeffs n k (applyWrites (polyWrites n k F ++ origWrites n F) A0) (F + n * 2 + 1)
      (fun _ => 0) (fun _ _ => 0) (fun _ => -1) := by
  refine ⟨?_, ?_, ?_⟩
  · intro j0 hj0
    apply applyWrites_val _ _ _ _ _ _ (Or.inr (h0 _ _ (by omega)))
    intro w hw h1 h2
    rw [mem_fillWrites] at hw
    rcases hw with ⟨i, hi, (⟨j', hj', (rfl | rfl)⟩ | rfl | rfl)⟩ |
      ⟨j', hj', (rfl | rfl)⟩ <;> simp only at h1 h2 ⊢ <;> exfalso <;> omega
  · intro i0 hi0 j0 hj0
    have hk0 := mul_lt_k n i0 k hi0
    apply applyWrites_val _ _ _ _ _ _ (Or.inr (h0 _ _ (by omega)))
    intro w hw h1 h2
    rw [mem_fillWrites] at hw
    rcases hw with ⟨i, hi, (⟨j', hj', (rfl | rfl)⟩ | rfl | rfl)⟩ |
      ⟨j', hj', (rfl | rfl)⟩ <;> simp only at h1 h2 ⊢ <;> exfalso <;> omega
  · intro i0 hi0
    apply applyWrites_val
    · intro w hw h1 h2
      rw [mem_fillWrites] at hw
      rcases hw with ⟨i, hi, (⟨j', hj', (rfl | rfl)⟩ | rfl | rfl)⟩ |
        ⟨j', hj', (rfl | rfl)⟩ <;> simp only at h1 h2 ⊢ <;>
        first | rfl | (exfalso; omega)
    · left
      exact ⟨(F + n * 2 + 1, n + k * n + i0, -1),
        (mem_fillWrites n k F _).2 (Or.inl ⟨i0, hi0, Or.inr (Or.inr rfl)⟩), rfl, rfl⟩

theorem rowCoeffs_congr (n k : Nat) (A A' : Mat α) (row : Nat) (cy : Nat → α)
    (cyi : Nat → Nat → α) (cd : Nat → α) (h : ∀ c, A'.val row c = A.val row c)
    (hA : RowCoeffs n k A row cy cyi cd) : RowCoeffs n k A' row cy cyi cd :=
  ⟨fun j hj => by rw [h]; exact hA.1 j hj, fun i hi j hj => by rw [h]; exact hA.2.1 i hi j hj,
    fun i hi => by rw [h]; exact hA.2.2 i hi⟩

theorem bvec_val [Zero α] [One α] [Neg α] (N p r : Nat) :
    (((Vec.zeros N : Vec α).set p 1).set (p + 1) (-1)).val r
      = if r = p + 1 then -1 else if r = p then 1 else 0 := by
  simp [Vec.set, Vec.zeros]

/-- The output of `convexHull` on well-formed input: it returns the number of polyhedra, and
the rows of `A z ≤ b` are, in order, the blocks `A_i y_i - b_i δ_i ≤ 0` and
`Acom y_i - bcom δ_i ≤ 0` of each polyhedron, the pairs `-y_j + Σ_i (y_i)_j ≤ 0`,
`y_j - Σ_i (y_i)_j ≤ 0`, and `Σ_i δ_i ≤ 1`, `-Σ_i δ_i ≤ -1`. -/
theorem convexHull_spec [Zero α] [One α] [Neg α] [DecidableEq α] (n mc : Nat)
    (Ai : List (Mat α)) (bi : List (Vec α)) (Acom : Mat α) (bcom : Vec α)
    (hV : ValidInput n mc Ai bi Acom bcom) :
    ∃ A b, convexHull Ai bi Acom bcom = .ok (Ai.length, A, b) ∧
      A.n_rows = rowStart Ai mc Ai.length + 2 * n + 2 ∧
      A.n_cols = n + Ai.length * n + Ai.length ∧ b.n_rows = A.n_rows ∧
      (∀ i Ai_i bi_i, Ai[i]? = some Ai_i → bi[i]? = some bi_i →
        (∀ r < Ai_i.n_rows, RowIs n Ai.length A b (rowStart Ai mc i + r) (fun _ => 0)
          (fun i' j => if i' = i then Ai_i.val r j else 0)
          (fun i' => if i' = i then - bi_i.val r else 0) 0) ∧
        (∀ r < mc, RowIs n Ai.length A b (rowStart Ai mc i + Ai_i.n_rows + r) (fun _ => 0)
          (fun i' j => if i' = i then Acom.val r j else 0)
          (fun i' => if i' = i then - bcom.val r else 0) 0)) ∧
      (∀ j < n,
        RowIs n Ai.length A b (rowStart Ai mc Ai.length + 2 * j)
          (fun j' => if j' = j then -1 else 0) (fun _ j' => if j' = j then 1 else 0)
          (fun _ => 0) 0 ∧
        RowIs n Ai.length A b (rowStart Ai mc Ai.length + 2 * j + 1)
          (fun j' => if j' = j then 1 else 0) (fun _ j' => if j' = j then -1 else 0)
          (fun _ => 0) 0) ∧
      RowIs n Ai.length A b (rowStart Ai mc Ai.length + 2 * n)
        (fun _ => 0) (fun _ _ => 0) (fun _ => 1) 1 ∧
      RowIs n Ai.length A b (rowStart Ai mc Ai.length + 2 * n + 1)
        (fun _ => 0) (fun _ _ => 0) (fun _ => -1) (-1) := by
  have hV' := hV
  obtain ⟨hne, hF, hAr, hbr, hAc⟩ := hV
  have hhead : (Ai.headD (Mat.zeros 0 0)).n_cols = n := by
    cases hF with
    | nil => exact absurd rfl hne
    | cons hab _ => exact hab.1
  have hlen0 : Ai.length ≠ 0 := by
    intro h; exact hne (List.length_eq_zero.mp h)
  have hlen : Ai.length = bi.length := hF.length_eq
  have hcom1 : ¬ (Acom.n_rows > 0 ∧ Acom.n_cols ≠ n) := by
    intro h; exact h.2 (hAc (by omega))
  have hcom2 : ¬ (Acom.n_rows > 0 ∧ Acom.n_rows ≠ bcom.n_rows) := by
    intro h; omega
  have hF' : rowStart Ai mc Ai.length = 0 + (Ai.map fun A => A.n_rows).sum
      + Ai.length * Acom.n_rows := by
    rw [rowStart_length, hAr]; omega
  obtain ⟨A0, hA0, hr0, hc0, hz, hrows⟩ := compConvSize_spec n mc Ai bi Acom bcom hV'
    (rowStart Ai mc Ai.length + n * 2 + 2) (by omega)
  refine ⟨applyWrites (polyWrites n Ai.length (rowStart Ai mc Ai.length)
      ++ origWrites n (rowStart Ai mc Ai.length)) A0,
    ((Vec.zeros (rowStart Ai mc Ai.length + n * 2 + 2) : Vec α).set
      (rowStart Ai mc Ai.length + n * 2) 1).set (rowStart Ai mc Ai.length + n * 2 + 1) (-1),
    ?_, ?_, ?_, ?_, ?_, ?_, ?_, ?_⟩
  · unfold convexHull
    simp only [hlen0, hhead, hcom1, hcom2, if_false, ← hlen, ne_eq, not_true_eq_false,
      convexHullCount_ok n Ai bi hF 0, ← hF', bind, Except.bind, pure, Except.pure, hA0,
      fillPoly_eq, fillOrig_eq, applyWrites_append]
  · rw [(applyWrites_dims _ _).1, hr0]; omega
  · rw [(applyWrites_dims _ _).2, hc0]; omega
  · rw [(applyWrites_dims _ _).1, hr0]; rfl
  · intro i Ai_i bi_i hA hb
    have hle := rowStart_le_length Ai mc i Ai_i hA
    obtain ⟨h1, h2⟩ := hrows i Ai_i bi_i hA hb
    constructor
    · intro r hr
      refine ⟨rowCoeffs_congr _ _ _ _ _ _ _ _
        (fun c => fill_rows_lt n Ai.length _ A0 _ c (by omega)) (h1 r hr), ?_⟩
      rw [bvec_val, if_neg (by omega), if_neg (by omega)]
    · intro r hr
      refine ⟨rowCoeffs_congr _ _ _ _ _ _ _ _
        (fun c => fill_rows_lt n Ai.length _ A0 _ c (by omega)) (h2 r hr), ?_⟩
      rw [bvec_val, if_neg (by omega), if_neg (by omega)]
  · intro j hj
    constructor
    · refine ⟨fill_second_even n Ai.length _ A0 hz j hj, ?_⟩
      rw [bvec_val, if_neg (by omega), if_neg (by omega)]
    · refine ⟨fill_second_odd n Ai.length _ A0 hz j hj, ?_⟩
      rw [bvec_val, if_neg (by omega), if_neg (by omega)]
  · rw [Nat.mul_comm 2 n]
    refine ⟨fill_third_pos n Ai.length _ A0 hz, ?_⟩
    rw [bvec_val, if_neg (by omega), if_pos rfl]
  · rw [Nat.mul_comm 2 n]
    refine ⟨fill_third_neg n Ai.length _ A0 hz, ?_⟩
    rw [bvec_val, if_pos rfl]

theorem sum_range_mul_block [AddCommMonoid α] (n k : Nat) (g : Nat → α) :
    ∑ c ∈ Finset.range (k * n), g c
      = ∑ i ∈ Finset.range k, ∑ j ∈ Finset.range n, g (i * n + j) := by
  induction k with
  | zero => simp
  | succ k ih =>
    rw [Nat.succ_mul, Finset.sum_range_add, ih, Finset.sum_range_succ]

/-- A sum over the columns `(y, y_1..y_k, δ_1..δ_k)` splits into its three parts. -/
theorem sum_range_columns [AddCommMonoid α] (n k : Nat) (f : Nat → α) :
    ∑ c ∈ Finset.range (n + k * n + k), f c
      = ∑ j ∈ Finset.range n, f j
        + ∑ i ∈ Finset.range k, ∑ j ∈ Finset.range n, f (n + i * n + j)
        + ∑ i ∈ Finset.range k, f (n + k * n + i) := by
  rw [Finset.sum_range_add, Finset.sum_range_add, sum_range_mul_block]
  simp only [Nat.add_assoc]

/-- Row `row` of `A z` from the coefficients of the row. -/
theorem rowDot_eq [Semiring α] (n k : Nat) (A : Mat α) (hc : A.n_cols = n + k * n + k)
    (row : Nat) (cy : Nat → α) (cyi : Nat → Nat → α) (cd : Nat → α)
    (h : RowCoeffs n k A row cy cyi cd) (z : Nat → α) :
    rowDot A row z = ∑ j ∈ Finset.range n, cy j * z j
      + ∑ i ∈ Finset.range k, ∑ j ∈ Finset.range n, cyi i j * z (n + i * n + j)
      + ∑ i ∈ Finset.range k, cd i * z (n + k * n + i) := by
  obtain ⟨h1, h2, h3⟩ := h
  rw [rowDot, hc, sum_range_columns]
  congr 1
  · congr 1
    · exact Finset.sum_congr rfl fun j hj => by rw [h1 j (Finset.mem_range.mp hj)]
    · exact Finset.sum_congr rfl fun i hi => Finset.sum_congr rfl fun j hj => by
        rw [h2 i (Finset.mem_range.mp hi) j (Finset.mem_range.mp hj)]
  · exact Finset.sum_congr rfl fun i hi => by rw [h3 i (Finset.mem_range.mp hi)]

theorem rowDot_block [CommRing α] (n k : Nat) (A : Mat α) (hc : A.n_cols = n + k * n + k)
    (row i : Nat) (hi : i < k) (coef : Nat → α) (d : α)
    (h : RowCoeffs n k A row (fun _ => 0) (fun i' j => if i' = i then coef j else 0)
      (fun i' => if i' = i then - d else 0)) (z : Nat → α) :
    rowDot A row z = ∑ j ∈ Finset.range n, coef j * z (n + i * n + j) - d * z (n + k * n + i) := by
  rw [rowDot_eq n k A hc row _ _ _ h z]
  have e1 : ∑ i' ∈ Finset.range k, ∑ j ∈ Finset.range n,
      (if i' = i then coef j else 0) * z (n + i' * n + j)
        = ∑ j ∈ Finset.range n, coef j * z (n + i * n + j) := by
    rw [Finset.sum_eq_single_of_mem i (Finset.mem_range.2 hi)]
    · simp
    · intro b _ hb; simp [hb]
  have e2 : ∑ i' ∈ Finset.range k, (if i' = i then - d else 0) * z (n + k * n + i')
      = - d * z (n + k * n + i) := by
    rw [Finset.sum_eq_single_of_mem i (Finset.mem_range.2 hi)]
    · simp
    · intro b _ hb; simp [hb]
  rw [e1, e2]
  simp only [zero_mul, Finset.sum_const_zero, zero_add]
  ring

theorem rowDot_second [CommRing α] (n k : Nat) (A : Mat α) (hc : A.n_cols = n + k * n + k)
    (row j : Nat) (hj : j < n) (s : α)
    (h : RowCoeffs n k A row (fun j' => if j' = j then - s else 0)
      (fun _ j' => if j' = j then s else 0) (fun _ => 0)) (z : Nat → α) :
    rowDot A row z = s * (∑ i ∈ Finset.range k, z (n + i * n + j) - z j) := by
  rw [rowDot_eq n k A hc row _ _ _ h z]
  have e1 : ∑ j' ∈ Finset.range n, (if j' = j then - s else 0) * z j' = - s * z j := by
    rw [Finset.sum_eq_single_of_mem j (Finset.mem_range.2 hj)]
    · simp
    · intro b _ hb; simp [hb]
  have e2 : ∀ i ∈ Finset.range k,
      (∑ j' ∈ Finset.range n, (if j' = j then s else 0) * z (n + i * n + j'))
        = s * z (n + i * n + j) := by
    intro i _
    rw [Finset.sum_eq_single_of_mem j (Finset.mem_range.2 hj)]
    · simp
    · intro b _ hb; simp [hb]
  rw [e1, Finset.sum_congr rfl e2, ← Finset.mul_sum]
  simp only [zero_mul, Finset.sum_const_zero, add_zero]
  ring

theorem rowDot_third [CommRing α] (n k : Nat) (A : Mat α) (hc : A.n_cols = n + k * n + k)
    (row : Nat) (s : α)
    (h : RowCoeffs n k A row (fun _ => 0) (fun _ _ => 0) (fun _ => s)) (z : Nat → α) :
    rowDot A row z = s * ∑ i ∈ Finset.range k, z (n + k * n + i) := by
  rw [rowDot_eq n k A hc row _ _ _ h z]
  simp only [zero_mul, Finset.sum_const_zero, zero_add, Finset.mul_sum]

theorem exists_block (Ai : List (Mat α)) (mc r : Nat) (h : r < rowStart Ai mc Ai.length) :
    ∃ (i : Nat) (A_i : Mat α), Ai[i]? = some A_i ∧ rowStart Ai mc i ≤ r ∧
      r < rowStart Ai mc i + A_i.n_rows + mc := by
  induction Ai generalizing r with
  | nil => simp [rowStart] at h
  | cons A As ih =>
    rw [List.length_cons, rowStart_cons_succ] at h
    by_cases hr : r < A.n_rows + mc
    · exact ⟨0, A, by simp, by simp [rowStart_zero], by rw [rowStart_zero]; omega⟩
    · obtain ⟨i, A_i, hA, h1, h2⟩ := ih (r - (A.n_rows + mc)) (by omega)
      refine ⟨i + 1, A_i, by simpa using hA, ?_, ?_⟩
      · rw [rowStart_cons_succ]; omega
      · rw [rowStart_cons_succ]; omega

/-- The system `A z ≤ b` that `convexHull` outputs, read on `z = (y, y_1..y_k, δ_1..δ_k)`:
it holds exactly when `A_i y_i ≤ b_i δ_i` and `Acom y_i ≤ bcom δ_i` for every `i`,
`y = Σ_i y_i` and `Σ_i δ_i = 1`. -/
theorem feasible_iff [LinearOrderedField α] (n mc : Nat) (Ai : List (Mat α))
    (bi : List (Vec α)) (Acom : Mat α) (bcom : Vec α)
    (hV : ValidInput n mc Ai bi Acom bcom) :
    ∃ A b, convexHull Ai bi Acom bcom = .ok (Ai.length, A, b) ∧
      A.n_cols = n + Ai.length * n + Ai.length ∧ b.n_rows = A.n_rows ∧
      ∀ z : Nat → α, (∀ r < A.n_rows, rowDot A r z ≤ b.val r) ↔
        ((∀ (i : Nat) (A_i : Mat α) (b_i : Vec α), Ai[i]? = some A_i → bi[i]? = some b_i →
          (∀ r < A_i.n_rows, ∑ j ∈ Finset.range n, A_i.val r j * z (n + i * n + j)
            - b_i.val r * z (n + Ai.length * n + i) ≤ 0) ∧
          (∀ r < mc, ∑ j ∈ Finset.range n, Acom.val r j * z (n + i * n + j)
            - bcom.val r * z (n + Ai.length * n + i) ≤ 0)) ∧
        (∀ j < n, z j = ∑ i ∈ Finset.range Ai.length, z (n + i * n + j)) ∧
        ∑ i ∈ Finset.range Ai.length, z (n + Ai.length * n + i) = 1) := by
  obtain ⟨A, b, hout, hrows, hcols, hb, hblk, hsec, hthp, hthn⟩ :=
    convexHull_spec n mc Ai bi Acom bcom hV
  refine ⟨A, b, hout, hcols, hb, ?_⟩
  intro z
  have hlen : Ai.length = bi.length := hV.2.1.length_eq
  -- the rows, one kind after the other
  have e_blk : ∀ (i : Nat) (A_i : Mat α) (b_i : Vec α), Ai[i]? = some A_i →
      bi[i]? = some b_i →
      (∀ r < A_i.n_rows, rowDot A (rowStart Ai mc i + r) z
          = ∑ j ∈ Finset.range n, A_i.val r j * z (n + i * n + j)
            - b_i.val r * z (n + Ai.length * n + i)
        ∧ b.val (rowStart Ai mc i + r) = 0) ∧
      (∀ r < mc, rowDot A (rowStart Ai mc i + A_i.n_rows + r) z
          = ∑ j ∈ Finset.range n, Acom.val r j * z (n + i * n + j)
            - bcom.val r * z (n + Ai.length * n + i)
        ∧ b.val (rowStart Ai mc i + A_i.n_rows + r) = 0) := by
    intro i A_i b_i hA hbi
    have hi : i < Ai.length := getElem?_lt_length hA
    obtain ⟨h1, h2⟩ := hblk i A_i b_i hA hbi
    exact ⟨fun r hr => ⟨rowDot_block n Ai.length A hcols _ i hi _ _ (h1 r hr).1 z, (h1 r hr).2⟩,
      fun r hr => ⟨rowDot_block n Ai.length A hcols _ i hi _ _ (h2 r hr).1 z, (h2 r hr).2⟩⟩
  have e_even : ∀ j < n, rowDot A (rowStart Ai mc Ai.length + 2 * j) z
      = 1 * (∑ i ∈ Finset.range Ai.length, z (n + i * n + j) - z j) := by
    intro j hj
    exact rowDot_second n Ai.length A hcols _ j hj 1 (hsec j hj).1.1 z
  have e_odd : ∀ j < n, rowDot A (rowStart Ai mc Ai.length + 2 * j + 1) z
      = (-1) * (∑ i ∈ Finset.range Ai.length, z (n + i * n + j) - z j) := by
    intro j hj
    apply rowDot_second n Ai.length A hcols _ j hj (-1)
    simpa using (hsec j hj).2.1
  have e_pos : rowDot A (rowStart Ai mc Ai.length + 2 * n) z
      = 1 * ∑ i ∈ Finset.range Ai.length, z (n + Ai.length * n + i) :=
    rowDot_third n Ai.length A hcols _ 1 hthp.1 z
  have e_neg : rowDot A (rowStart Ai mc Ai.length + 2 * n + 1) z
      = (-1) * ∑ i ∈ Finset.range Ai.length, z (n + Ai.length * n + i) :=
    rowDot_third n Ai.length A hcols _ (-1) hthn.1 z
  constructor
  · intro hfeas
    refine ⟨?_, ?_, ?_⟩
    · intro i A_i b_i hA hbi
      have hle := rowStart_le_length Ai mc i A_i hA
      obtain ⟨h1, h2⟩ := e_blk i A_i b_i hA hbi
      constructor
      · intro r hr
        have := hfeas (rowStart Ai mc i + r) (by omega)
        rw [(h1 r hr).1, (h1 r hr).2] at this
        exact this
      · intro r hr
        have := hfeas (rowStart Ai mc i + A_i.n_rows + r) (by omega)
        rw [(h2 r hr).1, (h2 r hr).2] at this
        exact this
    · intro j hj
      have h1 := hfeas (rowStart Ai mc Ai.length + 2 * j) (by omega)
      have h2 := hfeas (rowStart Ai mc Ai.length + 2 * j + 1) (by omega)
      rw [e_even j hj, (hsec j hj).1.2] at h1
      rw [e_odd j hj, (hsec j hj).2.2] at h2
      linarith
    · have h1 := hfeas (rowStart Ai mc Ai.length + 2 * n) (by omega)
      have h2 := hfeas (rowStart Ai mc Ai.length + 2 * n + 1) (by omega)
      rw [e_pos, hthp.2] at h1
      rw [e_neg, hthn.2] at h2
      linarith
  · rintro ⟨hblock, hy, hd⟩ r hr
    by_cases h1 : r < rowStart Ai mc Ai.length
    · obtain ⟨i, A_i, hA, hlo, hhi⟩ := exists_block Ai mc r h1
      have hi : i < Ai.length := getElem?_lt_length hA
      have hib : i < bi.length := by omega
      have hbi : bi[i]? = some bi[i] := List.getElem?_eq_getElem hib
      obtain ⟨e1, e2⟩ := e_blk i A_i _ hA hbi
      obtain ⟨c1, c2⟩ := hblock i A_i _ hA hbi
      by_cases h2 : r < rowStart Ai mc i + A_i.n_rows
      · have hr' : r = rowStart Ai mc i + (r - rowStart Ai mc i) := by omega
        rw [hr', (e1 _ (by omega)).1, (e1 _ (by omega)).2]
        exact c1 _ (by omega)
      · have hr' : r = rowStart Ai mc i + A_i.n_rows + (r - rowStart Ai mc i - A_i.n_rows) := by
          omega
        rw [hr', (e2 _ (by omega)).1, (e2 _ (by omega)).2]
        exact c2 _ (by omega)
    · by_cases h2 : r < rowStart Ai mc Ai.length + 2 * n
      · have hj : (r - rowStart Ai mc Ai.length) / 2 < n := by omega
        rcases Nat.mod_two_eq_zero_or_one (r - rowStart Ai mc Ai.length) with h | h
        · have hr' : r = rowStart Ai mc Ai.length + 2 * ((r - rowStart Ai mc Ai.length) / 2) := by
            omega
          rw [hr', e_even _ hj, (hsec _ hj).1.2, hy _ hj]
          simp
        · have hr' : r = rowStart Ai mc Ai.length
              + 2 * ((r - rowStart Ai mc Ai.length) / 2) + 1 := by
            omega
          rw [hr', e_odd _ hj, (hsec _ hj).2.2, hy _ hj]
          simp
      · by_cases h3 : r = rowStart Ai mc Ai.length + 2 * n
        · rw [h3, e_pos, hthp.2, hd]; simp
        · have h4 : r = rowStart Ai mc Ai.length + 2 * n + 1 := by omega
          rw [h4, e_neg, hthn.2, hd]; simp

theorem example_valid :
    ValidInput 2 0 exampleAi examplebi (Mat.zeros 0 0) (Vec.zeros 0) :=
  ⟨by simp [exampleAi], List.Forall₂.cons ⟨rfl, rfl⟩ (List.Forall₂.cons ⟨rfl, rfl⟩ List.Forall₂.nil),
    rfl, rfl, fun h => absurd h (by decide)⟩

end MathOpt

/-- C5: shape of the extended formulation.  For every well-formed input (`k ≥ 1` polyhedra,
`A_i` of size `m_i x n` with `b_i` of length `m_i`, `Acom` of size `mc x n` with `bcom` of
length `mc`, possibly `mc = 0`), `convexHull` returns `k` and outputs `A` with
`(Σ_i m_i) + k * mc + 2 n + 2` rows and `n + k * n + k` columns, in the variable order
`(y, y_1..y_k, δ_1..δ_k)`, and `b` with as many entries as `A` has rows.  The rows of
`A z ≤ b` are: for each `i`, from row `rowStart i = Σ_{t<i} (m_t + mc)` on, the block
`A_i y_i - b_i δ_i ≤ 0` followed by the block `Acom y_i - bcom δ_i ≤ 0`; then, from row
`F = Σ_i m_i + k * mc` on, for each coordinate `j` the pair `-y_j + Σ_i (y_i)_j ≤ 0` and
`y_j - Σ_i (y_i)_j ≤ 0`; then `Σ_i δ_i ≤ 1` and `-Σ_i δ_i ≤ -1`. -/
theorem C5_convexHull_shape {α : Type} [Zero α] [One α] [Neg α] [DecidableEq α]
    (n mc : Nat) (Ai : List (Mat α)) (bi : List (Vec α)) (Acom : Mat α) (bcom : Vec α)
    (hV : MathOpt.ValidInput n mc Ai bi Acom bcom) :
    ∃ A b, MathOpt.convexHull Ai bi Acom bcom = .ok (Ai.length, A, b) ∧
      A.n_rows = (Ai.map fun M => M.n_rows).sum + Ai.length * mc + 2 * n + 2 ∧
      A.n_cols = n + Ai.length * n + Ai.length ∧ b.n_rows = A.n_rows ∧
      MathOpt.rowStart Ai mc Ai.length = (Ai.map fun M => M.n_rows).sum + Ai.length * mc ∧
      (∀ (i : Nat) (A_i : Mat α) (b_i : Vec α), Ai[i]? = some A_i → bi[i]? = some b_i →
        (∀ r < A_i.n_rows,
          MathOpt.RowIs n Ai.length A b (MathOpt.rowStart Ai mc i + r) (fun _ => 0)
            (fun i' j => if i' = i then A_i.val r j else 0)
            (fun i' => if i' = i then - b_i.val r else 0) 0) ∧
        (∀ r < mc,
          MathOpt.RowIs n Ai.length A b (MathOpt.rowStart Ai mc i + A_i.n_rows + r)
            (fun _ => 0) (fun i' j => if i' = i then Acom.val r j else 0)
            (fun i' => if i' = i then - bcom.val r else 0) 0)) ∧
      (∀ j < n,
        MathOpt.RowIs n Ai.length A b (MathOpt.rowStart Ai mc Ai.length + 2 * j)
          (fun j' => if j' = j then -1 else 0) (fun _ j' => if j' = j then 1 else 0)
          (fun _ => 0) 0 ∧
        MathOpt.RowIs n Ai.length A b (MathOpt.rowStart Ai mc Ai.length + 2 * j + 1)
          (fun j' => if j' = j then 1 else 0) (fun _ j' => if j' = j then -1 else 0)
          (fun _ => 0) 0) ∧
      MathOpt.RowIs n Ai.length A b (MathOpt.rowStart Ai mc Ai.length + 2 * n)
        (fun _ => 0) (fun _ _ => 0) (fun _ => 1) 1 ∧
      MathOpt.RowIs n Ai.length A b (MathOpt.rowStart Ai mc Ai.length + 2 * n + 1)
        (fun _ => 0) (fun _ _ => 0) (fun _ => -1) (-1) := by
  obtain ⟨A, b, hout, hrows, hcols, hb, hrest⟩ := MathOpt.convexHull_spec n mc Ai bi Acom bcom hV
  refine ⟨A, b, hout, ?_, hcols, hb, MathOpt.rowStart_length Ai mc, hrest⟩
  rw [hrows, MathOpt.rowStart_length]

/-- The shape of C5 at the two polyhedra of `exampleAi`: `10` rows, `8` columns, and some
entries of the block of the second polyhedron. -/
theorem C5_convexHull_shape_witness :
    ∃ A b, MathOpt.convexHull MathOpt.exampleAi MathOpt.examplebi (Mat.zeros 0 0) (Vec.zeros 0)
        = .ok (2, A, b) ∧ A.n_rows = 10 ∧ A.n_cols = 8 ∧ b.n_rows = 10 ∧
      A.val 2 4 = 0 ∧ A.val 2 5 = 1 ∧ A.val 2 7 = -1 ∧ b.val 9 = -1 := by
  obtain ⟨A, b, hout, hrows, hcols, hb, hF, hblk, _, _, hneg⟩ :=
    C5_convexHull_shape 2 0 MathOpt.exampleAi MathOpt.examplebi (Mat.zeros 0 0) (Vec.zeros 0)
      MathOpt.example_valid
  have h1 := (hblk 1 ⟨2, 2, fun i j => if j = 1 then (if i = 0 then 1 else -1) else 0⟩
    ⟨2, fun i => if i = 0 then 1 else -1⟩ rfl rfl).1 0 (by decide)
  have hs1 : MathOpt.rowStart MathOpt.exampleAi 0 1 = 2 := by
    simp [MathOpt.rowStart, MathOpt.exampleAi]
  have hlen : MathOpt.exampleAi.length = 2 := rfl
  have hsum : (MathOpt.exampleAi.map fun M => M.n_rows).sum = 4 := by
    simp [MathOpt.exampleAi]
  rw [hlen] at hout hrows hcols hF hneg h1
  rw [hsum] at hrows hF
  rw [hs1] at h1
  rw [hF] at hneg
  refine ⟨A, b, hout, by rw [hrows], by rw [hcols], by rw [hb, hrows], ?_, ?_, ?_, ?_⟩
  · simpa using h1.1.2.1 1 (by decide) 0 (by decide)
  · simpa using h1.1.2.1 1 (by decide) 1 (by decide)
  · simpa using h1.1.2.2 1 (by decide)
  · simpa using hneg.2

namespace MathOpt

variable {α : Type}

/-- The lift of a convex combination: `y`, then the `λ_i p_i`, then the `λ_i`. -/
theorem lift_cols (n k : Nat) (y lam : Nat → α) (p : Nat → Nat → α) [Mul α] :
    (∀ j < n, liftPoint n k y lam p j = y j) ∧
    (∀ i < k, ∀ j < n, liftPoint n k y lam p (n + i * n + j) = lam i * p i j) ∧
    (∀ i < k, liftPoint n k y lam p (n + k * n + i) = lam i) := by
  refine ⟨?_, ?_, ?_⟩
  · intro j hj
    simp [liftPoint, hj]
  · intro i hi j hj
    have h1 : ¬ (n + i * n + j < n) := by omega
    have h2 : n + i * n + j < n + k * n := by have := mul_lt_k n i k hi; omega
    have h3 : n + i * n + j - n = j + i * n := by omega
    have hn : 0 < n := by omega
    simp only [liftPoint, h1, h2, if_false, if_true, h3, Nat.add_mul_div_right _ _ hn,
      Nat.div_eq_of_lt hj, Nat.zero_add, Nat.add_mul_mod_self_right, Nat.mod_eq_of_lt hj]
  · intro i _
    have h1 : ¬ (n + k * n + i < n) := by omega
    have h2 : ¬ (n + k * n + i < n + k * n) := by omega
    have h3 : n + k * n + i - (n + k * n) = i := by omega
    simp only [liftPoint, h1, h2, if_false, h3]

end MathOpt

/-- C3: convex-hull lift.  For every well-formed input of `convexHull` (`k ≥ 1` polyhedra
`P_i = {y ≥ 0 : A_i y ≤ b_i, Acom y ≤ bcom}` over `n` variables), `convexHull` outputs
`(A, b)` such that every `y = Σ_i λ_i p_i` with `λ_i ≥ 0`, `Σ_i λ_i = 1` and `p_i ∈ P_i`
(asked only where `λ_i ≠ 0`) extends to a vector `z = (y, y_1..y_k, δ_1..δ_k)` with all
components `≥ 0` and `A z ≤ b`. -/
theorem C3_convexHull_lift {α : Type} [LinearOrderedField α] (n mc : Nat)
    (Ai : List (Mat α)) (bi : List (Vec α)) (Acom : Mat α) (bcom : Vec α)
    (hV : MathOpt.ValidInput n mc Ai bi Acom bcom) :
    ∃ A b, MathOpt.convexHull Ai bi Acom bcom = .ok (Ai.length, A, b) ∧
      ∀ (lam : Nat → α) (p : Nat → Nat → α) (y : Nat → α),
        (∀ i < Ai.length, 0 ≤ lam i) → ∑ i ∈ Finset.range Ai.length, lam i = 1 →
        (∀ (i : Nat) (A_i : Mat α) (b_i : Vec α), Ai[i]? = some A_i → bi[i]? = some b_i →
          lam i ≠ 0 → MathOpt.InPoly n A_i b_i Acom bcom (p i)) →
        (∀ j < n, y j = ∑ i ∈ Finset.range Ai.length, lam i * p i j) →
        ∃ z : Nat → α, (∀ j < n, z j = y j) ∧ (∀ c < A.n_cols, 0 ≤ z c) ∧
          ∀ r < A.n_rows, MathOpt.rowDot A r z ≤ b.val r := by
  obtain ⟨A, b, hout, hcols, hb, hiff⟩ := MathOpt.feasible_iff n mc Ai bi Acom bcom hV
  refine ⟨A, b, hout, ?_⟩
  intro lam p y hlam hsum hP hy
  have hlen : Ai.length = bi.length := hV.2.1.length_eq
  obtain ⟨z1, z2, z3⟩ := MathOpt.lift_cols n Ai.length y lam p
  -- every product `λ_i p_i j` is nonnegative
  have hterm : ∀ i < Ai.length, ∀ j < n, 0 ≤ lam i * p i j := by
    intro i hi j hj
    by_cases h0 : lam i = 0
    · simp [h0]
    · have hib : i < bi.length := by omega
      have := hP i Ai[i] bi[i] (List.getElem?_eq_getElem hi) (List.getElem?_eq_getElem hib) h0
      exact mul_nonneg (hlam i hi) (this.1 j hj)
  refine ⟨MathOpt.liftPoint n Ai.length y lam p, z1, ?_, ?_⟩
  · intro c hc
    rw [hcols] at hc
    by_cases h1 : c < n
    · rw [z1 c h1, hy c h1]
      exact Finset.sum_nonneg fun i hi => hterm i (Finset.mem_range.mp hi) c h1
    · by_cases h2 : c < n + Ai.length * n
      · have hn : 0 < n := by
          rcases Nat.eq_zero_or_pos n with h | h
          · subst h; omega
          · exact h
        have hdiv : (c - n) / n < Ai.length := by
          rw [Nat.div_lt_iff_lt_mul hn]; omega
        have hmod : (c - n) % n < n := Nat.mod_lt _ hn
        have hc' : c = n + (c - n) / n * n + (c - n) % n := by
          have := Nat.div_add_mod' (c - n) n
          omega
        rw [hc', z2 _ hdiv _ hmod]
        exact hterm _ hdiv _ hmod
      · have hc' : c = n + Ai.length * n + (c - (n + Ai.length * n)) := by omega
        rw [hc', z3 _ (by omega)]
        exact hlam _ (by omega)
  · rw [hiff]
    refine ⟨?_, ?_, ?_⟩
    · intro i A_i b_i hA hbi
      have hi : i < Ai.length := MathOpt.getElem?_lt_length hA
      have key : ∀ (M : Mat α) (v : Vec α) (r : Nat),
          (lam i ≠ 0 → ∑ j ∈ Finset.range n, M.val r j * p i j ≤ v.val r) →
          ∑ j ∈ Finset.range n, M.val r j * MathOpt.liftPoint n Ai.length y lam p (n + i * n + j)
            - v.val r * MathOpt.liftPoint n Ai.length y lam p (n + Ai.length * n + i) ≤ 0 := by
        intro M v r hle
        have e : ∑ j ∈ Finset.range n,
            M.val r j * MathOpt.liftPoint n Ai.length y lam p (n + i * n + j)
              = lam i * ∑ j ∈ Finset.range n, M.val r j * p i j := by
          rw [Finset.mul_sum]
          apply Finset.sum_congr rfl
          intro j hj
          rw [z2 i hi j (Finset.mem_range.mp hj)]
          ring
        rw [e, z3 i hi]
        by_cases h0 : lam i = 0
        · simp [h0]
        · have h1 := hle h0
          have h2 := hlam i hi
          nlinarith
      constructor
      · intro r hr
        exact key A_i b_i r fun h0 => (hP i A_i b_i hA hbi h0).2.1 r hr
      · intro r hr
        exact key Acom bcom r fun h0 => (hP i A_i b_i hA hbi h0).2.2 r (by rw [hV.2.2.1]; exact hr)
    · intro j hj
      rw [z1 j hj, hy j hj]
      exact Finset.sum_congr rfl fun i hi => (z2 i (Finset.mem_range.mp hi) j hj).symm
    · rw [← hsum]
      exact Finset.sum_congr rfl fun i hi => z3 i (Finset.mem_range.mp hi)

namespace MathOpt

theorem example_getElem (i : Nat) (A_i : Mat ℚ) (b_i : Vec ℚ) (hA : exampleAi[i]? = some A_i)
    (hb : examplebi[i]? = some b_i) :
    (i = 0 ∧ A_i = ⟨2, 2, fun i j => if i = j then 1 else 0⟩ ∧ b_i = ⟨2, fun _ => 0⟩) ∨
    (i = 1 ∧ A_i = ⟨2, 2, fun i j => if j = 1 then (if i = 0 then 1 else -1) else 0⟩ ∧
      b_i = ⟨2, fun i => if i = 0 then 1 else -1⟩) := by
  match i with
  | 0 =>
    simp only [exampleAi, examplebi, List.getElem?_cons_zero, Option.some.injEq] at hA hb
    exact Or.inl ⟨rfl, hA.symm, hb.symm⟩
  | 1 =>
    simp only [exampleAi, examplebi, List.getElem?_cons_succ, List.getElem?_cons_zero,
      Option.some.injEq] at hA hb
    exact Or.inr ⟨rfl, hA.symm, hb.symm⟩
  | i + 2 =>
    simp [exampleAi] at hA

end MathOpt

/-- The lift of C3 at the two polyhedra of `exampleAi`, for `y = 1/2 (0,0) + 1/2 (3,1)`. -/
theorem C3_convexHull_lift_witness :
    ∃ A b, MathOpt.convexHull MathOpt.exampleAi MathOpt.examplebi (Mat.zeros 0 0) (Vec.zeros 0)
        = .ok (2, A, b) ∧
      ∃ z : Nat → ℚ, z 0 = 3 / 2 ∧ z 1 = 1 / 2 ∧ (∀ c < A.n_cols, 0 ≤ z c) ∧
        ∀ r < A.n_rows, MathOpt.rowDot A r z ≤ b.val r := by
  obtain ⟨A, b, hout, h⟩ :=
    C3_convexHull_lift 2 0 MathOpt.exampleAi MathOpt.examplebi (Mat.zeros 0 0) (Vec.zeros 0)
      MathOpt.example_valid
  have hlen : MathOpt.exampleAi.length = 2 := rfl
  rw [hlen] at hout h
  obtain ⟨z, hz, hpos, hfeas⟩ := h (fun _ => 1 / 2)
    (fun i j => if i = 1 then (if j = 0 then 3 else 1) else 0)
    (fun j => if j = 0 then 3 / 2 else 1 / 2)
    (by intro i _; norm_num)
    (by norm_num [Finset.sum_range_succ])
    (by
      intro i A_i b_i hA hb _
      rcases MathOpt.example_getElem i A_i b_i hA hb with ⟨rfl, rfl, rfl⟩ | ⟨rfl, rfl, rfl⟩
      · refine ⟨by intro j _; simp, ?_, ?_⟩
        · intro r _; simp
        · intro r hr; simp [Mat.zeros] at hr
      · refine ⟨?_, ?_, ?_⟩
        · intro j _; simp; split <;> norm_num
        · intro r hr
          simp only at hr
          interval_cases r <;> simp [Finset.sum_range_succ]
        · intro r hr; simp [Mat.zeros] at hr)
    (by
      intro j hj
      interval_cases j <;> norm_num [Finset.sum_range_succ])
  exact ⟨A, b, hout, z, by simpa using hz 0 (by decide), by simpa using hz 1 (by decide),
    hpos, hfeas⟩

/-- C4 (as stated, refuted): for the two polyhedra `P_1 = {(0, 0)}` and
`P_2 = {(t, 1) : t ≥ 0}` of `ℝ²`, without common constraints, the vector
`(y, y_1, y_2, δ_1, δ_2) = ((1,0), (0,0), (1,0), 1, 0)` is nonnegative and satisfies
`A z ≤ b` for the output `(A, b)` of `convexHull`, and `y = (1, 0)` is not a convex
combination of points of `P_1` and `P_2`: `y_2` is a direction of recession of `P_2` taken
with multiplier `δ_2 = 0`. -/
theorem C4_projection_fails_unbounded :
    MathOpt.ValidInput 2 0 MathOpt.exampleAi MathOpt.examplebi (Mat.zeros 0 0) (Vec.zeros 0) ∧
    ∃ A b, MathOpt.convexHull MathOpt.exampleAi MathOpt.examplebi (Mat.zeros 0 0) (Vec.zeros 0)
        = .ok (2, A, b) ∧
      (∀ c < A.n_cols, 0 ≤ MathOpt.exampleZ c) ∧
      (∀ r < A.n_rows, MathOpt.rowDot A r MathOpt.exampleZ ≤ b.val r) ∧
      ¬ MathOpt.InConvUnion 2 MathOpt.exampleAi MathOpt.examplebi (Mat.zeros 0 0) (Vec.zeros 0)
        MathOpt.exampleZ := by
  refine ⟨MathOpt.example_valid, ?_⟩
  obtain ⟨A, b, hout, hcols, hb, hiff⟩ :=
    MathOpt.feasible_iff 2 0 MathOpt.exampleAi MathOpt.examplebi (Mat.zeros 0 0) (Vec.zeros 0)
      MathOpt.example_valid
  have hlen : MathOpt.exampleAi.length = 2 := rfl
  rw [hlen] at hout hcols hiff
  refine ⟨A, b, hout, ?_, ?_, ?_⟩
  · intro c _
    simp only [MathOpt.exampleZ]
    split_ifs <;> norm_num
  · rw [hiff]
    refine ⟨?_, ?_, ?_⟩
    · intro i A_i b_i hA hbi
      rcases MathOpt.example_getElem i A_i b_i hA hbi with ⟨rfl, rfl, rfl⟩ | ⟨rfl, rfl, rfl⟩
      · refine ⟨?_, fun r hr => absurd hr (by omega)⟩
        intro r hr
        simp only at hr
        interval_cases r <;> simp [Finset.sum_range_succ, MathOpt.exampleZ]
      · refine ⟨?_, fun r hr => absurd hr (by omega)⟩
        intro r hr
        simp only at hr
        interval_cases r <;> simp [Finset.sum_range_succ, MathOpt.exampleZ]
    · intro j hj
      interval_cases j <;> norm_num [Finset.sum_range_succ, MathOpt.exampleZ]
    · norm_num [Finset.sum_range_succ, MathOpt.exampleZ]
  · rintro ⟨N, μ, q, hμ, hsum, hq, hy⟩
    -- second coordinate: every point of nonzero weight has second coordinate `0`
    have h1 := hy 1 (by decide)
    have h0 := hy 0 (by decide)
    simp only [MathOpt.exampleZ] at h0 h1
    norm_num at h0 h1
    have hnn : ∀ t ∈ Finset.range N, 0 ≤ μ t * q t 1 := by
      intro t ht
      by_cases hz : μ t = 0
      · simp [hz]
      · obtain ⟨i, A_i, b_i, _, _, hin⟩ := hq t (Finset.mem_range.mp ht) hz
        exact mul_nonneg (hμ t (Finset.mem_range.mp ht)) (hin.1 1 (by decide))
    have hzero := (Finset.sum_eq_zero_iff_of_nonneg hnn).mp h1.symm
    -- first coordinate: every term vanishes
    have hfirst : ∀ t ∈ Finset.range N, μ t * q t 0 = 0 := by
      intro t ht
      by_cases hz : μ t = 0
      · simp [hz]
      · obtain ⟨i, A_i, b_i, hA, hbi, hin⟩ := hq t (Finset.mem_range.mp ht) hz
        have hq1 : q t 1 = 0 := by
          rcases mul_eq_zero.mp (hzero t ht) with h | h
          · exact absurd h hz
          · exact h
        rcases MathOpt.example_getElem i A_i b_i hA hbi with ⟨rfl, rfl, rfl⟩ | ⟨rfl, rfl, rfl⟩
        · have h2 := hin.2.1 0 (by decide)
          simp [Finset.sum_range_succ] at h2
          have h3 := hin.1 0 (by decide)
          have : q t 0 = 0 := le_antisymm h2 h3
          simp [this]
        · have h2 := hin.2.1 1 (by decide)
          simp [Finset.sum_range_succ, hq1] at h2
          norm_num at h2
    rw [Finset.sum_eq_zero hfirst] at h0
    norm_num at h0

/-- C4 (amended): convex-hull projection.  For every well-formed input of `convexHull`
without common constraints (`k ≥ 1` polyhedra `P_i = {y ≥ 0 : A_i y ≤ b_i}`) with output
`(A, b)`, every vector `z = (y, y_1..y_k, δ_1..δ_k)` with all components `≥ 0` that satisfies
`A z ≤ b` and in which `y_i = 0` whenever `δ_i = 0` has its `y`-part in `conv(⋃_i P_i)`. -/
theorem C4_convexHull_project {α : Type} [LinearOrderedField α] (n : Nat)
    (Ai : List (Mat α)) (bi : List (Vec α)) (Acom : Mat α) (bcom : Vec α)
    (hV : MathOpt.ValidInput n 0 Ai bi Acom bcom) :
    ∃ A b, MathOpt.convexHull Ai bi Acom bcom = .ok (Ai.length, A, b) ∧
      ∀ z : Nat → α, (∀ c < A.n_cols, 0 ≤ z c) →
        (∀ r < A.n_rows, MathOpt.rowDot A r z ≤ b.val r) →
        (∀ i < Ai.length, z (n + Ai.length * n + i) = 0 → ∀ j < n, z (n + i * n + j) = 0) →
        MathOpt.InConvUnion n Ai bi Acom bcom z := by
  obtain ⟨A, b, hout, hcols, hb, hiff⟩ := MathOpt.feasible_iff n 0 Ai bi Acom bcom hV
  refine ⟨A, b, hout, ?_⟩
  intro z hpos hfeas hrec
  have hlen : Ai.length = bi.length := hV.2.1.length_eq
  obtain ⟨hblock, hy, hd⟩ := (hiff z).mp hfeas
  have hδ : ∀ i < Ai.length, 0 ≤ z (n + Ai.length * n + i) := by
    intro i hi; exact hpos _ (by rw [hcols]; omega)
  have hyi : ∀ i < Ai.length, ∀ j < n, 0 ≤ z (n + i * n + j) := by
    intro i hi j hj
    have := MathOpt.mul_lt_k n i Ai.length hi
    exact hpos _ (by rw [hcols]; omega)
  refine ⟨Ai.length, fun i => z (n + Ai.length * n + i),
    fun i j => z (n + i * n + j) / z (n + Ai.length * n + i), ?_, hd, ?_, ?_⟩
  · intro t ht; exact hδ t ht
  · intro t ht hne
    have hib : t < bi.length := by omega
    have hpos' : 0 < z (n + Ai.length * n + t) := lt_of_le_of_ne (hδ t ht) (Ne.symm hne)
    refine ⟨t, Ai[t], bi[t], List.getElem?_eq_getElem ht, List.getElem?_eq_getElem hib, ?_, ?_, ?_⟩
    · intro j hj
      exact div_nonneg (hyi t ht j hj) (hδ t ht)
    · intro r hr
      have h1 := (hblock t Ai[t] bi[t] (List.getElem?_eq_getElem ht)
        (List.getElem?_eq_getElem hib)).1 r hr
      have e : ∑ j ∈ Finset.range n, Ai[t].val r j * (z (n + t * n + j) / z (n + Ai.length * n + t))
          = (∑ j ∈ Finset.range n, Ai[t].val r j * z (n + t * n + j))
            / z (n + Ai.length * n + t) := by
        rw [Finset.sum_div]
        exact Finset.sum_congr rfl fun j _ => by rw [mul_div_assoc]
      rw [e, div_le_iff₀ hpos']
      linarith
    · intro r hr
      rw [hV.2.2.1] at hr
      exact absurd hr (by omega)
  · intro j hj
    rw [hy j hj]
    apply Finset.sum_congr rfl
    intro i hi
    have hi' := Finset.mem_range.mp hi
    show z (n + i * n + j)
      = z (n + Ai.length * n + i) * (z (n + i * n + j) / z (n + Ai.length * n + i))
    by_cases h0 : z (n + Ai.length * n + i) = 0
    · rw [hrec i hi' h0 j hj, h0]; simp
    · field_simp

/-- The projection of C4 at the two polyhedra of `exampleAi`. -/
theorem C4_convexHull_project_witness :
    ∃ A b, MathOpt.convexHull MathOpt.exampleAi MathOpt.examplebi (Mat.zeros 0 0) (Vec.zeros 0)
        = .ok (2, A, b) ∧
      ∀ z : Nat → ℚ, (∀ c < A.n_cols, 0 ≤ z c) →
        (∀ r < A.n_rows, MathOpt.rowDot A r z ≤ b.val r) →
        (∀ i < 2, z (2 + 2 * 2 + i) = 0 → ∀ j < 2, z (2 + i * 2 + j) = 0) →
        MathOpt.InConvUnion 2 MathOpt.exampleAi MathOpt.examplebi (Mat.zeros 0 0) (Vec.zeros 0)
          z :=
  C4_convexHull_project 2 MathOpt.exampleAi MathOpt.examplebi (Mat.zeros 0 0) (Vec.zeros 0)
    MathOpt.example_valid

/-! ## Theorems: `MP_Param::addDummy` -/

namespace Game

namespace MP_Param

end MP_Param

end Game

namespace Utils

variable {α : Type}

theorem resizePatchVec_grow [Zero α] (v : Vec α) (nR : Nat) (h1 : 1 ≤ v.n_rows)
    (h : v.n_rows < nR) :
    ∃ v', resizePatchVec v nR = .ok v' ∧ v'.n_rows = nR ∧
      ∀ i, v'.val i = if i < v.n_rows then v.val i else 0 := by
  unfold resizePatchVec
  simp only [gt_iff_lt, h, if_true, usub_one _ h1, Vec.assignSubvec, Vec.zeros]
  have hcond : ¬ (0 > v.n_rows - 1 ∨ v.n_rows - 1 ≥ nR) := by omega
  have hsize : ¬ (v.n_rows ≠ v.n_rows - 1 - 0 + 1) := by omega
  rw [if_neg hcond, if_neg hsize]
  refine ⟨_, rfl, rfl, ?_⟩
  intro i
  simp only [Nat.zero_le, true_and, Nat.sub_zero]
  by_cases hi : i < v.n_rows
  · have : i ≤ v.n_rows - 1 := by omega
    simp [hi, this]
  · have : ¬ i ≤ v.n_rows - 1 := by omega
    simp [hi, this]

end Utils

namespace Mat

variable {α : Type}

theorem join_rows_ok (X Y : Mat α) (h : X.n_rows = Y.n_rows) :
    join_rows X Y = .ok ⟨X.n_rows, X.n_cols + Y.n_cols, fun i j =>
      if j < X.n_cols then X.val i j else Y.val i (j - X.n_cols)⟩ := by
  simp [join_rows, h]

theorem cols_ok (M : Mat α) (c0 c1 : Nat) (h0 : c0 ≤ c1) (h1 : c1 < M.n_cols) :
    cols M c0 c1 = .ok ⟨M.n_rows, c1 - c0 + 1, fun i j => M.val i (c0 + j)⟩ := by
  have : ¬ (c0 > c1 ∨ c1 ≥ M.n_cols) := by omega
  simp [cols, this]

end Mat

namespace Game

namespace MP_Param

variable {α : Type}

theorem toUword_natCast (k : Nat) : toUword (k : Int) = k := by
  simp [toUword]

theorem toUInt_natCast (k : Nat) : toUInt (k : Int) = k := by
  simp [toUInt]

/-- The `default:` insertion of `pars` zero columns before column `k`, `1 ≤ k ≤ n_cols`. -/
theorem insertCols_spec [Zero α] (M : Mat α) (pars k : Nat) (hk1 : 1 ≤ k)
    (hk : k ≤ M.n_cols) :
    ∃ M', insertCols M M.n_rows pars (k : Int) = .ok M' ∧ M'.n_rows = M.n_rows ∧
      M'.n_cols = M.n_cols + pars ∧
      ∀ i j, j < M.n_cols + pars →
        M'.val i j = if j < k then M.val i j else if j < k + pars then 0 else M.val i (j - pars) := by
  have e1 : toUword ((k : Int) - 1) = k - 1 := by
    have : ((k : Int) - 1) = ((k - 1 : Nat) : Int) := by omega
    rw [this, toUword_natCast]
  unfold insertCols
  rw [e1, toUInt_natCast, toUword_natCast, Mat.cols_ok M 0 (k - 1) (by omega) (by omega)]
  simp only [bind, Except.bind]
  rw [Mat.join_rows_ok _ _ (by simp [Mat.zeros])]
  simp only
  by_cases hlt : k < M.n_cols
  · rw [if_pos hlt, Utils.usub_one _ (by omega), Mat.cols_ok M k (M.n_cols - 1) (by omega) (by omega)]
    simp only
    rw [Mat.join_rows_ok _ _ (by rfl)]
    refine ⟨_, rfl, rfl, by simp [Mat.zeros]; omega, ?_⟩
    intro i j hj
    simp only [Mat.zeros, Nat.sub_zero, Nat.zero_add]
    have hk' : k - 1 + 1 = k := by omega
    rw [hk']
    by_cases h1 : j < k
    · have : j < k + pars := by omega
      simp [h1, this]
    · by_cases h2 : j < k + pars
      · simp [h1, h2]
      · have : k + (j - (k + pars)) = j - pars := by omega
        simp [h1, h2, this]
  · rw [if_neg hlt]
    refine ⟨_, rfl, rfl, by simp [Mat.zeros]; omega, ?_⟩
    intro i j hj
    simp only [pure, Except.pure, Mat.zeros, Nat.sub_zero, Nat.zero_add]
    have hk' : k - 1 + 1 = k := by omega
    rw [hk']
    by_cases h1 : j < k
    · simp [h1]
    · have h2 : j < k + pars := by omega
      simp [h1, h2]

/-- The block `if (vars) { ... }` of `addDummy`. -/
theorem addDummyVars_spec [Zero α] (m : MP_Param α) (vars ny : Nat) (hNy : m.Ny = ny + vars)
    (hQ : m.Q.n_rows ≤ ny ∧ m.Q.n_cols ≤ ny) (hB : m.B.n_rows = m.Ncons ∧ m.B.n_cols = ny)
    (hc : m.c.n_rows = ny) (hv : 1 ≤ ny ∨ vars = 0) :
    ∃ Q' B' c', addDummyVars m vars = .ok { m with Q := Q', B := B', c := c' } ∧
      (vars = 0 → Q' = m.Q ∧ B' = m.B ∧ c' = m.c) ∧
      (vars ≠ 0 →
        (Q'.n_rows = ny + vars ∧ Q'.n_cols = ny + vars ∧
          ∀ i j, Q'.val i j = if i < m.Q.n_rows ∧ j < m.Q.n_cols then m.Q.val i j else 0) ∧
        (B'.n_rows = m.Ncons ∧ B'.n_cols = ny + vars ∧
          ∀ i j, B'.val i j = if i < m.Ncons ∧ j < ny then m.B.val i j else 0) ∧
        (c'.n_rows = ny + vars ∧ ∀ i, c'.val i = if i < ny then m.c.val i else 0)) := by
  by_cases h0 : vars = 0
  · refine ⟨m.Q, m.B, m.c, ?_, fun _ => ⟨rfl, rfl, rfl⟩, fun h => absurd h0 h⟩
    simp [addDummyVars, h0, pure, Except.pure]
  · have hny : 1 ≤ ny := by omega
    obtain ⟨Q', hQ', hQr, hQc, hQv⟩ := Utils.resizePatch_grow m.Q m.Ny m.Ny (by omega) (by omega)
    obtain ⟨B', hB', hBr, hBc, hBv⟩ := Utils.resizePatch_grow m.B m.Ncons m.Ny (by omega)
      (by omega)
    obtain ⟨c', hc', hcr, hcv⟩ := Utils.resizePatchVec_grow m.c m.Ny (by omega) (by omega)
    refine ⟨Q', B', c', ?_, fun h => absurd h h0, fun _ => ⟨⟨?_, ?_, hQv⟩, ⟨hBr, ?_, ?_⟩, ?_, ?_⟩⟩
    · simp [addDummyVars, h0, hQ', hB', hc', bind, Except.bind, pure, Except.pure]
    · rw [hQr, hNy]
    · rw [hQc, hNy]
    · rw [hBc, hNy]
    · intro i j; rw [hBv, hB.1, hB.2]
    · rw [hcr, hNy]
    · intro i; rw [hcv, hc]

/-- What `resizePatch` to `nR x (nx + p)` gives, in the form of `IsInserted` at the end. -/
theorem isInserted_resize [Zero α] (M M' : Mat α) (nR nx p : Nat) (hc : M.n_cols = nx)
    (hr : M'.n_rows = nR) (hc' : M'.n_cols = nx + p)
    (hv : ∀ i j, M'.val i j = if i < M.n_rows ∧ j < M.n_cols then M.val i j else 0) :
    IsInserted M M' nR nx p nx := by
  refine ⟨hr, hc', ?_⟩
  intro i j _ hj
  rw [hv, hc]
  by_cases h1 : i < M.n_rows
  · by_cases h2 : j < nx
    · simp [h1, h2]
    · have : j < nx + p := hj
      simp [h1, h2, this]
  · simp [h1]

theorem isInserted_self [Zero α] (M : Mat α) (k : Nat) :
    IsInserted M M M.n_rows M.n_cols 0 k := by
  refine ⟨rfl, rfl, ?_⟩
  intro i j hi _
  by_cases h1 : j < k
  · simp [hi, h1]
  · have : ¬ j < k + 0 := by omega
    simp [hi, h1]

/-- The block `case -1:` of `addDummy`. -/
theorem addDummyAppend_spec [Zero α] (m : MP_Param α) (pars vars ny nx : Nat)
    (hNy : m.Ny = ny + vars) (hNx : m.Nx = nx + pars)
    (hC : m.C.n_rows = ny ∧ m.C.n_cols = nx)
    (hA : m.A.n_rows ≤ m.Ncons ∧ m.A.n_cols ≤ nx) :
    ∃ A' C', addDummyAppend m pars vars = .ok { m with A := A', C := C' } ∧
      (pars = 0 → A' = m.A) ∧
      (pars ≠ 0 → A'.n_rows = m.Ncons ∧ A'.n_cols = nx + pars) ∧
      (m.A.n_rows = m.Ncons → m.A.n_cols = nx → IsInserted m.A A' m.Ncons nx pars nx) ∧
      IsInserted m.C C' (ny + vars) nx pars nx := by
  -- the matrix `A`
  have hAex : ∃ A', (if pars ≠ 0 then Utils.resizePatch m.A m.Ncons m.Nx else .ok m.A)
      = Except.ok A' ∧ (pars = 0 → A' = m.A) ∧
      (pars ≠ 0 → A'.n_rows = m.Ncons ∧ A'.n_cols = nx + pars) ∧
      (m.A.n_rows = m.Ncons → m.A.n_cols = nx → IsInserted m.A A' m.Ncons nx pars nx) := by
    by_cases hp : pars = 0
    · refine ⟨m.A, by simp [hp], fun _ => rfl, fun h => absurd hp h, ?_⟩
      intro h1 h2
      have := isInserted_self m.A nx
      rw [h1, h2] at this
      rw [hp]; exact this
    · obtain ⟨A', hA', hr, hc, hval⟩ := Utils.resizePatch_grow m.A m.Ncons m.Nx hA.1 (by omega)
      refine ⟨A', by simp [hp, hA'], fun h => absurd h hp, fun _ => ⟨hr, by rw [hc, hNx]⟩, ?_⟩
      intro _ h2
      exact isInserted_resize m.A A' m.Ncons nx pars h2 hr (by rw [hc, hNx]) hval
  -- the matrix `C`
  have hCex : ∃ C', (if vars ≠ 0 ∨ pars ≠ 0 then Utils.resizePatch m.C m.Ny m.Nx
      else .ok m.C) = Except.ok C' ∧ IsInserted m.C C' (ny + vars) nx pars nx := by
    by_cases hvp : vars ≠ 0 ∨ pars ≠ 0
    · obtain ⟨C', hC', hr, hc, hval⟩ := Utils.resizePatch_grow m.C m.Ny m.Nx (by omega)
        (by omega)
      refine ⟨C', by simp only [hvp, if_true, hC'], ?_⟩
      exact isInserted_resize m.C C' (ny + vars) nx pars hC.2 (by rw [hr, hNy])
        (by rw [hc, hNx]) hval
    · have hv0 : vars = 0 := by
        by_contra h; exact hvp (Or.inl h)
      have hp0 : pars = 0 := by
        by_contra h; exact hvp (Or.inr h)
      refine ⟨m.C, by simp [hv0, hp0], ?_⟩
      have := isInserted_self m.C nx
      rw [hC.1, hC.2] at this
      rw [hv0, hp0]; exact this
  obtain ⟨A', hA', hA1, hA2, hA3⟩ := hAex
  obtain ⟨C', hC', hC1⟩ := hCex
  refine ⟨A', C', ?_, hA1, hA2, hA3, hC1⟩
  unfold addDummyAppend
  rw [hA']
  simp only [bind, Except.bind]
  rw [hC']

/-- The block `case 0:` of `addDummy`. -/
theorem addDummyPrepend_spec [Zero α] (m : MP_Param α) (pars vars ny nx : Nat)
    (hNy : m.Ny = ny + vars) (hC : m.C.n_rows = ny ∧ m.C.n_cols = nx)
    (hA : pars = 0 ∨ (m.A.n_rows = m.Ncons ∧ m.A.n_cols = nx)) :
    ∃ A' C', addDummyPrepend m pars vars = .ok { m with A := A', C := C' } ∧
      (pars = 0 → A' = m.A) ∧
      (pars ≠ 0 → A'.n_rows = m.Ncons ∧ A'.n_cols = nx + pars) ∧
      (m.A.n_rows = m.Ncons → m.A.n_cols = nx → IsInserted m.A A' m.Ncons nx pars 0) ∧
      IsInserted m.C C' (ny + vars) nx pars 0 := by
  have hAex : ∃ A', (if pars ≠ 0 then Mat.join_rows (Mat.zeros m.Ncons pars) m.A
      else .ok m.A) = Except.ok A' ∧ (pars = 0 → A' = m.A) ∧
      (pars ≠ 0 → A'.n_rows = m.Ncons ∧ A'.n_cols = nx + pars) ∧
      (m.A.n_rows = m.Ncons → m.A.n_cols = nx → IsInserted m.A A' m.Ncons nx pars 0) := by
    by_cases hp : pars = 0
    · refine ⟨m.A, by simp [hp], fun _ => rfl, fun h => absurd hp h, ?_⟩
      intro h1 h2
      have := isInserted_self m.A 0
      rw [h1, h2] at this
      rw [hp]; exact this
    · obtain ⟨h1, h2⟩ := hA.resolve_left hp
      have hj := Mat.join_rows_ok (Mat.zeros m.Ncons pars) m.A (by simp [Mat.zeros, h1])
      refine ⟨_, (by simp only [hp, ne_eq, not_false_eq_true, if_true]; exact hj),
        fun h => absurd h hp, fun _ => ⟨rfl, (by simp [Mat.zeros, h2]; omega)⟩, ?_⟩
      intro _ _
      refine ⟨rfl, (by simp [Mat.zeros, h2]; omega), ?_⟩
      intro i j hi hj
      simp only [Mat.zeros, h1, hi, if_true, Nat.not_lt_zero, if_false, Nat.zero_add]
  have hCex : ∃ C', (if vars ≠ 0 ∨ pars ≠ 0 then
        (Utils.resizePatch m.C m.Ny m.C.n_cols >>= fun C1 =>
          Mat.join_rows (Mat.zeros m.Ny pars) C1)
      else .ok m.C) = Except.ok C' ∧ IsInserted m.C C' (ny + vars) nx pars 0 := by
    by_cases hvp : vars ≠ 0 ∨ pars ≠ 0
    · obtain ⟨C1, hC1, hr, hc, hval⟩ := Utils.resizePatch_grow m.C m.Ny m.C.n_cols (by omega)
        (le_refl _)
      have hj := Mat.join_rows_ok (Mat.zeros m.Ny pars) C1 (by simp [Mat.zeros, hr])
      refine ⟨_, (by simp only [hvp, if_true, hC1, bind, Except.bind]; exact hj), ?_⟩
      refine ⟨(by simp [Mat.zeros, hNy]), (by simp [Mat.zeros, hc, hC.2]; omega), ?_⟩
      intro i j hi hj
      simp only [Mat.zeros, hval, hC.1, hC.2, Nat.not_lt_zero, if_false, Nat.zero_add]
      by_cases h1 : j < pars
      · simp [h1]
      · have : j - pars < nx := by omega
        simp [h1, this]
    · have hv0 : vars = 0 := by
        by_contra h; exact hvp (Or.inl h)
      have hp0 : pars = 0 := by
        by_contra h; exact hvp (Or.inr h)
      refine ⟨m.C, by simp [hv0, hp0], ?_⟩
      have := isInserted_self m.C 0
      rw [hC.1, hC.2] at this
      rw [hv0, hp0]; exact this
  obtain ⟨A', hA', hA1, hA2, hA3⟩ := hAex
  obtain ⟨C', hC', hC1⟩ := hCex
  refine ⟨A', C', ?_, hA1, hA2, hA3, hC1⟩
  unfold addDummyPrepend
  rw [hA']
  simp only [bind, Except.bind] at hC' ⊢
  rw [hC']

/-- The block `default:` of `addDummy`, for `position = k` with `1 ≤ k ≤ nx`. -/
theorem addDummyInsert_spec [Zero α] (m : MP_Param α) (pars vars ny nx k : Nat)
    (hk1 : 1 ≤ k) (hk : k ≤ nx)
    (hNy : m.Ny = ny + vars) (hC : m.C.n_rows = ny ∧ m.C.n_cols = nx)
    (hA : pars = 0 ∨ (m.A.n_rows = m.Ncons ∧ m.A.n_cols = nx)) :
    ∃ A' C', addDummyInsert m pars vars (k : Int) = .ok { m with A := A', C := C' } ∧
      (pars = 0 → A' = m.A) ∧
      (pars ≠ 0 → A'.n_rows = m.Ncons ∧ A'.n_cols = nx + pars) ∧
      (m.A.n_rows = m.Ncons → m.A.n_cols = nx → IsInserted m.A A' m.Ncons nx pars k) ∧
      IsInserted m.C C' (ny + vars) nx pars k := by
  have hAex : ∃ A', (if pars ≠ 0 then insertCols m.A m.Ncons pars (k : Int) else .ok m.A)
      = Except.ok A' ∧ (pars = 0 → A' = m.A) ∧
      (pars ≠ 0 → A'.n_rows = m.Ncons ∧ A'.n_cols = nx + pars) ∧
      (m.A.n_rows = m.Ncons → m.A.n_cols = nx → IsInserted m.A A' m.Ncons nx pars k) := by
    by_cases hp : pars = 0
    · refine ⟨m.A, by simp [hp], fun _ => rfl, fun h => absurd hp h, ?_⟩
      intro h1 h2
      have := isInserted_self m.A k
      rw [h1, h2] at this
      rw [hp]; exact this
    · obtain ⟨h1, h2⟩ := hA.resolve_left hp
      obtain ⟨A', hA', hr, hc, hval⟩ := insertCols_spec m.A pars k hk1 (by omega)
      rw [h1] at hA' hr
      rw [h2] at hc hval
      refine ⟨A', by simp only [hp, ne_eq, not_false_eq_true, if_true, hA'],
        fun h => absurd h hp, fun _ => ⟨hr, hc⟩, ?_⟩
      intro _ _
      refine ⟨hr, hc, ?_⟩
      intro i j hi hj
      rw [hval i j hj, h1]
      simp [hi]
  have hCex : ∃ C', (if vars ≠ 0 ∨ pars ≠ 0 then
        (Utils.resizePatch m.C m.Ny m.C.n_cols >>= fun C1 => insertCols C1 m.Ny pars (k : Int))
      else .ok m.C) = Except.ok C' ∧ IsInserted m.C C' (ny + vars) nx pars k := by
    by_cases hvp : vars ≠ 0 ∨ pars ≠ 0
    · obtain ⟨C1, hC1, hr, hc, hval⟩ := Utils.resizePatch_grow m.C m.Ny m.C.n_cols (by omega)
        (le_refl _)
      obtain ⟨C', hC', hr', hc', hval'⟩ := insertCols_spec C1 pars k hk1 (by omega)
      rw [hr] at hC' hr'
      rw [hc, hC.2] at hc' hval'
      refine ⟨C', by simp only [hvp, if_true, hC1, bind, Except.bind, hC'], ?_⟩
      refine ⟨by rw [hr', hNy], hc', ?_⟩
      intro i j hi hj
      rw [hval' i j hj]
      simp only [hval, hC.1, hC.2]
      by_cases h0 : i < ny
      · by_cases h1 : j < k
        · have : j < nx := by omega
          simp [h0, h1, this]
        · by_cases h2 : j < k + pars
          · simp [h0, h1, h2]
          · have : j - pars < nx := by omega
            simp [h0, h1, h2, this]
      · simp [h0]
    · have hv0 : vars = 0 := by
        by_contra h; exact hvp (Or.inl h)
      have hp0 : pars = 0 := by
        by_contra h; exact hvp (Or.inr h)
      refine ⟨m.C, by simp [hv0, hp0], ?_⟩
      have := isInserted_self m.C k
      rw [hC.1, hC.2] at this
      rw [hv0, hp0]; exact this
  obtain ⟨A', hA', hA1, hA2, hA3⟩ := hAex
  obtain ⟨C', hC', hC1⟩ := hCex
  refine ⟨A', C', ?_, hA1, hA2, hA3, hC1⟩
  unfold addDummyInsert
  rw [hA']
  simp only [bind, Except.bind] at hC' ⊢
  rw [hC']

/-- What `addDummy` returns on a program whose `B`, `C` and `c` have the sizes of the size
fields and whose `Q` and `A` are not larger: the sizes, the padded `Q`, `B`, `c`, and `A`,
`C` with the zero columns inserted. -/
theorem addDummy_spec [Zero α] (m : MP_Param α) (pars vars : Nat) (position : Int)
    (hQ : m.Q.n_rows ≤ m.Ny ∧ m.Q.n_cols ≤ m.Ny)
    (hB : m.B.n_rows = m.Ncons ∧ m.B.n_cols = m.Ny) (hc : m.c.n_rows = m.Ny)
    (hC : m.C.n_rows = m.Ny ∧ m.C.n_cols = m.Nx)
    (hAle : m.A.n_rows ≤ m.Ncons ∧ m.A.n_cols ≤ m.Nx)
    (hA : pars = 0 ∨ position = -1 ∨ (m.A.n_rows = m.Ncons ∧ m.A.n_cols = m.Nx))
    (hv : 1 ≤ m.Ny ∨ vars = 0)
    (hpos : position = -1 ∨ (0 ≤ position ∧ position ≤ (m.Nx : Int))) :
    ∃ m', m.addDummy pars vars position = .ok m' ∧
      m'.Nx = m.Nx + pars ∧ m'.Ny = m.Ny + vars ∧ m'.Ncons = m.Ncons ∧ m'.b = m.b ∧
      (vars = 0 → m'.Q = m.Q ∧ m'.B = m.B ∧ m'.c = m.c) ∧
      (vars ≠ 0 →
        (m'.Q.n_rows = m.Ny + vars ∧ m'.Q.n_cols = m.Ny + vars ∧
          ∀ i j, m'.Q.val i j = if i < m.Q.n_rows ∧ j < m.Q.n_cols then m.Q.val i j else 0) ∧
        (m'.B.n_rows = m.Ncons ∧ m'.B.n_cols = m.Ny + vars ∧
          ∀ i j, m'.B.val i j = if i < m.Ncons ∧ j < m.Ny then m.B.val i j else 0) ∧
        (m'.c.n_rows = m.Ny + vars ∧ ∀ i, m'.c.val i = if i < m.Ny then m.c.val i else 0)) ∧
      (pars = 0 → m'.A = m.A) ∧
      (pars ≠ 0 → m'.A.n_rows = m.Ncons ∧ m'.A.n_cols = m.Nx + pars) ∧
      (m.A.n_rows = m.Ncons → m.A.n_cols = m.Nx →
        IsInserted m.A m'.A m.Ncons m.Nx pars (insertIndex m.Nx position)) ∧
      IsInserted m.C m'.C (m.Ny + vars) m.Nx pars (insertIndex m.Nx position) := by
  obtain ⟨Q', B', c', hvars, hv0, hv1⟩ :=
    addDummyVars_spec { m with Nx := m.Nx + pars, Ny := m.Ny + vars } vars m.Ny rfl hQ hB hc hv
  unfold addDummy
  rw [hvars]
  simp only [bind, Except.bind]
  by_cases hm1 : position = -1
  · obtain ⟨A', C', hres, hA1, hA2, hA3, hC1⟩ := addDummyAppend_spec
      { m with Nx := m.Nx + pars, Ny := m.Ny + vars, Q := Q', B := B', c := c' } pars vars
      m.Ny m.Nx rfl rfl hC hAle
    rw [if_pos hm1, hres]
    have hk : insertIndex m.Nx position = m.Nx := by simp [insertIndex, hm1]
    rw [hk]
    exact ⟨_, rfl, rfl, rfl, rfl, rfl, hv0, hv1, hA1, hA2, hA3, hC1⟩
  · have hpos' := hpos.resolve_left hm1
    have hA' : pars = 0 ∨ (m.A.n_rows = m.Ncons ∧ m.A.n_cols = m.Nx) := by
      rcases hA with h | h | h
      · exact Or.inl h
      · exact absurd h hm1
      · exact Or.inr h
    by_cases h0 : position = 0
    · obtain ⟨A', C', hres, hA1, hA2, hA3, hC1⟩ := addDummyPrepend_spec
        { m with Nx := m.Nx + pars, Ny := m.Ny + vars, Q := Q', B := B', c := c' } pars vars
        m.Ny m.Nx rfl hC hA'
      rw [if_neg hm1, if_pos h0, hres]
      have hk : insertIndex m.Nx position = 0 := by simp [insertIndex, h0]
      rw [hk]
      exact ⟨_, rfl, rfl, rfl, rfl, rfl, hv0, hv1, hA1, hA2, hA3, hC1⟩
    · have hcast : position = ((Int.toNat position : Nat) : Int) := by omega
      have hk1 : 1 ≤ Int.toNat position := by omega
      have hk2 : Int.toNat position ≤ m.Nx := by omega
      obtain ⟨A', C', hres, hA1, hA2, hA3, hC1⟩ := addDummyInsert_spec
        { m with Nx := m.Nx + pars, Ny := m.Ny + vars, Q := Q', B := B', c := c' } pars vars
        m.Ny m.Nx (Int.toNat position) hk1 hk2 rfl hC hA'
      rw [← hcast] at hres
      rw [if_neg hm1, if_neg h0, hres]
      have hk : insertIndex m.Nx position = Int.toNat position := by simp [insertIndex, hm1]
      rw [hk]
      exact ⟨_, rfl, rfl, rfl, rfl, rfl, hv0, hv1, hA1, hA2, hA3, hC1⟩

end MP_Param

end Game

/-- C2 (as stated, refuted): the program `exampleEmptyA` (`ny = 1`, `nx = 2`, `ncons = 1`,
`A` of size `0 x 0`) has its size fields equal to the recomputed sizes and passes
`dataCheck(false)`; after `addDummy(1, 0, 0)` the matrix `A` has `1` column, the recomputed
`Nx` is `3`, and `dataCheck(false)` fails. -/
theorem C2_addDummy_emptyA_fails :
    Game.MP_Param.exampleEmptyA.size = Game.MP_Param.exampleEmptyA ∧
    Game.MP_Param.exampleEmptyA.dataCheck false = true ∧
    ∃ m', Game.MP_Param.exampleEmptyA.addDummy 1 0 0 = .ok m' ∧
      m'.size.Nx = 3 ∧ m'.A.n_cols = 1 ∧ m'.size.dataCheck false = false :=
  ⟨rfl, rfl, _, rfl, rfl, rfl, rfl⟩

/-- C2 (amended): for any `MP_Param m` whose size fields are the recomputed sizes
`(ny, nx, ncons)` and on which `dataCheck(false)` holds, every `p, v ≥ 0` and every `pos` in
`{-1, 0, 1..nx}`, provided that `ny ≥ 1` or `v = 0`, and that `p = 0` or `pos = -1` or `A` is
`ncons x nx`: `addDummy(p, v, pos)` returns, recomputing `size()` yields
`(ny + v, nx + p, ncons)`, and `dataCheck(false)` returns true. -/
theorem C2_addDummy_sizes {α : Type} [Zero α] [DecidableEq α] (m : Game.MP_Param α)
    (pars vars : Nat) (position : Int)
    (hs : m.size = m) (hd : m.dataCheck false = true)
    (hv : 1 ≤ m.Ny ∨ vars = 0)
    (hA : pars = 0 ∨ position = -1 ∨ (m.A.n_rows = m.Ncons ∧ m.A.n_cols = m.Nx))
    (hpos : position = -1 ∨ (0 ≤ position ∧ position ≤ (m.Nx : Int))) :
    ∃ m', m.addDummy pars vars position = .ok m' ∧
      m'.size.Ny = m.Ny + vars ∧ m'.size.Nx = m.Nx + pars ∧ m'.size.Ncons = m.Ncons ∧
      m'.size.dataCheck false = true := by
  have hNy : (if m.Q.n_rows < 1 then m.c.n_rows else m.Q.n_rows) = m.Ny :=
    congrArg Game.MP_Param.Ny hs
  have hNx : m.C.n_cols = m.Nx := congrArg Game.MP_Param.Nx hs
  have hNc : m.b.n_rows = m.Ncons := congrArg Game.MP_Param.Ncons hs
  simp only [Game.MP_Param.dataCheck, Bool.false_and, Bool.false_eq_true, if_false] at hd
  have d1 : ¬ (m.Q.n_cols > 0 ∧ m.Q.n_cols ≠ m.Ny) := by
    intro h; simp [h] at hd
  have d2 : ¬ (m.A.n_cols > 0 ∧ m.A.n_cols ≠ m.Nx) := by
    intro h; simp [h] at hd
  have d3 : m.B.n_cols = m.Ny := by
    by_contra h; simp [h] at hd
  have d4 : m.C.n_rows = m.Ny := by
    by_contra h; simp [h] at hd
  have d5 : m.c.n_rows = m.Ny := by
    by_contra h; simp [h] at hd
  have d6 : ¬ (m.A.n_rows > 0 ∧ m.A.n_rows ≠ m.Ncons) := by
    intro h; simp [h] at hd
  have d7 : m.B.n_rows = m.Ncons := by
    by_contra h; simp [h] at hd
  have hQr : m.Q.n_rows ≤ m.Ny := by
    split at hNy <;> omega
  obtain ⟨m', hres, hNx', hNy', hNc', hb', hv0, hv1, hp0, hp1, _, hC'⟩ :=
    Game.MP_Param.addDummy_spec m pars vars position ⟨hQr, by omega⟩ ⟨d7, d3⟩ d5 ⟨d4, hNx⟩
      ⟨by omega, by omega⟩ hA hv hpos
  have sNy : m'.size.Ny = m.Ny + vars := by
    show (if m'.Q.n_rows < 1 then m'.c.n_rows else m'.Q.n_rows) = m.Ny + vars
    by_cases h0 : vars = 0
    · obtain ⟨e1, _, e3⟩ := hv0 h0
      rw [e1, e3, hNy, h0]; rfl
    · obtain ⟨⟨e1, _, _⟩, _, _⟩ := hv1 h0
      rw [e1]
      have : ¬ (m.Ny + vars < 1) := by omega
      rw [if_neg this]
  have sNx : m'.size.Nx = m.Nx + pars := hC'.2.1
  have sNc : m'.size.Ncons = m.Ncons := by
    show m'.b.n_rows = m.Ncons
    rw [hb', hNc]
  refine ⟨m', hres, sNy, sNx, sNc, ?_⟩
  have c1 : ¬ (m'.Q.n_cols > 0 ∧ m'.Q.n_cols ≠ m.Ny + vars) := by
    by_cases h0 : vars = 0
    · rw [(hv0 h0).1, h0]; exact d1
    · rw [(hv1 h0).1.2.1]; omega
  have c2 : ¬ (m'.A.n_cols > 0 ∧ m'.A.n_cols ≠ m.Nx + pars) := by
    by_cases h0 : pars = 0
    · rw [hp0 h0, h0]; exact d2
    · rw [(hp1 h0).2]; omega
  have c3 : m'.B.n_cols = m.Ny + vars := by
    by_cases h0 : vars = 0
    · rw [(hv0 h0).2.1, h0]; exact d3
    · exact (hv1 h0).2.1.2.1
  have c4 : m'.C.n_rows = m.Ny + vars := hC'.1
  have c5 : m'.c.n_rows = m.Ny + vars := by
    by_cases h0 : vars = 0
    · rw [(hv0 h0).2.2, h0]; exact d5
    · exact (hv1 h0).2.2.1
  have c6 : ¬ (m'.A.n_rows > 0 ∧ m'.A.n_rows ≠ m.Ncons) := by
    by_cases h0 : pars = 0
    · rw [hp0 h0]; exact d6
    · rw [(hp1 h0).1]; omega
  have c7 : m'.B.n_rows = m.Ncons := by
    by_cases h0 : vars = 0
    · rw [(hv0 h0).2.1]; exact d7
    · exact (hv1 h0).2.1.1
  simp only [Game.MP_Param.dataCheck, Bool.false_and, Bool.false_eq_true, if_false]
  rw [sNy, sNx, sNc]
  have e : ∀ (x : Game.MP_Param α), x.size.Q = x.Q ∧ x.size.A = x.A ∧ x.size.B = x.B ∧
      x.size.C = x.C ∧ x.size.c = x.c := fun _ => ⟨rfl, rfl, rfl, rfl, rfl⟩
  rw [(e m').1, (e m').2.1, (e m').2.2.1, (e m').2.2.2.1, (e m').2.2.2.2]
  simp [c1, c2, c3, c4, c5, c6, c7]

/-- The sizes of C2 at `exampleSmall`, for `addDummy(2, 1, 1)`. -/
theorem C2_addDummy_sizes_witness :
    ∃ m', Game.MP_Param.exampleSmall.addDummy 2 1 1 = .ok m' ∧
      m'.size.Ny = 1 + 1 ∧ m'.size.Nx = 2 + 2 ∧ m'.size.Ncons = 1 ∧
      m'.size.dataCheck false = true :=
  C2_addDummy_sizes Game.MP_Param.exampleSmall 2 1 1 rfl rfl (Or.inl (by decide))
    (Or.inr (Or.inr ⟨rfl, rfl⟩)) (Or.inr ⟨by decide, by decide⟩)

namespace Game

namespace MP_Param

variable {α : Type}

theorem sum_pad [AddCommMonoid α] (n v : Nat) (g g' : Nat → α)
    (h : ∀ i < n + v, g' i = if i < n then g i else 0) :
    ∑ i ∈ Finset.range (n + v), g' i = ∑ i ∈ Finset.range n, g i := by
  rw [Finset.sum_range_add]
  have h1 : ∑ i ∈ Finset.range n, g' i = ∑ i ∈ Finset.range n, g i := by
    apply Finset.sum_congr rfl
    intro i hi
    have hi' := Finset.mem_range.mp hi
    rw [h i (by omega), if_pos hi']
  have h2 : ∑ i ∈ Finset.range v, g' (n + i) = 0 := by
    apply Finset.sum_eq_zero
    intro i hi
    have hi' := Finset.mem_range.mp hi
    rw [h (n + i) (by omega), if_neg (by omega)]
  rw [h1, h2, add_zero]

theorem sum_insertZeros [AddCommMonoid α] (nx p k : Nat) (hk : k ≤ nx) (f f' : Nat → α)
    (h : ∀ j < nx + p, f' j = if j < k then f j else if j < k + p then 0 else f (j - p)) :
    ∑ j ∈ Finset.range (nx + p), f' j = ∑ j ∈ Finset.range nx, f j := by
  have e1 : nx + p = k + (p + (nx - k)) := by omega
  have e2 : nx = k + (nx - k) := by omega
  rw [e1, Finset.sum_range_add, Finset.sum_range_add]
  conv_rhs => rw [e2, Finset.sum_range_add]
  have h1 : ∑ j ∈ Finset.range k, f' j = ∑ j ∈ Finset.range k, f j := by
    apply Finset.sum_congr rfl
    intro j hj
    have hj' := Finset.mem_range.mp hj
    rw [h j (by omega), if_pos hj']
  have h2 : ∑ j ∈ Finset.range p, f' (k + j) = 0 := by
    apply Finset.sum_eq_zero
    intro j hj
    have hj' := Finset.mem_range.mp hj
    rw [h (k + j) (by omega), if_neg (by omega), if_pos (by omega)]
  have h3 : ∑ j ∈ Finset.range (nx - k), f' (k + (p + j))
      = ∑ j ∈ Finset.range (nx - k), f (k + j) := by
    apply Finset.sum_congr rfl
    intro j hj
    have hj' := Finset.mem_range.mp hj
    rw [h (k + (p + j)) (by omega), if_neg (by omega), if_neg (by omega)]
    congr 1
    omega
  rw [h1, h2, h3, zero_add]

/-- Product of a matrix with inserted zero columns and a vector with inserted zeros. -/
theorem sum_isInserted [Semiring α] (M M' : Mat α) (nR nx p k i : Nat) (hk : k ≤ nx)
    (hM : M.n_cols = nx) (hi : i < M.n_rows) (hiR : i < nR)
    (h : IsInserted M M' nR nx p k) (x : Nat → α) :
    ∑ j ∈ Finset.range M'.n_cols, M'.val i j * insertZeros x k p j
      = ∑ j ∈ Finset.range M.n_cols, M.val i j * x j := by
  rw [h.2.1, hM]
  apply sum_insertZeros nx p k hk (fun j => M.val i j * x j)
  intro j hj
  rw [h.2.2 i j hiR hj, if_pos hi]
  simp only [insertZeros]
  by_cases h1 : j < k
  · simp [h1]
  · by_cases h2 : j < k + p
    · simp [h1, h2]
    · simp [h1, h2]

theorem insertIndex_le (nx : Nat) (position : Int)
    (hpos : position = -1 ∨ (0 ≤ position ∧ position ≤ (nx : Int))) :
    insertIndex nx position ≤ nx := by
  unfold insertIndex
  split
  · exact le_refl _
  · rcases hpos with h | h
    · contradiction
    · omega

/-- `addDummy` preserves the program, whenever the program has a variable (`ny ≥ 1`) or no
variable is added (`vars = 0`): with `p` zeros inserted in `x` where the new parameters are,
and whatever the values of the appended variables, the objective and the left-hand side of
every constraint are unchanged, and so is `b`. -/
theorem addDummy_preserves [Field α] (m : MP_Param α) (ny nx ncons : Nat)
    (hcons : Consistent m ny nx ncons) (pars vars : Nat) (position : Int)
    (hv : 1 ≤ ny ∨ vars = 0)
    (hpos : position = -1 ∨ (0 ≤ position ∧ position ≤ (nx : Int))) :
    ∃ m', m.addDummy pars vars position = .ok m' ∧
      Consistent m' (ny + vars) (nx + pars) ncons ∧ m'.b = m.b ∧
      ∀ x y : Nat → α,
        m'.objective (insertZeros x (insertIndex nx position) pars) y = m.objective x y ∧
        ∀ r < ncons,
          m'.constraintLhs (insertZeros x (insertIndex nx position) pars) y r
            = m.constraintLhs x y r := by
  obtain ⟨hNy, hNx, hNc, hQr, hQc, hCr, hCc, hAr, hAc, hBr, hBc, hcr, hbr⟩ := hcons
  subst hNy hNx hNc
  have hkle := insertIndex_le m.Nx position hpos
  obtain ⟨m', hres, hNx', hNy', hNc', hb', hv0, hv1, hp0, hp1, hA', hC'⟩ :=
    addDummy_spec m pars vars position ⟨by omega, by omega⟩ ⟨hBr, hBc⟩ hcr ⟨hCr, hCc⟩
      ⟨by omega, by omega⟩ (Or.inr (Or.inr ⟨hAr, hAc⟩)) hv hpos
  have hA'' := hA' hAr hAc
  -- the padded `Q`, `B`, `c`, whether `vars = 0` or not
  have UQ : m'.Q.n_rows = m.Ny + vars ∧ m'.Q.n_cols = m.Ny + vars ∧
      ∀ i j, i < m.Ny + vars → j < m.Ny + vars →
        m'.Q.val i j = if i < m.Ny ∧ j < m.Ny then m.Q.val i j else 0 := by
    by_cases h0 : vars = 0
    · rw [(hv0 h0).1, h0]
      refine ⟨hQr, hQc, ?_⟩
      intro i j hi hj
      have : i < m.Ny ∧ j < m.Ny := ⟨hi, hj⟩
      simp [this]
    · obtain ⟨⟨e1, e2, e3⟩, _, _⟩ := hv1 h0
      refine ⟨e1, e2, ?_⟩
      intro i j _ _
      rw [e3, hQr, hQc]
  have UB : m'.B.n_rows = m.Ncons ∧ m'.B.n_cols = m.Ny + vars ∧
      ∀ i j, i < m.Ncons → j < m.Ny + vars →
        m'.B.val i j = if j < m.Ny then m.B.val i j else 0 := by
    by_cases h0 : vars = 0
    · rw [(hv0 h0).2.1, h0]
      refine ⟨hBr, hBc, ?_⟩
      intro i j _ hj
      have : j < m.Ny := hj
      simp [this]
    · obtain ⟨_, ⟨e1, e2, e3⟩, _⟩ := hv1 h0
      refine ⟨e1, e2, ?_⟩
      intro i j hi _
      rw [e3]
      simp [hi]
  have Uc : m'.c.n_rows = m.Ny + vars ∧
      ∀ i, i < m.Ny + vars → m'.c.val i = if i < m.Ny then m.c.val i else 0 := by
    by_cases h0 : vars = 0
    · rw [(hv0 h0).2.2, h0]
      refine ⟨hcr, ?_⟩
      intro i hi
      have : i < m.Ny := hi
      simp [this]
    · obtain ⟨_, _, e1, e2⟩ := hv1 h0
      exact ⟨e1, fun i _ => e2 i⟩
  refine ⟨m', hres, ?_, hb', ?_⟩
  · exact ⟨hNy', hNx', hNc', UQ.1, UQ.2.1, hC'.1, hC'.2.1, hA''.1, hA''.2.1, UB.1, UB.2.1,
      Uc.1, by rw [hb', hbr]⟩
  · intro x y
    constructor
    · unfold objective
      congr 1
      · congr 1
        rw [UQ.1, UQ.2.1, hQr, hQc]
        apply sum_pad m.Ny vars (fun i => ∑ j ∈ Finset.range m.Ny, y i * m.Q.val i j * y j)
        intro i hi
        by_cases h1 : i < m.Ny
        · rw [if_pos h1]
          apply sum_pad m.Ny vars (fun j => y i * m.Q.val i j * y j)
          intro j hj
          rw [UQ.2.2 i j hi hj]
          by_cases h2 : j < m.Ny
          · simp [h1, h2]
          · simp [h2]
        · rw [if_neg h1]
          apply Finset.sum_eq_zero
          intro j hj
          rw [UQ.2.2 i j hi (Finset.mem_range.mp hj)]
          simp [h1]
      · rw [hC'.1, hCr]
        apply sum_pad m.Ny vars
          (fun i => (∑ j ∈ Finset.range m.C.n_cols, m.C.val i j * x j + m.c.val i) * y i)
        intro i hi
        by_cases h1 : i < m.Ny
        · rw [if_pos h1, sum_isInserted m.C m'.C (m.Ny + vars) m.Nx pars _ i hkle hCc
            (by omega) hi hC' x, Uc.2 i hi, if_pos h1]
        · rw [if_neg h1, Uc.2 i hi, if_neg h1]
          have : ∑ j ∈ Finset.range m'.C.n_cols,
              m'.C.val i j * insertZeros x (insertIndex m.Nx position) pars j = 0 := by
            apply Finset.sum_eq_zero
            intro j hj
            have hj' := Finset.mem_range.mp hj
            rw [hC'.2.1] at hj'
            rw [hC'.2.2 i j hi hj', if_neg (by omega)]
            simp
          rw [this]
          simp
    · intro r hr
      unfold constraintLhs
      congr 1
      · exact sum_isInserted m.A m'.A m.Ncons m.Nx pars _ r hkle hAc (by omega) hr hA'' x
      · rw [UB.2.1, hBc]
        apply sum_pad m.Ny vars (fun j => m.B.val r j * y j)
        intro j hj
        rw [UB.2.2 r j hr hj]
        by_cases h2 : j < m.Ny
        · simp [h2]
        · simp [h2]

end MP_Param

end Game

/-- C1 (the code departs from the claim): the dimensionally consistent program
`exampleNoVars`, with sizes `(ny, nx, m) = (0, 1, 1)`, on which `addDummy(0, 1, -1)` raises
instead of returning the program with one variable more: `resizePatch` on the empty vector
`c` evaluates `subvec(0, n_rows - 1)` with `n_rows = 0`. -/
theorem C1_addDummy_raises_without_variables :
    Game.MP_Param.Consistent Game.MP_Param.exampleNoVars 0 1 1 ∧
    Utils.resizePatchVec Game.MP_Param.exampleNoVars.c 1 = .error Exn.arma ∧
    Game.MP_Param.exampleNoVars.addDummy 0 1 (-1) = .error Exn.arma :=
  ⟨⟨rfl, rfl, rfl, rfl, rfl, rfl, rfl, rfl, rfl, rfl, rfl, rfl, rfl⟩, rfl, rfl⟩
namespace Utils

/-- The shrinking branch of `resizePatch` (sparse overload): `submat(0, 0, nR, nC)` has its
last indices included, so the result has one row and one column more than requested, and the
call raises when `nR` is the row count or `nC` the column count of the input. -/
theorem resizePatch_shrink {α : Type} [Zero α] (mat : Mat α) (nR nC : Nat)
    (hR : nR ≤ mat.n_rows) (hC : nC ≤ mat.n_cols) (hne : ¬ (nR = mat.n_rows ∧ nC = mat.n_cols)) :
    resizePatch mat nR nC =
      if nR < mat.n_rows ∧ nC < mat.n_cols then .ok ⟨nR + 1, nC + 1, mat.val⟩
      else .error Exn.arma := by
  have h1 : ¬ (nR ≥ mat.n_rows ∧ nC ≥ mat.n_cols) := by
    rintro ⟨h1, h2⟩
    exact hne ⟨le_antisymm hR h1, le_antisymm hC h2⟩
  unfold resizePatch
  simp only [h1, if_false, hR, hC, and_self, if_true]
  unfold Mat.submat
  by_cases h : nR < mat.n_rows ∧ nC < mat.n_cols
  · have h2 : ¬ (0 > nR ∨ 0 > nC ∨ nR ≥ mat.n_rows ∨ nC ≥ mat.n_cols) := by omega
    simp only [h2, if_false, h, and_self, if_true, Nat.sub_zero, Nat.zero_add]
  · have h2 : 0 > nR ∨ 0 > nC ∨ nR ≥ mat.n_rows ∨ nC ≥ mat.n_cols := by omega
    simp only [h2, if_true, h, if_false]

/-- The shrinking branch of `resizePatch` (vector overload): `subvec(0, nR)` has its last index
included. -/
theorem resizePatchVec_shrink {α : Type} [Zero α] (v : Vec α) (nR : Nat) (hR : nR ≤ v.n_rows) :
    resizePatchVec v nR =
      if nR < v.n_rows then .ok ⟨nR + 1, v.val⟩ else .error Exn.arma := by
  have h1 : ¬ (nR > v.n_rows) := by omega
  unfold resizePatchVec
  simp only [h1, if_false]
  unfold Vec.subvec
  by_cases h : nR < v.n_rows
  · have h2 : ¬ (0 > nR ∨ nR ≥ v.n_rows) := by omega
    simp only [h2, if_false, h, if_true, Nat.sub_zero, Nat.zero_add]
  · have h2 : 0 > nR ∨ nR ≥ v.n_rows := by omega
    simp only [h2, if_true, h, if_false]

/-- The growing branch of `resizePatch` (vector overload) on an empty vector: `n_rows - 1`
wraps around and `subvec` raises. -/
theorem resizePatchVec_empty {α : Type} [Zero α] (v : Vec α) (nR : Nat) (h0 : v.n_rows = 0)
    (hR : 0 < nR) (hlt : nR < 2 ^ 32) : resizePatchVec v nR = .error Exn.arma := by
  have h1 : nR > v.n_rows := by omega
  unfold resizePatchVec
  simp only [h1, if_true]
  unfold Vec.assignSubvec usub Vec.zeros
  rw [h0]
  have h3 : (0 > (if 1 ≤ 0 then 0 - 1 else 0 + 2 ^ 64 - 1) ∨
      (if 1 ≤ 0 then 0 - 1 else 0 + 2 ^ 64 - 1) ≥ nR) := by
    right
    norm_num
    omega
  rw [if_pos h3]

/-- When `resizePatch` (sparse overload) raises `OutOfRange`. -/
theorem resizePatch_outOfRange {α : Type} [Zero α] (mat : Mat α) (nR nC : Nat) :
    resizePatch mat nR nC = .error (Exn.zero ZEROErrorCode.OutOfRange) ↔
      (nR > mat.n_rows ∧ nC < mat.n_cols) ∨ (nR < mat.n_rows ∧ nC > mat.n_cols) := by
  unfold resizePatch
  by_cases h1 : nR ≥ mat.n_rows ∧ nC ≥ mat.n_cols
  · simp only [h1, and_self, if_true]
    have hr : ¬ ((nR > mat.n_rows ∧ nC < mat.n_cols) ∨ (nR < mat.n_rows ∧ nC > mat.n_cols)) := by
      omega
    simp only [hr, iff_false]
    by_cases h2 : mat.n_rows ≥ 1 ∧ mat.n_cols ≥ 1
    · simp only [h2, and_self, if_true]
      unfold Mat.assignSubmat
      split_ifs <;> simp
    · simp only [h2, if_false]
      simp
  · simp only [h1, if_false]
    by_cases h2 : nR ≤ mat.n_rows ∧ nC ≤ mat.n_cols
    · simp only [h2, and_self, if_true]
      have hr : ¬ ((nR > mat.n_rows ∧ nC < mat.n_cols) ∨ (nR < mat.n_rows ∧ nC > mat.n_cols)) := by
        omega
      simp only [hr, iff_false]
      unfold Mat.submat
      split_ifs <;> simp
    · simp only [h2, if_false, true_iff]
      omega

end Utils

/-- C11 (the code departs from the claim): on the `2 x 2` matrix `exampleSquare`, both
overloads of `resizePatch` return for `(nR, nC) = (1, 1)` a `2 x 2` matrix, the whole input, instead
of its leading `1 x 1` submatrix; for `(nR, nC) = (0, 0)` they return a `1 x 1` matrix; and for
`(nR, nC) = (2, 1)` they raise Armadillo's bounds error. -/
theorem C11_resizePatch_shrink_off_by_one :
    (∃ M, Utils.resizePatch Utils.exampleSquare 1 1 = .ok M ∧ M.n_rows = 2 ∧ M.n_cols = 2 ∧
      M.val 1 1 = 4) ∧
    (∃ M, Utils.resizePatchMat Utils.exampleSquare 1 1 = .ok M ∧ M.n_rows = 2 ∧ M.n_cols = 2 ∧
      M.val 1 1 = 4) ∧
    (∃ M, Utils.resizePatch Utils.exampleSquare 0 0 = .ok M ∧ M.n_rows = 1 ∧ M.n_cols = 1) ∧
    (∃ M, Utils.resizePatchMat Utils.exampleSquare 0 0 = .ok M ∧ M.n_rows = 1 ∧ M.n_cols = 1) ∧
    Utils.resizePatch Utils.exampleSquare 2 1 = .error Exn.arma ∧
    Utils.resizePatchMat Utils.exampleSquare 2 1 = .error Exn.arma :=
  ⟨⟨_, rfl, rfl, rfl, by norm_num [Utils.exampleSquare]⟩,
   ⟨_, rfl, rfl, rfl, by norm_num [Utils.exampleSquare]⟩,
   ⟨_, rfl, rfl, rfl⟩, ⟨_, rfl, rfl, rfl⟩, rfl, rfl⟩

/-- C12 (the code departs from the claim): `resizePatch` on the vector `exampleVec = (1, 2)`
raises Armadillo's bounds error when asked for the current length `2`, returns `2` entries
when asked for `1`, and raises on the empty vector when asked for length `1`. -/
theorem C12_resizePatch_vec_fails :
    Utils.resizePatchVec Utils.exampleVec 2 = .error Exn.arma ∧
    (∃ v, Utils.resizePatchVec Utils.exampleVec 1 = .ok v ∧ v.n_rows = 2) ∧
    Utils.resizePatchVec (Vec.zeros 0 : Vec ℚ) 1 = .error Exn.arma :=
  ⟨rfl, ⟨_, rfl, rfl⟩, rfl⟩

/-- C13: `resizePatch`, in its sparse and in its dense overload, raises a `ZEROException` with
code `OutOfRange` if and only if one requested dimension is strictly larger and the other
strictly smaller than the input's. -/
theorem C13_resizePatch_outOfRange {α : Type} [Zero α] (mat : Mat α) (nR nC : Nat) :
    (Utils.resizePatch mat nR nC = .error (Exn.zero ZEROErrorCode.OutOfRange) ↔
      (nR > mat.n_rows ∧ nC < mat.n_cols) ∨ (nR < mat.n_rows ∧ nC > mat.n_cols)) ∧
    (Utils.resizePatchMat mat nR nC = .error (Exn.zero ZEROErrorCode.OutOfRange) ↔
      (nR > mat.n_rows ∧ nC < mat.n_cols) ∨ (nR < mat.n_rows ∧ nC > mat.n_cols)) := by
  rw [Utils.resizePatchMat_eq]
  exact ⟨Utils.resizePatch_outOfRange mat nR nC, Utils.resizePatch_outOfRange mat nR nC⟩

namespace Game

namespace MP_Param

/-- What `dataCheck(false)` tests. -/
theorem dataCheck_false_iff {α : Type} [DecidableEq α] (m : MP_Param α) :
    m.dataCheck false = true ↔
      (m.Q.n_cols = 0 ∨ m.Q.n_cols = m.Ny) ∧ m.C.n_rows = m.Ny ∧ m.B.n_cols = m.Ny ∧
      (m.A.n_cols = 0 ∨ m.A.n_cols = m.Nx) ∧ (m.A.n_rows = 0 ∨ m.A.n_rows = m.Ncons) ∧
      m.B.n_rows = m.Ncons ∧ m.c.n_rows = m.Ny := by
  unfold dataCheck
  simp only [Bool.false_and, Bool.false_eq_true, if_false]
  split_ifs <;> simp <;> omega

/-- On a program that satisfies the invariants of section 3, `dataCheck(false)` returns
true. -/
theorem dataCheck_of_specInvariants {α : Type} [DecidableEq α] (m : MP_Param α)
    (h : m.SpecInvariants) : m.dataCheck false = true := by
  obtain ⟨h1, h2, h3, h4, h5, h6, h7, h8, h9⟩ := h
  rw [dataCheck_false_iff]
  exact ⟨Or.inr h2, h3, h4, Or.inr h5, Or.inr h6, h7, h9⟩

end MP_Param

end Game

/-- C14 (as stated, refuted): the program `exampleNoQ`, stored without `Q` (`Q` of size
`0 x 0`, one variable, one parameter, one constraint), passes `dataCheck(false)` after
`size()`, with `Ny = 1`, although `Q` is not `Ny x Ny`; and `exampleEmptyA` passes it after
`size()`, with `Nx = 2`, although `A` has no columns. -/
theorem C14_dataCheck_accepts_empty :
    (Game.MP_Param.exampleNoQ.size.dataCheck false = true ∧
      Game.MP_Param.exampleNoQ.size.Ny = 1 ∧
      ¬ Game.MP_Param.exampleNoQ.size.SpecInvariants) ∧
    (Game.MP_Param.exampleEmptyA.size.dataCheck false = true ∧
      Game.MP_Param.exampleEmptyA.size.Nx = 2 ∧
      ¬ Game.MP_Param.exampleEmptyA.size.SpecInvariants) := by
  refine ⟨⟨rfl, rfl, ?_⟩, ⟨rfl, rfl, ?_⟩⟩
  · intro h
    exact absurd h.1 (by decide)
  · intro h
    exact absurd h.2.2.2.2.1 (by decide)

/-- C14 (amended): after `size()` has recomputed `(Ny, Nx, Ncons)` from the stored data (so
that `Ncons = b.size`, `Nx` is the column count of `C`, and `Q` has `Ny` rows or none),
`dataCheck(false)` returns true if and only if `Q` has `Ny` columns or none, `C` has `Ny` rows,
`B` has `Ny` columns, `A` has `Nx` columns or none, `A` has `Ncons` rows or none, `B` has
`Ncons` rows, and `c` has `Ny` entries. -/
theorem C14_dataCheck_iff {α : Type} [DecidableEq α] (m : Game.MP_Param α) :
    (m.size.Ncons = m.b.n_rows ∧ m.size.Nx = m.C.n_cols ∧
      (m.Q.n_rows = 0 ∨ m.Q.n_rows = m.size.Ny)) ∧
    (m.size.dataCheck false = true ↔
      (m.Q.n_cols = 0 ∨ m.Q.n_cols = m.size.Ny) ∧ m.C.n_rows = m.size.Ny ∧
      m.B.n_cols = m.size.Ny ∧ (m.A.n_cols = 0 ∨ m.A.n_cols = m.size.Nx) ∧
      (m.A.n_rows = 0 ∨ m.A.n_rows = m.size.Ncons) ∧ m.B.n_rows = m.size.Ncons ∧
      m.c.n_rows = m.size.Ny) := by
  refine ⟨⟨rfl, rfl, ?_⟩, ?_⟩
  · unfold Game.MP_Param.size
    by_cases h : m.Q.n_rows < 1
    · left; omega
    · right; simp only [h, if_false]
  · exact Game.MP_Param.dataCheck_false_iff m.size

/-- C19 (as stated, refuted): the default `DeviationTolerance` is not `51/100000`
(`5.1e-4`). -/
theorem C19_DeviationTolerance_not_51e5 :
    ({} : ZEROAlgorithmData).DeviationTolerance ≠ 51 / 100000 := by
  norm_num

/-- C19 (amended): the default value of `DeviationTolerance` is the literal `51e-4`, that is
`51/10000` (`5.1e-3`). -/
theorem C19_DeviationTolerance_default :
    ({} : ZEROAlgorithmData).DeviationTolerance = 51 / 10000 := by
  norm_num

namespace MathOpt

/-- The outcome of `convexHullOut` is the one of `convexHull`. -/
theorem convexHullOut_outcome {α : Type} [Zero α] [One α] [Neg α] [DecidableEq α]
    (Ai : List (Mat α)) (bi : List (Vec α)) (A : Mat α) (b : Vec α) (Acom : Mat α)
    (bcom : Vec α) :
    convexHull Ai bi Acom bcom =
      match convexHullOut Ai bi A b Acom bcom with
      | (.ok r, A', b') => .ok (r, A', b')
      | (.error e, _, _) => .error e := by
  unfold convexHull convexHullOut
  simp only [bind, Except.bind, throw, throwThe, MonadExceptOf.throw, pure, Except.pure]
  split_ifs <;> try rfl
  cases hc : convexHullCount (Ai.headD (Mat.zeros 0 0)).n_cols Ai bi 0 with
  | error e => rfl
  | ok n0 =>
    simp only []
    cases hs : compConvSize (n0 + Ai.length * Acom.n_rows +
        (Ai.headD (Mat.zeros 0 0)).n_cols * 2 + 2)
        (Ai.length * (Ai.headD (Mat.zeros 0 0)).n_cols + Ai.length +
          (Ai.headD (Mat.zeros 0 0)).n_cols) Ai bi Acom bcom with
    | error e => rfl
    | ok A0 => rfl

/-- The checking loop of `convexHull` raises `Assertion` when the lists have the same length
and some polyhedron has not `nC` columns or not as many rows as its right-hand side. -/
theorem convexHullCount_error {α : Type} (nC : Nat) (Ai : List (Mat α)) (bi : List (Vec α))
    (hlen : Ai.length = bi.length)
    (hbad : (∃ M ∈ Ai, M.n_cols ≠ nC) ∨
      ∃ (i : Nat) (M : Mat α) (v : Vec α), Ai[i]? = some M ∧ bi[i]? = some v ∧
        M.n_rows ≠ v.n_rows) (acc : Nat) :
    convexHullCount nC Ai bi acc = .error (Exn.zero ZEROErrorCode.Assertion) := by
  induction Ai generalizing bi acc with
  | nil =>
    rcases hbad with ⟨M, hM, _⟩ | ⟨i, M, v, hM, _⟩
    · simp at hM
    · simp at hM
  | cons M0 Ms ih =>
    cases bi with
    | nil => simp at hlen
    | cons v0 vs =>
      simp only [convexHullCount]
      by_cases hc : M0.n_cols ≠ nC
      · simp [hc]
      · by_cases hr : M0.n_rows ≠ v0.n_rows
        · simp [hc, hr]
        · simp only [hc, hr, if_false]
          apply ih vs (by simpa using hlen)
          rcases hbad with ⟨M, hM, hMc⟩ | ⟨i, M, v, hM, hv, hMv⟩
          · left
            rcases List.mem_cons.mp hM with rfl | hM
            · exact absurd hMc hc
            · exact ⟨M, hM, hMc⟩
          · right
            cases i with
            | zero =>
              simp only [List.getElem?_cons_zero, Option.some.injEq] at hM hv
              subst hM; subst hv
              exact absurd hMv hr
            | succ i =>
              simp only [List.getElem?_cons_succ] at hM hv
              exact ⟨i, M, v, hM, hv, hMv⟩

end MathOpt

/-- C15: `convexHull` raises an `Assertion` error, with the output arguments `A` and `b` left
as they were, whenever the list of polyhedra is empty, or there are not as many `b_i` as `A_i`,
or some `A_i` has a column count different from the first polyhedron's, or some `b_i` has a
length different from the row count of its `A_i`.  And it does not raise (it returns the number
of polyhedra) when the input is well formed: at least one polyhedron, as many `b_i` as `A_i`,
all `A_i` with `n` columns, every `b_i` as long as its `A_i` has rows, and common constraints
`Acom`, `bcom` with `mc` rows each, where `mc = 0` (none) or `Acom` has `n` columns. -/
theorem C15_convexHull_checks {α : Type} [Zero α] [One α] [Neg α] [DecidableEq α]
    (Ai : List (Mat α)) (bi : List (Vec α)) (A : Mat α) (b : Vec α) (Acom : Mat α)
    (bcom : Vec α) :
    ((Ai = [] ∨ Ai.length ≠ bi.length ∨
        (∃ M ∈ Ai, M.n_cols ≠ (Ai.headD (Mat.zeros 0 0)).n_cols) ∨
        (∃ (i : Nat) (M : Mat α) (v : Vec α), Ai[i]? = some M ∧ bi[i]? = some v ∧
          M.n_rows ≠ v.n_rows)) →
      MathOpt.convexHullOut Ai bi A b Acom bcom =
        (.error (Exn.zero ZEROErrorCode.Assertion), A, b)) ∧
    (∀ n mc : Nat, MathOpt.ValidInput n mc Ai bi Acom bcom →
      ∃ A' b', MathOpt.convexHullOut Ai bi A b Acom bcom = (.ok Ai.length, A', b')) := by
  constructor
  · intro hbad
    unfold MathOpt.convexHullOut
    dsimp only
    by_cases h0 : Ai.length = 0
    · rw [if_pos h0]
    · rw [if_neg h0]
      by_cases h1 : Acom.n_rows > 0 ∧ Acom.n_cols ≠ (Ai.headD (Mat.zeros 0 0)).n_cols
      · rw [if_pos h1]
      · rw [if_neg h1]
        by_cases h2 : Acom.n_rows > 0 ∧ Acom.n_rows ≠ bcom.n_rows
        · rw [if_pos h2]
        · rw [if_neg h2]
          by_cases h3 : Ai.length ≠ bi.length
          · rw [if_pos h3]
          · rw [if_neg h3]
            have hlen : Ai.length = bi.length := not_not.mp h3
            have hbad' : (∃ M ∈ Ai, M.n_cols ≠ (Ai.headD (Mat.zeros 0 0)).n_cols) ∨
                ∃ (i : Nat) (M : Mat α) (v : Vec α), Ai[i]? = some M ∧ bi[i]? = some v ∧
                  M.n_rows ≠ v.n_rows := by
              rcases hbad with h | h | h | h
              · exact absurd (by rw [h]; rfl) h0
              · exact absurd h h3
              · exact Or.inl h
              · exact Or.inr h
            rw [MathOpt.convexHullCount_error _ Ai bi hlen hbad' 0]
  · intro n mc hV
    obtain ⟨A', b', hout, _⟩ := MathOpt.convexHull_spec n mc Ai bi Acom bcom hV
    have hlink := MathOpt.convexHullOut_outcome Ai bi A b Acom bcom
    rw [hout] at hlink
    rcases hres : MathOpt.convexHullOut Ai bi A b Acom bcom with ⟨res, A'', b''⟩
    rw [hres] at hlink
    cases res with
    | error e => simp at hlink
    | ok r =>
      simp only [Except.ok.injEq, Prod.mk.injEq] at hlink
      exact ⟨A'', b'', by rw [hlink.1]⟩

/-- The two parts of C15: on the empty list of polyhedra the call raises `Assertion` and the
outputs keep the values they had (here the matrix and the vector of `exampleSquare`,
`exampleVec`); on the two polyhedra of `exampleAi` it returns `2`. -/
theorem C15_convexHull_checks_witness :
    MathOpt.convexHullOut ([] : List (Mat ℚ)) [] Utils.exampleSquare Utils.exampleVec
        (Mat.zeros 0 0) (Vec.zeros 0) =
      (.error (Exn.zero ZEROErrorCode.Assertion), Utils.exampleSquare, Utils.exampleVec) ∧
    ∃ A' b', MathOpt.convexHullOut MathOpt.exampleAi MathOpt.examplebi Utils.exampleSquare
        Utils.exampleVec (Mat.zeros 0 0) (Vec.zeros 0) = (.ok 2, A', b') :=
  ⟨(C15_convexHull_checks [] [] Utils.exampleSquare Utils.exampleVec (Mat.zeros 0 0)
      (Vec.zeros 0)).1 (Or.inl rfl),
   (C15_convexHull_checks MathOpt.exampleAi MathOpt.examplebi Utils.exampleSquare
      Utils.exampleVec (Mat.zeros 0 0) (Vec.zeros 0)).2 2 0 MathOpt.example_valid⟩

namespace Algorithms

namespace EPEC

namespace OuterTree

/-- Setting bit `k` in `Encoding` and clearing it in `AllowedBranchings` keeps the
invariant. -/
theorem inv_set (encSize : Nat) (enc alw : List Bool) (k : Nat)
    (h1 : enc.length = encSize) (h2 : alw.length = encSize)
    (h3 : ∀ i : Nat, enc[i]? = some true → alw[i]? = some false) (hk : k < alw.length) :
    (enc.set k true).length = encSize ∧ (alw.set k false).length = encSize ∧
    ∀ i : Nat, (enc.set k true)[i]? = some true → (alw.set k false)[i]? = some false := by
  refine ⟨by rw [List.length_set, h1], by rw [List.length_set, h2], ?_⟩
  intro i hi
  by_cases hik : k = i
  · subst hik
    rw [List.getElem?_set_self hk]
  · rw [List.getElem?_set_ne hik] at hi
    rw [List.getElem?_set_ne hik]
    exact h3 i hi

/-- Clearing a bit of `AllowedBranchings` keeps the invariant. -/
theorem inv_clear (encSize : Nat) (enc alw : List Bool) (k : Nat)
    (h1 : enc.length = encSize) (h2 : alw.length = encSize)
    (h3 : ∀ i : Nat, enc[i]? = some true → alw[i]? = some false) (hk : k < alw.length) :
    enc.length = encSize ∧ (alw.set k false).length = encSize ∧
    ∀ i : Nat, enc[i]? = some true → (alw.set k false)[i]? = some false := by
  refine ⟨h1, by rw [List.length_set, h2], ?_⟩
  intro i hi
  by_cases hik : k = i
  · subst hik
    rw [List.getElem?_set_self hk]
  · rw [List.getElem?_set_ne hik]
    exact h3 i hi

theorem atSet_ok (v : List Bool) (i : Nat) (x : Bool) (w : List Bool)
    (h : atSet v i x = .ok w) : i < v.length ∧ w = v.set i x := by
  unfold atSet at h
  by_cases hi : i < v.length
  · rw [if_pos hi] at h
    exact ⟨hi, (Except.ok.inj h).symm⟩
  · rw [if_neg hi] at h
    exact absurd h (by simp)

theorem bind_ok {β γ : Type} (x : Except Exn β) (f : β → Except Exn γ) (c : γ)
    (h : (x >>= f) = .ok c) : ∃ a, x = .ok a ∧ f a = .ok c := by
  cases x with
  | error e => exact absurd h (by simp [bind, Except.bind])
  | ok a => exact ⟨a, rfl, h⟩

theorem inv_root (encSize : Nat) : NodeInv encSize (Node.root encSize) := by
  refine ⟨by simp [Node.root], by simp [Node.root], ?_⟩
  intro i hi
  simp only [Node.root] at hi
  rw [List.getElem?_replicate] at hi
  split_ifs at hi
  · exact absurd (Option.some.inj hi) (by decide)

theorem inv_child (encSize : Nat) (p n : Node) (idComp id : Nat) (hp : NodeInv encSize p)
    (h : Node.child p idComp id = .ok n) : NodeInv encSize n := by
  unfold Node.child at h
  obtain ⟨enc, he, h⟩ := bind_ok _ _ _ h
  obtain ⟨alw, ha, h⟩ := bind_ok _ _ _ h
  obtain ⟨_, he⟩ := atSet_ok _ _ _ _ he
  obtain ⟨hk, ha⟩ := atSet_ok _ _ _ _ ha
  have hn := Except.ok.inj h
  subst hn; subst he; subst ha
  exact inv_set encSize p.Encoding p.AllowedBranchings idComp hp.1 hp.2.1 hp.2.2 hk

theorem inv_childrenLoop (encSize : Nat) (ids : List Int) (n n' : Node)
    (hn : NodeInv encSize n) (h : Node.childrenLoop ids n = .ok n') : NodeInv encSize n' := by
  induction ids generalizing n with
  | nil =>
    simp only [Node.childrenLoop] at h
    rw [← Except.ok.inj h]
    exact hn
  | cons idComp rest ih =>
    simp only [Node.childrenLoop] at h
    by_cases hneg : idComp < 0
    · rw [if_pos hneg] at h
      exact absurd h (by simp)
    · rw [if_neg hneg] at h
      obtain ⟨enc, he, h⟩ := bind_ok _ _ _ h
      obtain ⟨alw, ha, h⟩ := bind_ok _ _ _ h
      obtain ⟨_, he⟩ := atSet_ok _ _ _ _ he
      obtain ⟨hk, ha⟩ := atSet_ok _ _ _ _ ha
      subst he; subst ha
      have hstep : NodeInv encSize
          { n with
            Encoding := n.Encoding.set (Int.toNat idComp) true
            AllowedBranchings := n.AllowedBranchings.set (Int.toNat idComp) false
            IdComps := n.IdComps ++ [Int.toNat idComp] } :=
        inv_set encSize n.Encoding n.AllowedBranchings _ hn.1 hn.2.1 hn.2.2 hk
      exact ih _ hstep h

theorem inv_children (encSize : Nat) (p n : Node) (ids : List Int) (id : Nat)
    (hp : NodeInv encSize p) (h : Node.children p ids id = .ok n) : NodeInv encSize n := by
  unfold Node.children at h
  obtain ⟨n1, h1, h⟩ := bind_ok _ _ _ h
  have hn := Except.ok.inj h
  subst hn
  have h0 : NodeInv encSize ⟨[], p.Encoding, p.AllowedBranchings, 0, none⟩ := hp
  exact inv_childrenLoop encSize ids _ n1 h0 h1

theorem inv_deny (encSize : Nat) (T : OuterTree) (n n' : Node) (location : Nat)
    (hn : NodeInv encSize n) (h : denyBranchingLocation T n location = .ok n') :
    NodeInv encSize n' := by
  unfold denyBranchingLocation at h
  by_cases hl : location ≥ T.EncodingSize
  · rw [if_pos hl] at h
    exact absurd h (by simp)
  · rw [if_neg hl] at h
    obtain ⟨alw, ha, h⟩ := bind_ok _ _ _ h
    obtain ⟨hk, ha⟩ := atSet_ok _ _ _ _ ha
    have hn' := Except.ok.inj h
    subst hn'; subst ha
    exact inv_clear encSize n.Encoding n.AllowedBranchings location hn.1 hn.2.1 hn.2.2 hk

/-- When `singleBranch` leaves the node list one node longer, that node is the child made by
the constructor. -/
theorem singleBranch_new (T : OuterTree) (t n : Node) (idComp : Nat)
    (h : (singleBranch T idComp t).1.Nodes = T.Nodes ++ [n]) :
    Node.child t idComp T.NodeCounter = .ok n := by
  unfold singleBranch at h
  by_cases hi : idComp ≥ T.EncodingSize
  · rw [if_pos hi] at h
    simp at h
  · rw [if_neg hi] at h
    cases he : t.Encoding[idComp]? with
    | none => rw [he] at h; simp at h
    | some b =>
      rw [he] at h
      cases b with
      | true => simp at h
      | false =>
        simp only [nextIdentifier] at h
        cases hc : Node.child t idComp T.NodeCounter with
        | error e => rw [hc] at h; simp at h
        | ok c =>
          rw [hc] at h
          simp only [List.append_cancel_left_eq, List.cons.injEq, and_true] at h
          rw [h]

theorem inv_obtainable (encSize : Nat) (n : Node) (h : Obtainable encSize n) :
    NodeInv encSize n := by
  induction h with
  | root => exact inv_root encSize
  | child p n idComp id _ hc ih => exact inv_child encSize p n idComp id ih hc
  | children p n ids id _ hc ih => exact inv_children encSize p n ids id ih hc
  | deny T n n' location _ _ hd ih => exact inv_deny encSize T n n' location ih hd
  | branch T t n idComp _ _ hb ih =>
    exact inv_child encSize t n idComp T.NodeCounter ih (singleBranch_new T t n idComp hb)

/-- The node made from the root of size `3` by branching on bit `1` (through `singleBranch`)
and then denying bit `2` is obtainable. -/
theorem example_obtainable :
    Obtainable 3 ⟨[1], [false, true, false], [true, false, false], 1, some 0⟩ :=
  Obtainable.deny ⟨3, [], 1⟩ ⟨[1], [false, true, false], [true, false, true], 1, some 0⟩ _ 2
    (Obtainable.branch ⟨3, [], 1⟩ (Node.root 3) _ 1 Obtainable.root rfl rfl) rfl rfl

end OuterTree

end EPEC

end Algorithms

/-- C16: the root `Node(encSize)` has `Encoding` all false and `AllowedBranchings` all true; and
for every node obtainable from it by any sequence of `singleBranch`, the two child-node
constructors and `denyBranchingLocation`, `Encoding` and `AllowedBranchings` both have length
`encSize` and every bit that is true in `Encoding` is false in `AllowedBranchings`. -/
theorem C16_node_invariant (encSize : Nat) (n : Algorithms.EPEC.OuterTree.Node)
    (h : Algorithms.EPEC.OuterTree.Obtainable encSize n) :
    ((Algorithms.EPEC.OuterTree.Node.root encSize).Encoding = List.replicate encSize false ∧
      (Algorithms.EPEC.OuterTree.Node.root encSize).AllowedBranchings
        = List.replicate encSize true) ∧
    n.Encoding.length = encSize ∧ n.AllowedBranchings.length = encSize ∧
    ∀ i : Nat, i < encSize → n.Encoding[i]? = some true →
      n.AllowedBranchings[i]? = some false := by
  obtain ⟨h1, h2, h3⟩ := Algorithms.EPEC.OuterTree.inv_obtainable encSize n h
  exact ⟨⟨rfl, rfl⟩, h1, h2, fun i _ hi => h3 i hi⟩

/-- The invariant of C16 at the node made from the root of size `3` by `singleBranch` on bit
`1` and `denyBranchingLocation` on bit `2`. -/
theorem C16_node_invariant_witness :
    ((Algorithms.EPEC.OuterTree.Node.root 3).Encoding = List.replicate 3 false ∧
      (Algorithms.EPEC.OuterTree.Node.root 3).AllowedBranchings = List.replicate 3 true) ∧
    [false, true, false].length = 3 ∧ [true, false, false].length = 3 ∧
    ∀ i : Nat, i < 3 → [false, true, false][i]? = some true →
      [true, false, false][i]? = some false :=
  C16_node_invariant 3 _ Algorithms.EPEC.OuterTree.example_obtainable

/-- C18 (as stated, refuted): in the run `exampleRun`, where the extraction of the master LCP
solution raises a `GRBException`, `computeNashEq` returns false with `NashEquilibrium = false`
and `Stats.Status` set to `NashEqNotFound` when the status query answers `2` (`GRB_OPTIMAL`),
and to `TimeLimit` when it answers `GRB_TIME_LIMIT`: never to `Numerical`; and when the status
query itself raises, the exception escapes. -/
theorem C18_computeNashEq_not_numerical :
    Game.EPEC.computeNashEq (Game.EPEC.exampleRun (.ok 2)) false false false 0 false
        ⟨true, ZEROStatus.Uninitialized, 0⟩ =
      .ok (false, ⟨false, ZEROStatus.NashEqNotFound, 1⟩) ∧
    Game.EPEC.computeNashEq (Game.EPEC.exampleRun (.ok Game.EPEC.GRB_TIME_LIMIT)) false false
        false 0 false ⟨true, ZEROStatus.Uninitialized, 0⟩ =
      .ok (false, ⟨false, ZEROStatus.TimeLimit, 1⟩) ∧
    Game.EPEC.computeNashEq (Game.EPEC.exampleRun (.error Exn.grb)) false false false 0 false
        ⟨true, ZEROStatus.Uninitialized, 0⟩ = .error Exn.grb := by
  refine ⟨?_, ?_, ?_⟩ <;>
    simp [Game.EPEC.computeNashEq, Game.EPEC.computeNashEqSolve,
      Game.EPEC.computeNashEqExtract, Game.EPEC.exampleRun, Game.EPEC.GRB_TIME_LIMIT, bind,
      Except.bind]

/-- C18 (amended): treating the solver calls as operations that may raise, whenever the call of
`computeNashEq` reaches the extraction of the master LCP solution (the operations before it
return, leaving the state `s1`) and the solver raises a `GRBException` during the extraction,
the exception is caught: `NashEquilibrium` stays false; if the status query that follows
returns `st`, the call returns false with `Stats.Status` set to `TimeLimit` when
`st = GRB_TIME_LIMIT` and to `NashEqNotFound` otherwise; if the status query raises, that
exception escapes. -/
theorem C18_computeNashEq_catches (o : Game.EPEC.MasterLCP)
    (boundPrimals polyLcp pureNE : Bool) (localTimeLimit : ℚ) (check : Bool)
    (s s1 : Game.EPEC.SolveState)
    (hpre : Game.EPEC.computeNashEqSolve o boundPrimals polyLcp pureNE localTimeLimit check s
      = .ok s1)
    (hraise : o.extractSols = .error Exn.grb) :
    s1.NashEquilibrium = false ∧
    (∀ st : Int, o.status = .ok st →
      Game.EPEC.computeNashEq o boundPrimals polyLcp pureNE localTimeLimit check s =
        .ok (false, { s1 with Status :=
          if st = Game.EPEC.GRB_TIME_LIMIT then ZEROStatus.TimeLimit
          else ZEROStatus.NashEqNotFound })) ∧
    (∀ e : Exn, o.status = .error e →
      Game.EPEC.computeNashEq o boundPrimals polyLcp pureNE localTimeLimit check s =
        .error e) := by
  have hne : s1.NashEquilibrium = false := by
    unfold Game.EPEC.computeNashEqSolve at hpre
    cases h1 : o.makeTheLCP with
    | error e => rw [h1] at hpre; exact absurd hpre (by simp [bind, Except.bind])
    | ok u1 =>
      rw [h1] at hpre
      simp only [bind, Except.bind] at hpre
      split at hpre
      · exact absurd hpre (by simp)
      · split at hpre
        · exact absurd hpre (by simp)
        · split at hpre
          · exact absurd hpre (by simp)
          · split at hpre
            · exact absurd hpre (by simp)
            · split at hpre
              · exact absurd hpre (by simp)
              · split at hpre
                · exact absurd hpre (by simp)
                · split at hpre
                  · exact absurd hpre (by simp)
                  · rw [← Except.ok.inj hpre]
  refine ⟨hne, ?_, ?_⟩
  · intro st hst
    unfold Game.EPEC.computeNashEq
    rw [hpre]
    simp only [bind, Except.bind, Game.EPEC.computeNashEqExtract, hraise, hne, hst,
      Bool.false_eq_true, if_false]
    split_ifs <;> rfl
  · intro e hst
    unfold Game.EPEC.computeNashEq
    rw [hpre]
    simp only [bind, Except.bind, Game.EPEC.computeNashEqExtract, hraise, hne, hst,
      Bool.false_eq_true, if_false]

/-- The statement of C18 at the run `exampleRun` with status `2`: the call returns false with
status `NashEqNotFound`. -/
theorem C18_computeNashEq_catches_witness :
    Game.EPEC.computeNashEq (Game.EPEC.exampleRun (.ok 2)) false false false 0 false
        ⟨true, ZEROStatus.Uninitialized, 0⟩ =
      .ok (false, ⟨false, ZEROStatus.NashEqNotFound, 0 + 1⟩) :=
  (C18_computeNashEq_catches (Game.EPEC.exampleRun (.ok 2)) false false false 0 false
    ⟨true, ZEROStatus.Uninitialized, 0⟩ ⟨false, ZEROStatus.Uninitialized, 0 + 1⟩ rfl rfl).2.1 2
    rfl

namespace Game

namespace EPEC

variable {α : Type}

/-- The loop of `computeLeaderLocations` returns the sums of the entries of `LocEnds` before
each index. -/
theorem leaderLocationsLoop_spec (LocEnds : List Nat) (N : Nat) (hL : LocEnds.length = N)
    (n i : Nat) (locs : List Nat) (hlen : locs.length = N) (hi : 1 ≤ i) (hin : i + n = N)
    (hinv : ∀ j < i, locs[j]? = some (LocEnds.take j).sum) :
    ∃ locs', leaderLocationsLoop LocEnds n i locs = .ok locs' ∧ locs'.length = N ∧
      ∀ j < N, locs'[j]? = some (LocEnds.take j).sum := by
  induction n generalizing i locs with
  | zero =>
    refine ⟨locs, rfl, hlen, ?_⟩
    intro j hj
    exact hinv j (by omega)
  | succ n ih =>
    have h1 : locs[i - 1]? = some (LocEnds.take (i - 1)).sum := hinv (i - 1) (by omega)
    have hiL : i - 1 < LocEnds.length := by omega
    have h2 : LocEnds[i - 1]? = some LocEnds[i - 1] := List.getElem?_eq_getElem hiL
    have h3 : i < locs.length := by omega
    simp only [leaderLocationsLoop, h1, h2, if_pos h3]
    apply ih (i + 1) _ (by rw [List.length_set, hlen]) (by omega) (by omega)
    intro j hj
    by_cases hji : i = j
    · subst hji
      rw [List.getElem?_set_self h3]
      have hs := List.sum_take_succ LocEnds (i - 1) hiL
      have hii : i - 1 + 1 = i := by omega
      rw [hii] at hs
      rw [hs]
    · rw [List.getElem?_set_ne hji]
      exact hinv j (by omega)

/-- What `computeLeaderLocations` computes when there are as many entries in `LocEnds` as
players, and at least one. -/
theorem computeLeaderLocations_spec (e : EPEC α) (mc N : Nat) (hN : 1 ≤ N)
    (hP : e.NumPlayers = N) (hL : e.LocEnds.length = N) :
    ∃ locs, computeLeaderLocations e mc =
        .ok { e with LeaderLocations := locs, NumVariables := e.LocEnds.sum + mc } ∧
      locs.length = N ∧ ∀ j < N, locs[j]? = some (e.LocEnds.take j).sum := by
  obtain ⟨locs, hloop, hlen, hsum⟩ := leaderLocationsLoop_spec e.LocEnds N hL (N - 1) 1
    (List.replicate N 0) (by simp) (le_refl 1) (by omega) (by
      intro j hj
      have hj0 : j = 0 := by omega
      subst hj0
      have : 0 < N := by omega
      simp [this])
  refine ⟨locs, ?_, hlen, hsum⟩
  unfold computeLeaderLocations
  have h0 : ¬ e.NumPlayers = 0 := by omega
  rw [if_neg h0, hP, hloop]
  have hlast : locs.getLast? = some (e.LocEnds.take (N - 1)).sum := by
    rw [List.getLast?_eq_getElem?, hlen]
    exact hsum (N - 1) (by omega)
  have hNL : N - 1 < e.LocEnds.length := by omega
  have hlast2 : e.LocEnds.getLast? = some e.LocEnds[N - 1] := by
    rw [List.getLast?_eq_getElem?, hL]
    exact List.getElem?_eq_getElem hNL
  simp only [bind, Except.bind, hlast, hlast2]
  have hs := List.sum_take_succ e.LocEnds (N - 1) hNL
  have hNN : N - 1 + 1 = N := by omega
  have htake : List.take N e.LocEnds = e.LocEnds := List.take_of_length_le (by omega)
  rw [hNN, htake] at hs
  rw [hs]

/-- An entry of a list of natural numbers is at most the sum of the list. -/
theorem le_sum_of_getElem? (L : List Nat) (j l : Nat) (h : L[j]? = some l) : l ≤ L.sum := by
  induction L generalizing j with
  | nil => simp at h
  | cons a L ih =>
    cases j with
    | zero =>
      simp only [List.getElem?_cons_zero, Option.some.injEq] at h
      subst h
      simp
    | succ j =>
      simp only [List.getElem?_cons_succ] at h
      have := ih j h
      simp only [List.sum_cons]
      omega

end EPEC

namespace MP_Param

variable {α : Type}

/-- Appending `p` dummy parameters to a consistent program: `addDummy(p)` (with the defaults
`vars = 0`, `position = -1`) returns a consistent program with `p` more parameters, whose `A`
and `C` are the old ones with `p` zero columns appended. -/
theorem addDummy_consistent [Zero α] (m : MP_Param α) (ny nx ncons p : Nat)
    (h : m.Consistent ny nx ncons) :
    ∃ m', m.addDummy p 0 (-1) = .ok m' ∧ m'.Consistent ny (nx + p) ncons ∧
      IsInserted m.A m'.A ncons nx p nx ∧ IsInserted m.C m'.C ny nx p nx := by
  obtain ⟨hNy, hNx, hNc, hQ1, hQ2, hC1, hC2, hA1, hA2, hB1, hB2, hc, hb⟩ := h
  obtain ⟨m', hok, hNx', hNy', hNc', hb', hv0, _, _, _, hA, hC⟩ :=
    addDummy_spec m p 0 (-1) ⟨by omega, by omega⟩ ⟨by omega, by omega⟩ (by omega)
      ⟨by omega, by omega⟩ ⟨by omega, by omega⟩ (Or.inr (Or.inl rfl)) (Or.inr rfl)
      (Or.inl rfl)
  obtain ⟨hQ', hB', hc'⟩ := hv0 rfl
  have hA' := hA (by omega) (by omega)
  have hins : insertIndex m.Nx (-1) = nx := by simp [insertIndex, hNx]
  rw [hins, hNc, hNx] at hA'
  rw [hins, hNy, hNx, Nat.add_zero] at hC
  refine ⟨m', hok, ?_, hA', hC⟩
  refine ⟨by omega, by omega, by omega, by rw [hQ']; exact hQ1, by rw [hQ']; exact hQ2,
    hC.1, hC.2.1, hA'.1, hA'.2.1, by rw [hB']; exact hB1, by rw [hB']; exact hB2,
    by rw [hc']; exact hc, by rw [hb']; exact hb⟩

end MP_Param

end Game
namespace Game

namespace EPEC

variable {α : Type}

/-- The loop of `finalize` on well-formed data: it returns, changes nothing but the lower
levels, the leader objectives and `SizesWithoutHull`, and replaces the lower level `m` of every
player `j ≥ i` by the result of `m.addDummy(NumVariables - LocEnds[j])`. -/
theorem finalizeLoop_spec [Zero α] (mk : EPEC α → Nat → Except Exn (QP_Objective α))
    (N n i : Nat) (e : EPEC α) (hin : i + n = N)
    (hL : e.LocEnds.length = N) (hP : e.PlayersLowerLevels.length = N)
    (hO : e.LeaderObjective.length = N) (hS : e.SizesWithoutHull.length = N)
    (hV : ∀ (j l : Nat), e.LocEnds[j]? = some l → l ≤ e.NumVariables)
    (hC : ∀ m ∈ e.PlayersLowerLevels, ∃ ny nx ncons : Nat, m.Consistent ny nx ncons)
    (hmk : ∀ (e' : EPEC α) (j : Nat), j < N → ∃ obj, mk e' j = .ok obj) :
    ∃ e', finalizeLoop mk n i e = .ok e' ∧
      e'.numLeaders = e.numLeaders ∧ e'.numMCVariables = e.numMCVariables ∧
      e'.LocEnds = e.LocEnds ∧ e'.NumPlayers = e.NumPlayers ∧
      e'.NumVariables = e.NumVariables ∧ e'.LeaderLocations = e.LeaderLocations ∧
      e'.Finalized = e.Finalized ∧ e'.PlayersLowerLevels.length = N ∧
      (∀ j < i, e'.PlayersLowerLevels[j]? = e.PlayersLowerLevels[j]?) ∧
      (∀ (j : Nat) (m : MP_Param α), i ≤ j → e.PlayersLowerLevels[j]? = some m →
        ∃ (m' : MP_Param α) (l : Nat), e'.PlayersLowerLevels[j]? = some m' ∧
          e.LocEnds[j]? = some l ∧ m.addDummy (e.NumVariables - l) 0 (-1) = .ok m') := by
  induction n generalizing i e with
  | zero =>
    refine ⟨e, rfl, rfl, rfl, rfl, rfl, rfl, rfl, rfl, hP, fun _ _ => rfl, ?_⟩
    intro j m hj hm
    have hlt : j < e.PlayersLowerLevels.length := by
      by_contra hge
      rw [List.getElem?_eq_none (by omega)] at hm
      exact absurd hm (by simp)
    omega
  | succ n ih =>
    have hiN : i < N := by omega
    have hiL : i < e.LocEnds.length := by omega
    have hiP : i < e.PlayersLowerLevels.length := by omega
    have hl : e.LocEnds[i]? = some e.LocEnds[i] := List.getElem?_eq_getElem hiL
    have hm : e.PlayersLowerLevels[i]? = some e.PlayersLowerLevels[i] :=
      List.getElem?_eq_getElem hiP
    have hle : ¬ e.NumVariables < e.LocEnds[i] := by
      have := hV i _ hl
      omega
    obtain ⟨ny, nx, ncons, hcons⟩ := hC _ (List.getElem_mem hiP)
    obtain ⟨m', hm', hcons', _, _⟩ :=
      MP_Param.addDummy_consistent e.PlayersLowerLevels[i] ny nx ncons
        (e.NumVariables - e.LocEnds[i]) hcons
    have hlead : addDummyLead e i =
        .ok { e with PlayersLowerLevels := e.PlayersLowerLevels.set i m' } := by
      simp only [addDummyLead, hl, hm, if_neg hle, hm', bind, Except.bind]
    obtain ⟨obj, hobj⟩ := hmk { e with PlayersLowerLevels := e.PlayersLowerLevels.set i m' } i hiN
    have hiO : i < e.LeaderObjective.length := by omega
    have hiS : i < e.SizesWithoutHull.length := by omega
    obtain ⟨e', hloop, h1, h2, h3, h4, h5, h6, h7, h8, h9, h10⟩ := ih (i + 1)
      { e with
        PlayersLowerLevels := e.PlayersLowerLevels.set i m'
        LeaderObjective := e.LeaderObjective.set i (some obj)
        SizesWithoutHull := e.SizesWithoutHull.set i e.LocEnds[i] }
      (by omega) hL (by simp only [List.length_set]; exact hP)
      (by simp only [List.length_set]; exact hO) (by simp only [List.length_set]; exact hS)
      hV (by
        intro m hmem
        rcases List.mem_or_eq_of_mem_set hmem with hmem | rfl
        · exact hC m hmem
        · exact ⟨_, _, _, hcons'⟩)
    refine ⟨e', ?_, h1, h2, h3, h4, h5, h6, h7, h8, ?_, ?_⟩
    · simp only [finalizeLoop, hlead, bind, Except.bind, if_pos hiO, hobj, hl, if_pos hiS]
      exact hloop
    · intro j hj
      rw [h9 j (by omega)]
      simp only []
      rw [List.getElem?_set_ne (by omega)]
    · intro j m hj hjm
      by_cases hji : i = j
      · subst hji
        rw [hm] at hjm
        have hmm := Option.some.inj hjm
        subst hmm
        refine ⟨m', e.LocEnds[i], ?_, hl, hm'⟩
        rw [h9 i (by omega)]
        simp only []
        rw [List.getElem?_set_self hiP]
      · exact h10 j m (by omega) (by
          simp only []
          rw [List.getElem?_set_ne hji]
          exact hjm)

/-- One call of `finalize` on a well-formed game: it returns a well-formed game in which
`NumVariables` is the sum of `LocEnds` plus `numMCVariables`, `LeaderLocations[j]` is the sum of
the entries of `LocEnds` before `j`, and every lower level `m` is replaced by the result of
`m.addDummy(NumVariables - LocEnds[j])`. -/
theorem finalize_spec [Zero α] (mk : EPEC α → Nat → Except Exn (QP_Objective α)) (N : Nat)
    (e : EPEC α) (hW : WellFormed mk e N) :
    ∃ e', finalize mk e = .ok e' ∧ WellFormed mk e' N ∧
      e'.LocEnds = e.LocEnds ∧ e'.numMCVariables = e.numMCVariables ∧
      e'.NumPlayers = N ∧ e'.NumVariables = e.LocEnds.sum + e.numMCVariables ∧
      e'.LeaderLocations.length = N ∧
      (∀ j < N, e'.LeaderLocations[j]? = some (e.LocEnds.take j).sum) ∧
      e'.Finalized = true ∧
      (∀ (j : Nat) (m : MP_Param α), e.PlayersLowerLevels[j]? = some m →
        ∃ (m' : MP_Param α) (l : Nat), e'.PlayersLowerLevels[j]? = some m' ∧
          e.LocEnds[j]? = some l ∧ l ≤ e'.NumVariables ∧
          m.addDummy (e'.NumVariables - l) 0 (-1) = .ok m') := by
  obtain ⟨hN, hnl, hL, hP, hC, hmk⟩ := hW
  obtain ⟨locs, hcl, hlen, hsum⟩ := computeLeaderLocations_spec
    { e with
      NumPlayers := e.numLeaders
      ConvexHullVariables := List.replicate e.numLeaders 0
      FeasiblePolyhedra := List.replicate e.numLeaders 0 } e.numMCVariables N hN hnl hL
  have hV : ∀ (j l : Nat), e.LocEnds[j]? = some l → l ≤ e.LocEnds.sum + e.numMCVariables := by
    intro j l hj
    have := le_sum_of_getElem? e.LocEnds j l hj
    omega
  obtain ⟨e', hloop, h1, h2, h3, h4, h5, h6, h7, h8, _, h10⟩ := finalizeLoop_spec mk N N 0
    { e with
      NumPlayers := e.numLeaders
      ConvexHullVariables := List.replicate e.numLeaders 0
      FeasiblePolyhedra := List.replicate e.numLeaders 0
      LeaderLocations := locs
      NumVariables := e.LocEnds.sum + e.numMCVariables
      LeaderObjective := List.replicate e.numLeaders none
      SizesWithoutHull := List.replicate e.numLeaders 0 }
    (by omega) hL hP (by simp [hnl]) (by simp [hnl]) hV hC hmk
  simp only [] at h1 h2 h3 h4 h5 h6 h7 h10
  have hlower : ∀ (j : Nat) (m : MP_Param α), e.PlayersLowerLevels[j]? = some m →
      ∃ (m' : MP_Param α) (l : Nat), e'.PlayersLowerLevels[j]? = some m' ∧
        e.LocEnds[j]? = some l ∧ l ≤ e.LocEnds.sum + e.numMCVariables ∧
        m.addDummy (e.LocEnds.sum + e.numMCVariables - l) 0 (-1) = .ok m' := by
    intro j m hj
    obtain ⟨m', l, ha, hb, hc⟩ := h10 j m (Nat.zero_le j) hj
    exact ⟨m', l, ha, hb, hV j l hb, hc⟩
  refine ⟨{ e' with Finalized := true }, ?_, ?_, h3, h2, by rw [h4, hnl], h5,
    by rw [h6]; exact hlen, by rw [h6]; exact hsum, rfl, ?_⟩
  · unfold finalize
    rw [hcl]
    simp only [bind, Except.bind]
    rw [hnl] at hloop ⊢
    rw [hloop]
  · refine ⟨hN, by rw [← hnl]; exact h1, by rw [← hL]; exact congrArg List.length h3, h8, ?_,
      hmk⟩
    intro m' hmem
    obtain ⟨j, hjlt, hjm⟩ := List.getElem_of_mem hmem
    have hjP : j < e.PlayersLowerLevels.length := by
      simp only [] at hjlt
      omega
    obtain ⟨m'', l, ha, _, _, hd⟩ := hlower j _ (List.getElem?_eq_getElem hjP)
    obtain ⟨ny, nx, ncons, hcons⟩ := hC _ (List.getElem_mem hjP)
    obtain ⟨m3, hm3, hcons3, _, _⟩ := MP_Param.addDummy_consistent e.PlayersLowerLevels[j]
      ny nx ncons (e.LocEnds.sum + e.numMCVariables - l) hcons
    rw [hm3] at hd
    have h33 := Except.ok.inj hd
    have hget : e'.PlayersLowerLevels[j]? = some m' := by
      rw [← hjm]
      exact List.getElem?_eq_getElem _
    rw [hget] at ha
    have := Option.some.inj ha
    subst this
    subst h33
    exact ⟨_, _, _, hcons3⟩
  · intro j m hj
    rw [h5]
    exact hlower j m hj

end EPEC

end Game

namespace Game

namespace EPEC

/-- The example game is well formed. -/
theorem exampleGame_wellFormed : WellFormed exampleObjective exampleGame 2 := by
  refine ⟨by decide, rfl, rfl, rfl, ?_, fun _ _ _ => ⟨_, rfl⟩⟩
  intro m hm
  simp only [exampleGame, List.mem_cons, List.mem_singleton, or_self, List.not_mem_nil,
    or_false] at hm
  subst hm
  exact ⟨1, 0, 1, rfl, rfl, rfl, rfl, rfl, rfl, rfl, rfl, rfl, rfl, rfl, rfl, rfl⟩

end EPEC

end Game

/-- C17 (as stated, refuted): on the game `exampleGame` with two leaders with one variable
each, the first call of `finalize` leaves `NumVariables = 2` and gives each lower level one
parameter (`Nx = 1`, `A` and `C` with one column); the second call leaves `LeaderLocations` and
`NumVariables` as they were but gives each lower level one more parameter (`Nx = 2`, `A` and
`C` with two columns). -/
theorem C17_finalize_not_idempotent :
    ∃ e1 e2, Game.EPEC.finalize Game.EPEC.exampleObjective Game.EPEC.exampleGame = .ok e1 ∧
      Game.EPEC.finalize Game.EPEC.exampleObjective e1 = .ok e2 ∧
      e1.NumPlayers = 2 ∧ e1.NumVariables = 2 ∧ e1.LocEnds = [1, 1] ∧
      (e1.PlayersLowerLevels.map fun m => (m.Nx, m.A.n_cols, m.C.n_cols))
        = [(1, 1, 1), (1, 1, 1)] ∧
      (e2.PlayersLowerLevels.map fun m => (m.Nx, m.A.n_cols, m.C.n_cols))
        = [(2, 2, 2), (2, 2, 2)] ∧
      e2.LeaderLocations = e1.LeaderLocations ∧ e2.NumVariables = e1.NumVariables :=
  ⟨_, _, rfl, rfl, rfl, rfl, rfl, rfl, rfl, rfl, rfl⟩

/-- C17 (amended): for every well-formed game (at least one leader, as many entries of
`LocEnds` and as many lower levels as leaders, every lower level dimensionally consistent,
`makeObjectivePlayer` returning), `finalize()` returns, and a second call returns as well and
leaves `NumPlayers`, `LeaderLocations`, `NumVariables` and `Finalized = true` as they were
after the first call; but it pads every lower level again: the lower level of player `i` gets
`NumVariables - LocEnds[i]` more parameters, its `Nx` grows by that number, and its `A` and `C`
are the ones after the first call with that many zero columns appended at the end. -/
theorem C17_finalize_twice {α : Type} [Zero α]
    (makeObjectivePlayer : Game.EPEC α → Nat → Except Exn (Game.QP_Objective α)) (N : Nat)
    (e : Game.EPEC α) (hW : Game.EPEC.WellFormed makeObjectivePlayer e N) :
    ∃ e1 e2, Game.EPEC.finalize makeObjectivePlayer e = .ok e1 ∧
      Game.EPEC.finalize makeObjectivePlayer e1 = .ok e2 ∧
      e1.Finalized = true ∧ e2.Finalized = true ∧
      e2.NumPlayers = e1.NumPlayers ∧ e2.LeaderLocations = e1.LeaderLocations ∧
      e2.NumVariables = e1.NumVariables ∧
      e2.PlayersLowerLevels.length = e1.PlayersLowerLevels.length ∧
      ∀ (i : Nat) (m1 : Game.MP_Param α), e1.PlayersLowerLevels[i]? = some m1 →
        ∃ (m2 : Game.MP_Param α) (l : Nat), e2.PlayersLowerLevels[i]? = some m2 ∧
          e1.LocEnds[i]? = some l ∧ l ≤ e1.NumVariables ∧
          m2.Nx = m1.Nx + (e1.NumVariables - l) ∧ m2.Ny = m1.Ny ∧ m2.Ncons = m1.Ncons ∧
          Game.MP_Param.IsInserted m1.A m2.A m1.Ncons m1.Nx (e1.NumVariables - l) m1.Nx ∧
          Game.MP_Param.IsInserted m1.C m2.C m1.Ny m1.Nx (e1.NumVariables - l) m1.Nx := by
  obtain ⟨e1, h1, hW1, hL1, hmc1, hP1, hV1, hlen1, hloc1, hF1, _⟩ :=
    Game.EPEC.finalize_spec makeObjectivePlayer N e hW
  obtain ⟨e2, h2, hW2, _, _, hP2, hV2, hlen2, hloc2, hF2, hlow2⟩ :=
    Game.EPEC.finalize_spec makeObjectivePlayer N e1 hW1
  have hV : e2.NumVariables = e1.NumVariables := by rw [hV2, hV1, hL1, hmc1]
  refine ⟨e1, e2, h1, h2, hF1, hF2, by rw [hP1, hP2], ?_, hV, ?_, ?_⟩
  · apply List.ext_getElem?
    intro j
    by_cases hj : j < N
    · rw [hloc2 j hj, hloc1 j hj, hL1]
    · rw [List.getElem?_eq_none (by omega), List.getElem?_eq_none (by omega)]
  · rw [hW2.2.2.2.1, hW1.2.2.2.1]
  · intro i m1 hi
    obtain ⟨m2, l, ha, hb, hc, hd⟩ := hlow2 i m1 hi
    rw [hV] at hc hd
    obtain ⟨ny, nx, ncons, hcons⟩ := hW1.2.2.2.2.1 m1 (List.getElem?_mem hi)
    obtain ⟨m3, hm3, hcons3, hA, hC⟩ :=
      Game.MP_Param.addDummy_consistent m1 ny nx ncons (e1.NumVariables - l) hcons
    rw [hm3] at hd
    have := Except.ok.inj hd
    subst this
    obtain ⟨hNy, hNx, hNc, _⟩ := hcons
    obtain ⟨hNy3, hNx3, hNc3, _⟩ := hcons3
    refine ⟨m3, l, ha, hb, hc, by rw [hNx3, hNx], by rw [hNy3, hNy], by rw [hNc3, hNc], ?_, ?_⟩
    · rw [hNc, hNx]; exact hA
    · rw [hNy, hNx]; exact hC

/-- The statement of C17 at `exampleGame`: both calls of `finalize` return, and the second
leaves `NumVariables` and `LeaderLocations` as they were. -/
theorem C17_finalize_twice_witness :
    ∃ e1 e2, Game.EPEC.finalize Game.EPEC.exampleObjective Game.EPEC.exampleGame = .ok e1 ∧
      Game.EPEC.finalize Game.EPEC.exampleObjective e1 = .ok e2 ∧
      e2.LeaderLocations = e1.LeaderLocations ∧ e2.NumVariables = e1.NumVariables := by
  obtain ⟨e1, e2, h1, h2, _, _, _, h6, h7, _⟩ :=
    C17_finalize_twice Game.EPEC.exampleObjective 2 Game.EPEC.exampleGame
      Game.EPEC.exampleGame_wellFormed
  exact ⟨e1, e2, h1, h2, h6, h7⟩

namespace Algorithms

namespace EPEC

namespace OuterTree

/-- Setting a bit that is false raises the number of true bits by one. -/
theorem count_set_true (l : List Bool) (i : Nat) (h : l[i]? = some false) :
    (l.set i true).count true = l.count true + 1 := by
  induction l generalizing i with
  | nil => simp at h
  | cons b bs ih =>
    cases i with
    | zero =>
      simp only [List.getElem?_cons_zero, Option.some.injEq] at h
      subst h
      simp
    | succ i =>
      simp only [List.getElem?_cons_succ] at h
      simp only [List.set_cons_succ, List.count_cons, ih i h]
      omega

/-- What `singleBranch` does on a node whose bit vectors have the length of the tree's
encodings. -/
theorem singleBranch_spec (T : OuterTree) (idComp : Nat) (t : Node)
    (ht : NodeInv T.EncodingSize t) :
    (idComp ≥ T.EncodingSize →
      singleBranch T idComp t = (T, .error (Exn.zero ZEROErrorCode.OutOfRange))) ∧
    (idComp < T.EncodingSize → t.Encoding[idComp]? = some true →
      singleBranch T idComp t = (T, .ok [-1])) ∧
    (idComp < T.EncodingSize → t.Encoding[idComp]? = some false →
      singleBranch T idComp t =
        ({ T with
           Nodes := T.Nodes ++ [⟨[idComp], t.Encoding.set idComp true,
             t.AllowedBranchings.set idComp false, T.NodeCounter, some t.Id⟩]
           NodeCounter := T.NodeCounter + 1 }, .ok [(T.NodeCounter : Int)])) := by
  obtain ⟨h1, h2, _⟩ := ht
  refine ⟨?_, ?_, ?_⟩
  · intro h
    unfold singleBranch
    rw [if_pos h]
  · intro h he
    unfold singleBranch
    rw [if_neg (by omega), he]
  · intro h he
    unfold singleBranch
    rw [if_neg (by omega), he]
    have hc : Node.child t idComp T.NodeCounter =
        .ok ⟨[idComp], t.Encoding.set idComp true, t.AllowedBranchings.set idComp false,
          T.NodeCounter, some t.Id⟩ := by
      unfold Node.child atSet
      rw [if_pos (by omega), if_pos (by omega)]
      rfl
    simp only [nextIdentifier]
    rw [hc]
    simp

end OuterTree

end EPEC

end Algorithms

/-- C30: on a node `t` of the tree (its bit vectors have the length `EncodingSize`),
`singleBranch(idComp, t)` raises `OutOfRange` if and only if `idComp ≥ EncodingSize`, and then
the tree is unchanged; if `idComp < EncodingSize` and `t.Encoding[idComp]` is already true it
returns the one-element vector `{-1}` and the tree is unchanged; otherwise it appends exactly
one node to the node list, whose `Encoding` is `t.Encoding` with bit `idComp` set (so its
number of true bits is the one of `t.Encoding` plus one) and whose `AllowedBranchings` is
`t.AllowedBranchings` with bit `idComp` cleared; the nodes already in the list, and `t`, are
left as they are. -/
theorem C30_singleBranch (T : Algorithms.EPEC.OuterTree) (idComp : Nat)
    (t : Algorithms.EPEC.OuterTree.Node)
    (ht : Algorithms.EPEC.OuterTree.NodeInv T.EncodingSize t) :
    ((Algorithms.EPEC.OuterTree.singleBranch T idComp t).2
        = .error (Exn.zero ZEROErrorCode.OutOfRange) ↔ idComp ≥ T.EncodingSize) ∧
    (idComp ≥ T.EncodingSize → (Algorithms.EPEC.OuterTree.singleBranch T idComp t).1 = T) ∧
    (idComp < T.EncodingSize → t.Encoding[idComp]? = some true →
      Algorithms.EPEC.OuterTree.singleBranch T idComp t = (T, .ok [-1])) ∧
    (idComp < T.EncodingSize → t.Encoding[idComp]? ≠ some true →
      ∃ (child : Algorithms.EPEC.OuterTree.Node) (r : Int),
        (Algorithms.EPEC.OuterTree.singleBranch T idComp t).2 = .ok [r] ∧
        (Algorithms.EPEC.OuterTree.singleBranch T idComp t).1.Nodes = T.Nodes ++ [child] ∧
        (Algorithms.EPEC.OuterTree.singleBranch T idComp t).1.EncodingSize = T.EncodingSize ∧
        child.Encoding = t.Encoding.set idComp true ∧
        child.AllowedBranchings = t.AllowedBranchings.set idComp false ∧
        child.Encoding[idComp]? = some true ∧
        child.AllowedBranchings[idComp]? = some false ∧
        child.Encoding.count true = t.Encoding.count true + 1) := by
  obtain ⟨hge, htrue, hfalse⟩ := Algorithms.EPEC.OuterTree.singleBranch_spec T idComp t ht
  have hlen := ht.1
  have hlen2 := ht.2.1
  refine ⟨?_, ?_, htrue, ?_⟩
  · constructor
    · intro h
      by_contra hlt
      have hlt' : idComp < T.EncodingSize := by omega
      have hi : idComp < t.Encoding.length := by omega
      cases hb : t.Encoding[idComp] with
      | true =>
        have he : t.Encoding[idComp]? = some true := by
          rw [List.getElem?_eq_getElem hi, hb]
        rw [htrue hlt' he] at h
        exact absurd h (by simp)
      | false =>
        have he : t.Encoding[idComp]? = some false := by
          rw [List.getElem?_eq_getElem hi, hb]
        rw [hfalse hlt' he] at h
        exact absurd h (by simp)
    · intro h
      rw [hge h]
  · intro h
    rw [hge h]
  · intro hlt hne
    have hi : idComp < t.Encoding.length := by omega
    have hi2 : idComp < t.AllowedBranchings.length := by omega
    have he : t.Encoding[idComp]? = some false := by
      cases hb : t.Encoding[idComp] with
      | true => exact absurd (by rw [List.getElem?_eq_getElem hi, hb]) hne
      | false => rw [List.getElem?_eq_getElem hi, hb]
    rw [hfalse hlt he]
    exact ⟨_, _, rfl, rfl, rfl, rfl, rfl, List.getElem?_set_self hi,
      List.getElem?_set_self hi2, Algorithms.EPEC.OuterTree.count_set_true _ _ he⟩

/-- The statement of C30 at the root of a tree of encoding size `2` and `idComp = 1`: one node
is appended, with `Encoding = [false, true]` and `AllowedBranchings = [true, false]`. -/
theorem C30_singleBranch_witness :
    ∃ (child : Algorithms.EPEC.OuterTree.Node) (r : Int),
      (Algorithms.EPEC.OuterTree.singleBranch ⟨2, [], 1⟩ 1
        (Algorithms.EPEC.OuterTree.Node.root 2)).2 = .ok [r] ∧
      (Algorithms.EPEC.OuterTree.singleBranch ⟨2, [], 1⟩ 1
        (Algorithms.EPEC.OuterTree.Node.root 2)).1.Nodes = [] ++ [child] ∧
      child.Encoding = [false, true] ∧ child.AllowedBranchings = [true, false] := by
  obtain ⟨child, r, h1, h2, _, h4, h5, _⟩ :=
    (C30_singleBranch ⟨2, [], 1⟩ 1 (Algorithms.EPEC.OuterTree.Node.root 2)
      (Algorithms.EPEC.OuterTree.inv_root 2)).2.2.2 (by decide) (by decide)
  exact ⟨child, r, h1, h2, h4, h5⟩

namespace Algorithms

namespace EPEC

namespace OuterApproximation

/-- What `addValueCut` does when the sizes match and the row has at most `numCols` entries:
it leaves the pool as it is when `containsCut` finds `(c + C x, -RHS)`, and appends the row
`-(c + C x)`, padded with zeros, with right-hand side `-RHS` otherwise. -/
theorem addValueCut_spec {α : Type} [LinearOrderedField α] (ops : DoubleOps α)
    (obj : Game.QP_Objective α)
    (numCols : Nat) (tol : α) (pool : CutPool α) (RHS : α) (xMinusI : Vec α)
    (hC : obj.C.n_rows = obj.c.n_rows ∧ obj.C.n_cols = xMinusI.n_rows)
    (hn : obj.c.n_rows ≤ numCols) (hpool : pool.Acut.n_cols = numCols) :
    addValueCut ops obj numCols tol pool RHS xMinusI =
      if containsCut ops pool (valueCutLhs obj xMinusI) (-RHS) tol then .ok pool
      else .ok ⟨⟨pool.Acut.n_rows + 1, numCols, fun i j =>
          if i < pool.Acut.n_rows then pool.Acut.val i j
          else if i = pool.Acut.n_rows ∧ j < obj.c.n_rows then
            - (valueCutLhs obj xMinusI).val j
          else 0⟩,
        Vec.join_cols pool.bcut ⟨1, fun _ => -RHS⟩⟩ := by
  have hmul : obj.C.mulVec xMinusI = .ok ⟨obj.C.n_rows, fun i =>
      ∑ j ∈ Finset.range obj.C.n_cols, obj.C.val i j * xMinusI.val j⟩ := by
    unfold Mat.mulVec
    rw [if_neg (by rw [hC.2]; exact fun h => h rfl)]
  have hadd : obj.c.add ⟨obj.C.n_rows, fun i =>
      ∑ j ∈ Finset.range obj.C.n_cols, obj.C.val i j * xMinusI.val j⟩
        = .ok (valueCutLhs obj xMinusI) := by
    unfold Vec.add
    rw [if_neg (by simp [hC.1])]
    rfl
  obtain ⟨M', hM', hr, hc, hval⟩ := Utils.resizePatch_grow
    (Mat.ofRow (valueCutLhs obj xMinusI)) 1 numCols (le_refl 1) hn
  unfold addValueCut
  rw [hmul]
  simp only [bind, Except.bind]
  rw [hadd]
  simp only [hM']
  by_cases hcc : containsCut ops pool (valueCutLhs obj xMinusI) (-RHS) tol = true
  · simp [hcc]
  · simp only [hcc, Bool.not_false, Bool.false_eq_true, if_false, Bool.not_eq_true,
      Bool.not_true]
    have hcc' : containsCut ops pool (valueCutLhs obj xMinusI) (-RHS) tol = false := by
      simpa using hcc
    simp only [hcc', Bool.not_false, if_true, addCustomCuts, Mat.join_cols, bind, Except.bind]
    have hcols : ¬ (pool.Acut.n_cols ≠ M'.neg.n_cols ∧ (pool.Acut.n_rows > 0 ∨
        pool.Acut.n_cols > 0) ∧ (M'.neg.n_rows > 0 ∨ M'.neg.n_cols > 0)) := by
      rintro ⟨h, _⟩
      exact h (by simp [Mat.neg, hc, hpool])
    rw [if_neg hcols]
    simp only [Except.ok.injEq, CutPool.mk.injEq, and_true]
    have e1 : pool.Acut.n_rows + M'.neg.n_rows = pool.Acut.n_rows + 1 := by simp [Mat.neg, hr]
    have e2 : max pool.Acut.n_cols M'.neg.n_cols = numCols := by simp [Mat.neg, hc, hpool]
    rw [e1, e2]
    congr 1
    funext i j
    by_cases hi : i < pool.Acut.n_rows
    · simp [hi]
    · simp only [hi, if_false, Mat.neg, hval, Mat.ofRow]
      have hiff : (i - pool.Acut.n_rows < 1 ∧ j < (valueCutLhs obj xMinusI).n_rows) ↔
          (i = pool.Acut.n_rows ∧ j < obj.c.n_rows) := by
        have hn' : (valueCutLhs obj xMinusI).n_rows = obj.c.n_rows := rfl
        rw [hn']
        constructor
        · rintro ⟨h1, h2⟩
          exact ⟨by omega, h2⟩
        · rintro ⟨h1, h2⟩
          exact ⟨by omega, h2⟩
      by_cases hij : i = pool.Acut.n_rows ∧ j < obj.c.n_rows
      · rw [if_pos (hiff.mpr hij), if_pos hij]
      · rw [if_neg (fun h => hij (hiff.mp h)), if_neg hij, neg_zero]

end OuterApproximation

end EPEC

end Algorithms
/-- C22: when the sizes match (`C` has as many rows as `c` has entries and as many columns as
`x_minus_i` has entries), `c` has at most `NumCols` entries and the pool has `NumCols` columns,
`addValueCut(i, v, x_minus_i)` returns; when it adds a cut (the test `containsCut` is false),
it appends to the cut pool exactly one inequality, whose left-hand side is
`-(C x_minus_i + c)` padded on the right with zeros to `NumCols` columns and whose right-hand
side is `-v`; the rows already in the pool are kept; otherwise the pool is unchanged. -/
theorem C22_addValueCut_form {α : Type} [LinearOrderedField α] (ops : DoubleOps α)
    (obj : Game.QP_Objective α)
    (numCols : Nat) (tol : α) (pool : Algorithms.EPEC.OuterApproximation.CutPool α) (v : α)
    (xMinusI : Vec α)
    (hC : obj.C.n_rows = obj.c.n_rows ∧ obj.C.n_cols = xMinusI.n_rows)
    (hn : obj.c.n_rows ≤ numCols) (hpool : pool.Acut.n_cols = numCols) :
    ∃ pool', Algorithms.EPEC.OuterApproximation.addValueCut ops obj numCols tol pool v xMinusI
        = .ok pool' ∧
      (Algorithms.EPEC.OuterApproximation.containsCut ops pool
          (Algorithms.EPEC.OuterApproximation.valueCutLhs obj xMinusI) (-v) tol = true →
        pool' = pool) ∧
      (Algorithms.EPEC.OuterApproximation.containsCut ops pool
          (Algorithms.EPEC.OuterApproximation.valueCutLhs obj xMinusI) (-v) tol = false →
        pool'.Acut.n_rows = pool.Acut.n_rows + 1 ∧ pool'.Acut.n_cols = numCols ∧
        pool'.bcut.n_rows = pool.bcut.n_rows + 1 ∧
        (∀ i j, i < pool.Acut.n_rows → pool'.Acut.val i j = pool.Acut.val i j) ∧
        (∀ i, i < pool.bcut.n_rows → pool'.bcut.val i = pool.bcut.val i) ∧
        (∀ j, j < numCols → pool'.Acut.val pool.Acut.n_rows j =
          if j < obj.c.n_rows then
            - (∑ k ∈ Finset.range obj.C.n_cols, obj.C.val j k * xMinusI.val k + obj.c.val j)
          else 0) ∧
        pool'.bcut.val pool.bcut.n_rows = -v) := by
  have hspec := Algorithms.EPEC.OuterApproximation.addValueCut_spec ops obj numCols tol pool v
    xMinusI hC hn hpool
  cases hcc : Algorithms.EPEC.OuterApproximation.containsCut ops pool
      (Algorithms.EPEC.OuterApproximation.valueCutLhs obj xMinusI) (-v) tol with
  | true =>
    rw [hcc, if_pos rfl] at hspec
    exact ⟨pool, hspec, fun _ => rfl, fun h => absurd h (by simp)⟩
  | false =>
    rw [hcc, if_neg (by simp)] at hspec
    refine ⟨_, hspec, fun h => absurd h (by simp), fun _ => ⟨rfl, rfl, rfl, ?_, ?_, ?_, ?_⟩⟩
    · intro i j hi
      simp only [hi, if_true]
    · intro i hi
      simp only [Vec.join_cols, hi, if_true]
    · intro j _
      simp only [lt_irrefl, if_false, true_and,
        Algorithms.EPEC.OuterApproximation.valueCutLhs]
      by_cases hj : j < obj.c.n_rows
      · rw [if_pos hj, if_pos hj, add_comm]
      · rw [if_neg hj, if_neg hj]
    · simp only [Vec.join_cols, lt_irrefl, if_false]

/-- The statement of C22 at the objective `C = [0]`, `c = (1)`, the point `x_minus_i = (3)`,
the value `5`, `NumCols = 2` and the empty pool: the row `(-1, 0)` with right-hand side `-5` is
appended. -/
theorem C22_addValueCut_form_witness :
    ∃ pool', Algorithms.EPEC.OuterApproximation.addValueCut DoubleOps.unrounded
        Algorithms.EPEC.OuterApproximation.exampleLeaderObjective 2 (1 / 1000000 : ℚ)
        ⟨Mat.zeros 0 2, Vec.zeros 0⟩ 5 ⟨1, fun _ => 3⟩ = .ok pool' ∧
      pool'.Acut.n_rows = 1 ∧ pool'.Acut.n_cols = 2 ∧ pool'.Acut.val 0 0 = -1 ∧
      pool'.Acut.val 0 1 = 0 ∧ pool'.bcut.val 0 = -5 := by
  obtain ⟨pool', h1, _, h3⟩ := C22_addValueCut_form DoubleOps.unrounded
    Algorithms.EPEC.OuterApproximation.exampleLeaderObjective 2 (1 / 1000000 : ℚ)
    ⟨Mat.zeros 0 2, Vec.zeros 0⟩ 5 ⟨1, fun _ => 3⟩ ⟨rfl, rfl⟩ (by decide) rfl
  obtain ⟨h4, h5, _, _, _, h8, h9⟩ := h3 (by
    simp [Algorithms.EPEC.OuterApproximation.containsCut, Utils.containsConstraint,
      Algorithms.EPEC.OuterApproximation.valueCutLhs,
      Algorithms.EPEC.OuterApproximation.exampleLeaderObjective, Mat.zeros])
  refine ⟨pool', h1, h4, h5, ?_, ?_, h9⟩
  · have := h8 0 (by decide)
    simpa [Algorithms.EPEC.OuterApproximation.exampleLeaderObjective, Mat.zeros] using this
  · have := h8 1 (by decide)
    simpa [Algorithms.EPEC.OuterApproximation.exampleLeaderObjective, Mat.zeros] using this

namespace Algorithms

namespace EPEC

namespace OuterApproximation

/-- In a pool of one column whose only row is `(-1)`, the test of `addValueCut` for the
objective `C = [0]`, `c = (1)` does not find the cut: it looks for the row `(1)`. -/
theorem exampleCut_not_found (P : CutPool ℚ) (hr : P.Acut.n_rows = 1) (hc : P.Acut.n_cols = 1)
    (hv : P.Acut.val 0 0 = -1) :
    containsCut DoubleOps.unrounded P (valueCutLhs exampleLeaderObjective ⟨1, fun _ => 3⟩)
      (-5) (1 / 1000000) = false := by
  simp only [containsCut, Utils.containsConstraint, Utils.rowMatches, hr, hc, valueCutLhs,
    exampleLeaderObjective, DoubleOps.unrounded]
  norm_num [hv, List.range_succ]

/-- On a pool of one column whose only row is `(-1)`, `addValueCut` for the objective
`C = [0]`, `c = (1)`, the point `(3)` and the value `5` appends the row `(-1)` again. -/
theorem exampleSecondCall (P : CutPool ℚ) (hr : P.Acut.n_rows = 1) (hc : P.Acut.n_cols = 1)
    (hv : P.Acut.val 0 0 = -1) :
    ∃ p2, addValueCut DoubleOps.unrounded exampleLeaderObjective 1 (1 / 1000000 : ℚ) P 5 ⟨1, fun _ => 3⟩ = .ok p2 ∧
      p2.Acut.n_rows = 2 ∧ p2.bcut.n_rows = P.bcut.n_rows + 1 ∧ p2.Acut.val 1 0 = -1 ∧
      p2.bcut.val P.bcut.n_rows = -5 := by
  have h := addValueCut_spec DoubleOps.unrounded exampleLeaderObjective 1 (1 / 1000000 : ℚ) P 5 ⟨1, fun _ => 3⟩
    ⟨rfl, rfl⟩ (by decide) hc
  rw [exampleCut_not_found P hr hc hv, if_neg (by simp)] at h
  refine ⟨_, h, ?_, rfl, ?_, ?_⟩
  · simp only [hr]
  · norm_num [hr, valueCutLhs, exampleLeaderObjective]
  · norm_num [Vec.join_cols]

end OuterApproximation

end EPEC

end Algorithms

/-- C23 (the code departs from the claim): with the objective `C = [0]`, `c = (1)`, the point
`x_minus_i = (3)`, the value `5` and `tol = 10^-6`, two identical calls of `addValueCut` on an
empty pool add the cut twice: for `NumCols = 2`, where the cut is `(-1, 0) y ≤ -5` and the test
looks for a row of `1` entry in a pool of `2` columns, and also for `NumCols = 1`, where the
cut is `(-1) y ≤ -5` and the test looks for the row `(1)`. -/
theorem C23_addValueCut_duplicates :
    (∃ p1 p2, Algorithms.EPEC.OuterApproximation.addValueCut DoubleOps.unrounded
        Algorithms.EPEC.OuterApproximation.exampleLeaderObjective 2 (1 / 1000000 : ℚ)
        ⟨Mat.zeros 0 2, Vec.zeros 0⟩ 5 ⟨1, fun _ => 3⟩ = .ok p1 ∧
      Algorithms.EPEC.OuterApproximation.addValueCut DoubleOps.unrounded
        Algorithms.EPEC.OuterApproximation.exampleLeaderObjective 2 (1 / 1000000 : ℚ)
        p1 5 ⟨1, fun _ => 3⟩ = .ok p2 ∧
      p1.Acut.n_rows = 1 ∧ p1.Acut.val 0 0 = -1 ∧ p1.Acut.val 0 1 = 0 ∧ p1.bcut.val 0 = -5 ∧
      p2.Acut.n_rows = 2 ∧ p2.bcut.n_rows = 2 ∧
      p2.Acut.val 0 0 = -1 ∧ p2.Acut.val 0 1 = 0 ∧ p2.bcut.val 0 = -5 ∧
      p2.Acut.val 1 0 = -1 ∧ p2.Acut.val 1 1 = 0 ∧ p2.bcut.val 1 = -5) ∧
    (∃ p1 p2, Algorithms.EPEC.OuterApproximation.addValueCut DoubleOps.unrounded
        Algorithms.EPEC.OuterApproximation.exampleLeaderObjective 1 (1 / 1000000 : ℚ)
        ⟨Mat.zeros 0 1, Vec.zeros 0⟩ 5 ⟨1, fun _ => 3⟩ = .ok p1 ∧
      Algorithms.EPEC.OuterApproximation.addValueCut DoubleOps.unrounded
        Algorithms.EPEC.OuterApproximation.exampleLeaderObjective 1 (1 / 1000000 : ℚ)
        p1 5 ⟨1, fun _ => 3⟩ = .ok p2 ∧
      p1.Acut.n_rows = 1 ∧ p1.Acut.val 0 0 = -1 ∧ p1.bcut.val 0 = -5 ∧
      p2.Acut.n_rows = 2 ∧ p2.bcut.n_rows = 2 ∧
      p2.Acut.val 1 0 = -1 ∧ p2.bcut.val 1 = -5) := by
  constructor
  · refine ⟨_, _, rfl, rfl, rfl, ?_, ?_, ?_, rfl, rfl, ?_, ?_, ?_, ?_, ?_, ?_⟩ <;>
    norm_num [Mat.neg, Vec.join_cols, Mat.ofRow, Mat.zeros, Vec.zeros, usub,
      Algorithms.EPEC.OuterApproximation.exampleLeaderObjective]
  · have h1 := Algorithms.EPEC.OuterApproximation.addValueCut_spec DoubleOps.unrounded
      Algorithms.EPEC.OuterApproximation.exampleLeaderObjective 1 (1 / 1000000 : ℚ)
      ⟨Mat.zeros 0 1, Vec.zeros 0⟩ 5 ⟨1, fun _ => 3⟩ ⟨rfl, rfl⟩ (by decide) rfl
    have c0 : Algorithms.EPEC.OuterApproximation.containsCut DoubleOps.unrounded
        (⟨Mat.zeros 0 1, Vec.zeros 0⟩ : Algorithms.EPEC.OuterApproximation.CutPool ℚ)
        (Algorithms.EPEC.OuterApproximation.valueCutLhs
          Algorithms.EPEC.OuterApproximation.exampleLeaderObjective ⟨1, fun _ => 3⟩) (-5)
        (1 / 1000000) = false := by
      simp [Algorithms.EPEC.OuterApproximation.containsCut, Utils.containsConstraint,
        Mat.zeros]
    rw [c0, if_neg (by simp)] at h1
    obtain ⟨p2, h2, e1, e2, e3, e4⟩ := Algorithms.EPEC.OuterApproximation.exampleSecondCall
      (⟨⟨0 + 1, 1, fun i j => if i < 0 then (0 : ℚ) else if i = 0 ∧ j < 1 then
          - (Algorithms.EPEC.OuterApproximation.valueCutLhs
            Algorithms.EPEC.OuterApproximation.exampleLeaderObjective ⟨1, fun _ => 3⟩).val j
          else 0⟩,
        Vec.join_cols (Vec.zeros 0) ⟨1, fun _ => -5⟩⟩ :
        Algorithms.EPEC.OuterApproximation.CutPool ℚ) rfl rfl (by
          norm_num [Algorithms.EPEC.OuterApproximation.valueCutLhs,
            Algorithms.EPEC.OuterApproximation.exampleLeaderObjective])
    refine ⟨_, p2, h1, h2, rfl, ?_, ?_, e1, e2, e3, e4⟩ <;>
    norm_num [Vec.join_cols, Vec.zeros, Mat.zeros,
      Algorithms.EPEC.OuterApproximation.valueCutLhs,
      Algorithms.EPEC.OuterApproximation.exampleLeaderObjective]
namespace Algorithms

namespace EPEC

namespace OuterApproximation

theorem denyAll_append (T : OuterTree) (node : OuterTree.Node) (a b : List Nat) :
    denyAll T node (a ++ b) = denyAll T node a >>= fun n => denyAll T n b := by
  induction a generalizing node with
  | nil => rfl
  | cons j js ih =>
    simp only [List.cons_append, denyAll]
    cases OuterTree.denyBranchingLocation T node j with
    | error e => rfl
    | ok n => exact ih n

theorem denyAll_range_aux (T : OuterTree) (node : OuterTree.Node) (n : Nat)
    (hn : n ≤ node.AllowedBranchings.length) (hT : node.AllowedBranchings.length ≤ T.EncodingSize) :
    denyAll T node (List.range n) = .ok { node with
      AllowedBranchings := List.replicate n false ++ node.AllowedBranchings.drop n } := by
  induction n with
  | zero => simp [denyAll]
  | succ n ih =>
    rw [List.range_succ, denyAll_append, ih (by omega)]
    have h1 : ¬ n ≥ T.EncodingSize := by omega
    have h2 : n < (List.replicate n false ++ node.AllowedBranchings.drop n).length := by
      simp only [List.length_append, List.length_replicate, List.length_drop]
      omega
    simp only [bind, Except.bind, denyAll, OuterTree.denyBranchingLocation, if_neg h1,
      OuterTree.atSet, if_pos h2]
    congr 2
    apply List.ext_getElem?
    intro k
    rcases Nat.lt_trichotomy k n with hk | hk | hk
    · rw [List.getElem?_set_ne (by omega), List.getElem?_append_left (by simpa using hk),
        List.getElem?_append_left (by simp; omega)]
      simp [List.getElem?_replicate, hk, Nat.lt_succ_of_lt hk]
    · subst hk
      rw [List.getElem?_set_self h2, List.getElem?_append_left (by simp)]
      simp [List.getElem?_replicate]
    · rw [List.getElem?_set_ne (by omega), List.getElem?_append_right (by simp; omega),
        List.getElem?_append_right (by simp; omega)]
      simp only [List.length_replicate, List.getElem?_drop]
      congr 1
      omega

theorem denyAll_range (T : OuterTree) (node : OuterTree.Node)
    (hlen : node.AllowedBranchings.length = node.Encoding.length)
    (hT : T.EncodingSize = node.Encoding.length) :
    denyAll T node (List.range node.Encoding.length) = .ok (deniedNode node) := by
  rw [← hlen, denyAll_range_aux T node _ (le_refl _) (by omega)]
  simp [deniedNode]

end OuterApproximation

end EPEC

end Algorithms
namespace Algorithms

namespace EPEC

namespace OuterApproximation

theorem scanInv_keep (val : Nat → ℚ) (alw : List Bool) (seen : List Nat) (mv : ℚ) (mp i : Nat)
    (h : ScanInv val alw seen mv mp) (hi : alw[i]? = some true → val i ≤ mv) :
    ScanInv val alw (i :: seen) mv mp := by
  refine ⟨fun j hj hja => ?_, h.2⟩
  rcases List.mem_cons.mp hj with e | e
  · subst e
    exact hi hja
  · exact h.1 j e hja

theorem scanInv_new (val : Nat → ℚ) (alw : List Bool) (seen : List Nat) (mv : ℚ) (mp i : Nat)
    (h : ScanInv val alw seen mv mp) (hi : alw[i]? = some true) (hv : val i > mv) :
    ScanInv val alw (i :: seen) (val i) i := by
  refine ⟨fun j hj hja => ?_, Or.inr ⟨hi, rfl⟩⟩
  rcases List.mem_cons.mp hj with e | e
  · subst e
    exact le_refl _
  · exact le_trans (h.1 j e hja) (le_of_lt hv)

theorem atGet_ok (alw : List Bool) (i : Nat) (hi : i < alw.length) :
    ∃ b, alw[i]? = some b ∧ OuterTree.atGet alw i = .ok b := by
  refine ⟨alw[i], List.getElem?_eq_getElem hi, ?_⟩
  simp only [OuterTree.atGet, List.getElem?_eq_getElem hi]

theorem scanZ_inv (z : Vec ℚ) (alw : List Bool) (seen : List Nat) (s : BranchScan) (i : Nat)
    (xval : Nat → ℚ) (hz : i < z.n_rows) (ha : i < alw.length)
    (h1 : ScanInv xval alw (i :: seen) s.maxvalx s.maxposx)
    (h2 : ScanInv z.val alw seen s.maxvalz s.maxposz) :
    ∃ s1, scanZ z alw s i = .ok s1 ∧ ScanInv xval alw (i :: seen) s1.maxvalx s1.maxposx ∧
      ScanInv z.val alw (i :: seen) s1.maxvalz s1.maxposz := by
  obtain ⟨b, hb, hg⟩ := atGet_ok alw i ha
  simp only [scanZ, Vec.elem, if_pos hz, bind, Except.bind]
  by_cases hc : z.val i > s.maxvalz
  · rw [if_pos hc, hg]
    cases b with
    | true => exact ⟨_, rfl, h1, scanInv_new _ _ _ _ _ _ h2 hb hc⟩
    | false =>
      refine ⟨_, rfl, h1, scanInv_keep _ _ _ _ _ _ h2 (fun h => ?_)⟩
      rw [hb] at h
      exact absurd (Option.some.inj h) (by decide)
  · rw [if_neg hc]
    exact ⟨_, rfl, h1, scanInv_keep _ _ _ _ _ _ h2 (fun _ => le_of_not_lt hc)⟩

theorem scanStep_inv (inp : FirstBranchInput) (z x : Vec ℚ) (alw : List Bool)
    (seen : List Nat) (s : BranchScan) (i : Nat)
    (hx : varPos inp i < x.n_rows) (hz : i < z.n_rows) (ha : i < alw.length)
    (h1 : ScanInv (fun j => x.val (varPos inp j)) alw seen s.maxvalx s.maxposx)
    (h2 : ScanInv z.val alw seen s.maxvalz s.maxposz) :
    ∃ s1, scanStep inp z x alw s i = .ok s1 ∧
      ScanInv (fun j => x.val (varPos inp j)) alw (i :: seen) s1.maxvalx s1.maxposx ∧
      ScanInv z.val alw (i :: seen) s1.maxvalz s1.maxposz := by
  obtain ⟨b, hb, hg⟩ := atGet_ok alw i ha
  simp only [scanStep, Vec.elem, if_pos hx, bind, Except.bind]
  by_cases hc : x.val (varPos inp i) > s.maxvalx
  · rw [if_pos hc, hg]
    cases b with
    | true =>
      exact scanZ_inv z alw seen _ i _ hz ha
        (scanInv_new (fun j => x.val (varPos inp j)) _ _ _ _ _ h1 hb hc) h2
    | false =>
      refine scanZ_inv z alw seen _ i _ hz ha
        (scanInv_keep (fun j => x.val (varPos inp j)) _ _ _ _ _ h1 (fun h => ?_)) h2
      rw [hb] at h
      exact absurd (Option.some.inj h) (by decide)
  · rw [if_neg hc]
    exact scanZ_inv z alw seen _ i _ hz ha
      (scanInv_keep (fun j => x.val (varPos inp j)) _ _ _ _ _ h1
        (fun _ => le_of_not_lt hc)) h2

theorem scanLoop_inv (inp : FirstBranchInput) (z x : Vec ℚ) (alw : List Bool)
    (is seen : List Nat) (s : BranchScan)
    (his : ∀ i ∈ is, varPos inp i < x.n_rows ∧ i < z.n_rows ∧ i < alw.length)
    (h1 : ScanInv (fun j => x.val (varPos inp j)) alw seen s.maxvalx s.maxposx)
    (h2 : ScanInv z.val alw seen s.maxvalz s.maxposz) :
    ∃ s1, scanLoop inp z x alw s is = .ok s1 ∧
      ScanInv (fun j => x.val (varPos inp j)) alw (is ++ seen) s1.maxvalx s1.maxposx ∧
      ScanInv z.val alw (is ++ seen) s1.maxvalz s1.maxposz := by
  induction is generalizing seen s with
  | nil => exact ⟨s, rfl, h1, h2⟩
  | cons i is ih =>
    obtain ⟨hx, hz, ha⟩ := his i (List.mem_cons_self i is)
    obtain ⟨s1, hs1, k1, k2⟩ := scanStep_inv inp z x alw seen s i hx hz ha h1 h2
    obtain ⟨s2, hs2, m1, m2⟩ := ih (i :: seen) s1
      (fun k hk => his k (List.mem_cons_of_mem i hk)) k1 k2
    refine ⟨s2, ?_, ?_, ?_⟩
    · simp only [scanLoop, hs1, bind, Except.bind]
      exact hs2
    · refine ⟨fun j hj => m1.1 j ?_, m1.2⟩
      simp only [List.mem_append, List.mem_cons] at hj ⊢
      tauto
    · refine ⟨fun j hj => m2.1 j ?_, m2.2⟩
      simp only [List.mem_append, List.mem_cons] at hj ⊢
      tauto

/-- The feasible case of `getFirstBranchLocation`: the returned index is an allowed bit whose
score bounds the score of every allowed bit. -/
theorem getFirstBranchLocation_feasible (inp : FirstBranchInput) (T : OuterTree)
    (node : OuterTree.Node) (z x : Vec ℚ)
    (hinv : OuterTree.NodeInv T.EncodingSize node) (hnR : inp.numRows = T.EncodingSize)
    (hs : inp.sols = some (z, x))
    (hw : inp.numRows + inp.NumberLeader ≤ 2 ^ 32)
    (hxl : inp.numRows + inp.NumberLeader ≤ x.n_rows) (hzl : inp.numRows ≤ z.n_rows)
    (hal : ∃ j : Nat, node.AllowedBranchings[j]? = some true)
    (hxv : ∀ k, k < x.n_rows → x.val k > -1) (hzv : ∀ k, k < z.n_rows → z.val k > -1) :
    ∃ i : Nat, getFirstBranchLocation inp T node = .ok (node, (i : Int)) ∧
      i < T.EncodingSize ∧ node.AllowedBranchings[i]? = some true ∧
      ∀ j : Nat, node.AllowedBranchings[j]? = some true →
        bitScore inp z x j ≤ bitScore inp z x i := by
  obtain ⟨e1, e2, e3⟩ := hinv
  obtain ⟨j0, hj0⟩ := hal
  have hlt : ∀ j : Nat, node.AllowedBranchings[j]? = some true → j < T.EncodingSize := by
    intro j hj
    by_contra hc
    rw [List.getElem?_eq_none (by omega)] at hj
    exact absurd hj (by simp)
  have hvp : ∀ j, j < inp.numRows →
      varPos inp j = if j ≥ inp.LStart then j + inp.NumberLeader else j := by
    intro j hj
    unfold varPos
    split_ifs
    · exact Nat.mod_eq_of_lt (by omega)
    · rfl
  have hvl : ∀ j, j < inp.numRows → varPos inp j < x.n_rows := by
    intro j hj
    rw [hvp j hj]
    split_ifs <;> omega
  -- the early return is not taken
  have hcount : ¬ node.getCumulativeBranches = T.EncodingSize := by
    intro hc
    unfold OuterTree.Node.getCumulativeBranches at hc
    rw [← e1, List.count_eq_length] at hc
    have hj := hlt j0 hj0
    have hm : node.Encoding[j0]? = some true := by
      rw [List.getElem?_eq_getElem (by omega)]
      exact congrArg some (hc _ (List.getElem_mem _)).symm
    rw [e3 j0 hm] at hj0
    exact absurd (Option.some.inj hj0) (by decide)
  obtain ⟨s, hs1, k1, k2⟩ := scanLoop_inv inp z x node.AllowedBranchings
    (List.range inp.numRows) [] ⟨-1, -1, 0, 0⟩
    (fun i hi => ⟨hvl i (List.mem_range.mp hi), by
      have := List.mem_range.mp hi
      omega, by
      have := List.mem_range.mp hi
      omega⟩)
    ⟨fun j hj => absurd hj (List.not_mem_nil j), Or.inl rfl⟩
    ⟨fun j hj => absurd hj (List.not_mem_nil j), Or.inl rfl⟩
  have hmem : ∀ j : Nat, node.AllowedBranchings[j]? = some true →
      j ∈ List.range inp.numRows ++ [] := by
    intro j hj
    simp only [List.append_nil, List.mem_range]
    have := hlt j hj
    omega
  have bx : ∀ j : Nat, node.AllowedBranchings[j]? = some true →
      x.val (varPos inp j) ≤ s.maxvalx := fun j hj => k1.1 j (hmem j hj) hj
  have bz : ∀ j : Nat, node.AllowedBranchings[j]? = some true →
      z.val j ≤ s.maxvalz := fun j hj => k2.1 j (hmem j hj) hj
  have j0lt : j0 < inp.numRows := by
    have := hlt j0 hj0
    omega
  have px : node.AllowedBranchings[s.maxposx]? = some true ∧
      x.val (varPos inp s.maxposx) = s.maxvalx := by
    rcases k1.2 with h | h
    · have h3 := bx j0 hj0
      have h4 := hxv _ (hvl j0 j0lt)
      rw [h] at h3
      exact absurd h4 (not_lt.mpr h3)
    · exact h
  have pz : node.AllowedBranchings[s.maxposz]? = some true ∧
      z.val s.maxposz = s.maxvalz := by
    rcases k2.2 with h | h
    · have h3 := bz j0 hj0
      have h4 := hzv j0 (by omega)
      rw [h] at h3
      exact absurd h4 (not_lt.mpr h3)
    · exact h
  have score : ∀ j : Nat, node.AllowedBranchings[j]? = some true →
      bitScore inp z x j = max (x.val (varPos inp j)) (z.val j) := by
    intro j hj
    have := hlt j hj
    rw [hvp j (by omega)]
    rfl
  have hres : getFirstBranchLocation inp T node = .ok (node,
      if s.maxvalz > s.maxvalx then (s.maxposz : Int) else (s.maxposx : Int)) := by
    unfold getFirstBranchLocation
    rw [if_neg hcount, hs]
    simp only [hs1, bind, Except.bind]
  by_cases hc : s.maxvalz > s.maxvalx
  · rw [if_pos hc] at hres
    refine ⟨s.maxposz, hres, hlt _ pz.1, pz.1, fun j hj => ?_⟩
    rw [score j hj, score _ pz.1, pz.2]
    exact max_le (le_trans (le_trans (bx j hj) (le_of_lt hc)) (le_max_right _ _))
      (le_trans (bz j hj) (le_max_right _ _))
  · rw [if_neg hc] at hres
    refine ⟨s.maxposx, hres, hlt _ px.1, px.1, fun j hj => ?_⟩
    rw [score j hj, score _ px.1, px.2]
    exact max_le (le_trans (bx j hj) (le_max_left _ _))
      (le_trans (le_trans (bz j hj) (le_of_not_lt hc)) (le_max_left _ _))

/-- The infeasible case of `getFirstBranchLocation`: the result is `-1` and every bit of the
node is denied. -/
theorem getFirstBranchLocation_infeasible (inp : FirstBranchInput) (T : OuterTree)
    (node : OuterTree.Node) (hinv : OuterTree.NodeInv T.EncodingSize node)
    (hs : inp.sols = none) :
    ∃ n, getFirstBranchLocation inp T node = .ok (n, -1) ∧ n.Encoding = node.Encoding ∧
      n.AllowedBranchings = List.replicate T.EncodingSize false := by
  obtain ⟨e1, e2, e3⟩ := hinv
  unfold getFirstBranchLocation
  by_cases hc : node.getCumulativeBranches = T.EncodingSize
  · rw [if_pos hc]
    refine ⟨node, rfl, rfl, ?_⟩
    unfold OuterTree.Node.getCumulativeBranches at hc
    rw [← e1, List.count_eq_length] at hc
    apply List.ext_getElem?
    intro k
    rw [List.getElem?_replicate]
    by_cases hk : k < T.EncodingSize
    · rw [if_pos hk]
      apply e3 k
      rw [List.getElem?_eq_getElem (by omega)]
      exact congrArg some (hc _ (List.getElem_mem _)).symm
    · rw [if_neg hk, List.getElem?_eq_none (by omega)]
  · rw [if_neg hc, hs]
    simp only [denyAll_range T node (e2.trans e1.symm) e1.symm, bind, Except.bind]
    exact ⟨_, rfl, rfl, by simp only [deniedNode, e2]⟩

end OuterApproximation

end EPEC

end Algorithms
/-- C29: on a node that satisfies the node invariant of its tree, whose encoding size `K` is
the number `nR` of rows of the player's `PolyLCP`: if the relaxation is infeasible
(`extractSols` answers false, or the early return for a fully branched node is taken),
`getFirstBranchLocation` returns `-1` and every bit of the node is denied; if it is feasible
with vectors `z` of at least `nR` entries and `x` of at least `nR + NumberLeader` entries
(`nR + NumberLeader` being at most `2^32`), at least one bit of the node is allowed and all
extracted values are greater than `-1`, the call returns an index `i < K` whose
`AllowedBranchings` bit is true and for which `max(x(varPos_i), z_i) ≥ max(x(varPos_j), z_j)`
for every allowed `j`, where `varPos_i = i + NumberLeader` if `i ≥ LStart` and `i` otherwise;
the node is unchanged. -/
theorem C29_getFirstBranchLocation
    (inp : Algorithms.EPEC.OuterApproximation.FirstBranchInput)
    (T : Algorithms.EPEC.OuterTree) (node : Algorithms.EPEC.OuterTree.Node)
    (hinv : Algorithms.EPEC.OuterTree.NodeInv T.EncodingSize node)
    (hnR : inp.numRows = T.EncodingSize) :
    (inp.sols = none →
      ∃ n, Algorithms.EPEC.OuterApproximation.getFirstBranchLocation inp T node = .ok (n, -1) ∧
        n.Encoding = node.Encoding ∧
        n.AllowedBranchings = List.replicate T.EncodingSize false) ∧
    (∀ z x : Vec ℚ, inp.sols = some (z, x) →
      inp.numRows + inp.NumberLeader ≤ 2 ^ 32 →
      inp.numRows + inp.NumberLeader ≤ x.n_rows → inp.numRows ≤ z.n_rows →
      (∃ j : Nat, node.AllowedBranchings[j]? = some true) →
      (∀ k, k < x.n_rows → x.val k > -1) → (∀ k, k < z.n_rows → z.val k > -1) →
      ∃ i : Nat, Algorithms.EPEC.OuterApproximation.getFirstBranchLocation inp T node
          = .ok (node, (i : Int)) ∧
        i < T.EncodingSize ∧ node.AllowedBranchings[i]? = some true ∧
        ∀ j : Nat, node.AllowedBranchings[j]? = some true →
          max (x.val (if j ≥ inp.LStart then j + inp.NumberLeader else j)) (z.val j) ≤
            max (x.val (if i ≥ inp.LStart then i + inp.NumberLeader else i)) (z.val i)) :=
  ⟨fun hs => Algorithms.EPEC.OuterApproximation.getFirstBranchLocation_infeasible inp T node
      hinv hs,
    fun z x hs hw hxl hzl hal hxv hzv =>
      Algorithms.EPEC.OuterApproximation.getFirstBranchLocation_feasible inp T node z x hinv
        hnR hs hw hxl hzl hal hxv hzv⟩

/-- The statement of C29 at the root of size `2` with `LStart = 1`, one leader variable,
`z = (1/2, 0)` and `x = (0, 7, 2)`: the root satisfies the invariant, both bits are allowed,
the scores are `max(0, 1/2) = 1/2` for bit `0` and `max(2, 0) = 2` for bit `1`, and the call
returns an allowed bit of largest score. -/
theorem C29_getFirstBranchLocation_witness :
    Algorithms.EPEC.OuterTree.NodeInv 2 (Algorithms.EPEC.OuterTree.Node.root 2) ∧
    ∃ i : Nat, Algorithms.EPEC.OuterApproximation.getFirstBranchLocation
          Algorithms.EPEC.OuterApproximation.exampleFirstBranch
          Algorithms.EPEC.OuterApproximation.exampleTree2
          (Algorithms.EPEC.OuterTree.Node.root 2)
          = .ok (Algorithms.EPEC.OuterTree.Node.root 2, (i : Int)) ∧
        i < 2 ∧ (Algorithms.EPEC.OuterTree.Node.root 2).AllowedBranchings[i]? = some true ∧
        ∀ j : Nat, (Algorithms.EPEC.OuterTree.Node.root 2).AllowedBranchings[j]? = some true →
          max ((if (if j ≥ 1 then j + 1 else j) = 0 then 0
              else if (if j ≥ 1 then j + 1 else j) = 1 then 7 else 2 : ℚ))
            (if j = 0 then 1 / 2 else 0) ≤
          max ((if (if i ≥ 1 then i + 1 else i) = 0 then 0
              else if (if i ≥ 1 then i + 1 else i) = 1 then 7 else 2 : ℚ))
            (if i = 0 then 1 / 2 else 0) :=
  ⟨Algorithms.EPEC.OuterTree.inv_root 2,
    (C29_getFirstBranchLocation Algorithms.EPEC.OuterApproximation.exampleFirstBranch
      Algorithms.EPEC.OuterApproximation.exampleTree2 (Algorithms.EPEC.OuterTree.Node.root 2)
      (Algorithms.EPEC.OuterTree.inv_root 2) rfl).2
      ⟨2, fun i => if i = 0 then 1 / 2 else 0⟩
      ⟨3, fun i => if i = 0 then 0 else if i = 1 then 7 else 2⟩ rfl
      (by
        show 2 + 1 ≤ 2 ^ 32
        norm_num)
      (by
        show 2 + 1 ≤ 3
        decide)
      (by
        show 2 ≤ 2
        decide)
      ⟨0, rfl⟩
      (fun k _ => by
        show (if k = 0 then (0 : ℚ) else if k = 1 then 7 else 2) > -1
        split_ifs <;> norm_num)
      (fun k _ => by
        show (if k = 0 then (1 / 2 : ℚ) else 0) > -1
        split_ifs <;> norm_num)⟩

namespace Algorithms

namespace EPEC

namespace OuterApproximation

/-- On the example, `getFirstBranchLocation` returns bit `1`. -/
theorem exampleFirstBranch_result :
    getFirstBranchLocation exampleFirstBranch exampleTree2 (OuterTree.Node.root 2)
      = .ok (OuterTree.Node.root 2, 1) := by
  have h : ¬ (OuterTree.Node.root 2).getCumulativeBranches = exampleTree2.EncodingSize := by
    decide
  rw [getFirstBranchLocation, if_neg h]
  norm_num [List.range_succ, scanLoop, scanStep, scanZ, Vec.elem, varPos, OuterTree.atGet,
    bind, Except.bind, exampleFirstBranch, OuterTree.Node.root]

end OuterApproximation

end EPEC

end Algorithms
namespace Algorithms

namespace EPEC

namespace OuterApproximation

theorem branchingLoop_ok (inp : IterationInput) (numIterations : Nat)
    (hf : ∀ j, ∃ l, inp.firstBranch j = .ok l) (hh : ∀ j, ∃ l, inp.hybrid j = .ok l)
    (js : List Nat) (locs : List Int) :
    ∃ r, branchingLoop inp numIterations locs js = .ok r := by
  induction js generalizing locs with
  | nil => exact ⟨_, rfl⟩
  | cons j js ih =>
    unfold branchingLoop
    obtain ⟨l1, h1⟩ := hf j
    obtain ⟨l2, h2⟩ := hh j
    simp only [h1, h2, bind, Except.bind]
    split_ifs
    all_goals first
      | exact ⟨_, rfl⟩
      | exact ih _

theorem cumulative_lt_aux (f : Nat → Nat) (js : List Nat) (c : Nat) (hc : c < 2 ^ 32) :
    js.foldl (fun c j => (c + f j) % 2 ^ 32) c < 2 ^ 32 := by
  induction js generalizing c with
  | nil => exact hc
  | cons j js ih => exact ih _ (Nat.mod_lt _ (by norm_num))

theorem cumulative_lt (inp : IterationInput) : cumulativeBranchingCandidates inp < 2 ^ 32 :=
  cumulative_lt_aux _ _ 0 (by norm_num)

/-- The branching phase with `branch = true` and no candidate left. -/
theorem branchingPhase_exhausted (inp : IterationInput) (numIterations : Nat)
    (hc : cumulativeBranchingCandidates inp = 0)
    (hf : ∀ j, ∃ l, inp.firstBranch j = .ok l) (hh : ∀ j, ∃ l, inp.hybrid j = .ok l) :
    branchingPhase inp numIterations true = .ok (.inl ZEROStatus.NashEqNotFound) := by
  obtain ⟨r, hr⟩ := branchingLoop_ok inp numIterations hf hh (List.range inp.NumPlayers)
    (List.replicate inp.NumPlayers (-1))
  unfold branchingPhase
  rw [if_pos rfl, hr]
  simp only [bind, Except.bind]
  split_ifs
  · rfl
  · rfl

theorem timeForNextIteration_eq (c : Nat) (t : ℚ) :
    timeForNextIteration c t = if c = 1 then 98 / 100 * t
      else 2 / 10 * t / (((if c = 0 then 2 ^ 32 - 1 else c - 1 : Nat)) : ℚ) := by
  unfold timeForNextIteration usub32
  by_cases h1 : c = 1
  · subst h1
    simp only [le_refl, if_true, Nat.sub_self, gt_iff_lt, lt_irrefl, if_false]
    ring
  · rw [if_neg h1]
    by_cases h0 : c = 0
    · subst h0
      norm_num
      ring
    · have h2 : 1 ≤ c := by omega
      have h3 : c - 1 > 0 := by omega
      rw [if_pos h2, if_pos h3, if_neg h0]
      ring

theorem iterationStart_limit (inp : IterationInput) (numIterations : Nat) (branch : Bool)
    (l : Option ℚ) (h : iterationStart inp numIterations branch = .ok (.computeNashEq l))
    (hT : inp.TimeLimit > 0) :
    l = some (timeForNextIteration (cumulativeBranchingCandidates inp) inp.timeRemaining) := by
  unfold iterationStart at h
  obtain ⟨r, _, h⟩ := OuterTree.bind_ok _ _ _ h
  cases r with
  | inl st =>
    simp only at h
    exact absurd (Except.ok.inj h) (by simp)
  | inr locs =>
    simp only at h
    obtain ⟨_, _, h⟩ := OuterTree.bind_ok _ _ _ h
    rw [if_pos hT] at h
    exact (IterationOutcome.computeNashEq.inj (Except.ok.inj h)).symm

end OuterApproximation

end EPEC

end Algorithms
/-- C27 (counterexample): a run of `solve` with one player whose tree has encoding size `1`
and no time limit.  The first pass branches on bit `0`; `computeNashEq` finds an equilibrium
and `isFeasible` answers false after adding cuts, so that `branch` becomes false.  The second
pass starts with `cumulativeBranchingCandidates = 0`, and still calls `computeNashEq`: the
run has made two calls and has not stopped. -/
theorem C27_solve_no_stop_after_cuts :
    Algorithms.EPEC.OuterApproximation.cumulativeBranchingCandidates
      (Algorithms.EPEC.OuterApproximation.exampleInputs 0 2) = 0 ∧
    Algorithms.EPEC.OuterApproximation.iterationStart
      (Algorithms.EPEC.OuterApproximation.exampleInputs 0 2) 2 false
      = .ok (.computeNashEq none) ∧
    Algorithms.EPEC.OuterApproximation.solve
      (Algorithms.EPEC.OuterApproximation.exampleInputs 0) 2 = .ok (none, [none, none]) := by
  refine ⟨by decide, ?_, ?_⟩
  · simp [Algorithms.EPEC.OuterApproximation.iterationStart,
      Algorithms.EPEC.OuterApproximation.branchingPhase,
      Algorithms.EPEC.OuterApproximation.exampleInputs,
      Algorithms.EPEC.OuterApproximation.examplePass, bind, Except.bind]
  · simp [Algorithms.EPEC.OuterApproximation.solve,
      Algorithms.EPEC.OuterApproximation.solveLoop,
      Algorithms.EPEC.OuterApproximation.iterationStart,
      Algorithms.EPEC.OuterApproximation.iterationEnd,
      Algorithms.EPEC.OuterApproximation.feasibilityPhase,
      Algorithms.EPEC.OuterApproximation.branchingPhase,
      Algorithms.EPEC.OuterApproximation.branchingLoop,
      Algorithms.EPEC.OuterApproximation.branchingCandidatesNumber,
      Algorithms.EPEC.OuterApproximation.cumulativeBranchingCandidates,
      Algorithms.EPEC.OuterApproximation.maxElement,
      Algorithms.EPEC.OuterApproximation.usub32,
      Algorithms.EPEC.OuterApproximation.exampleInputs,
      Algorithms.EPEC.OuterApproximation.examplePass, bind, Except.bind, List.range_succ]

/-- C27 (amended): whenever a pass of the loop of `solve` runs its branching phase
(`branch = true`: the previous pass did not add cuts) and starts with
`cumulativeBranchingCandidates = 0`, the branching calls raising nothing, the loop is left in
that pass with `Status = NashEqNotFound`, before any call of `computeNashEq`.  A pass with
`branch = false` (the previous pass added cuts) skips the branching phase, for every number of
players and every count of candidates: no branching call is made, every branching location
stays `-1`, and when the outer approximation of the incumbents returns, `computeNashEq` is
called. -/
theorem C27_solve_exhausted (inp : Algorithms.EPEC.OuterApproximation.IterationInput)
    (numIterations : Nat)
    (hc : Algorithms.EPEC.OuterApproximation.cumulativeBranchingCandidates inp = 0)
    (hf : ∀ j, ∃ l, inp.firstBranch j = .ok l) (hh : ∀ j, ∃ l, inp.hybrid j = .ok l) :
    Algorithms.EPEC.OuterApproximation.iterationStart inp numIterations true
      = .ok (.stopped ZEROStatus.NashEqNotFound) ∧
    (∀ (inp' : Algorithms.EPEC.OuterApproximation.IterationInput) (n : Nat),
      Algorithms.EPEC.OuterApproximation.branchingPhase inp' n false
        = .ok (.inr (List.replicate inp'.NumPlayers (-1))) ∧
      (∀ u, inp'.approximate (List.replicate inp'.NumPlayers (-1)) false = .ok u →
        Algorithms.EPEC.OuterApproximation.iterationStart inp' n false
          = .ok (.computeNashEq
            (if inp'.TimeLimit > 0 then
              some (Algorithms.EPEC.OuterApproximation.timeForNextIteration
                (Algorithms.EPEC.OuterApproximation.cumulativeBranchingCandidates inp')
                inp'.timeRemaining)
            else none))) ∧
      (∀ e, inp'.approximate (List.replicate inp'.NumPlayers (-1)) false = .error e →
        Algorithms.EPEC.OuterApproximation.iterationStart inp' n false = .error e)) := by
  constructor
  · unfold Algorithms.EPEC.OuterApproximation.iterationStart
    rw [Algorithms.EPEC.OuterApproximation.branchingPhase_exhausted inp numIterations hc hf hh]
    rfl
  · intro inp' n
    have hb : Algorithms.EPEC.OuterApproximation.branchingPhase inp' n false
        = .ok (.inr (List.replicate inp'.NumPlayers (-1))) := by
      unfold Algorithms.EPEC.OuterApproximation.branchingPhase
      rw [if_neg (by decide)]
    refine ⟨hb, ?_, ?_⟩
    · intro u hu
      unfold Algorithms.EPEC.OuterApproximation.iterationStart
      rw [hb]
      simp only [bind, Except.bind, hu]
      split_ifs <;> rfl
    · intro e he
      unfold Algorithms.EPEC.OuterApproximation.iterationStart
      rw [hb]
      simp only [bind, Except.bind, he]

/-- The statement of C27 (amended) at the pass with one player whose only bit is branched:
the count is `0`, the pass with `branch = true` stops with `NashEqNotFound`, and the pass with
`branch = false` calls `computeNashEq`. -/
theorem C27_solve_exhausted_witness :
    Algorithms.EPEC.OuterApproximation.cumulativeBranchingCandidates
      (Algorithms.EPEC.OuterApproximation.examplePass 1 0) = 0 ∧
    Algorithms.EPEC.OuterApproximation.iterationStart
      (Algorithms.EPEC.OuterApproximation.examplePass 1 0) 2 true
      = .ok (.stopped ZEROStatus.NashEqNotFound) ∧
    Algorithms.EPEC.OuterApproximation.branchingPhase
      (Algorithms.EPEC.OuterApproximation.examplePass 1 0) 2 false
      = .ok (.inr (List.replicate
        (Algorithms.EPEC.OuterApproximation.examplePass 1 0).NumPlayers (-1))) :=
  ⟨by decide,
    (C27_solve_exhausted (Algorithms.EPEC.OuterApproximation.examplePass 1 0) 2
      (by decide) (fun _ => ⟨0, rfl⟩) (fun _ => ⟨0, rfl⟩)).1,
    ((C27_solve_exhausted (Algorithms.EPEC.OuterApproximation.examplePass 1 0) 2
      (by decide) (fun _ => ⟨0, rfl⟩) (fun _ => ⟨0, rfl⟩)).2
      (Algorithms.EPEC.OuterApproximation.examplePass 1 0) 2).1⟩

/-- C28: for every count `c` of cumulative branching candidates (an `unsigned int`, below
`2^32`) and every remaining time `t`, the budget `timeForNextIteration` is `0.98 * t` when
`c = 1` and `0.2 * t / (c - 1)` for every other `c`, the difference `c - 1` wrapping modulo
`2^32` (it is `2^32 - 1` for `c = 0`); and whenever a pass of `solve` with `TimeLimit > 0`
calls `computeNashEq`, the local time limit it hands over is that budget for the count
`cumulativeBranchingCandidates` of the pass, which is below `2^32`, and the remaining time. -/
theorem C28_timeForNextIteration (inp : Algorithms.EPEC.OuterApproximation.IterationInput)
    (numIterations : Nat) (branch : Bool) (l : Option ℚ)
    (h : Algorithms.EPEC.OuterApproximation.iterationStart inp numIterations branch
      = .ok (.computeNashEq l))
    (hT : inp.TimeLimit > 0) :
    (∀ (c : Nat) (t : ℚ), c < 2 ^ 32 →
      Algorithms.EPEC.OuterApproximation.timeForNextIteration c t =
        if c = 1 then 98 / 100 * t
        else 2 / 10 * t / (((c + 2 ^ 32 - 1) % 2 ^ 32 : Nat) : ℚ)) ∧
    Algorithms.EPEC.OuterApproximation.cumulativeBranchingCandidates inp < 2 ^ 32 ∧
    l = some (
      if Algorithms.EPEC.OuterApproximation.cumulativeBranchingCandidates inp = 1 then
        98 / 100 * inp.timeRemaining
      else 2 / 10 * inp.timeRemaining /
        (((Algorithms.EPEC.OuterApproximation.cumulativeBranchingCandidates inp
          + 2 ^ 32 - 1) % 2 ^ 32 : Nat) : ℚ)) := by
  have key : ∀ (c : Nat) (t : ℚ), c < 2 ^ 32 →
      Algorithms.EPEC.OuterApproximation.timeForNextIteration c t =
        if c = 1 then 98 / 100 * t
        else 2 / 10 * t / (((c + 2 ^ 32 - 1) % 2 ^ 32 : Nat) : ℚ) := by
    intro c t hc
    rw [Algorithms.EPEC.OuterApproximation.timeForNextIteration_eq]
    have e : (c + 2 ^ 32 - 1) % 2 ^ 32 = if c = 0 then 2 ^ 32 - 1 else c - 1 := by
      by_cases h0 : c = 0
      · subst h0
        rfl
      · rw [if_neg h0]
        have : c + 2 ^ 32 - 1 = (c - 1) + 2 ^ 32 := by omega
        rw [this, Nat.add_mod_right, Nat.mod_eq_of_lt (by omega)]
    rw [e]
  refine ⟨key, Algorithms.EPEC.OuterApproximation.cumulative_lt inp, ?_⟩
  rw [Algorithms.EPEC.OuterApproximation.iterationStart_limit inp numIterations branch l h hT,
    key _ _ (Algorithms.EPEC.OuterApproximation.cumulative_lt inp)]

namespace Algorithms

namespace EPEC

namespace OuterApproximation

/-- The first pass of the example run with the time limit `5`: the count is `1`, and
`computeNashEq` is called with the local time limit `0.98 * 10`. -/
theorem examplePass_start :
    iterationStart (examplePass 0 5) 1 true = .ok (.computeNashEq (some (49 / 5))) := by
  simp [iterationStart, branchingPhase, branchingLoop, branchingCandidatesNumber,
    cumulativeBranchingCandidates, maxElement, usub32, examplePass, bind, Except.bind,
    List.range_succ, timeForNextIteration]
  norm_num

/-- The pass after cuts were added, with no candidate left and the time limit `5`:
`computeNashEq` is called with the local time limit `0.2 * 10 / (2^32 - 1)`. -/
theorem examplePass_wrap :
    iterationStart (examplePass 1 5) 2 false
      = .ok (.computeNashEq (some (2 / 4294967295))) := by
  simp [iterationStart, branchingPhase, branchingCandidatesNumber,
    cumulativeBranchingCandidates, usub32, examplePass, bind, Except.bind,
    List.range_succ, timeForNextIteration]
  norm_num

end OuterApproximation

end EPEC

end Algorithms

/-- The statement of C28 at the first pass of the example run with the time limit `5` and
`10` seconds remaining: `computeNashEq` is called, the count is `1` and the local time limit
is `0.98 * 10`. -/
theorem C28_timeForNextIteration_witness :
    Algorithms.EPEC.OuterApproximation.iterationStart
      (Algorithms.EPEC.OuterApproximation.examplePass 0 5) 1 true
      = .ok (.computeNashEq (some (49 / 5))) ∧
    (some (49 / 5) : Option ℚ) = some (
      if Algorithms.EPEC.OuterApproximation.cumulativeBranchingCandidates
          (Algorithms.EPEC.OuterApproximation.examplePass 0 5) = 1 then
        98 / 100 * (Algorithms.EPEC.OuterApproximation.examplePass 0 5).timeRemaining
      else 2 / 10 * (Algorithms.EPEC.OuterApproximation.examplePass 0 5).timeRemaining /
        (((Algorithms.EPEC.OuterApproximation.cumulativeBranchingCandidates
          (Algorithms.EPEC.OuterApproximation.examplePass 0 5)
          + 2 ^ 32 - 1) % 2 ^ 32 : Nat) : ℚ)) :=
  ⟨Algorithms.EPEC.OuterApproximation.examplePass_start,
    (C28_timeForNextIteration (Algorithms.EPEC.OuterApproximation.examplePass 0 5) 1 true _
      Algorithms.EPEC.OuterApproximation.examplePass_start (by
        show (5 : ℚ) > 0
        norm_num)).2.2⟩
namespace Algorithms

namespace EPEC

namespace OuterApproximation

theorem resizePatchVec_padded (y : Vec ℚ) (numCols : Nat) (h1 : 1 ≤ y.n_rows)
    (h2 : y.n_rows < numCols) : Utils.resizePatchVec y numCols = .ok (padded y numCols) := by
  obtain ⟨v, hv, hr, hval⟩ := Utils.resizePatchVec_grow y numCols h1 h2
  rw [hv]
  congr 1
  cases v with
  | mk n val =>
    simp only at hr hval
    subst hr
    simp only [padded, Vec.mk.injEq, true_and]
    funext i
    exact hval i

theorem resizePatch_padded (y : Vec ℚ) (numCols : Nat) (h2 : y.n_rows ≤ numCols) :
    Utils.resizePatch (Mat.ofRow y) 1 numCols
      = .ok ⟨1, numCols, fun i j => if i < 1 ∧ j < y.n_rows then y.val j else 0⟩ := by
  obtain ⟨M, hM, hr, hc, hval⟩ := Utils.resizePatch_grow (Mat.ofRow y) 1 numCols (le_refl 1) h2
  rw [hM]
  congr 1
  cases M with
  | mk r c val =>
    simp only at hr hc hval
    subst hr hc
    simp only [Mat.mk.injEq, true_and]
    funext i j
    exact hval i j

theorem addCustomCuts_row (pool : CutPool ℚ) (numCols : Nat) (y : Vec ℚ) (v : ℚ)
    (hp : pool.Acut.n_cols = numCols) :
    addCustomCuts pool ⟨1, numCols, fun i j => if i < 1 ∧ j < y.n_rows then y.val j else 0⟩
      ⟨1, fun _ => v⟩ = .ok (poolWithCut pool numCols y v) := by
  simp only [addCustomCuts, Mat.join_cols, bind, Except.bind]
  rw [if_neg (fun h => h.1 hp)]
  simp only [poolWithCut, Except.ok.injEq, CutPool.mk.injEq, and_true, Mat.mk.injEq, true_and]
  refine ⟨by rw [hp, max_self], ?_⟩
  funext i j
  by_cases hi : i < pool.Acut.n_rows
  · simp only [hi, if_true]
  · simp only [hi, if_false]
    have hiff : (i - pool.Acut.n_rows < 1 ∧ j < y.n_rows) ↔
        (i = pool.Acut.n_rows ∧ j < y.n_rows) := by
      constructor
      · rintro ⟨h1, h2⟩
        exact ⟨by omega, h2⟩
      · rintro ⟨h1, h2⟩
        exact ⟨by omega, h2⟩
    by_cases hij : i = pool.Acut.n_rows ∧ j < y.n_rows
    · rw [if_pos (hiff.mpr hij), if_pos hij]
    · rw [if_neg (fun h => hij (hiff.mp h)), if_neg hij]

/-- The cut step of the body of `separationOracle`. -/
theorem separationBody_cut (ops : DoubleOps ℚ) (d : SeparationData) (a : SeparationAnswers)
    (s : SeparationState) (z : Nat) (hn1 : 1 ≤ d.xOfI.n_rows) (hn2 : d.xOfI.n_rows < d.numCols)
    (hV : 1 ≤ s.V.n_rows) (hVc : s.V.n_cols = d.xOfI.n_rows)
    (hp : s.pool.Acut.n_cols = d.numCols)
    (hl : a.leaderStatus z = GRB_OPTIMAL)
    (hv : ops.sub (a.cutV z) (ops.dot ⟨d.xOfI.n_rows, a.y z⟩ d.xOfI) < - d.Tolerance) :
    separationBody ops d a s z =
      if containsCut ops s.pool (padded ⟨d.xOfI.n_rows, a.y z⟩ d.numCols) (a.cutV z) d.poolTol
      then .ok (.next s)
      else .ok (.ret false { s with
        pool := poolWithCut s.pool d.numCols ⟨d.xOfI.n_rows, a.y z⟩ (a.cutV z),
        addedCuts := true }) := by
  unfold separationBody
  rw [if_pos hl]
  have hd1 : dot ops ⟨d.xOfI.n_rows, a.y z⟩ d.xOfI
      = .ok (ops.dot ⟨d.xOfI.n_rows, a.y z⟩ d.xOfI) := by
    simp only [dot, ne_eq, not_true_eq_false, if_false]
  have hr0 : row0 s.V = .ok ⟨s.V.n_cols, fun j => s.V.val 0 j⟩ := by
    unfold row0
    rw [if_neg (by omega)]
  have hd2 : ∃ w, dot ops ⟨d.xOfI.n_rows, a.y z⟩ ⟨s.V.n_cols, fun j => s.V.val 0 j⟩
      = .ok w := by
    unfold dot
    rw [if_neg (by simp [hVc])]
    exact ⟨_, rfl⟩
  obtain ⟨w, hw⟩ := hd2
  simp only [hd1, hr0, hw, bind, Except.bind, if_pos hv,
    resizePatch_padded ⟨d.xOfI.n_rows, a.y z⟩ d.numCols (le_of_lt hn2),
    resizePatchVec_padded ⟨d.xOfI.n_rows, a.y z⟩ d.numCols hn1 hn2]
  split_ifs
  · rfl
  · have h := addCustomCuts_row s.pool d.numCols ⟨d.xOfI.n_rows, a.y z⟩ (a.cutV z) hp
    simp only [bind, Except.bind] at h
    rw [h]

theorem separationLoop_append (ops : DoubleOps ℚ) (d : SeparationData) (answers : Nat → SeparationAnswers)
    (s s1 : SeparationState) (ks ks' : List Nat)
    (h : separationLoop ops d answers s ks = .ok (none, s1)) :
    separationLoop ops d answers s (ks ++ ks') = separationLoop ops d answers s1 ks' := by
  induction ks generalizing s with
  | nil =>
    simp only [separationLoop] at h
    have e : s = s1 := congrArg Prod.snd (Except.ok.inj h)
    subst e
    rfl
  | cons k ks ih =>
    simp only [List.cons_append, separationLoop] at h ⊢
    cases hpass : separationPass ops d (answers k) s with
    | error e =>
      rw [hpass] at h
      exact absurd h (by simp [bind, Except.bind])
    | ok o =>
      rw [hpass] at h
      cases o with
      | ret b s2 =>
        simp only [bind, Except.bind] at h
        exact absurd (congrArg Prod.fst (Except.ok.inj h)) (by simp)
      | next s2 =>
        simp only [bind, Except.bind] at h ⊢
        exact ih s2 h

/-- A pass that returns ends the call: when the loop reaches the pass `k < budget` in the
state `s` and that pass returns `b` in the state `s1`, the call returns `b` in `s1`. -/
theorem separationOracle_of_pass (ops : DoubleOps ℚ) (d : SeparationData) (budget : Int)
    (answers : Nat → SeparationAnswers) (s0 s s1 : SeparationState) (k : Nat) (b : Bool)
    (hk : (k : Int) < budget)
    (hreach : separationLoop ops d answers s0 (List.range k) = .ok (none, s))
    (hpass : separationPass ops d (answers k) s = .ok (.ret b s1)) :
    separationOracle ops d budget answers s0 = .ok (b, s1) := by
  have hk' : k < budget.toNat := by omega
  obtain ⟨m, hm⟩ : ∃ m, budget.toNat = k + 1 + m := ⟨budget.toNat - (k + 1), by omega⟩
  have hsplit : List.range budget.toNat
      = List.range k ++ (k :: (List.range m).map (fun x => k + 1 + x)) := by
    rw [hm, List.range_add, List.range_succ, List.append_assoc]
    rfl
  unfold separationOracle
  rw [hsplit, separationLoop_append ops d answers s0 s _ _ hreach]
  simp only [separationLoop, hpass, bind, Except.bind, Option.getD_some]

end OuterApproximation

end EPEC

end Algorithms
namespace Algorithms

namespace EPEC

namespace OuterApproximation

/-- On the pool that holds `(1, 0) ξ ≤ 0`, the cut step for `y = (1)`, `v = 0` finds the cut
in the pool. -/
theorem examplePool_contains :
    containsCut DoubleOps.unrounded examplePool (padded ⟨1, fun _ => 1⟩ 2) 0 (1 / 2) = true := by
  simp only [containsCut, Utils.containsConstraint, Utils.rowMatches, examplePool, padded,
    DoubleOps.unrounded]
  norm_num [List.range_succ]

/-- The pass of the example on the pool that holds the cut already: the loop goes on. -/
theorem examplePass_next :
    separationPass DoubleOps.unrounded exampleSeparation exampleAnswers
        (exampleState examplePool)
      = .ok (.next (exampleState examplePool)) := by
  have hb := separationBody_cut DoubleOps.unrounded exampleSeparation exampleAnswers
    (exampleState examplePool) 0
    (le_refl 1) (by decide) (le_refl 1) rfl rfl rfl (by
      simp only [exampleSeparation, exampleAnswers, DoubleOps.unrounded]
      norm_num)
  have hc : containsCut DoubleOps.unrounded (exampleState examplePool).pool
      (padded ⟨exampleSeparation.xOfI.n_rows, exampleAnswers.y 0⟩ exampleSeparation.numCols)
      (exampleAnswers.cutV 0) exampleSeparation.poolTol = true := examplePool_contains
  rw [hc, if_pos rfl] at hb
  unfold separationPass
  have h1 : exampleAnswers.status = GRB_OPTIMAL := rfl
  have h2 : 0 < exampleAnswers.solCount := by decide
  rw [if_neg (by simp [exampleAnswers]), if_pos h1, if_pos h2, hb]

end OuterApproximation

end EPEC

end Algorithms

/-- C24 (counterexample): a call with budget `3` for a player with one variable, the point
`x* = (1)`, tolerance `1/2`, and the cut `(1, 0) ξ ≤ 0` already in the pool (values on which
the double operations do not round).  In every pass
the membership LP yields the direction `y = (1)` and the leader model is optimal with value
`v = 0 < y x* - tol = 1/2`; the oracle finds the cut in the pool, leaves the inner loop, and
ends with the value false and `addedCuts` still false. -/
theorem C24_separationOracle_cut_present :
    Algorithms.EPEC.OuterApproximation.exampleAnswers.status
      = Algorithms.EPEC.OuterApproximation.GRB_OPTIMAL ∧
    Algorithms.EPEC.OuterApproximation.exampleAnswers.inHull = false ∧
    Algorithms.EPEC.OuterApproximation.exampleAnswers.leaderStatus 0
      = Algorithms.EPEC.OuterApproximation.GRB_OPTIMAL ∧
    Algorithms.EPEC.OuterApproximation.exampleAnswers.cutV 0 <
      Algorithms.EPEC.OuterApproximation.exampleAnswers.y 0 0 *
        Algorithms.EPEC.OuterApproximation.exampleSeparation.xOfI.val 0 -
        Algorithms.EPEC.OuterApproximation.exampleSeparation.Tolerance ∧
    Algorithms.EPEC.OuterApproximation.separationOracle DoubleOps.unrounded
        Algorithms.EPEC.OuterApproximation.exampleSeparation 3
        (fun _ => Algorithms.EPEC.OuterApproximation.exampleAnswers)
        (Algorithms.EPEC.OuterApproximation.exampleState
          Algorithms.EPEC.OuterApproximation.examplePool)
      = .ok (false, Algorithms.EPEC.OuterApproximation.exampleState
          Algorithms.EPEC.OuterApproximation.examplePool) ∧
    (Algorithms.EPEC.OuterApproximation.exampleState
      Algorithms.EPEC.OuterApproximation.examplePool).addedCuts = false := by
  refine ⟨rfl, rfl, rfl, ?_, ?_, rfl⟩
  · simp only [Algorithms.EPEC.OuterApproximation.exampleAnswers,
      Algorithms.EPEC.OuterApproximation.exampleSeparation]
    norm_num
  · have h := Algorithms.EPEC.OuterApproximation.examplePass_next
    have e : List.range (3 : Int).toNat = [0, 1, 2] := by decide
    simp only [Algorithms.EPEC.OuterApproximation.separationOracle, e,
      Algorithms.EPEC.OuterApproximation.separationLoop, h, bind, Except.bind,
      Option.getD_none]

/-- C24 (amended): whenever the loop of `separationOracle` reaches a pass `k < budget` in
which the membership LP is optimal with at least one solution, the point not being found in
the hull, the leader model for the direction `y` of the first solution is optimal with a value
`v` for which the test of the code holds, `sub(v, dot(y, x*)) < -tol` on the double difference
and the double product that the code computes, and the cut `(y, v)` is NOT found in the pool
by `containsCut` (the point having `n` entries with `1 ≤ n < NumCols`, the matrix `V` having a
row and `n` columns, the pool having `NumCols` columns), the oracle returns false, with
`addedCuts` set to true and the pool extended by exactly the row `y` padded with zeros, with
right-hand side `v`.  This for every rounding of the double operations. -/
theorem C24_separationOracle_cut (ops : DoubleOps ℚ)
    (d : Algorithms.EPEC.OuterApproximation.SeparationData)
    (budget : Int) (answers : Nat → Algorithms.EPEC.OuterApproximation.SeparationAnswers)
    (s0 s : Algorithms.EPEC.OuterApproximation.SeparationState) (k : Nat)
    (hk : (k : Int) < budget)
    (hreach : Algorithms.EPEC.OuterApproximation.separationLoop ops d answers s0 (List.range k)
      = .ok (none, s))
    (hst : (answers k).status = Algorithms.EPEC.OuterApproximation.GRB_OPTIMAL)
    (hin : ¬ ((answers k).solCount = 1 ∧ (answers k).inHull = true))
    (hsol : 0 < (answers k).solCount)
    (hl : (answers k).leaderStatus 0 = Algorithms.EPEC.OuterApproximation.GRB_OPTIMAL)
    (hv : ops.sub ((answers k).cutV 0) (ops.dot ⟨d.xOfI.n_rows, (answers k).y 0⟩ d.xOfI)
      < - d.Tolerance)
    (hn1 : 1 ≤ d.xOfI.n_rows) (hn2 : d.xOfI.n_rows < d.numCols)
    (hV : 1 ≤ s.V.n_rows) (hVc : s.V.n_cols = d.xOfI.n_rows)
    (hp : s.pool.Acut.n_cols = d.numCols)
    (hnew : Algorithms.EPEC.OuterApproximation.containsCut ops s.pool
      (Algorithms.EPEC.OuterApproximation.padded ⟨d.xOfI.n_rows, (answers k).y 0⟩ d.numCols)
      ((answers k).cutV 0) d.poolTol = false) :
    ∃ pool1, Algorithms.EPEC.OuterApproximation.separationOracle ops d budget answers s0
        = .ok (false, { s with pool := pool1, addedCuts := true }) ∧
      pool1.Acut.n_rows = s.pool.Acut.n_rows + 1 ∧ pool1.Acut.n_cols = d.numCols ∧
      pool1.bcut.n_rows = s.pool.bcut.n_rows + 1 ∧
      (∀ i j, i < s.pool.Acut.n_rows → pool1.Acut.val i j = s.pool.Acut.val i j) ∧
      (∀ i, i < s.pool.bcut.n_rows → pool1.bcut.val i = s.pool.bcut.val i) ∧
      (∀ j, pool1.Acut.val s.pool.Acut.n_rows j =
        if j < d.xOfI.n_rows then (answers k).y 0 j else 0) ∧
      pool1.bcut.val s.pool.bcut.n_rows = (answers k).cutV 0 := by
  have hb := Algorithms.EPEC.OuterApproximation.separationBody_cut ops d (answers k) s 0
    hn1 hn2 hV hVc hp hl hv
  rw [hnew, if_neg (by simp)] at hb
  have hpass : Algorithms.EPEC.OuterApproximation.separationPass ops d (answers k) s
      = .ok (.ret false { s with
        pool := Algorithms.EPEC.OuterApproximation.poolWithCut s.pool d.numCols
          ⟨d.xOfI.n_rows, (answers k).y 0⟩ ((answers k).cutV 0),
        addedCuts := true }) := by
    unfold Algorithms.EPEC.OuterApproximation.separationPass
    rw [if_neg (fun h => hin h.2), if_pos hst, if_pos hsol, hb]
  refine ⟨_, Algorithms.EPEC.OuterApproximation.separationOracle_of_pass ops d budget answers
    s0 s _ k false hk hreach hpass, rfl, rfl, rfl, ?_, ?_, ?_, ?_⟩
  · intro i j hi
    simp only [Algorithms.EPEC.OuterApproximation.poolWithCut, hi, if_true]
  · intro i hi
    simp only [Algorithms.EPEC.OuterApproximation.poolWithCut, Vec.join_cols, hi, if_true]
  · intro j
    simp only [Algorithms.EPEC.OuterApproximation.poolWithCut, lt_irrefl, if_false, true_and]
  · simp only [Algorithms.EPEC.OuterApproximation.poolWithCut, Vec.join_cols, lt_irrefl,
      if_false]

/-- The statement of C24 (amended) at the call with budget `1` for a player with one variable
in a `PolyLCP` of two columns, the point `x* = (1)`, tolerance `1/2`, the direction `y = (1)`,
the value `v = 0` and an empty pool: the oracle returns false with `addedCuts` set and the
pool holding the row `(1, 0)` with right-hand side `0`. -/
theorem C24_separationOracle_cut_witness :
    ∃ pool1, Algorithms.EPEC.OuterApproximation.separationOracle DoubleOps.unrounded
        Algorithms.EPEC.OuterApproximation.exampleSeparation 1
        (fun _ => Algorithms.EPEC.OuterApproximation.exampleAnswers)
        (Algorithms.EPEC.OuterApproximation.exampleState ⟨Mat.zeros 0 2, Vec.zeros 0⟩)
        = .ok (false, { Algorithms.EPEC.OuterApproximation.exampleState
            ⟨Mat.zeros 0 2, Vec.zeros 0⟩ with pool := pool1, addedCuts := true }) ∧
      pool1.Acut.n_rows = 1 ∧ pool1.Acut.n_cols = 2 ∧ pool1.bcut.n_rows = 1 ∧
      pool1.Acut.val 0 0 = 1 ∧ pool1.Acut.val 0 1 = 0 ∧ pool1.bcut.val 0 = 0 := by
  obtain ⟨pool1, h1, h2, h3, h4, _, _, h7, h8⟩ := C24_separationOracle_cut DoubleOps.unrounded
    Algorithms.EPEC.OuterApproximation.exampleSeparation 1
    (fun _ => Algorithms.EPEC.OuterApproximation.exampleAnswers)
    (Algorithms.EPEC.OuterApproximation.exampleState ⟨Mat.zeros 0 2, Vec.zeros 0⟩)
    (Algorithms.EPEC.OuterApproximation.exampleState ⟨Mat.zeros 0 2, Vec.zeros 0⟩) 0
    (by decide) rfl rfl (by simp [Algorithms.EPEC.OuterApproximation.exampleAnswers])
    (by decide) rfl (by
      simp only [Algorithms.EPEC.OuterApproximation.exampleSeparation,
        Algorithms.EPEC.OuterApproximation.exampleAnswers, DoubleOps.unrounded]
      norm_num)
    (le_refl 1) (by decide) (le_refl 1) rfl rfl (by
      simp [Algorithms.EPEC.OuterApproximation.containsCut, Utils.containsConstraint,
        Algorithms.EPEC.OuterApproximation.exampleState, Mat.zeros])
  refine ⟨pool1, h1, h2, h3, h4, ?_, ?_, h8⟩
  · have := h7 0
    simpa [Algorithms.EPEC.OuterApproximation.exampleSeparation,
      Algorithms.EPEC.OuterApproximation.exampleAnswers,
      Algorithms.EPEC.OuterApproximation.exampleState, Mat.zeros] using this
  · have := h7 1
    simpa [Algorithms.EPEC.OuterApproximation.exampleSeparation,
      Algorithms.EPEC.OuterApproximation.exampleAnswers,
      Algorithms.EPEC.OuterApproximation.exampleState, Mat.zeros] using this
namespace Algorithms

namespace EPEC

namespace OuterApproximation

/-- The events and the outcome of `strategyCheck`. -/
theorem strategyCheck_spec {α : Type} (p : PlayerData α) (i : Nat) (result addedCuts : Bool)
    (evs : List Event) :
    ∃ mid, (strategyCheck p i result addedCuts evs).1 = evs ++ mid ∧
      (∀ ev ∈ mid, ev.player = i ∧ (∀ j, ev ≠ Event.respondSol j) ∧
        (∀ j, ev ≠ Event.resetFeasibility j)) ∧
      (∀ e, (strategyCheck p i result addedCuts evs).2 = .raise e ↔
        p.coincide = false ∧ p.oracle = .error e) ∧
      (strategyCheck p i result addedCuts evs).2 ≠ .stop ∧
      ((∃ r a, (strategyCheck p i result addedCuts evs).2 = .next r a) ↔
        (p.coincide = true ∨ ∃ r, p.oracle = .ok r)) ∧
      (∀ r a, (strategyCheck p i result addedCuts evs).2 = .next r a →
        (result = false → r = false) ∧
        (∀ c, p.coincide = false → p.oracle = .ok (false, c) → r = false)) := by
  unfold strategyCheck
  cases hco : p.coincide with
  | true =>
    refine ⟨[Event.setFeasible i, Event.setPure i], by simp, by simp [Event.player],
      by simp, by simp, by simp, ?_⟩
    intro r a h
    simp only [if_true, StepOutcome.next.injEq] at h
    exact ⟨fun hr => by rw [← h.1, hr], fun c hc => absurd hc (by simp)⟩
  | false =>
    cases ho : p.oracle with
    | error e0 =>
      refine ⟨[Event.separationOracle i], by simp, by simp [Event.player], ?_, by simp,
        by simp, by simp⟩
      intro e
      simp
    | ok r0 =>
      refine ⟨[Event.separationOracle i], by simp, by simp [Event.player], by simp, by simp,
        by simp, ?_⟩
      intro r a h
      simp only [Bool.false_eq_true, if_false, StepOutcome.next.injEq] at h
      refine ⟨fun hr => ?_, fun c _ hc => ?_⟩
      · rw [← h.1, hr]
        simp
      · have e1 : r0 = (false, c) := Except.ok.inj hc
        rw [← h.1, e1]
        simp

/-- The events and the outcome of `vertexBranch`. -/
theorem vertexBranch_spec {α : Type} (p : PlayerData α) (i : Nat) (result addedCuts : Bool) :
    (∀ ev ∈ (vertexBranch p i result addedCuts).1, ev.player = i ∧
      (∀ j, ev ≠ Event.respondSol j) ∧ (∀ j, ev ≠ Event.resetFeasibility j)) ∧
    (∀ e, (vertexBranch p i result addedCuts).2 = .raise e ↔ VertexRaises p e) ∧
    (vertexBranch p i result addedCuts).2 ≠ .stop ∧
    ((∃ r a, (vertexBranch p i result addedCuts).2 = .next r a) ↔ VertexPasses p) ∧
    (∀ r a, (vertexBranch p i result addedCuts).2 = .next r a →
      (result = false → r = false) ∧
      (∀ c, p.coincide = false → p.oracle = .ok (false, c) → r = false)) := by
  unfold vertexBranch VertexRaises VertexPasses
  cases hv : p.vertex with
  | error e0 =>
    refine ⟨by simp, ?_, by simp, by simp, by simp⟩
    intro e
    simp
  | ok known =>
    cases known with
    | true =>
      obtain ⟨mid, h1, h2, h3, h4, h5, h6⟩ := strategyCheck_spec p i result addedCuts []
      simp only
      refine ⟨?_, ?_, h4, ?_, h6⟩
      · rw [h1]
        simpa using h2
      · intro e
        rw [h3 e]
        simp
      · rw [h5]
        simp
    | false =>
      cases ha : p.addVertex with
      | error e0 =>
        refine ⟨by simp [Event.player], ?_, by simp, by simp, by simp⟩
        intro e
        simp
      | ok u =>
        obtain ⟨mid, h1, h2, h3, h4, h5, h6⟩ :=
          strategyCheck_spec p i result addedCuts [Event.addVertex i]
        simp only
        refine ⟨?_, ?_, h4, ?_, h6⟩
        · rw [h1]
          intro ev hev
          simp only [List.mem_append, List.mem_singleton] at hev
          rcases hev with rfl | hev
          · simp [Event.player]
          · exact h2 ev hev
        · intro e
          rw [h3 e]
          simp
        · rw [h5]
          simp

end OuterApproximation

end EPEC

end Algorithms
namespace Algorithms

namespace EPEC

namespace OuterApproximation

/-- The events and the outcome of the body of the loop of `isFeasible` for one player, once
`respondSol` has returned `v`. -/
theorem valueStep_spec {α : Type} [LinearOrderedField α] (ops : DoubleOps α) (tol inf : α)
    (p : PlayerData α) (v : α) (i : Nat) (result addedCuts : Bool) :
    ∃ mid, (valueStep ops tol inf p v i result addedCuts).1
        = [Event.resetFeasibility i, Event.respondSol i] ++ mid ∧
      (∀ ev ∈ mid, ev.player = i ∧ (∀ j, ev ≠ Event.respondSol j) ∧
        (∀ j, ev ≠ Event.resetFeasibility j)) ∧
      (∀ e, (valueStep ops tol inf p v i result addedCuts).2 = .raise e ↔
        RaisesWith ops tol inf p v e) ∧
      ((valueStep ops tol inf p v i result addedCuts).2 = .stop ↔ v = inf) ∧
      ((∃ r a, (valueStep ops tol inf p v i result addedCuts).2 = .next r a) ↔
        PassesWith ops tol inf p v) ∧
      (∀ r a, (valueStep ops tol inf p v i result addedCuts).2 = .next r a →
        (result = false → r = false) ∧
        (p.respondSol = .ok v → FoundInfeasible ops tol inf p → r = false)) ∧
      (v ≠ inf → |ops.sub p.payoff v| > tol → ¬ ops.sub p.payoff v > tol →
        Event.addValueCut i ∈ mid) := by
  unfold valueStep RaisesWith PassesWith FoundInfeasible
  by_cases hinf : v = inf
  · rw [if_pos hinf]
    refine ⟨[], rfl, by simp, ?_, by simp [hinf], by simp [hinf], by simp, ?_⟩
    · intro e
      simp [hinf]
    · intro h
      exact absurd hinf h
  · rw [if_neg hinf]
    by_cases habs : |ops.sub p.payoff v| > tol
    · rw [if_pos habs]
      by_cases hgt : ops.sub p.payoff v > tol
      · rw [if_pos hgt]
        refine ⟨[], rfl, by simp, ?_, by simp [hinf], by simp [hinf, habs, hgt], by simp,
          fun _ _ h => absurd hgt h⟩
        intro e
        simp only [StepOutcome.raise.injEq, ne_eq, hinf, not_false_eq_true, hgt, true_and,
          habs, not_true_eq_false, false_and, or_false]
        exact eq_comm
      · rw [if_neg hgt]
        cases hav : p.addValueCut with
        | error e0 =>
          refine ⟨[Event.addValueCut i], rfl, by simp [Event.player], ?_, by simp [hinf],
            by simp [hinf, habs, hgt], by simp, fun _ _ _ => by simp⟩
          intro e
          simp only [StepOutcome.raise.injEq, ne_eq, hinf, not_false_eq_true, hgt, false_and,
            habs, true_and, Except.error.injEq, not_true_eq_false, or_false, false_or]
        | ok u =>
          refine ⟨[Event.addValueCut i], rfl, by simp [Event.player], ?_, by simp [hinf],
            by simp [hinf, habs, hgt], ?_, fun _ _ _ => by simp⟩
          · intro e
            simp [hinf, habs, hgt]
          · intro r a h
            simp only [StepOutcome.next.injEq] at h
            exact ⟨fun _ => h.1.symm, fun _ _ => h.1.symm⟩
    · rw [if_neg habs]
      have hngt : ¬ ops.sub p.payoff v > tol := fun h =>
        habs (lt_of_lt_of_le h (le_abs_self _))
      obtain ⟨h1, h2, h3, h4, h5⟩ := vertexBranch_spec p i result addedCuts
      refine ⟨(vertexBranch p i result addedCuts).1, rfl, h1, ?_, ?_, ?_, ?_,
        fun _ h _ => absurd h habs⟩
      · intro e
        simp only [h2 e, ne_eq, hinf, not_false_eq_true, hngt, false_and, habs, true_and,
          false_or]
      · simp only [hinf, iff_false]
        exact h3
      · simp only [h4, ne_eq, hinf, not_false_eq_true, habs, false_and, true_and, false_or]
      · intro r a h
        obtain ⟨k1, k2⟩ := h5 r a h
        refine ⟨k1, ?_⟩
        rintro hv ⟨w, hw, _, hf | ⟨hna, _, hco, c, hc⟩⟩
        · have e : w = v := Except.ok.inj (hw.symm.trans hv)
          subst e
          exact absurd hf.1 habs
        · exact k2 c hco hc

/-- The events and the outcome of the body of the loop of `isFeasible` for one player. -/
theorem playerStep_spec {α : Type} [LinearOrderedField α] (ops : DoubleOps α) (tol inf : α)
    (p : PlayerData α) (i : Nat) (result addedCuts : Bool) :
    ∃ mid, (playerStep ops tol inf p i result addedCuts).1
        = [Event.resetFeasibility i, Event.respondSol i] ++ mid ∧
      (∀ ev ∈ mid, ev.player = i ∧ (∀ j, ev ≠ Event.respondSol j) ∧
        (∀ j, ev ≠ Event.resetFeasibility j)) ∧
      (∀ e, (playerStep ops tol inf p i result addedCuts).2 = .raise e ↔
        Raises ops tol inf p e) ∧
      ((playerStep ops tol inf p i result addedCuts).2 = .stop ↔ p.respondSol = .ok inf) ∧
      ((∃ r a, (playerStep ops tol inf p i result addedCuts).2 = .next r a) ↔
        Passes ops tol inf p) ∧
      (∀ r a, (playerStep ops tol inf p i result addedCuts).2 = .next r a →
        (result = false → r = false) ∧ (FoundInfeasible ops tol inf p → r = false)) ∧
      (∀ v, p.respondSol = .ok v → v ≠ inf → |ops.sub p.payoff v| > tol →
        ¬ ops.sub p.payoff v > tol → Event.addValueCut i ∈ mid) := by
  unfold playerStep Raises Passes
  cases hrs : p.respondSol with
  | error e0 =>
    refine ⟨[], rfl, by simp, ?_, by simp, by simp, by simp, ?_⟩
    · intro e
      simp
    · intro v hv
      exact absurd hv (by simp)
  | ok v =>
    obtain ⟨mid, h1, h2, h3, h4, h5, h6, h7⟩ :=
      valueStep_spec ops tol inf p v i result addedCuts
    refine ⟨mid, h1, h2, ?_, ?_, ?_, ?_, ?_⟩
    · intro e
      simp only [h3 e, reduceCtorEq, Except.ok.injEq, exists_eq_left', false_or]
    · simp only [h4, Except.ok.injEq]
    · simp only [h5, Except.ok.injEq, exists_eq_left']
    · intro r a h
      exact ⟨(h6 r a h).1, (h6 r a h).2 hrs⟩
    · intro w hw
      have e : v = w := Except.ok.inj hw
      subst e
      exact h7

theorem reached_cons {α : Type} [LinearOrderedField α] (ops : DoubleOps α) (tol inf : α)
    (p : PlayerData α) (ps : List (PlayerData α)) (m : Nat) :
    Reached ops tol inf (p :: ps) m ↔
      m = 0 ∨ (Passes ops tol inf p ∧ ∃ m', m = m' + 1 ∧ Reached ops tol inf ps m') := by
  constructor
  · rintro ⟨hlen, hall⟩
    cases m with
    | zero => exact Or.inl rfl
    | succ m =>
      refine Or.inr ⟨hall 0 p (Nat.succ_pos m) List.getElem?_cons_zero, m, rfl, ?_, ?_⟩
      · simpa using hlen
      · intro k q hk hq
        exact hall (k + 1) q (Nat.succ_lt_succ hk) (by simpa using hq)
  · rintro (rfl | ⟨hp, m', rfl, hlen, hall⟩)
    · exact ⟨by simp, fun k q hk _ => absurd hk (Nat.not_lt_zero k)⟩
    · refine ⟨by simpa using hlen, ?_⟩
      intro k q hk hq
      cases k with
      | zero =>
        simp only [List.getElem?_cons_zero, Option.some.injEq] at hq
        subst hq
        exact hp
      | succ k =>
        simp only [List.getElem?_cons_succ] at hq
        exact hall k q (Nat.lt_of_succ_lt_succ hk) hq

/-- One pass of the loop, by the way the inspection of the first player ends. -/
theorem isFeasibleLoop_cons {α : Type} [LinearOrderedField α] (ops : DoubleOps α)
    (tol inf : α) (p : PlayerData α) (ps : List (PlayerData α)) (i : Nat)
    (result addedCuts : Bool) (tr : List Event) :
    (Passes ops tol inf p ∧ ∃ r a, (result = false → r = false) ∧
      (FoundInfeasible ops tol inf p → r = false) ∧
      isFeasibleLoop ops tol inf (p :: ps) i result addedCuts tr =
        isFeasibleLoop ops tol inf ps (i + 1) r a
          (tr ++ (playerStep ops tol inf p i result addedCuts).1)) ∨
    (¬ Passes ops tol inf p ∧
      (isFeasibleLoop ops tol inf (p :: ps) i result addedCuts tr).1 =
        tr ++ (playerStep ops tol inf p i result addedCuts).1 ∧
      (∀ e, (isFeasibleLoop ops tol inf (p :: ps) i result addedCuts tr).2 = .error e ↔
        Raises ops tol inf p e) ∧
      (∀ x, (isFeasibleLoop ops tol inf (p :: ps) i result addedCuts tr).2 = .ok x →
        x = (false, false))) := by
  obtain ⟨mid, _, _, h3, h4, h5, h6, _⟩ := playerStep_spec ops tol inf p i result addedCuts
  cases hs : (playerStep ops tol inf p i result addedCuts).2 with
  | raise e0 =>
    right
    have hnp : ¬ Passes ops tol inf p := by
      rw [← h5, hs]
      simp
    refine ⟨hnp, by simp only [isFeasibleLoop, hs], ?_, ?_⟩
    · intro e
      rw [← h3 e, hs]
      simp only [isFeasibleLoop, hs, Except.error.injEq, StepOutcome.raise.injEq]
    · intro x hx
      simp only [isFeasibleLoop, hs] at hx
      exact absurd hx (by simp)
  | stop =>
    right
    have hnp : ¬ Passes ops tol inf p := by
      rw [← h5, hs]
      simp
    refine ⟨hnp, by simp only [isFeasibleLoop, hs], ?_, ?_⟩
    · intro e
      rw [← h3 e, hs]
      simp only [isFeasibleLoop, hs]
      simp
    · intro x hx
      simp only [isFeasibleLoop, hs, Except.ok.injEq] at hx
      exact hx.symm
  | next r a =>
    left
    refine ⟨h5.mp ⟨r, a, hs⟩, r, a, (h6 r a hs).1, (h6 r a hs).2, ?_⟩
    simp only [isFeasibleLoop, hs]

end OuterApproximation

end EPEC

end Algorithms
namespace Algorithms

namespace EPEC

namespace OuterApproximation

/-- The events that the loop of `isFeasible` records, whether it returns or raises: they come
in ascending order of the players, and the reset and the best response of a player are
recorded exactly for the players that the pass reaches. -/
theorem isFeasibleLoop_trace {α : Type} [LinearOrderedField α] (ops : DoubleOps α)
    (tol inf : α) (ps : List (PlayerData α)) (i : Nat) (result addedCuts : Bool)
    (tr : List Event) :
    ∃ ext : List Event, (isFeasibleLoop ops tol inf ps i result addedCuts tr).1 = tr ++ ext ∧
      (∀ ev ∈ ext, i ≤ ev.player) ∧
      (ext.map Event.player).Pairwise (· ≤ ·) ∧
      (∀ j, Event.respondSol j ∈ ext ↔ ∃ m, j = i + m ∧ Reached ops tol inf ps m) ∧
      (∀ j, Event.resetFeasibility j ∈ ext ↔ ∃ m, j = i + m ∧ Reached ops tol inf ps m) ∧
      (∀ ev ∈ ext, ∃ m, ev.player = i + m ∧ Reached ops tol inf ps m) := by
  induction ps generalizing i result addedCuts tr with
  | nil =>
    refine ⟨[], by simp [isFeasibleLoop], by simp, by simp, ?_, ?_, by simp⟩ <;>
    · intro j
      simp [Reached]
  | cons p ps ih =>
    obtain ⟨mid, hev, hmid, _⟩ := playerStep_spec ops tol inf p i result addedCuts
    have h0 : Reached ops tol inf (p :: ps) 0 :=
      (reached_cons ops tol inf p ps 0).mpr (Or.inl rfl)
    rcases isFeasibleLoop_cons ops tol inf p ps i result addedCuts tr with
      ⟨hp, r, a, _, _, hloop⟩ | ⟨hnp, h1, _, _⟩
    · obtain ⟨ext, hext, hge, hsorted, hresp, hreset, hall⟩ :=
        ih (i + 1) r a (tr ++ (playerStep ops tol inf p i result addedCuts).1)
      refine ⟨[Event.resetFeasibility i, Event.respondSol i] ++ mid ++ ext,
        by rw [hloop, hext, hev]; simp, ?_, ?_, ?_, ?_, ?_⟩
      · intro ev hev
        simp only [List.mem_append, List.mem_cons, List.mem_singleton, List.not_mem_nil,
          or_false] at hev
        rcases hev with ((rfl | rfl) | hev) | hev
        · exact le_refl _
        · exact le_refl _
        · exact le_of_eq (hmid ev hev).1.symm
        · exact le_trans (Nat.le_succ i) (hge ev hev)
      · rw [List.map_append, List.pairwise_append]
        refine ⟨?_, hsorted, ?_⟩
        · rw [List.map_append, List.pairwise_append]
          refine ⟨by simp [Event.player], ?_, ?_⟩
          · rw [List.pairwise_map]
            apply List.Pairwise.imp_of_mem _ (List.pairwise_of_forall (R := fun _ _ => True)
              (fun _ _ => trivial))
            intro e1 e2 h1 h2 _
            rw [(hmid e1 h1).1, (hmid e2 h2).1]
          · intro a ha b hb
            simp only [List.map_cons, List.map_nil, List.mem_cons, List.mem_singleton,
              List.not_mem_nil, or_false, Event.player, or_self] at ha
            obtain ⟨e2, h2, rfl⟩ := List.mem_map.mp hb
            rw [ha, (hmid e2 h2).1]
        · intro a ha b hb
          obtain ⟨e2, h2, rfl⟩ := List.mem_map.mp hb
          obtain ⟨e1, h1, rfl⟩ := List.mem_map.mp ha
          have hle : e1.player = i := by
            simp only [List.mem_append, List.mem_cons, List.mem_singleton, List.not_mem_nil,
              or_false] at h1
            rcases h1 with (rfl | rfl) | h1
            · rfl
            · rfl
            · exact (hmid e1 h1).1
          have := hge e2 h2
          omega
      · intro j
        simp only [List.mem_append, List.mem_cons, List.mem_singleton, reduceCtorEq, false_or,
          Event.respondSol.injEq, List.not_mem_nil, or_false, hresp, reached_cons]
        constructor
        · rintro ((rfl | hm) | ⟨m, rfl, hr⟩)
          · exact ⟨0, rfl, Or.inl rfl⟩
          · exact absurd rfl ((hmid _ hm).2.1 j)
          · exact ⟨m + 1, by omega, Or.inr ⟨hp, m, rfl, hr⟩⟩
        · rintro ⟨m, rfl, rfl | ⟨_, m', rfl, hr⟩⟩
          · exact Or.inl (Or.inl rfl)
          · exact Or.inr ⟨m', by omega, hr⟩
      · intro j
        simp only [List.mem_append, List.mem_cons, List.mem_singleton, reduceCtorEq, or_false,
          Event.resetFeasibility.injEq, List.not_mem_nil, hreset, reached_cons]
        constructor
        · rintro ((rfl | hm) | ⟨m, rfl, hr⟩)
          · exact ⟨0, rfl, Or.inl rfl⟩
          · exact absurd rfl ((hmid _ hm).2.2 j)
          · exact ⟨m + 1, by omega, Or.inr ⟨hp, m, rfl, hr⟩⟩
        · rintro ⟨m, rfl, rfl | ⟨_, m', rfl, hr⟩⟩
          · exact Or.inl (Or.inl rfl)
          · exact Or.inr ⟨m', by omega, hr⟩
      · intro ev hev
        simp only [List.mem_append, List.mem_cons, List.mem_singleton, List.not_mem_nil,
          or_false] at hev
        rcases hev with ((rfl | rfl) | hev) | hev
        · exact ⟨0, rfl, h0⟩
        · exact ⟨0, rfl, h0⟩
        · exact ⟨0, (hmid ev hev).1, h0⟩
        · obtain ⟨m, hm, hr⟩ := hall ev hev
          exact ⟨m + 1, by omega, (reached_cons ops tol inf p ps (m + 1)).mpr
            (Or.inr ⟨hp, m, rfl, hr⟩)⟩
    · have hr0 : ∀ m, Reached ops tol inf (p :: ps) m ↔ m = 0 := by
        intro m
        rw [reached_cons]
        constructor
        · rintro (h | ⟨hp, _⟩)
          · exact h
          · exact absurd hp hnp
        · exact fun h => Or.inl h
      refine ⟨[Event.resetFeasibility i, Event.respondSol i] ++ mid, by rw [h1, hev],
        ?_, ?_, ?_, ?_, ?_⟩
      · intro ev hev
        simp only [List.mem_append, List.mem_cons, List.mem_singleton, List.not_mem_nil,
          or_false] at hev
        rcases hev with (rfl | rfl) | hev
        · exact le_refl _
        · exact le_refl _
        · exact le_of_eq (hmid ev hev).1.symm
      · rw [List.map_append, List.pairwise_append]
        refine ⟨by simp [Event.player], ?_, ?_⟩
        · rw [List.pairwise_map]
          apply List.Pairwise.imp_of_mem _ (List.pairwise_of_forall (R := fun _ _ => True)
            (fun _ _ => trivial))
          intro e1 e2 h1 h2 _
          rw [(hmid e1 h1).1, (hmid e2 h2).1]
        · intro a ha b hb
          simp only [List.map_cons, List.map_nil, List.mem_cons, List.mem_singleton,
            List.not_mem_nil, or_false, Event.player, or_self] at ha
          obtain ⟨e2, h2, rfl⟩ := List.mem_map.mp hb
          rw [ha, (hmid e2 h2).1]
      · intro j
        simp only [List.mem_append, List.mem_cons, List.mem_singleton, reduceCtorEq, false_or,
          Event.respondSol.injEq, List.not_mem_nil, or_false, hr0]
        constructor
        · rintro (rfl | hm)
          · exact ⟨0, rfl, rfl⟩
          · exact absurd rfl ((hmid _ hm).2.1 j)
        · rintro ⟨m, rfl, rfl⟩
          exact Or.inl rfl
      · intro j
        simp only [List.mem_append, List.mem_cons, List.mem_singleton, reduceCtorEq, or_false,
          Event.resetFeasibility.injEq, List.not_mem_nil, hr0]
        constructor
        · rintro (rfl | hm)
          · exact ⟨0, rfl, rfl⟩
          · exact absurd rfl ((hmid _ hm).2.2 j)
        · rintro ⟨m, rfl, rfl⟩
          exact Or.inl rfl
      · intro ev hev
        simp only [List.mem_append, List.mem_cons, List.mem_singleton, List.not_mem_nil,
          or_false] at hev
        rcases hev with (rfl | rfl) | hev
        · exact ⟨0, rfl, h0⟩
        · exact ⟨0, rfl, h0⟩
        · exact ⟨0, (hmid ev hev).1, h0⟩

/-- When the loop of `isFeasible` raises, and what: the exception of the first player whose
inspection does not complete. -/
theorem isFeasibleLoop_error {α : Type} [LinearOrderedField α] (ops : DoubleOps α)
    (tol inf : α) (ps : List (PlayerData α)) (i : Nat) (result addedCuts : Bool)
    (tr : List Event) (e : Exn) :
    (isFeasibleLoop ops tol inf ps i result addedCuts tr).2 = .error e ↔
      ∃ (k : Nat) (p : PlayerData α), ps[k]? = some p ∧ Reached ops tol inf ps k ∧
        Raises ops tol inf p e := by
  induction ps generalizing i result addedCuts tr with
  | nil => simp [isFeasibleLoop]
  | cons p ps ih =>
    obtain ⟨_, _, _, h3, _, h5, _, _⟩ := playerStep_spec ops tol inf p i result addedCuts
    have hexcl : ∀ e', Raises ops tol inf p e' → ¬ Passes ops tol inf p := by
      intro e' hr hp
      rw [← h3 e'] at hr
      rw [← h5, hr] at hp
      obtain ⟨r, a, h⟩ := hp
      exact absurd h (by simp)
    rcases isFeasibleLoop_cons ops tol inf p ps i result addedCuts tr with
      ⟨hp, r, a, _, _, hloop⟩ | ⟨hnp, _, h2, _⟩
    · rw [hloop, ih]
      constructor
      · rintro ⟨k, q, hk, hr, hq⟩
        exact ⟨k + 1, q, by simpa using hk,
          (reached_cons ops tol inf p ps (k + 1)).mpr (Or.inr ⟨hp, k, rfl, hr⟩), hq⟩
      · rintro ⟨k, q, hk, hr, hq⟩
        cases k with
        | zero =>
          simp only [List.getElem?_cons_zero, Option.some.injEq] at hk
          subst hk
          exact absurd hp (hexcl e hq)
        | succ k =>
          rcases (reached_cons ops tol inf p ps (k + 1)).mp hr with h | ⟨_, m', hm, hr'⟩
          · exact absurd h (Nat.succ_ne_zero k)
          · have : k = m' := Nat.succ.inj hm
            subst this
            exact ⟨k, q, by simpa using hk, hr', hq⟩
    · rw [h2 e]
      constructor
      · intro hq
        exact ⟨0, p, List.getElem?_cons_zero,
          (reached_cons ops tol inf p ps 0).mpr (Or.inl rfl), hq⟩
      · rintro ⟨k, q, hk, hr, hq⟩
        cases k with
        | zero =>
          simp only [List.getElem?_cons_zero, Option.some.injEq] at hk
          subst hk
          exact hq
        | succ k =>
          rcases (reached_cons ops tol inf p ps (k + 1)).mp hr with h | ⟨hp, _⟩
          · exact absurd h (Nat.succ_ne_zero k)
          · exact absurd hp hnp

/-- Once `result` is false, the loop of `isFeasible` returns false if it returns. -/
theorem isFeasibleLoop_false {α : Type} [LinearOrderedField α] (ops : DoubleOps α)
    (tol inf : α) (ps : List (PlayerData α)) (i : Nat) (addedCuts : Bool) (tr : List Event)
    (res ac : Bool)
    (h : (isFeasibleLoop ops tol inf ps i false addedCuts tr).2 = .ok (res, ac)) :
    res = false := by
  induction ps generalizing i addedCuts tr with
  | nil =>
    simp only [isFeasibleLoop, Except.ok.injEq, Prod.mk.injEq] at h
    exact h.1.symm
  | cons p ps ih =>
    rcases isFeasibleLoop_cons ops tol inf p ps i false addedCuts tr with
      ⟨_, r, a, hr, _, hloop⟩ | ⟨_, _, _, h3⟩
    · rw [hloop, hr rfl] at h
      exact ih _ _ _ h
    · exact congrArg Prod.fst (h3 _ h)

/-- A reached player that is found infeasible makes the loop of `isFeasible` return false, if
it returns. -/
theorem isFeasibleLoop_infeasible {α : Type} [LinearOrderedField α] (ops : DoubleOps α)
    (tol inf : α) (ps : List (PlayerData α)) (i : Nat) (result addedCuts : Bool)
    (tr : List Event) (k : Nat) (p : PlayerData α) (res ac : Bool)
    (hk : ps[k]? = some p) (hf : FoundInfeasible ops tol inf p)
    (h : (isFeasibleLoop ops tol inf ps i result addedCuts tr).2 = .ok (res, ac)) :
    res = false := by
  induction ps generalizing i result addedCuts tr k with
  | nil => simp at hk
  | cons q qs ih =>
    rcases isFeasibleLoop_cons ops tol inf q qs i result addedCuts tr with
      ⟨_, r, a, _, hfi, hloop⟩ | ⟨_, _, _, h3⟩
    · rw [hloop] at h
      cases k with
      | zero =>
        simp only [List.getElem?_cons_zero, Option.some.injEq] at hk
        subst hk
        rw [hfi hf] at h
        exact isFeasibleLoop_false ops tol inf qs _ _ _ res ac h
      | succ k => exact ih _ _ _ _ k (by simpa using hk) h
    · exact congrArg Prod.fst (h3 _ h)

/-- A reached player whose double difference `payoff - val` is beyond the tolerance without
exceeding it gets the call of `addValueCut`. -/
theorem isFeasibleLoop_valueCut {α : Type} [LinearOrderedField α] (ops : DoubleOps α)
    (tol inf : α) (ps : List (PlayerData α)) (i : Nat) (result addedCuts : Bool)
    (tr : List Event) (k : Nat) (p : PlayerData α) (v : α)
    (hk : ps[k]? = some p) (hr : Reached ops tol inf ps k) (hv : p.respondSol = .ok v)
    (hinf : v ≠ inf) (habs : |ops.sub p.payoff v| > tol)
    (hgt : ¬ ops.sub p.payoff v > tol) :
    Event.addValueCut (i + k) ∈ (isFeasibleLoop ops tol inf ps i result addedCuts tr).1 := by
  induction ps generalizing i result addedCuts tr k with
  | nil => simp at hk
  | cons q qs ih =>
    obtain ⟨mid, hev, _, _, _, _, _, hcut⟩ := playerStep_spec ops tol inf q i result addedCuts
    cases k with
    | zero =>
      simp only [List.getElem?_cons_zero, Option.some.injEq] at hk
      subst hk
      have hmem : Event.addValueCut (i + 0) ∈
          tr ++ (playerStep ops tol inf q i result addedCuts).1 := by
        rw [hev]
        simp only [Nat.add_zero, List.mem_append]
        exact Or.inr (Or.inr (hcut v hv hinf habs hgt))
      rcases isFeasibleLoop_cons ops tol inf q qs i result addedCuts tr with
        ⟨_, r, a, _, _, hloop⟩ | ⟨_, h1, _, _⟩
      · rw [hloop]
        obtain ⟨ext, hext, _⟩ := isFeasibleLoop_trace ops tol inf qs (i + 1) r a
          (tr ++ (playerStep ops tol inf q i result addedCuts).1)
        rw [hext]
        exact List.mem_append.mpr (Or.inl hmem)
      · rw [h1]
        exact hmem
    | succ k =>
      rcases (reached_cons ops tol inf q qs (k + 1)).mp hr with h | ⟨hp, m', hm, hr'⟩
      · exact absurd h (Nat.succ_ne_zero k)
      · have hkm : k = m' := Nat.succ.inj hm
        subst hkm
        rcases isFeasibleLoop_cons ops tol inf q qs i result addedCuts tr with
          ⟨_, r, a, _, _, hloop⟩ | ⟨hnp, _, _, _⟩
        · rw [hloop]
          have := ih (i + 1) r a (tr ++ (playerStep ops tol inf q i result addedCuts).1) k
            (by simpa using hk) hr'
          rwa [Nat.add_assoc, Nat.add_comm 1 k] at this
        · exact absurd hp hnp

end OuterApproximation

end EPEC

end Algorithms
namespace Algorithms

namespace EPEC

namespace OuterApproximation

/-- The inspection of a player completes exactly when `respondSol` returns a finite value
and nothing is raised. -/
theorem passes_iff {α : Type} [LinearOrderedField α] (ops : DoubleOps α) (tol inf : α)
    (p : PlayerData α) :
    Passes ops tol inf p ↔
      (∃ v, p.respondSol = .ok v ∧ v ≠ inf) ∧ ∀ e, ¬ Raises ops tol inf p e := by
  obtain ⟨_, _, _, h3, h4, h5, _, _⟩ := playerStep_spec ops tol inf p 0 true false
  constructor
  · intro hp
    obtain ⟨r, a, hs⟩ := h5.mpr hp
    obtain ⟨v, hv, hinf, _⟩ := hp
    refine ⟨⟨v, hv, hinf⟩, fun e he => ?_⟩
    have h := (h3 e).mpr he
    rw [hs] at h
    exact absurd h (by simp)
  · rintro ⟨⟨v, hv, hinf⟩, hnr⟩
    apply h5.mp
    cases hs : (playerStep ops tol inf p 0 true false).2 with
    | raise e0 => exact absurd ((h3 e0).mp hs) (hnr e0)
    | stop =>
      have e : v = inf := Except.ok.inj (hv.symm.trans (h4.mp hs))
      exact absurd e hinf
    | next r a => exact ⟨r, a, rfl⟩

/-- A player found infeasible does not stop the pass. -/
theorem passes_of_foundInfeasible {α : Type} [LinearOrderedField α] (ops : DoubleOps α)
    (tol inf : α) (p : PlayerData α) (h : FoundInfeasible ops tol inf p) :
    Passes ops tol inf p := by
  obtain ⟨v, hv, h1, h2 | ⟨h2, h3, _, c, h5⟩⟩ := h
  · exact ⟨v, hv, h1, Or.inl h2⟩
  · exact ⟨v, hv, h1, Or.inr ⟨h2, h3, Or.inr ⟨_, h5⟩⟩⟩

/-- The body of the loop on a player of the examples with payoff `0` against the value `1`:
a value cut. -/
theorem exampleStep_cut (co : Bool) (i : Nat) (res ac : Bool) :
    playerStep DoubleOps.unrounded (1 / 2 : ℚ) (10 ^ 100) (examplePlayer 0 1 co) i res ac =
      ([Event.resetFeasibility i, Event.respondSol i, Event.addValueCut i],
        .next false ac) := by
  have h1 : ¬ ((1 : ℚ) = 10 ^ 100) := by norm_num
  have h2 : |(0 : ℚ) - 1| > 1 / 2 := by norm_num
  have h3 : ¬ ((0 : ℚ) - 1 > 1 / 2) := by norm_num
  simp only [playerStep, valueStep, examplePlayer, DoubleOps.unrounded, if_neg h1, if_pos h2,
    if_neg h3]

/-- The body of the loop on a player of the examples with payoff `1` against the value `0`:
the `Numeric` fault. -/
theorem exampleStep_numeric (co : Bool) (i : Nat) (res ac : Bool) :
    playerStep DoubleOps.unrounded (1 / 2 : ℚ) (10 ^ 100) (examplePlayer 1 0 co) i res ac =
      ([Event.resetFeasibility i, Event.respondSol i],
        .raise (Exn.zero ZEROErrorCode.Numeric)) := by
  have h1 : ¬ ((0 : ℚ) = 10 ^ 100) := by norm_num
  have h2 : |(1 : ℚ) - 0| > 1 / 2 := by norm_num
  have h3 : (1 : ℚ) - 0 > 1 / 2 := by norm_num
  simp only [playerStep, valueStep, examplePlayer, DoubleOps.unrounded, if_neg h1, if_pos h2,
    if_pos h3]

/-- The body of the loop on a player of the examples with payoff and value `0` whose best
response coincides with the strategy: a vertex is added and the flags are set. -/
theorem exampleStep_coincide (i : Nat) (res ac : Bool) :
    playerStep DoubleOps.unrounded (1 / 2 : ℚ) (10 ^ 100) (examplePlayer 0 0 true) i res ac =
      ([Event.resetFeasibility i, Event.respondSol i, Event.addVertex i, Event.setFeasible i,
        Event.setPure i], .next res ac) := by
  have h1 : ¬ ((0 : ℚ) = 10 ^ 100) := by norm_num
  have h2 : ¬ (|(0 : ℚ) - 0| > 1 / 2) := by norm_num
  simp only [playerStep, valueStep, examplePlayer, DoubleOps.unrounded, if_neg h1, if_neg h2,
    vertexBranch, strategyCheck, if_true, List.cons_append, List.nil_append]

/-- The first player of the examples, with payoff `0` against the value `1` and tolerance
`1/2`, gets a value cut and completes. -/
theorem examplePlayer_passes (co : Bool) :
    FoundInfeasible DoubleOps.unrounded (1 / 2 : ℚ) (10 ^ 100) (examplePlayer 0 1 co) := by
  refine ⟨1, rfl, by norm_num, Or.inl ⟨?_, ?_, rfl⟩⟩ <;>
  · simp only [examplePlayer, DoubleOps.unrounded]
    norm_num

end OuterApproximation

end EPEC

end Algorithms

/-- C20 (as stated, refuted): with `tol = 1/2` (values on which the double difference is
exact), one player with payoff `0` and best-response value `1` (`p < v* - tol`) does not make
`isFeasible` raise: the call returns false after calling `addValueCut`; and one player with
payoff `1` and best-response value `0` (`p > v* + tol`) makes it raise `Numeric`. -/
theorem C20_isFeasible_direction :
    Algorithms.EPEC.OuterApproximation.isFeasible DoubleOps.unrounded true (.ok ())
        (1 / 2 : ℚ) (10 ^ 100) [Algorithms.EPEC.OuterApproximation.examplePlayer 0 1 false] false =
      ([Algorithms.EPEC.OuterApproximation.Event.resetFeasibility 0,
        Algorithms.EPEC.OuterApproximation.Event.respondSol 0,
        Algorithms.EPEC.OuterApproximation.Event.addValueCut 0], .ok (false, false)) ∧
    Algorithms.EPEC.OuterApproximation.isFeasible DoubleOps.unrounded true (.ok ())
        (1 / 2 : ℚ) (10 ^ 100) [Algorithms.EPEC.OuterApproximation.examplePlayer 1 0 false] false =
      ([Algorithms.EPEC.OuterApproximation.Event.resetFeasibility 0,
        Algorithms.EPEC.OuterApproximation.Event.respondSol 0],
        .error (Exn.zero ZEROErrorCode.Numeric)) := by
  constructor
  · unfold Algorithms.EPEC.OuterApproximation.isFeasible
    rw [if_neg (by decide)]
    dsimp only
    rw [Algorithms.EPEC.OuterApproximation.isFeasibleLoop,
      Algorithms.EPEC.OuterApproximation.exampleStep_cut]
    rfl
  · unfold Algorithms.EPEC.OuterApproximation.isFeasible
    rw [if_neg (by decide)]
    dsimp only
    rw [Algorithms.EPEC.OuterApproximation.isFeasibleLoop,
      Algorithms.EPEC.OuterApproximation.exampleStep_numeric]
    rfl

/-- C20 (amended): with `tol ≥ 0`, the payoffs `p_i` and the outcomes of the calls made for
each player taken as inputs, and `sub(p_i, v*_i)` the double difference that the code computes,
for every rounding of it.  `isFeasible` raises `e` if and only if there is a Nash equilibrium
to check and either `computeQPObjectiveValues` raises `e`, or some player `i` reached by the
pass (the inspection of every earlier player has completed) raises `e`: that is, `respondSol`
raises `e`, or it returns a finite `v*_i` and either `sub(p_i, v*_i) > tol` and `e` is the
`Numeric` fault, or `e` is raised by a call made for the player (`addValueCut`, the extraction
of the vertex, `addVertex`, `separationOracle`).  In particular a reached player with finite
`v*_i` and `sub(p_i, v*_i) > tol` makes the call raise `Numeric`.  A reached player with
finite `v*_i` and `sub(p_i, v*_i) < -tol` does not cause the `Numeric` fault: `addValueCut` is
called for it, the only exception it can cause is the one that `addValueCut` raises, and when
`addValueCut` returns and the call returns, the result is false. -/
theorem C20_isFeasible_numeric {α : Type} [LinearOrderedField α] (ops : DoubleOps α)
    (tol inf : α) (htol : 0 ≤ tol) (nashEquilibrium : Bool)
    (objectiveValues : Except Exn Unit)
    (players : List (Algorithms.EPEC.OuterApproximation.PlayerData α)) (addedCuts : Bool) :
    (∀ e : Exn,
      (Algorithms.EPEC.OuterApproximation.isFeasible ops nashEquilibrium objectiveValues tol
        inf players addedCuts).2 = .error e ↔
      nashEquilibrium = true ∧
      (objectiveValues = .error e ∨
        (objectiveValues = .ok () ∧
          ∃ (i : Nat) (p : Algorithms.EPEC.OuterApproximation.PlayerData α),
            players[i]? = some p ∧
            Algorithms.EPEC.OuterApproximation.Reached ops tol inf players i ∧
            Algorithms.EPEC.OuterApproximation.Raises ops tol inf p e))) ∧
    (∀ (i : Nat) (p : Algorithms.EPEC.OuterApproximation.PlayerData α) (v : α),
      nashEquilibrium = true → objectiveValues = .ok () → players[i]? = some p →
      Algorithms.EPEC.OuterApproximation.Reached ops tol inf players i →
      p.respondSol = .ok v → v ≠ inf → ops.sub p.payoff v > tol →
      (Algorithms.EPEC.OuterApproximation.isFeasible ops nashEquilibrium objectiveValues tol
        inf players addedCuts).2 = .error (Exn.zero ZEROErrorCode.Numeric)) ∧
    (∀ (i : Nat) (p : Algorithms.EPEC.OuterApproximation.PlayerData α) (v : α),
      nashEquilibrium = true → objectiveValues = .ok () → players[i]? = some p →
      Algorithms.EPEC.OuterApproximation.Reached ops tol inf players i →
      p.respondSol = .ok v → v ≠ inf → ops.sub p.payoff v < -tol →
      Algorithms.EPEC.OuterApproximation.Event.addValueCut i ∈
        (Algorithms.EPEC.OuterApproximation.isFeasible ops nashEquilibrium objectiveValues tol
          inf players addedCuts).1 ∧
      (∀ e, Algorithms.EPEC.OuterApproximation.Raises ops tol inf p e ↔
        p.addValueCut = .error e) ∧
      (p.addValueCut = .ok () → ∀ res ac,
        (Algorithms.EPEC.OuterApproximation.isFeasible ops nashEquilibrium objectiveValues tol
          inf players addedCuts).2 = .ok (res, ac) → res = false)) := by
  have herr : ∀ e : Exn,
      (Algorithms.EPEC.OuterApproximation.isFeasible ops nashEquilibrium objectiveValues tol
        inf players addedCuts).2 = .error e ↔
      nashEquilibrium = true ∧
      (objectiveValues = .error e ∨
        (objectiveValues = .ok () ∧
          ∃ (i : Nat) (p : Algorithms.EPEC.OuterApproximation.PlayerData α),
            players[i]? = some p ∧
            Algorithms.EPEC.OuterApproximation.Reached ops tol inf players i ∧
            Algorithms.EPEC.OuterApproximation.Raises ops tol inf p e)) := by
    intro e
    unfold Algorithms.EPEC.OuterApproximation.isFeasible
    cases nashEquilibrium with
    | false => simp
    | true =>
      cases objectiveValues with
      | error e0 => simp
      | ok u =>
        simp only [Bool.not_true, Bool.false_eq_true, if_false, true_and, reduceCtorEq,
          false_or]
        exact Algorithms.EPEC.OuterApproximation.isFeasibleLoop_error ops tol inf players 0
          true addedCuts [] e
  have hloop : nashEquilibrium = true → objectiveValues = .ok () →
      Algorithms.EPEC.OuterApproximation.isFeasible ops nashEquilibrium objectiveValues tol
        inf players addedCuts =
      Algorithms.EPEC.OuterApproximation.isFeasibleLoop ops tol inf players 0 true addedCuts
        [] := by
    intro hN hO
    subst hN hO
    rfl
  refine ⟨herr, ?_, ?_⟩
  · intro i p v hN hO hi hr hv hinf hgt
    exact (herr _).mpr ⟨hN, Or.inr ⟨hO, i, p, hi, hr, Or.inr ⟨v, hv, hinf,
      Or.inl ⟨hgt, rfl⟩⟩⟩⟩
  · intro i p v hN hO hi hr hv hinf hlt
    have hgt : ¬ ops.sub p.payoff v > tol := by
      intro h
      linarith
    have habs : |ops.sub p.payoff v| > tol := by
      have h1 : - ops.sub p.payoff v ≤ |ops.sub p.payoff v| := neg_le_abs _
      linarith
    rw [hloop hN hO]
    refine ⟨?_, ?_, ?_⟩
    · have h := Algorithms.EPEC.OuterApproximation.isFeasibleLoop_valueCut ops tol inf players
        0 true addedCuts [] i p v hi hr hv hinf habs hgt
      rwa [Nat.zero_add] at h
    · intro e
      simp only [Algorithms.EPEC.OuterApproximation.Raises,
        Algorithms.EPEC.OuterApproximation.RaisesWith, hv, reduceCtorEq, Except.ok.injEq,
        exists_eq_left', ne_eq, hinf, not_false_eq_true, hgt, false_and, habs, true_and,
        not_true_eq_false, or_false, false_or]
    · intro hav res ac h
      exact Algorithms.EPEC.OuterApproximation.isFeasibleLoop_infeasible ops tol inf players 0
        true addedCuts [] i p res ac hi ⟨v, hv, hinf, Or.inl ⟨habs, hgt, hav⟩⟩ h

/-- The statement of C20 at `tol = 1/2` and two players: the first with payoff `0` and
best-response value `1`, the second with payoff `1` and best-response value `0`.  The first
player is reached and gets a value cut, the second is reached and the call raises `Numeric`
because of it. -/
theorem C20_isFeasible_numeric_witness :
    (0 : ℚ) ≤ 1 / 2 ∧
    Algorithms.EPEC.OuterApproximation.Reached DoubleOps.unrounded (1 / 2 : ℚ) (10 ^ 100)
      [Algorithms.EPEC.OuterApproximation.examplePlayer 0 1 false,
        Algorithms.EPEC.OuterApproximation.examplePlayer 1 0 false] 1 ∧
    (Algorithms.EPEC.OuterApproximation.isFeasible DoubleOps.unrounded true (.ok ())
        (1 / 2 : ℚ) (10 ^ 100)
        [Algorithms.EPEC.OuterApproximation.examplePlayer 0 1 false,
          Algorithms.EPEC.OuterApproximation.examplePlayer 1 0 false] false).2
      = .error (Exn.zero ZEROErrorCode.Numeric) := by
  have hr : Algorithms.EPEC.OuterApproximation.Reached DoubleOps.unrounded (1 / 2 : ℚ)
      (10 ^ 100)
      [Algorithms.EPEC.OuterApproximation.examplePlayer 0 1 false,
        Algorithms.EPEC.OuterApproximation.examplePlayer 1 0 false] 1 := by
    refine ⟨by decide, ?_⟩
    intro k q hk hq
    have hk0 : k = 0 := by omega
    subst hk0
    simp only [List.getElem?_cons_zero, Option.some.injEq] at hq
    subst hq
    exact Algorithms.EPEC.OuterApproximation.passes_of_foundInfeasible _ _ _ _
      (Algorithms.EPEC.OuterApproximation.examplePlayer_passes false)
  exact ⟨by norm_num, hr,
    (C20_isFeasible_numeric DoubleOps.unrounded (1 / 2 : ℚ) (10 ^ 100) (by norm_num) true
      (.ok ())
      [Algorithms.EPEC.OuterApproximation.examplePlayer 0 1 false,
        Algorithms.EPEC.OuterApproximation.examplePlayer 1 0 false] false).2.1 1
      (Algorithms.EPEC.OuterApproximation.examplePlayer 1 0 false) 0 rfl rfl rfl hr rfl
      (by norm_num)
      (by
        simp only [Algorithms.EPEC.OuterApproximation.examplePlayer, DoubleOps.unrounded]
        norm_num)⟩

/-- C21 (as stated, refuted): with `tol = 1/2` and two players, the first with payoff `0`
against best-response value `1` and the second with payoff and value `0` and a best response
that coincides with the strategy, the first player is found infeasible (a value cut is added
for it) and the pass still inspects the second player: its tree is reset, its best response
is computed and a vertex is added for it. -/
theorem C21_isFeasible_no_short_circuit :
    Algorithms.EPEC.OuterApproximation.isFeasible DoubleOps.unrounded true (.ok ())
        (1 / 2 : ℚ) (10 ^ 100)
        [Algorithms.EPEC.OuterApproximation.examplePlayer 0 1 false,
          Algorithms.EPEC.OuterApproximation.examplePlayer 0 0 true] false =
      ([Algorithms.EPEC.OuterApproximation.Event.resetFeasibility 0,
        Algorithms.EPEC.OuterApproximation.Event.respondSol 0,
        Algorithms.EPEC.OuterApproximation.Event.addValueCut 0,
        Algorithms.EPEC.OuterApproximation.Event.resetFeasibility 1,
        Algorithms.EPEC.OuterApproximation.Event.respondSol 1,
        Algorithms.EPEC.OuterApproximation.Event.addVertex 1,
        Algorithms.EPEC.OuterApproximation.Event.setFeasible 1,
        Algorithms.EPEC.OuterApproximation.Event.setPure 1], .ok (false, false)) := by
  unfold Algorithms.EPEC.OuterApproximation.isFeasible
  rw [if_neg (by decide)]
  dsimp only
  rw [Algorithms.EPEC.OuterApproximation.isFeasibleLoop,
    Algorithms.EPEC.OuterApproximation.exampleStep_cut]
  dsimp only
  rw [Algorithms.EPEC.OuterApproximation.isFeasibleLoop,
    Algorithms.EPEC.OuterApproximation.exampleStep_coincide]
  rfl

/-- C21 (amended): within one call of `isFeasible`, whether it returns or raises, the players
are inspected in ascending index order.  With `NashEquilibrium` false, or when
`computeQPObjectiveValues` raises, nobody is inspected.  Otherwise the players inspected (tree
reset, best response asked for) are exactly the players that the pass reaches: those that
exist and before which the inspection of every player has completed; and every call recorded
belongs to such a player.  The inspection of a player completes exactly when `respondSol`
returns a finite value and nothing is raised for the player (neither the `Numeric` fault nor
an exception of a callee).  In particular a player found infeasible (a value cut was added for
it, or the separation oracle answered negatively for it) does not stop the pass: its
inspection completes, and the call, if it returns, returns false. -/
theorem C21_isFeasible_pass {α : Type} [LinearOrderedField α] (ops : DoubleOps α)
    (tol inf : α) (nashEquilibrium : Bool) (objectiveValues : Except Exn Unit)
    (players : List (Algorithms.EPEC.OuterApproximation.PlayerData α)) (addedCuts : Bool) :
    ((Algorithms.EPEC.OuterApproximation.isFeasible ops nashEquilibrium objectiveValues tol
      inf players addedCuts).1.map
        Algorithms.EPEC.OuterApproximation.Event.player).Pairwise (· ≤ ·) ∧
    (∀ j, Algorithms.EPEC.OuterApproximation.Event.respondSol j ∈
        (Algorithms.EPEC.OuterApproximation.isFeasible ops nashEquilibrium objectiveValues tol
          inf players addedCuts).1 ↔
      nashEquilibrium = true ∧ objectiveValues = .ok () ∧
        Algorithms.EPEC.OuterApproximation.Reached ops tol inf players j) ∧
    (∀ j, Algorithms.EPEC.OuterApproximation.Event.resetFeasibility j ∈
        (Algorithms.EPEC.OuterApproximation.isFeasible ops nashEquilibrium objectiveValues tol
          inf players addedCuts).1 ↔
      nashEquilibrium = true ∧ objectiveValues = .ok () ∧
        Algorithms.EPEC.OuterApproximation.Reached ops tol inf players j) ∧
    (∀ ev ∈ (Algorithms.EPEC.OuterApproximation.isFeasible ops nashEquilibrium objectiveValues
        tol inf players addedCuts).1,
      nashEquilibrium = true ∧ objectiveValues = .ok () ∧
        Algorithms.EPEC.OuterApproximation.Reached ops tol inf players ev.player) ∧
    (∀ p : Algorithms.EPEC.OuterApproximation.PlayerData α,
      Algorithms.EPEC.OuterApproximation.Passes ops tol inf p ↔
        (∃ v, p.respondSol = .ok v ∧ v ≠ inf) ∧
        ∀ e, ¬ Algorithms.EPEC.OuterApproximation.Raises ops tol inf p e) ∧
    (∀ p : Algorithms.EPEC.OuterApproximation.PlayerData α,
      Algorithms.EPEC.OuterApproximation.FoundInfeasible ops tol inf p →
      Algorithms.EPEC.OuterApproximation.Passes ops tol inf p) ∧
    (∀ (i : Nat) (p : Algorithms.EPEC.OuterApproximation.PlayerData α) (res ac : Bool),
      nashEquilibrium = true → objectiveValues = .ok () → players[i]? = some p →
      Algorithms.EPEC.OuterApproximation.FoundInfeasible ops tol inf p →
      (Algorithms.EPEC.OuterApproximation.isFeasible ops nashEquilibrium objectiveValues tol
        inf players addedCuts).2 = .ok (res, ac) → res = false) := by
  refine ⟨?_, ?_, ?_, ?_, Algorithms.EPEC.OuterApproximation.passes_iff ops tol inf,
    Algorithms.EPEC.OuterApproximation.passes_of_foundInfeasible ops tol inf, ?_⟩
  all_goals unfold Algorithms.EPEC.OuterApproximation.isFeasible
  all_goals cases nashEquilibrium with
  | false => simp
  | true =>
    cases objectiveValues with
    | error e0 => simp
    | ok u =>
      simp only [Bool.not_true, Bool.false_eq_true, if_false, true_and]
      obtain ⟨ext, hext, _, hsorted, hresp, hreset, hall⟩ :=
        Algorithms.EPEC.OuterApproximation.isFeasibleLoop_trace ops tol inf players 0 true
          addedCuts []
      rw [List.nil_append] at hext
      first
      | (rw [hext]
         exact hsorted)
      | (intro j
         rw [hext, hresp j]
         constructor
         · rintro ⟨m, hm, hr⟩
           rw [Nat.zero_add] at hm
           subst hm
           exact hr
         · intro hr
           exact ⟨j, (Nat.zero_add j).symm, hr⟩)
      | (intro j
         rw [hext, hreset j]
         constructor
         · rintro ⟨m, hm, hr⟩
           rw [Nat.zero_add] at hm
           subst hm
           exact hr
         · intro hr
           exact ⟨j, (Nat.zero_add j).symm, hr⟩)
      | (intro ev hev
         rw [hext] at hev
         obtain ⟨m, hm, hr⟩ := hall ev hev
         rw [Nat.zero_add] at hm
         rw [hm]
         exact hr)
      | (intro i p res ac _ _ hi hf h
         exact Algorithms.EPEC.OuterApproximation.isFeasibleLoop_infeasible ops tol inf
           players 0 true addedCuts [] i p res ac hi hf h)

/-- The statement of C21 at the two players of the counterexample: the best response of the
second player is computed although the first player was found infeasible, because the
inspection of the first player has completed. -/
theorem C21_isFeasible_pass_witness :
    Algorithms.EPEC.OuterApproximation.FoundInfeasible DoubleOps.unrounded (1 / 2 : ℚ)
      (10 ^ 100) (Algorithms.EPEC.OuterApproximation.examplePlayer 0 1 false) ∧
    (Algorithms.EPEC.OuterApproximation.Event.respondSol 1 ∈
      (Algorithms.EPEC.OuterApproximation.isFeasible DoubleOps.unrounded true (.ok ())
        (1 / 2 : ℚ) (10 ^ 100)
        [Algorithms.EPEC.OuterApproximation.examplePlayer 0 1 false,
          Algorithms.EPEC.OuterApproximation.examplePlayer 0 0 true] false).1 ↔
      true = true ∧ (Except.ok () : Except Exn Unit) = .ok () ∧
        Algorithms.EPEC.OuterApproximation.Reached DoubleOps.unrounded
        (1 / 2 : ℚ) (10 ^ 100)
        [Algorithms.EPEC.OuterApproximation.examplePlayer 0 1 false,
          Algorithms.EPEC.OuterApproximation.examplePlayer 0 0 true] 1) :=
  ⟨Algorithms.EPEC.OuterApproximation.examplePlayer_passes false,
    (C21_isFeasible_pass DoubleOps.unrounded (1 / 2 : ℚ) (10 ^ 100) true (.ok ())
      [Algorithms.EPEC.OuterApproximation.examplePlayer 0 1 false,
        Algorithms.EPEC.OuterApproximation.examplePlayer 0 0 true] false).2.1 1⟩
end ZERO
